import Mathlib

/-!
# Detect / resolve engine of the lifecycle: a shallow embedding

The definitions below follow `src/detector.go` function by function, then the plan
helpers of `src/buildpack/detect.go`, the build driver of `src/builder.go`, `saveImage` of
`src/save.go` and `readBuildpackLayersDir` of `src/layers.go`.  Go slices are
lists, the Go map `depMap` is an association list with unique keys whose iteration
order is supplied by an explicit order parameter (Go leaves it unspecified), logging
is dropped, and loops that the Go code does not bound carry explicit fuel with
`none` standing for "did not finish".
-/

namespace Lifecycle

/-! ## Data model -/

/-- Modelled from the spec: the struct `GroupBuildpack` (declared outside `src/`), a
reference within a group `{id, version, optional, api, homepage}`. -/
structure GroupBuildpack where
  ID : String
  Version : String
  Optional : Bool
  API : String
  Homepage : String
deriving DecidableEq, Repr

/-- Modelled from the spec: `GroupBuildpack.String`, the key `id@version`. -/
def GroupBuildpack.String (bp : GroupBuildpack) : String :=
  bp.ID ++ "@" ++ bp.Version

/-- Modelled from the spec: `GroupBuildpack.noOpt` clears `optional`. -/
def GroupBuildpack.noOpt (bp : GroupBuildpack) : GroupBuildpack :=
  { bp with Optional := false }

/-- Modelled from the spec: `GroupBuildpack.noAPI` clears `api`. -/
def GroupBuildpack.noAPI (bp : GroupBuildpack) : GroupBuildpack :=
  { bp with API := "" }

/-- Modelled from the spec: `GroupBuildpack.noHomepage` clears `homepage`. -/
def GroupBuildpack.noHomepage (bp : GroupBuildpack) : GroupBuildpack :=
  { bp with Homepage := "" }

/-- A value stored under a key of `Require.Metadata` (`interface{}` in Go): a string,
an integer, a boolean, or any other TOML value, kept through its `%v` rendering. -/
inductive MetaValue where
  | str (s : String)
  | int (i : Int)
  | bool (b : Bool)
  | composite (rendered : String)
deriving DecidableEq, Repr

/-- The struct `Require`; `Metadata = none` is the nil map. -/
structure Require where
  Name : String
  Version : String
  Metadata : Option (List (String × MetaValue))
deriving DecidableEq, Repr

/-- The struct `Provide`. -/
structure Provide where
  Name : String
deriving DecidableEq, Repr

/-- The struct `BuildPlanEntry`. -/
structure BuildPlanEntry where
  Providers : List GroupBuildpack
  Requires : List Require
deriving DecidableEq, Repr

/-- The method `BuildPlanEntry.noOpt`. -/
def BuildPlanEntry.noOpt (be : BuildPlanEntry) : BuildPlanEntry :=
  { be with Providers := be.Providers.map fun p => p.noOpt.noAPI.noHomepage }

/-- The struct `planSections`. -/
structure planSections where
  Requires : List Require
  Provides : List Provide
deriving DecidableEq, Repr

/-- The struct `DetectRun`; it embeds `planSections`. -/
structure DetectRun extends planSections where
  Or : List planSections
  Output : List Nat
  Code : Int
  Err : Option String
deriving DecidableEq, Repr

def CodeDetectPass : Int := 0

def CodeDetectFail : Int := 100

/-- The errors that travel through the detect engine: the two sentinels
`errFailedDetection` and `errBuildpack`, the `missing detection` error of `process`,
and an error of a descriptor lookup. -/
inductive DetectError where
  | errFailedDetection
  | errBuildpack
  | missingDetection (bp : String)
  | lookupFailed (msg : String)
deriving DecidableEq, Repr

/-- The struct `detectResult`; it embeds `GroupBuildpack` and `DetectRun`. -/
structure detectResult extends GroupBuildpack, DetectRun
deriving DecidableEq, Repr

/-- The struct `detectOption`; it embeds `GroupBuildpack` and `planSections`. -/
structure detectOption extends GroupBuildpack, planSections
deriving DecidableEq, Repr

abbrev detectResults := List detectResult

abbrev detectTrial := List detectOption

/-- The struct `depEntry`; it embeds `BuildPlanEntry`. -/
structure depEntry extends BuildPlanEntry where
  earlyRequires : List GroupBuildpack
  extraProvides : List GroupBuildpack
deriving DecidableEq, Repr

/-- The zero value of `depEntry`, which a Go map yields for an absent key. -/
def depEntry.zero : depEntry :=
  { Providers := [], Requires := [], earlyRequires := [], extraProvides := [] }

/-- The Go map `depMap`, as an association list. -/
abbrev depMap := List (String × depEntry)

/-- Map read `m[name]`: the stored entry, or the zero value. -/
def depMap.get (m : depMap) (name : String) : depEntry :=
  match m with
  | [] => depEntry.zero
  | (k, v) :: rest => if k = name then v else depMap.get rest name

/-- Map write `m[name] = entry`: replace the binding of `name`, or add one. -/
def depMap.set (m : depMap) (name : String) (entry : depEntry) : depMap :=
  match m with
  | [] => [(name, entry)]
  | (k, v) :: rest =>
    if k = name then (k, entry) :: rest else (k, v) :: depMap.set rest name entry

/-- The order in which a `range` over a `depMap` visits the bindings.  Go does not
specify it, so it is a parameter: `iter tag m` is some rearrangement of `m`, and `tag`
tells the individual `range` statements apart. -/
structure MapOrder where
  iter : List Nat → depMap → depMap
  perm : ∀ tag m, (iter tag m).Perm m

/-- The map order that visits bindings in the order they were first written. -/
def MapOrder.insertion : MapOrder :=
  { iter := fun _ m => m, perm := fun _ m => List.Perm.refl m }

/-- The map order that visits bindings in the reverse of insertion order. -/
def MapOrder.reversed : MapOrder :=
  { iter := fun _ m => m.reverse, perm := fun _ m => List.reverse_perm m }

/-! ## Dependency map -/

/-- The method `depMap.provide`. -/
def depMap.provide (m : depMap) (bp : GroupBuildpack) (provide : Provide) : depMap :=
  let entry := m.get provide.Name
  let entry := { entry with extraProvides := entry.extraProvides ++ [bp] }
  m.set provide.Name entry

/-- The method `depMap.require`. -/
def depMap.require (m : depMap) (bp : GroupBuildpack) (require : Require) : depMap :=
  let entry := m.get require.Name
  let entry := { entry with Providers := entry.Providers ++ entry.extraProvides }
  let entry := { entry with extraProvides := [] }
  let entry :=
    if entry.Providers.length = 0 then
      { entry with earlyRequires := entry.earlyRequires ++ [bp] }
    else
      { entry with Requires := entry.Requires ++ [require] }
  m.set require.Name entry

/-- One round of the outer loop of `newDepMap`: the provides of the option, then its
requires. -/
def depMap.addOption (m : depMap) (option : detectOption) : depMap :=
  let m := option.Provides.foldl (fun m p => m.provide option.toGroupBuildpack p) m
  option.Requires.foldl (fun m r => m.require option.toGroupBuildpack r) m

/-- The function `newDepMap`. -/
def newDepMap (trial : detectTrial) : depMap :=
  trial.foldl depMap.addOption []

/-- The inner loop of `eachUnmetProvide` and `eachUnmetRequire`: call `f name bp` for
each `bp`, stopping at the first error. -/
def eachBuildpack {σ ε : Type} (f : String → GroupBuildpack → σ → Except ε σ)
    (name : String) : List GroupBuildpack → σ → Except ε σ
  | [], s => .ok s
  | bp :: bps, s =>
    match f name bp s with
    | .error e => .error e
    | .ok s => eachBuildpack f name bps s

/-- The method `depMap.eachUnmetProvide`, over the bindings in visiting order.  The
callback's captured variables are the state `σ`. -/
def depMap.eachUnmetProvide {σ ε : Type} (f : String → GroupBuildpack → σ → Except ε σ) :
    depMap → σ → Except ε σ
  | [], s => .ok s
  | (name, entry) :: rest, s =>
    if entry.extraProvides.length ≠ 0 then
      match eachBuildpack f name entry.extraProvides s with
      | .error e => .error e
      | .ok s => depMap.eachUnmetProvide f rest s
    else depMap.eachUnmetProvide f rest s

/-- The method `depMap.eachUnmetRequire`, over the bindings in visiting order. -/
def depMap.eachUnmetRequire {σ ε : Type} (f : String → GroupBuildpack → σ → Except ε σ) :
    depMap → σ → Except ε σ
  | [], s => .ok s
  | (name, entry) :: rest, s =>
    if entry.earlyRequires.length ≠ 0 then
      match eachBuildpack f name entry.earlyRequires s with
      | .error e => .error e
      | .ok s => depMap.eachUnmetRequire f rest s
    else depMap.eachUnmetRequire f rest s

/-! ## Trials -/

/-- The method `detectTrial.remove`. -/
def detectTrial.remove (ts : detectTrial) (bp : GroupBuildpack) : detectTrial :=
  ts.filter fun t => t.toGroupBuildpack ≠ bp

/-- The callback that `runTrial` hands to `eachUnmetRequire` and `eachUnmetProvide`.
Its captured variables `trial` and `retry` are the state. -/
def runTrialCallback (_name : String) (bp : GroupBuildpack) (s : detectTrial × Bool) :
    Except DetectError (detectTrial × Bool) :=
  if !bp.Optional then .error DetectError.errFailedDetection
  else .ok (s.1.remove bp, true)

/-- The `for retry` loop of `runTrial` followed by its final check; `k` counts the
rounds already made and `fuel` bounds the rounds still allowed. -/
def runTrialLoop (ord : MapOrder) (i : Nat) :
    Nat → Nat → detectTrial → Option (Except DetectError (depMap × detectTrial))
  | 0, _, _ => none
  | fuel + 1, k, trial =>
    let deps := newDepMap trial
    match depMap.eachUnmetRequire runTrialCallback (ord.iter [i, k, 0] deps) (trial, false) with
    | .error err => some (.error err)
    | .ok s =>
      match depMap.eachUnmetProvide runTrialCallback (ord.iter [i, k, 1] deps) s with
      | .error err => some (.error err)
      | .ok (trial, retry) =>
        if retry then runTrialLoop ord i fuel (k + 1) trial
        else if trial.length = 0 then some (.error DetectError.errFailedDetection)
        else some (.ok (deps, trial))

/-- The method `DetectConfig.runTrial`.  Every round that asks for another one has
removed an option, so `len(trial) + 1` rounds are enough (`runTrial_isSome`). -/
def runTrial (ord : MapOrder) (i : Nat) (trial : detectTrial) :
    Option (Except DetectError (depMap × detectTrial)) :=
  runTrialLoop ord i (trial.length + 1) 0 trial

/-- The method `detectResult.options`. -/
def detectResult.options (r : detectResult) : List detectOption :=
  (r.toplanSections :: r.Or).enum.map fun (i, sections) =>
    let bp := r.toGroupBuildpack
    let bp := { bp with Optional := bp.Optional && (i == r.Or.length) }
    { toGroupBuildpack := bp, toplanSections := sections }

/-- The outcome of a trial function on one trial, with the state it leaves behind
(the variables its closure captures); `none` when it did not finish. -/
abbrev TrialOutcome (σ : Type) := Option (Except DetectError (depMap × detectTrial) × σ)

/-- The type `trialFunc`, with the state of its closure made explicit. -/
abbrev trialFunc (σ : Type) := detectTrial → σ → TrialOutcome σ

/-- The `for _, option := range rs[0].options()` loop of `runTrialsFrom`; `next` is the
recursive call on `rs[1:]` and `lastErr` the variable of that name (`none` is nil).  When
the loop ends with `lastErr` still nil, Go returns `nil, nil, nil`. -/
def runTrialsOptions {σ : Type} (next : trialFunc σ) (pre : detectTrial) :
    List detectOption → Option DetectError → σ → TrialOutcome σ
  | [], none, s => some (.ok ([], []), s)
  | [], some lastErr, s => some (.error lastErr, s)
  | option :: options, _, s =>
    match next (pre ++ [option]) s with
    | none => none
    | some (.ok r, s) => some (.ok r, s)
    | some (.error err, s) => runTrialsOptions next pre options (some err) s

/-- The method `detectResults.runTrialsFrom`. -/
def runTrialsFrom {σ : Type} (f : trialFunc σ) : detectResults → detectTrial → σ → TrialOutcome σ
  | [], pre, s => f pre s
  | r :: rs, pre, s =>
    runTrialsOptions (fun trial s => runTrialsFrom f rs trial s) pre r.options none s

/-- The method `detectResults.runTrials`. -/
def runTrials {σ : Type} (rs : detectResults) (f : trialFunc σ) (s : σ) : TrialOutcome σ :=
  runTrialsFrom f rs [] s

/-! ## Processing a group of leaves -/

/-- The runs map `c.runs`, from the key `id@version` to the stored `DetectRun`. -/
abbrev Runs := List (String × DetectRun)

/-- The call `c.runs.Load(key)`. -/
def Runs.Load (runs : Runs) (key : String) : Option DetectRun :=
  match runs with
  | [] => none
  | (k, v) :: rest => if k = key then some v else Runs.Load rest key

/-- The call `c.runs.Store(key, run)`. -/
def Runs.Store (runs : Runs) (key : String) (run : DetectRun) : Runs :=
  match runs with
  | [] => [(key, run)]
  | (k, v) :: rest =>
    if k = key then (k, run) :: rest else (k, v) :: Runs.Store rest key run

/-- The first loop of `process`: load the run of every buildpack of `done`, failing
on the first one that is missing. -/
def loadRuns (runs : Runs) : List GroupBuildpack → Except DetectError (List DetectRun)
  | [] => .ok []
  | bp :: rest =>
    match runs.Load bp.String with
    | none => .error (DetectError.missingDetection bp.String)
    | some run =>
      match loadRuns runs rest with
      | .error e => .error e
      | .ok out => .ok (run :: out)

/-- The variables `results`, `detected` and `buildpackErr` of `process`. -/
structure Classification where
  results : detectResults
  detected : Bool
  buildpackErr : Bool
deriving DecidableEq, Repr

/-- One round of the second loop of `process`: the `switch run.Code`. -/
def classifyStep (c : Classification) (bp : GroupBuildpack) (run : DetectRun) : Classification :=
  if run.Code = CodeDetectPass then
    { c with results := c.results ++ [{ toGroupBuildpack := bp, toDetectRun := run }] }
  else if run.Code = CodeDetectFail then
    { c with detected := c.detected && bp.Optional }
  else if run.Code = -1 then
    { c with buildpackErr := true, detected := c.detected && bp.Optional }
  else
    { c with buildpackErr := true, detected := c.detected && bp.Optional }

/-- The second loop of `process`, over `done` and the loaded runs. -/
def classify (done : List GroupBuildpack) (runs : List DetectRun) : Classification :=
  (done.zip runs).foldl (fun c p => classifyStep c p.1 p.2)
    { results := [], detected := true, buildpackErr := false }

/-- The trial function `process` passes to `runTrials`: it counts the trials in `i`. -/
def processTrialFunc (ord : MapOrder) : trialFunc Nat :=
  fun trial i =>
    match runTrial ord (i + 1) trial with
    | none => none
    | some r => some (r, i + 1)

/-- The part of `process` after the `if !detected` check (from `i := 0` on): plan
resolution over the trials of `results`, then the selected group and the plan. -/
def resolve (ord : MapOrder) (results : detectResults) :
    Option (Except DetectError (List GroupBuildpack × List BuildPlanEntry)) :=
  match runTrials results (processTrialFunc ord) 0 with
  | none => none
  | some (.error err, _) => some (.error err)
  | some (.ok (deps, trial), _) =>
    let found := trial.map fun r => r.toGroupBuildpack.noOpt
    let plan := (ord.iter [] deps).map fun dep => dep.2.toBuildPlanEntry.noOpt
    some (.ok (found, plan))

/-- The method `DetectConfig.process`: load the runs, classify them, fail when the
group is not detected, and otherwise go on with `resolve`. -/
def process (ord : MapOrder) (runs : Runs) (done : List GroupBuildpack) :
    Option (Except DetectError (List GroupBuildpack × List BuildPlanEntry)) :=
  match loadRuns runs done with
  | .error e => some (.error e)
  | .ok loaded =>
    let c := classify done loaded
    if !c.detected then
      if c.buildpackErr then some (.error DetectError.errBuildpack)
      else some (.error DetectError.errFailedDetection)
    else resolve ord c.results

/-! ## Searching groups and orders -/

/-- The struct `BuildpackGroup`. -/
structure BuildpackGroup where
  Group : List GroupBuildpack
deriving DecidableEq, Repr

/-- The type `BuildpackOrder`. -/
abbrev BuildpackOrder := List BuildpackGroup

/-- Modelled from the spec: the table `buildpack` of a descriptor (declared outside
`src/`), `{id, version, name, clear_env, homepage}`. -/
structure BuildpackInfo where
  ID : String
  Version : String
  Name : String
  ClearEnv : Bool
  Homepage : String
deriving DecidableEq, Repr

/-- Modelled from the spec: the struct `BuildpackTOML` (declared outside `src/`), a
descriptor `{api, buildpack, order?}` with the directory it was read from;
`Order = none` is the nil order of a leaf buildpack. -/
structure BuildpackTOML where
  API : String
  Buildpack : BuildpackInfo
  Order : Option BuildpackOrder
  Dir : String
deriving DecidableEq, Repr

/-- What a detect pass takes from its surroundings: `Lookup` is `GroupBuildpack.Lookup`
on `c.BuildpacksDir` (the descriptor store, failing with a message), `Detect` is
`BuildpackTOML.Detect` (running the detect script), `ord` the map iteration order. -/
structure DetectConfig where
  Lookup : GroupBuildpack → Except String BuildpackTOML
  Detect : BuildpackTOML → DetectRun
  ord : MapOrder

/-- The function `hasID`. -/
def hasID (bps : List GroupBuildpack) (id : String) : Bool :=
  match bps with
  | [] => false
  | bp :: rest => if bp.ID = id then true else hasID rest id

/-- The method `BuildpackGroup.append`. -/
def BuildpackGroup.append (bg : BuildpackGroup) (group : List BuildpackGroup) : BuildpackGroup :=
  group.foldl (fun bg g => { bg with Group := bg.Group ++ g.Group }) bg

/-- The result of `detect` on a group or an order, with the runs map it leaves
behind; `none` when it did not finish. -/
abbrev DetectOutcome :=
  Option (Except DetectError (List GroupBuildpack × List BuildPlanEntry) × Runs)

/-- The body of `BuildpackGroup.detect` from member `i` of the group on: `members` is
`bg.Group[i:]`, and `orderDetect` stands for the call `info.Order.detect`.  The
goroutine of a leaf is run at once: it stores the detect run unless one is stored. -/
def BuildpackGroup.detectLoop (c : DetectConfig)
    (orderDetect : BuildpackOrder → List GroupBuildpack → List GroupBuildpack → Bool → Runs →
      DetectOutcome) :
    List GroupBuildpack → List GroupBuildpack → Runs → DetectOutcome
  | [], done, runs =>
    match process c.ord runs done with
    | none => none
    | some r => some (r, runs)
  | bp :: rest, done, runs =>
    let key := bp.String
    if hasID done bp.ID then BuildpackGroup.detectLoop c orderDetect rest done runs
    else
      match c.Lookup bp with
      | .error msg => some (.error (DetectError.lookupFailed msg), runs)
      | .ok info =>
        let bp := { bp with API := info.API }
        let bp := { bp with Homepage := info.Buildpack.Homepage }
        match info.Order with
        | some order => orderDetect order done rest bp.Optional runs
        | none =>
          let done := done ++ [bp]
          let runs :=
            match runs.Load key with
            | some _ => runs
            | none => runs.Store key (c.Detect info)
          BuildpackGroup.detectLoop c orderDetect rest done runs

/-- The body of `BuildpackOrder.detect` from some group of the order on: `groups` are
the groups still to try, `buildpackErr` the variable of that name, and `groupDetect`
stands for the call `BuildpackGroup.detect`. -/
def BuildpackOrder.detectLoop
    (groupDetect : BuildpackGroup → List GroupBuildpack → Runs → DetectOutcome)
    (done : List GroupBuildpack) (ngroup : BuildpackGroup) (optional : Bool) :
    List BuildpackGroup → Bool → Runs → DetectOutcome
  | [], buildpackErr, runs =>
    if optional then groupDetect ngroup done runs
    else if buildpackErr then some (.error DetectError.errBuildpack, runs)
    else some (.error DetectError.errFailedDetection, runs)
  | group :: groups, buildpackErr, runs =>
    match groupDetect (group.append [ngroup]) done runs with
    | none => none
    | some (.error DetectError.errBuildpack, runs) =>
      BuildpackOrder.detectLoop groupDetect done ngroup optional groups true runs
    | some (.error DetectError.errFailedDetection, runs) =>
      BuildpackOrder.detectLoop groupDetect done ngroup optional groups buildpackErr runs
    | some (r, runs) => some (r, runs)

/-- The method `BuildpackGroup.detect`.  The recursion through meta-buildpacks is not
bounded in the Go code; `fuel` bounds the nesting of group evaluations. -/
def BuildpackGroup.detect (c : DetectConfig) :
    Nat → BuildpackGroup → List GroupBuildpack → Runs → DetectOutcome
  | 0, _, _, _ => none
  | fuel + 1, bg, done, runs =>
    BuildpackGroup.detectLoop c
      (fun order done next optional runs =>
        BuildpackOrder.detectLoop (fun g d r => BuildpackGroup.detect c fuel g d r)
          done { Group := next } optional order false runs)
      bg.Group done runs

/-- The method `BuildpackOrder.detect`. -/
def BuildpackOrder.detect (c : DetectConfig) (fuel : Nat) (bo : BuildpackOrder)
    (done next : List GroupBuildpack) (optional : Bool) (runs : Runs) : DetectOutcome :=
  BuildpackOrder.detectLoop (fun g d r => BuildpackGroup.detect c fuel g d r)
    done { Group := next } optional bo false runs

/-- Map write `r.Metadata[key] = value` on the association list of a metadata map. -/
def metadataSet (m : List (String × MetaValue)) (key : String) (value : MetaValue) :
    List (String × MetaValue) :=
  match m with
  | [] => [(key, value)]
  | (k, v) :: rest =>
    if k = key then (k, value) :: rest else (k, v) :: metadataSet rest key value

/-- The method `Require.convertVersionToMetadata`. -/
def Require.convertVersionToMetadata (r : Require) : Require :=
  if r.Version ≠ "" then
    let metadata := match r.Metadata with
      | none => []
      | some m => m
    { r with Metadata := some (metadataSet metadata "version" (MetaValue.str r.Version)),
             Version := "" }
  else r

/-- Modelled from the spec: the error types `ErrTypeBuildpack` and
`ErrTypeFailedDetection` of a lifecycle error (declared outside `src/`). -/
inductive LifecycleErrorType where
  | ErrTypeBuildpack
  | ErrTypeFailedDetection
deriving DecidableEq, Repr

/-- The error returned by the exported `Detect` methods: `NewLifecycleError(cause, type)`
(declared outside `src/`), or an error passed on as it is. -/
inductive DetectFailure where
  | lifecycle (cause : DetectError) (type : LifecycleErrorType)
  | plain (err : DetectError)
deriving DecidableEq, Repr

/-- The struct `BuildPlan`. -/
structure BuildPlan where
  Entries : List BuildPlanEntry
deriving DecidableEq, Repr

/-- The common tail of `BuildpackGroup.Detect` and `BuildpackOrder.Detect`: wrap the two
sentinel errors, convert the versions of the requires. -/
def finishDetect (r : Except DetectError (List GroupBuildpack × List BuildPlanEntry)) :
    Except DetectFailure (BuildpackGroup × BuildPlan) :=
  match r with
  | .error DetectError.errBuildpack =>
    .error (DetectFailure.lifecycle DetectError.errBuildpack LifecycleErrorType.ErrTypeBuildpack)
  | .error DetectError.errFailedDetection =>
    .error (DetectFailure.lifecycle DetectError.errFailedDetection
      LifecycleErrorType.ErrTypeFailedDetection)
  | .error err => .error (DetectFailure.plain err)
  | .ok (bps, entries) =>
    let entries := entries.map fun e =>
      { e with Requires := e.Requires.map Require.convertVersionToMetadata }
    .ok ({ Group := bps }, { Entries := entries })

/-- The method `BuildpackGroup.Detect`; `runs = none` is the nil `c.runs`. -/
def BuildpackGroup.Detect (c : DetectConfig) (fuel : Nat) (bg : BuildpackGroup)
    (runs : Option Runs) : Option (Except DetectFailure (BuildpackGroup × BuildPlan)) :=
  let runs := match runs with
    | none => []
    | some runs => runs
  match BuildpackGroup.detect c fuel bg [] runs with
  | none => none
  | some (r, _) => some (finishDetect r)

/-- The method `BuildpackOrder.Detect`; `runs = none` is the nil `c.runs`. -/
def BuildpackOrder.Detect (c : DetectConfig) (fuel : Nat) (bo : BuildpackOrder)
    (runs : Option Runs) : Option (Except DetectFailure (BuildpackGroup × BuildPlan)) :=
  let runs := match runs with
    | none => []
    | some runs => runs
  match BuildpackOrder.detect c fuel bo [] [] false runs with
  | none => none
  | some (r, _) => some (finishDetect r)

/-! ## Invariant of the dependency map -/

/-- What holds of the entry read at `name` while the options of `trial` are streamed
into a dependency map: requires carry the name, every listed buildpack is an option
of the trial (a provider one that provides the name), and providers and requires
are empty together. -/
def EntryOK (trial : detectTrial) (name : String) (e : depEntry) : Prop :=
  (∀ r ∈ e.Requires, r.Name = name) ∧
  (∀ p ∈ e.Providers, ∃ o ∈ trial, o.toGroupBuildpack = p ∧ Provide.mk name ∈ o.Provides) ∧
  (∀ p ∈ e.extraProvides, ∃ o ∈ trial, o.toGroupBuildpack = p ∧ Provide.mk name ∈ o.Provides) ∧
  (∀ p ∈ e.earlyRequires, ∃ o ∈ trial, o.toGroupBuildpack = p) ∧
  (e.Providers = [] ↔ e.Requires = [])

/-- A stored entry lists at least one buildpack. -/
def depEntry.Live (e : depEntry) : Prop :=
  e.Providers ≠ [] ∨ e.extraProvides ≠ [] ∨ e.earlyRequires ≠ []

/-- The invariant of a dependency map built from options of `trial`. -/
def MapOK (trial : detectTrial) (m : depMap) : Prop :=
  (m.map Prod.fst).Nodup ∧ ∀ k e, (k, e) ∈ m → EntryOK trial k e ∧ e.Live

/-- Both `eachUnmetProvide` and `eachUnmetRequire` are this loop, for the list `sel`
picks from an entry (`eachUnmetProvide_eq`, `eachUnmetRequire_eq`). -/
def depMap.eachUnmet {σ ε : Type} (sel : depEntry → List GroupBuildpack)
    (f : String → GroupBuildpack → σ → Except ε σ) : depMap → σ → Except ε σ
  | [], s => .ok s
  | (name, entry) :: rest, s =>
    match eachBuildpack f name (sel entry) s with
    | .error e => .error e
    | .ok s => depMap.eachUnmet sel f rest s

/-- The buildpacks `sel` lists in some entry of the map. -/
def depMap.Listed (sel : depEntry → List GroupBuildpack) (m : depMap) (bp : GroupBuildpack) :
    Prop :=
  ∃ k e, (k, e) ∈ m ∧ bp ∈ sel e

/-- What holds of the variables `trial` and `retry` of `runTrial` during one round that
started from `trial0`: options are only removed, never a non-optional one, and
`retry` is set exactly when something was removed. -/
def RoundInv (trial0 : detectTrial) (s : detectTrial × Bool) : Prop :=
  s.1.Sublist trial0 ∧ (∀ o ∈ trial0, o.Optional = false → o ∈ s.1) ∧
    (s.2 = false → s.1 = trial0) ∧ (s.2 = true → s.1.length < trial0.length)

/-- No entry of the map has an early require or an unused provide. -/
def depMap.Met (m : depMap) : Prop :=
  ∀ k e, (k, e) ∈ m → e.earlyRequires = [] ∧ e.extraProvides = []

/-- The detect results of the buildpacks that passed, in group order. -/
def passing (l : List (GroupBuildpack × DetectRun)) : detectResults :=
  (l.filter fun p => p.2.Code = CodeDetectPass).map fun p =>
    { toGroupBuildpack := p.1, toDetectRun := p.2 }

/-- Every buildpack that did not pass is optional. -/
def allSkippable (l : List (GroupBuildpack × DetectRun)) : Bool :=
  l.all fun p => decide (p.2.Code = CodeDetectPass) || p.1.Optional

/-- Some buildpack exited with a code other than 0 and 100. -/
def anyErrored (l : List (GroupBuildpack × DetectRun)) : Bool :=
  l.any fun p => decide (p.2.Code ≠ CodeDetectPass) && decide (p.2.Code ≠ CodeDetectFail)

/-- The trial `sel` picks one option of each result, in order. -/
def PicksFrom (results : detectResults) (sel : detectTrial) : Prop :=
  List.Forall₂ (fun r o => o ∈ r.options) results sel

/-- An outcome that, when it is a selected group with a plan, is one that `process`
returned on some list of leaves. -/
def FromProcess (ord : MapOrder) (out : DetectOutcome) : Prop :=
  ∀ found plan runs', out = some (.ok (found, plan), runs') →
    ∃ runs done, process ord runs done = some (.ok (found, plan))

/-- The entries `plan` are returned without error by plan resolution: by `process`, or
by `BuildpackGroup.Detect` or `BuildpackOrder.Detect`, which end in it. -/
def ReturnedPlan (plan : List BuildPlanEntry) : Prop :=
  (∃ ord runs done found, process ord runs done = some (.ok (found, plan))) ∨
  (∃ c fuel bg runs g, BuildpackGroup.Detect c fuel bg runs = some (.ok (g, { Entries := plan }))) ∨
  (∃ c fuel bo runs g, BuildpackOrder.Detect c fuel bo runs = some (.ok (g, { Entries := plan })))

/-! ## Concrete buildpacks, used to run the definitions -/

/-- A descriptor store in which every buildpack is a leaf with API 0.4. -/
def leafStore (bp : GroupBuildpack) : Except String BuildpackTOML :=
  .ok { API := "0.4",
        Buildpack := { ID := bp.ID, Version := bp.Version, Name := bp.ID, ClearEnv := false,
                       Homepage := "" },
        Order := none, Dir := "/cnb/" ++ bp.ID }

/-- A detect run that exits with `code` and writes the given sections. -/
def runWith (code : Int) (requires : List String) (provides : List String) : DetectRun :=
  { Requires := requires.map fun n => { Name := n, Version := "", Metadata := none },
    Provides := provides.map fun n => { Name := n },
    Or := [], Output := [], Code := code, Err := none }

/-- The buildpack `id@1`. -/
def bpRef (id : String) (optional : Bool) : GroupBuildpack :=
  { ID := id, Version := "1", Optional := optional, API := "", Homepage := "" }

/-- Scenario "single group passes": `A` provides `dep`, `B` requires `dep`, both pass. -/
def scenarioPass : DetectConfig :=
  { Lookup := leafStore,
    Detect := fun t => if t.Buildpack.ID = "A" then runWith 0 [] ["dep"] else runWith 0 ["dep"] [],
    ord := MapOrder.insertion }

/-- The plan of scenario "single group passes". -/
def scenarioPassPlan : List BuildPlanEntry :=
  [{ Providers := [bpRef "A" false],
     Requires := [{ Name := "dep", Version := "", Metadata := none }] }]

/-- A variant of the scenario with two dependencies: `A` provides `x` and `y`, `B` requires
both, both pass. -/
def scenarioTwoNames : DetectConfig :=
  { Lookup := leafStore,
    Detect := fun t =>
      if t.Buildpack.ID = "A" then runWith 0 [] ["x", "y"] else runWith 0 ["x", "y"] [],
    ord := MapOrder.insertion }

/-- The plan of `scenarioTwoNames`. -/
def scenarioTwoNamesPlan : List BuildPlanEntry :=
  [{ Providers := [bpRef "A" false],
     Requires := [{ Name := "x", Version := "", Metadata := none }] },
   { Providers := [bpRef "A" false],
     Requires := [{ Name := "y", Version := "", Metadata := none }] }]

/-- The runs map of scenario "single group passes" after both detects have run. -/
def scenarioPassRuns : Runs :=
  [("A@1", runWith 0 [] ["dep"]), ("B@1", runWith 0 ["dep"] [])]

/-- A trial whose first option is optional and requires `x`, which nobody provides,
and whose second option provides and requires `y`. -/
def trialWithEarlyRequire : detectTrial :=
  [{ toGroupBuildpack := bpRef "A" true,
     Requires := [{ Name := "x", Version := "", Metadata := none }], Provides := [] },
   { toGroupBuildpack := bpRef "B" false,
     Requires := [{ Name := "y", Version := "", Metadata := none }],
     Provides := [{ Name := "y" }] }]

/-- Nothing provides `name` in the map so far. -/
def depMap.Unprovided (m : depMap) (name : String) : Prop :=
  (m.get name).Providers = [] ∧ (m.get name).extraProvides = []

/-- Scenario "optional drop": `A` passes with an empty plan section, every other
buildpack exits 100. -/
def scenarioOptionalDrop (ord : MapOrder) : DetectConfig :=
  { Lookup := leafStore,
    Detect := fun t => if t.Buildpack.ID = "A" then runWith 0 [] [] else runWith 100 [] [],
    ord := ord }

/-- The runs map of scenario "optional drop" after both detects have run. -/
def scenarioOptionalDropRuns : Runs :=
  [("A@1", runWith 0 [] []), ("B@1", runWith 100 [] [])]

/-- The groups of `groups`, each extended by `ngroup`, are evaluated one after the other
and each fails with the failed-detection or the buildpack error: starting with the flag
`buildpackErr` and the runs map `runs`, this leaves the flag `buildpackErr'` and the
runs map `runs'`. -/
def FallsThrough (groupDetect : BuildpackGroup → List GroupBuildpack → Runs → DetectOutcome)
    (done : List GroupBuildpack) (ngroup : BuildpackGroup) :
    List BuildpackGroup → Bool → Runs → Bool → Runs → Prop
  | [], buildpackErr, runs, buildpackErr', runs' => buildpackErr' = buildpackErr ∧ runs' = runs
  | group :: groups, buildpackErr, runs, buildpackErr', runs' =>
    ∃ runs1,
      (groupDetect (group.append [ngroup]) done runs =
          some (.error DetectError.errBuildpack, runs1) ∧
        FallsThrough groupDetect done ngroup groups true runs1 buildpackErr' runs') ∨
      (groupDetect (group.append [ngroup]) done runs =
          some (.error DetectError.errFailedDetection, runs1) ∧
        FallsThrough groupDetect done ngroup groups buildpackErr runs1 buildpackErr' runs')

/-- Scenario "backtracking": `A` exits 100, every other buildpack passes with an empty
plan section. -/
def scenarioBacktrack : DetectConfig :=
  { Lookup := leafStore,
    Detect := fun t => if t.Buildpack.ID = "A" then runWith 100 [] [] else runWith 0 [] [],
    ord := MapOrder.insertion }

/-- Scenario "early require": `A` requires `x`, every other buildpack provides `x`; all
pass. -/
def scenarioEarlyRequire (ord : MapOrder) : DetectConfig :=
  { Lookup := leafStore,
    Detect := fun t => if t.Buildpack.ID = "A" then runWith 0 ["x"] [] else runWith 0 [] ["x"],
    ord := ord }

/-- The trial of scenario "early require" for the group `[A optional, B]`. -/
def trialEarlyRequire : detectTrial :=
  [{ toGroupBuildpack := { bpRef "A" true with API := "0.4" },
     Requires := [{ Name := "x", Version := "", Metadata := none }], Provides := [] },
   { toGroupBuildpack := { bpRef "B" false with API := "0.4" },
     Requires := [], Provides := [{ Name := "x" }] }]

/-- A detect pass in which `A` exits with code 1 and every other buildpack with 100; the
buildpack `M` is a meta-buildpack with the order `[[A]]`, all others are leaves. -/
def scenarioErrored : DetectConfig :=
  { Lookup := fun bp =>
      if bp.ID = "M" then
        .ok { API := "0.4",
              Buildpack := { ID := "M", Version := bp.Version, Name := "M", ClearEnv := false,
                             Homepage := "" },
              Order := some [{ Group := [bpRef "A" false] }], Dir := "/cnb/M" }
      else leafStore bp,
    Detect := fun t => if t.Buildpack.ID = "A" then runWith 1 [] [] else runWith 100 [] [],
    ord := MapOrder.insertion }

/-! ## Leaves, meta-buildpacks and the runs map -/

/-- The rounds of the loop of `BuildpackGroup.detect` over members each of which is skipped
or is a leaf: the list `done` and the runs map these rounds leave behind.  It is `none`
when the lookup of a member fails or a member is a meta-buildpack. -/
def collectLeaves (c : DetectConfig) :
    List GroupBuildpack → List GroupBuildpack → Runs → Option (List GroupBuildpack × Runs)
  | [], done, runs => some (done, runs)
  | bp :: rest, done, runs =>
    let key := bp.String
    if hasID done bp.ID then collectLeaves c rest done runs
    else
      match c.Lookup bp with
      | .error _ => none
      | .ok info =>
        let bp := { bp with API := info.API }
        let bp := { bp with Homepage := info.Buildpack.Homepage }
        match info.Order with
        | some _ => none
        | none =>
          let done := done ++ [bp]
          let runs :=
            match runs.Load key with
            | some _ => runs
            | none => runs.Store key (c.Detect info)
          collectLeaves c rest done runs

/-- A store in which `A@2` is a meta-buildpack with the order `[[B]]` and every other
buildpack, `A@1` among them, is a leaf; every detect passes with an empty plan section. -/
def scenarioShadowedMeta : DetectConfig :=
  { Lookup := fun bp =>
      if bp.ID = "A" ∧ bp.Version = "2" then
        .ok { API := "0.4",
              Buildpack := { ID := "A", Version := "2", Name := "A", ClearEnv := false,
                             Homepage := "" },
              Order := some [{ Group := [bpRef "B" false] }], Dir := "/cnb/A" }
      else leafStore bp,
    Detect := fun _ => runWith 0 [] [],
    ord := MapOrder.insertion }

/-- A store in which `M` is a meta-buildpack with the order `[[A], [B]]` and every other
buildpack is a leaf; `A` exits 100 and every other detect passes with an empty plan
section. -/
def scenarioMeta : DetectConfig :=
  { Lookup := fun bp =>
      if bp.ID = "M" then
        .ok { API := "0.4",
              Buildpack := { ID := "M", Version := bp.Version, Name := "M", ClearEnv := false,
                             Homepage := "" },
              Order := some [{ Group := [bpRef "A" false] }, { Group := [bpRef "B" false] }],
              Dir := "/cnb/M" }
      else leafStore bp,
    Detect := fun t => if t.Buildpack.ID = "A" then runWith 100 [] [] else runWith 0 [] [],
    ord := MapOrder.insertion }

/-- A store in which the meta-buildpack `M` has the order `[[M]]`: its own order contains
it. -/
def scenarioCyclic : DetectConfig :=
  { Lookup := fun bp =>
      if bp.ID = "M" then
        .ok { API := "0.4",
              Buildpack := { ID := "M", Version := bp.Version, Name := "M", ClearEnv := false,
                             Homepage := "" },
              Order := some [{ Group := [bpRef "M" false] }], Dir := "/cnb/M" }
      else leafStore bp,
    Detect := fun _ => runWith 0 [] [],
    ord := MapOrder.insertion }

/-- Deduplication of leaves by id as the specification words it ("deduplicate leaves by
`id`, first occurrence wins"): of the members whose id is not in `seen`, the first one
with each id. -/
def firstOccurrences (seen : List String) : List GroupBuildpack → List GroupBuildpack
  | [] => []
  | bp :: rest =>
    if bp.ID ∈ seen then firstOccurrences seen rest
    else bp :: firstOccurrences (seen ++ [bp.ID]) rest

/-! ## The detect pass with a log of the detect invocations

The definitions `detectLoopLogged` and `detectLogged` are the loops and methods above with one
more variable threaded through them: `log`, the keys for which `c.Detect` (the detect
script) was invoked, in order of invocation.  `eraseLog` forgets it
(`groupDetectLogged_erase`, `orderDetectLogged_erase`). -/

/-- A `DetectOutcome` together with the log of detect invocations. -/
abbrev LoggedOutcome :=
  Option (Except DetectError (List GroupBuildpack × List BuildPlanEntry) × Runs × List String)

/-- The outcome without the log. -/
def eraseLog (out : LoggedOutcome) : DetectOutcome :=
  match out with
  | none => none
  | some (r, runs, _) => some (r, runs)

/-- The loop `BuildpackGroup.detectLoop` with the log: the key of a leaf is logged exactly where
`c.Detect` is evaluated. -/
def BuildpackGroup.detectLoopLogged (c : DetectConfig)
    (orderDetect : BuildpackOrder → List GroupBuildpack → List GroupBuildpack → Bool → Runs →
      List String → LoggedOutcome) :
    List GroupBuildpack → List GroupBuildpack → Runs → List String → LoggedOutcome
  | [], done, runs, log =>
    match process c.ord runs done with
    | none => none
    | some r => some (r, runs, log)
  | bp :: rest, done, runs, log =>
    let key := bp.String
    if hasID done bp.ID then BuildpackGroup.detectLoopLogged c orderDetect rest done runs log
    else
      match c.Lookup bp with
      | .error msg => some (.error (DetectError.lookupFailed msg), runs, log)
      | .ok info =>
        let bp := { bp with API := info.API }
        let bp := { bp with Homepage := info.Buildpack.Homepage }
        match info.Order with
        | some order => orderDetect order done rest bp.Optional runs log
        | none =>
          let done := done ++ [bp]
          match runs.Load key with
          | some _ => BuildpackGroup.detectLoopLogged c orderDetect rest done runs log
          | none =>
            BuildpackGroup.detectLoopLogged c orderDetect rest done
              (runs.Store key (c.Detect info)) (log ++ [key])

/-- The loop `BuildpackOrder.detectLoop` with the log. -/
def BuildpackOrder.detectLoopLogged
    (groupDetect : BuildpackGroup → List GroupBuildpack → Runs → List String → LoggedOutcome)
    (done : List GroupBuildpack) (ngroup : BuildpackGroup) (optional : Bool) :
    List BuildpackGroup → Bool → Runs → List String → LoggedOutcome
  | [], buildpackErr, runs, log =>
    if optional then groupDetect ngroup done runs log
    else if buildpackErr then some (.error DetectError.errBuildpack, runs, log)
    else some (.error DetectError.errFailedDetection, runs, log)
  | group :: groups, buildpackErr, runs, log =>
    match groupDetect (group.append [ngroup]) done runs log with
    | none => none
    | some (.error DetectError.errBuildpack, runs, log) =>
      BuildpackOrder.detectLoopLogged groupDetect done ngroup optional groups true runs log
    | some (.error DetectError.errFailedDetection, runs, log) =>
      BuildpackOrder.detectLoopLogged groupDetect done ngroup optional groups buildpackErr runs log
    | some (r, runs, log) => some (r, runs, log)

/-- The method `BuildpackGroup.detect` with the log. -/
def BuildpackGroup.detectLogged (c : DetectConfig) :
    Nat → BuildpackGroup → List GroupBuildpack → Runs → List String → LoggedOutcome
  | 0, _, _, _, _ => none
  | fuel + 1, bg, done, runs, log =>
    BuildpackGroup.detectLoopLogged c
      (fun order done next optional runs log =>
        BuildpackOrder.detectLoopLogged
          (fun g d r l => BuildpackGroup.detectLogged c fuel g d r l)
          done { Group := next } optional order false runs log)
      bg.Group done runs log

/-- The method `BuildpackOrder.detect` with the log. -/
def BuildpackOrder.detectLogged (c : DetectConfig) (fuel : Nat) (bo : BuildpackOrder)
    (done next : List GroupBuildpack) (optional : Bool) (runs : Runs) (log : List String) :
    LoggedOutcome :=
  BuildpackOrder.detectLoopLogged (fun g d r l => BuildpackGroup.detectLogged c fuel g d r l)
    done { Group := next } optional bo false runs log

/-- From the runs map `runs0` and the log `log0` a part of the detect pass leads to `runs`
and `log`: no stored run is changed, and the keys added to the log are pairwise distinct,
had no run in `runs0` and have one in `runs`. -/
def RunsGrow (runs0 : Runs) (log0 : List String) (runs : Runs) (log : List String) : Prop :=
  (∀ k run, runs0.Load k = some run → runs.Load k = some run) ∧
  ∃ added, log = log0 ++ added ∧ added.Nodup ∧
    ∀ k ∈ added, runs0.Load k = none ∧ (runs.Load k).isSome = true

/-- The outcome of a part of the detect pass that started from `runs0` and `log0`: the runs
map and the log have grown as `RunsGrow` says, and a selected group with its plan is what
`process` returns on the returned runs map. -/
def LogInv (ord : MapOrder) (runs0 : Runs) (log0 : List String) (out : LoggedOutcome) : Prop :=
  ∀ r runs log, out = some (r, runs, log) →
    RunsGrow runs0 log0 runs log ∧
    ∀ found plan, r = .ok (found, plan) →
      ∃ done, process ord runs done = some (.ok (found, plan))

/-! ## The detect pass with its goroutines

`BuildpackGroup.detect` starts a goroutine for every leaf and goes on with the loop; it
waits for the goroutines only at `wg.Wait()`.  The definitions below keep the goroutines
that have not finished in a pool and let them take their steps, one at a time, where the
schedule says: after each `go` statement and at each `wg.Wait()`.  A goroutine takes up to
three steps: the call `c.runs.Load(key)`; the call `info.Detect(c)`; and the call
`c.runs.Store(key, run)` followed by `wg.Done()`.  The log holds the keys for which
`info.Detect` was invoked, in order of invocation.  Under the schedule `schedAtOnce` the
pass is the one of `detectLogged` (`orderDetectSched_atOnce`). -/

/-- Where a goroutine started by `BuildpackGroup.detect` stands: before the call
`c.runs.Load(key)`; after a `Load` that found no run, before `info.Detect(c)`; or after
`info.Detect(c)` returned `run`, before `c.runs.Store(key, run)`. -/
inductive GoPhase where
  | start
  | missed
  | detected (run : DetectRun)
deriving DecidableEq, Repr

/-- A goroutine started by `BuildpackGroup.detect` that has not finished: the variables
`key` and `info` it captured, the wait group `wg` on which it will call `Done` (wait groups
are told apart by a number), and where it stands. -/
structure Goroutine where
  key : String
  info : BuildpackTOML
  wg : Nat
  phase : GoPhase
deriving DecidableEq, Repr

/-- The state shared by a detect pass and its goroutines: the runs map `c.runs`; the log of
the keys for which `info.Detect` was invoked; the goroutines that have not finished, oldest
first; the number of the next wait group that `&sync.WaitGroup{}` makes; and the schedule
with the number of the points passed so far.  At point `n` (a `go` statement or a call
`wg.Wait()`) the goroutines at the positions `sched n` of the pool take one step each, in
that order. -/
structure PassState where
  runs : Runs
  log : List String
  pool : List Goroutine
  fresh : Nat
  sched : Nat → List Nat
  point : Nat

/-- One step of a goroutine, on the runs map and the log: the goroutine after the step
(`none` when it has called `wg.Done()` and finished), the runs map and the log.  The call
`Load` sends a goroutine that finds a run to its end; `info.Detect(c)` is logged;
`Store` writes the run that `info.Detect(c)` returned. -/
def Goroutine.step (c : DetectConfig) (g : Goroutine) (runs : Runs) (log : List String) :
    Option Goroutine × Runs × List String :=
  match g.phase with
  | .start =>
    match runs.Load g.key with
    | some _ => (none, runs, log)
    | none => (some { g with phase := .missed }, runs, log)
  | .missed => (some { g with phase := .detected (c.Detect g.info) }, runs, log ++ [g.key])
  | .detected run => (none, runs.Store g.key run, log)

/-- The goroutine at position `i` of the pool takes one step; a position outside the pool
is passed over. -/
def PassState.stepAt (c : DetectConfig) (s : PassState) (i : Nat) : PassState :=
  match s.pool.get? i with
  | none => s
  | some g =>
    match g.step c s.runs s.log with
    | (none, runs, log) => { s with runs := runs, log := log, pool := s.pool.eraseIdx i }
    | (some g, runs, log) => { s with runs := runs, log := log, pool := s.pool.set i g }

/-- A point at which goroutines may run: those the schedule names for this point take
their steps. -/
def PassState.yield (c : DetectConfig) (s : PassState) : PassState :=
  (s.sched s.point).foldl (fun s i => s.stepAt c i) { s with point := s.point + 1 }

/-- The statement `go func() { ... }()` of `BuildpackGroup.detect`, after `wg.Add(1)`: the
goroutine joins the pool, and goroutines may run. -/
def PassState.go (c : DetectConfig) (s : PassState) (key : String) (info : BuildpackTOML)
    (wg : Nat) : PassState :=
  PassState.yield c
    { s with pool := s.pool ++ [{ key := key, info := info, wg := wg, phase := .start }] }

/-- A goroutine runs to its end: the steps it has left, at most `n` of them. -/
def Goroutine.finish (c : DetectConfig) : Nat → Goroutine → Runs → List String →
    Runs × List String
  | 0, _, runs, log => (runs, log)
  | n + 1, g, runs, log =>
    match g.step c runs log with
    | (none, runs, log) => (runs, log)
    | (some g, runs, log) => Goroutine.finish c n g runs log

/-- The goroutines of the wait group `wg` run to their ends, oldest first; the pool keeps
the goroutines of the other wait groups. -/
def finishWaitGroup (c : DetectConfig) (wg : Nat) :
    List Goroutine → Runs → List String → List Goroutine × Runs × List String
  | [], runs, log => ([], runs, log)
  | g :: rest, runs, log =>
    if g.wg = wg then
      match g.finish c 3 runs log with
      | (runs, log) => finishWaitGroup c wg rest runs log
    else
      match finishWaitGroup c wg rest runs log with
      | (pool, runs, log) => (g :: pool, runs, log)

/-- The call `wg.Wait()`: goroutines may run, and the call returns when every goroutine of
the wait group `wg` has finished; those that the schedule has not brought to their end run
to it. -/
def PassState.Wait (c : DetectConfig) (s : PassState) (wg : Nat) : PassState :=
  let s := PassState.yield c s
  match finishWaitGroup c wg s.pool s.runs s.log with
  | (pool, runs, log) => { s with pool := pool, runs := runs, log := log }

/-- The result of `detect` on a group or an order, with the state it leaves behind; `none`
when it did not finish. -/
abbrev SchedOutcome :=
  Option (Except DetectError (List GroupBuildpack × List BuildPlanEntry) × PassState)

/-- The body of `BuildpackGroup.detect` from member `i` of the group on, with the goroutines
in the pool: `members` is `bg.Group[i:]`, `wg` the wait group passed to the method, and
`orderDetect` stands for the call `info.Order.detect`. -/
def BuildpackGroup.detectLoopSched (c : DetectConfig)
    (orderDetect : BuildpackOrder → List GroupBuildpack → List GroupBuildpack → Bool → Nat →
      PassState → SchedOutcome) :
    List GroupBuildpack → List GroupBuildpack → Nat → PassState → SchedOutcome
  | [], done, wg, s =>
    let s := PassState.Wait c s wg
    match process c.ord s.runs done with
    | none => none
    | some r => some (r, s)
  | bp :: rest, done, wg, s =>
    let key := bp.String
    if hasID done bp.ID then BuildpackGroup.detectLoopSched c orderDetect rest done wg s
    else
      match c.Lookup bp with
      | .error msg => some (.error (DetectError.lookupFailed msg), s)
      | .ok info =>
        let bp := { bp with API := info.API }
        let bp := { bp with Homepage := info.Buildpack.Homepage }
        match info.Order with
        | some order => orderDetect order done rest bp.Optional wg s
        | none =>
          let done := done ++ [bp]
          BuildpackGroup.detectLoopSched c orderDetect rest done wg
            (PassState.go c s key info wg)

/-- The body of `BuildpackOrder.detect` from some group of the order on, with the
goroutines in the pool: `wg` is the variable of that name, which `wg = &sync.WaitGroup{}`
sets to a new wait group before the next group is tried. -/
def BuildpackOrder.detectLoopSched
    (groupDetect : BuildpackGroup → List GroupBuildpack → Nat → PassState → SchedOutcome)
    (done : List GroupBuildpack) (ngroup : BuildpackGroup) (optional : Bool) :
    List BuildpackGroup → Bool → Nat → PassState → SchedOutcome
  | [], buildpackErr, wg, s =>
    if optional then groupDetect ngroup done wg s
    else if buildpackErr then some (.error DetectError.errBuildpack, s)
    else some (.error DetectError.errFailedDetection, s)
  | group :: groups, buildpackErr, wg, s =>
    match groupDetect (group.append [ngroup]) done wg s with
    | none => none
    | some (.error DetectError.errBuildpack, s) =>
      BuildpackOrder.detectLoopSched groupDetect done ngroup optional groups true s.fresh
        { s with fresh := s.fresh + 1 }
    | some (.error DetectError.errFailedDetection, s) =>
      BuildpackOrder.detectLoopSched groupDetect done ngroup optional groups buildpackErr
        s.fresh { s with fresh := s.fresh + 1 }
    | some (r, s) => some (r, s)

/-- The method `BuildpackGroup.detect` with the goroutines in the pool; `fuel` bounds the
nesting of group evaluations. -/
def BuildpackGroup.detectSched (c : DetectConfig) :
    Nat → BuildpackGroup → List GroupBuildpack → Nat → PassState → SchedOutcome
  | 0, _, _, _, _ => none
  | fuel + 1, bg, done, wg, s =>
    BuildpackGroup.detectLoopSched c
      (fun order done next optional wg s =>
        BuildpackOrder.detectLoopSched
          (fun g d w t => BuildpackGroup.detectSched c fuel g d w t)
          done { Group := next } optional order false wg s)
      bg.Group done wg s

/-- The method `BuildpackOrder.detect` with the goroutines in the pool. -/
def BuildpackOrder.detectSched (c : DetectConfig) (fuel : Nat) (bo : BuildpackOrder)
    (done next : List GroupBuildpack) (optional : Bool) (wg : Nat) (s : PassState) :
    SchedOutcome :=
  BuildpackOrder.detectLoopSched (fun g d w t => BuildpackGroup.detectSched c fuel g d w t)
    done { Group := next } optional bo false wg s

/-- The state in which `BuildpackOrder.Detect` calls `detect`: the runs map `runs`, no
goroutine started, the wait group 0 made for the call, and the schedule `sched`. -/
def PassState.init (runs : Runs) (sched : Nat → List Nat) : PassState :=
  { runs := runs, log := [], pool := [], fresh := 1, sched := sched, point := 0 }

/-- The schedule that lets every goroutine run to its end at the `go` statement that
starts it. -/
def schedAtOnce : Nat → List Nat :=
  fun _ => [0, 0, 0]

/-- The schedule given by the list of the steps of its first points; no goroutine takes a
step at a later point. -/
def schedOf (points : List (List Nat)) : Nat → List Nat :=
  fun n => points.getD n []

/-- A store in which `M` is a meta-buildpack whose order is not nil and holds no group, and
every other buildpack is a leaf; every detect passes with an empty plan section. -/
def scenarioEmptyOrder : DetectConfig :=
  { Lookup := fun bp =>
      if bp.ID = "M" then
        .ok { API := "0.4",
              Buildpack := { ID := "M", Version := bp.Version, Name := "M", ClearEnv := false,
                             Homepage := "" },
              Order := some [], Dir := "/cnb/M" }
      else leafStore bp,
    Detect := fun _ => runWith 0 [] [],
    ord := MapOrder.insertion }

/-- The order `[[L, M], [L]]`. -/
def scenarioEmptyOrderGroups : BuildpackOrder :=
  [{ Group := [bpRef "L" false, bpRef "M" false] }, { Group := [bpRef "L" false] }]

/-- The outcome of the pass with its goroutines, without the pool and the schedule. -/
def eraseSched (out : SchedOutcome) : LoggedOutcome :=
  match out with
  | none => none
  | some (r, s) => some (r, s.runs, s.log)

/-- No goroutine is left in the pool, and the schedule is `schedAtOnce`. -/
def PassState.AtOnce (s : PassState) : Prop :=
  s.pool = [] ∧ s.sched = schedAtOnce

/-! ## Versions of requires -/

/-- The comma-ok map read `m[key]` on the association list of a metadata map. -/
def metadataLookup (m : List (String × MetaValue)) (key : String) : Option MetaValue :=
  match m with
  | [] => none
  | (k, v) :: rest => if k = key then some v else metadataLookup rest key

/-- The comma-ok map read `r.Metadata[key]`; a nil map has no key. -/
def Require.metadataGet (r : Require) (key : String) : Option MetaValue :=
  match r.Metadata with
  | none => none
  | some m => metadataLookup m key

/-- The text `fmt.Sprintf("%v", value)` of a metadata value. -/
def MetaValue.render : MetaValue → String
  | .str s => s
  | .int i => toString i
  | .bool b => toString b
  | .composite rendered => rendered

/-- The method `Require.convertMetadataToVersion`. -/
def Require.convertMetadataToVersion (r : Require) : Require :=
  match r.metadataGet "version" with
  | some version => { r with Version := version.render }
  | none => r

/-- The method `Require.hasInconsistentVersions`.  The Go comparison `r.Version != version`
of a string with an `interface{}` holds unless `version` is that very string. -/
def Require.hasInconsistentVersions (r : Require) : Bool :=
  match r.metadataGet "version" with
  | some version => decide (r.Version ≠ "") && decide (MetaValue.str r.Version ≠ version)
  | none => false

/-- The method `Require.hasDoublySpecifiedVersions`. -/
def Require.hasDoublySpecifiedVersions (r : Require) : Bool :=
  match r.metadataGet "version" with
  | some _ => decide (r.Version ≠ "")
  | none => false

/-- The method `Require.hasTopLevelVersions`. -/
def Require.hasTopLevelVersions (r : Require) : Bool :=
  decide (r.Version ≠ "")

/-- The method `planSections.hasInconsistentVersions`. -/
def planSections.hasInconsistentVersions (p : planSections) : Bool :=
  p.Requires.any Require.hasInconsistentVersions

/-- The method `planSections.hasDoublySpecifiedVersions`. -/
def planSections.hasDoublySpecifiedVersions (p : planSections) : Bool :=
  p.Requires.any Require.hasDoublySpecifiedVersions

/-- The method `planSections.hasTopLevelVersions`. -/
def planSections.hasTopLevelVersions (p : planSections) : Bool :=
  p.Requires.any Require.hasTopLevelVersions

/-- The type `planSectionsList`. -/
abbrev planSectionsList := List planSections

/-- The method `planSectionsList.hasInconsistentVersions`. -/
def planSectionsList.hasInconsistentVersions (p : planSectionsList) : Bool :=
  p.any planSections.hasInconsistentVersions

/-- The method `planSectionsList.hasDoublySpecifiedVersions`. -/
def planSectionsList.hasDoublySpecifiedVersions (p : planSectionsList) : Bool :=
  p.any planSections.hasDoublySpecifiedVersions

/-- The method `planSectionsList.hasTopLevelVersions`. -/
def planSectionsList.hasTopLevelVersions (p : planSectionsList) : Bool :=
  p.any planSections.hasTopLevelVersions

/-- Modelled from the spec: the type `api.Version` (package `api`, outside `src/`), the pair
`(major, minor)` parsed from `M.N`. -/
structure ApiVersion where
  major : Nat
  minor : Nat
deriving DecidableEq, Repr

/-- Modelled from the spec: `api.Version.Compare`, the lexicographic comparison, as -1, 0
or 1. -/
def ApiVersion.Compare (v o : ApiVersion) : Int :=
  if v.major ≠ o.major then (if v.major < o.major then -1 else 1)
  else if v.minor ≠ o.minor then (if v.minor < o.minor then -1 else 1)
  else 0

/-- Modelled from the spec: `api.Version.Equal`. -/
def ApiVersion.Equal (v o : ApiVersion) : Bool :=
  decide (v.Compare o = 0)

/-- What `BuildpackTOML.Detect` meets when it runs the detect script: a failure before the
script runs (`filepath.Abs`, `ioutil.TempDir`, `ioutil.WriteFile`); an exit error with its
status; another error of `cmd.Run`; the script exiting 0 and the plan file failing to
decode; or the script exiting 0 and the plan file decoding into the primary section and the
`or` alternates.  `output` is what the script wrote. -/
inductive DetectExec where
  | setupFailed (err : String)
  | exited (status : Int) (output : List Nat)
  | runFailed (err : String) (output : List Nat)
  | decodeFailed (err : String)
  | decoded (sections : planSections) (or : planSectionsList) (output : List Nat)
deriving DecidableEq, Repr

/-- The double quote character, as a string. -/
def dq : String := String.singleton (Char.ofNat 34)

/-- The error of an API 0.2 buildpack whose `version` and `metadata.version` disagree. -/
def errInconsistentVersion (id : String) : String :=
  "buildpack " ++ id ++ " has a " ++ dq ++ "version" ++ dq ++ " key that does not match " ++
    dq ++ "metadata.version" ++ dq

/-- The error of an API 0.3 buildpack that gives both `version` and `metadata.version`. -/
def errDoublySpecifiedVersion (id : String) : String :=
  "buildpack " ++ id ++ " has a " ++ dq ++ "version" ++ dq ++ " key and a " ++ dq ++
    "metadata.version" ++ dq ++ " which cannot be specified together. " ++ dq ++
    "metadata.version" ++ dq ++ " should be used instead"

/-- The deprecation warning for a top-level `version` key. -/
def warnTopLevelVersion (id : String) : String :=
  "Warning: buildpack " ++ id ++ " has a " ++ dq ++ "version" ++ dq ++
    " key. This key is deprecated in build plan requirements in buildpack API 0.3. " ++ dq ++
    "metadata.version" ++ dq ++ " should be used instead"

/-- The method `BuildpackTOML.Detect`, as a function of what running the script gave:
the `DetectRun` it returns and the warnings it logs.  `api` is `api.MustParse(b.API)`, and
`api.MustParse("0.2")`, `api.MustParse("0.3")` are `⟨0, 2⟩`, `⟨0, 3⟩`. -/
def BuildpackTOML.Detect (b : BuildpackTOML) (api : ApiVersion) (exec : DetectExec) :
    DetectRun × List String :=
  match exec with
  | .setupFailed err =>
    ({ Requires := [], Provides := [], Or := [], Output := [], Code := -1, Err := some err }, [])
  | .exited status output =>
    ({ Requires := [], Provides := [], Or := [], Output := output, Code := status, Err := none },
      [])
  | .runFailed err output =>
    ({ Requires := [], Provides := [], Or := [], Output := output, Code := -1, Err := some err },
      [])
  | .decodeFailed err =>
    ({ Requires := [], Provides := [], Or := [], Output := [], Code := -1, Err := some err }, [])
  | .decoded sections or output =>
    let t : DetectRun :=
      { toplanSections := sections, Or := or, Output := [], Code := 0, Err := none }
    let t :=
      if api.Equal ⟨0, 2⟩ then
        if t.toplanSections.hasInconsistentVersions || planSectionsList.hasInconsistentVersions t.Or then
          { t with Err := some (errInconsistentVersion b.Buildpack.ID), Code := -1 }
        else t
      else t
    let t :=
      if api.Compare ⟨0, 3⟩ ≥ 0 then
        if t.toplanSections.hasDoublySpecifiedVersions ||
            planSectionsList.hasDoublySpecifiedVersions t.Or then
          { t with Err := some (errDoublySpecifiedVersion b.Buildpack.ID), Code := -1 }
        else t
      else t
    let warnings :=
      if api.Compare ⟨0, 3⟩ ≥ 0 then
        if t.toplanSections.hasTopLevelVersions || planSectionsList.hasTopLevelVersions t.Or then
          [warnTopLevelVersion b.Buildpack.ID]
        else []
      else []
    ({ t with Output := output }, warnings)

/-- The entries `plan` are returned without error by `BuildpackGroup.Detect` or by
`BuildpackOrder.Detect`. -/
def DetectReturned (plan : List BuildPlanEntry) : Prop :=
  (∃ c fuel bg runs g, BuildpackGroup.Detect c fuel bg runs = some (.ok (g, { Entries := plan }))) ∨
  (∃ c fuel bo runs g, BuildpackOrder.Detect c fuel bo runs = some (.ok (g, { Entries := plan })))

/-- A variant of scenario "single group passes" in which `B` requires `dep` with the
top-level version `1.2`. -/
def scenarioVersioned : DetectConfig :=
  { Lookup := leafStore,
    Detect := fun t =>
      if t.Buildpack.ID = "A" then runWith 0 [] ["dep"]
      else { Requires := [{ Name := "dep", Version := "1.2", Metadata := none }], Provides := [],
             Or := [], Output := [], Code := 0, Err := none },
    ord := MapOrder.insertion }

/-- The plan of `scenarioVersioned`. -/
def scenarioVersionedPlan : List BuildPlanEntry :=
  [{ Providers := [bpRef "A" false],
     Requires := [{ Name := "dep", Version := "",
                    Metadata := some [("version", MetaValue.str "1.2")] }] }]

/-- A descriptor of a leaf buildpack `id@1` with the API `api`. -/
def leafDescriptor (id api : String) : BuildpackTOML :=
  { API := api,
    Buildpack := { ID := id, Version := "1", Name := id, ClearEnv := false, Homepage := "" },
    Order := none, Dir := "/cnb/" ++ id }

/-! ## Plan helpers of `src/buildpack/detect.go` -/

/-- Modelled from the spec: the struct `BuildpackPlan` (declared outside `src/`), the plan
handed to one buildpack, a list of requires. -/
structure BuildpackPlan where
  Entries : List Require
deriving DecidableEq, Repr

/-- The inner loop of `BuildPlan.Find` over the providers of one entry: at the first
provider with the id, the requires of the entry are appended to `out` and the loop breaks. -/
def BuildPlan.findProviders (bpID : String) (entry : BuildPlanEntry) (out : List Require) :
    List GroupBuildpack → List Require
  | [] => out
  | provider :: rest =>
    if provider.ID = bpID then out ++ entry.Requires
    else BuildPlan.findProviders bpID entry out rest

/-- The method `BuildPlan.Find`. -/
def BuildPlan.Find (p : BuildPlan) (bpID : String) : BuildpackPlan :=
  { Entries := p.Entries.foldl
      (fun out entry => BuildPlan.findProviders bpID entry out entry.Providers) [] }

/-- The inner loop of `containsEntry` over the requires of the entry. -/
def containsEntryName (met : String) : List Require → Bool
  | [] => false
  | planReq :: rest => if met = planReq.Name then true else containsEntryName met rest

/-- The function `containsEntry`. -/
def containsEntry (metRequires : List String) (entry : BuildPlanEntry) : Bool :=
  match metRequires with
  | [] => false
  | met :: rest =>
    if containsEntryName met entry.Requires then true else containsEntry rest entry

/-- The method `BuildPlan.Filter`. -/
def BuildPlan.Filter (p : BuildPlan) (metRequires : List String) : BuildPlan :=
  { Entries := p.Entries.foldl
      (fun out planEntry =>
        if !containsEntry metRequires planEntry then out ++ [planEntry] else out) [] }

/-- A plan with one entry for `dep`, provided by buildpack `A` and required by `B`. -/
def scenarioFilterPlan : BuildPlan :=
  { Entries := [{ Providers := [bpRef "A" false],
                  Requires := [{ Name := "dep", Version := "", Metadata := none }] }] }

/-! ## Process map of `src/builder.go` -/

/-- The struct `Process`; the field `Type_` is the Go field `Type`. -/
structure Process where
  Type_ : String
  Command : String
deriving DecidableEq, Repr

/-- The type `processMap`, a Go map from process type to process, as an association list. -/
abbrev processMap := List (String × Process)

/-- Map read `m[key]`: the stored process, or the zero value. -/
def processMap.get (m : processMap) (key : String) : Process :=
  match m with
  | [] => { Type_ := "", Command := "" }
  | (k, v) :: rest => if k = key then v else processMap.get rest key

/-- Map write `m[key] = proc`: replace the binding of `key`, or add one. -/
def processMap.set (m : processMap) (key : String) (proc : Process) : processMap :=
  match m with
  | [] => [(key, proc)]
  | (k, v) :: rest =>
    if k = key then (k, proc) :: rest else (k, v) :: processMap.set rest key proc

/-- The method `processMap.add`. -/
def processMap.add (m : processMap) (l : List Process) : processMap :=
  l.foldl (fun m proc => m.set proc.Type_ proc) m

/-- The order in which `range` visits the keys of a `processMap`; Go does not specify
it, so it is a parameter: `iter m` is some rearrangement of `m`. -/
structure ProcOrder where
  iter : processMap → processMap
  perm : ∀ m, (iter m).Perm m

/-- The key order that visits bindings in the order they were first written. -/
def ProcOrder.insertion : ProcOrder :=
  { iter := fun m => m, perm := fun m => List.Perm.refl m }

/-- The key order that visits bindings in the reverse of insertion order. -/
def ProcOrder.reversed : ProcOrder :=
  { iter := fun m => m.reverse, perm := fun m => List.reverse_perm m }

/-- The order `a <= b` of Go strings, which compares byte by byte; on UTF-8 text that is
the lexicographic order of the code points. -/
def stringLE (a b : String) : Bool :=
  decide (a.data ≤ b.data)

/-- The library call `sort.Strings`: the keys in increasing order. -/
def sortStrings (keys : List String) : List String :=
  List.insertionSort (fun a b => stringLE a b = true) keys

/-- The method `processMap.list`: collect the keys, sort them, read the map at each. -/
def processMap.list (ord : ProcOrder) (m : processMap) : List Process :=
  let keys := (ord.iter m).map Prod.fst
  let keys := sortStrings keys
  keys.map fun key => m.get key

/-- The last process of type `t` in a list of processes, if there is one. -/
def lastOfType (t : String) (l : List Process) : Option Process :=
  (l.filter fun p => p.Type_ = t).getLast?

/-- The processes of buildpack `A` in the merge scenario. -/
def scenarioProcessesA : List Process :=
  [{ Type_ := "web", Command := "a-web" }]

/-- The processes of buildpack `B` in the merge scenario. -/
def scenarioProcessesB : List Process :=
  [{ Type_ := "web", Command := "b-web" }, { Type_ := "worker", Command := "b-worker" }]

/-! ## Build driver of `src/builder.go` -/

/-- Modelled from the spec: the values of the Go interface `error` that the build driver
meets (their types are declared outside `src/`): the error of a system or library call, the
`*exec.ExitError` of a command, an error wrapped with a message by `errors.Wrap` or
`errors.Wrapf`, and a lifecycle error `*lerrors.Error` with its type. -/
inductive BuildError where
  | sys (msg : String)
  | exit (code : Int)
  | wrapped (cause : BuildError) (msg : String)
  | lifecycle (cause : BuildError) (type : LifecycleErrorType)
deriving DecidableEq, Repr

/-- The type assertion `err.(*lerrors.Error)` followed by the field `Type`: the lifecycle
error type of an error value, if it is a lifecycle error. -/
def BuildError.lifecycleType : BuildError → Option LifecycleErrorType
  | .lifecycle _ type => some type
  | _ => none

/-- A call of a method of the interface `BuildEnv` that changes the environment, with its
arguments. -/
inductive EnvCall where
  | AddRootDir (baseDir : String)
  | AddEnvDir (envDir : String)
deriving DecidableEq, Repr

/-- The interface `BuildEnv`, implemented by a recorder: `calls` are the calls made so far,
oldest first, and `fails` gives the error, if any, that a call returns after the calls
made before it. -/
structure BuildEnv where
  calls : List EnvCall
  fails : List EnvCall → EnvCall → Option BuildError

/-- One call on the recorder: the call is recorded and its error returned. -/
def BuildEnv.call (env : BuildEnv) (c : EnvCall) : BuildEnv × Option BuildError :=
  ({ env with calls := env.calls ++ [c] }, env.fails env.calls c)

/-- The method `BuildEnv.AddRootDir`. -/
def BuildEnv.AddRootDir (env : BuildEnv) (baseDir : String) : BuildEnv × Option BuildError :=
  env.call (EnvCall.AddRootDir baseDir)

/-- The method `BuildEnv.AddEnvDir`. -/
def BuildEnv.AddEnvDir (env : BuildEnv) (envDir : String) : BuildEnv × Option BuildError :=
  env.call (EnvCall.AddEnvDir envDir)

/-- The elements of a path between its separators `/`. -/
def splitSlash : List Char → List (List Char)
  | [] => [[]]
  | c :: cs =>
    if c = '/' then [] :: splitSlash cs
    else
      match splitSlash cs with
      | [] => [[c]]
      | h :: t => (c :: h) :: t

/-- One element in the loop of `filepath.Clean`; `out` holds the elements kept so far, the
last one first.  Empty elements and `.` are dropped; `..` removes the element before it,
is dropped at the root, and is kept where there is nothing to remove. -/
def cleanStep (rooted : Bool) (out : List (List Char)) (elem : List Char) :
    List (List Char) :=
  if elem = [] ∨ elem = ['.'] then out
  else if elem = ['.', '.'] then
    match out with
    | last :: rest =>
      if last ≠ ['.', '.'] then rest else if rooted then out else elem :: out
    | [] => if rooted then out else elem :: out
  else elem :: out

/-- The elements joined by the separator `/`. -/
def joinSlash : List (List Char) → List Char
  | [] => []
  | [e] => e
  | e :: es => e ++ '/' :: joinSlash es

/-- The library call `filepath.Clean`, with `/` as the separator. -/
def pathClean (path : String) : String :=
  if path = "" then "."
  else
    let rooted := decide (path.data.head? = some '/')
    let out := (splitSlash path.data).foldl (cleanStep rooted) []
    let result := if rooted then '/' :: joinSlash out.reverse else joinSlash out.reverse
    if result = [] then "." else String.mk result

/-- The library call `filepath.Join` on two elements: the elements from the first one that
is not empty on, joined by `/` and cleaned. -/
def joinPath (dir name : String) : String :=
  if dir ≠ "" then pathClean (dir ++ "/" ++ name)
  else if name ≠ "" then pathClean name
  else ""

/-- What `setupEnv` reads from the file system: the names of the subdirectories of a
directory, in the order the directory is listed, and, for the path of a layer descriptor,
the `build` field it decodes to (`none` when the file is missing or does not decode). -/
structure LayerFS where
  subdirs : String → List String
  layerBuild : String → Option Bool

/-- The loop of `eachDir` over the names of the subdirectories. -/
def eachDirLoop {σ : Type} (dir : String) (fn : String → σ → σ × Option BuildError) :
    List String → σ → σ × Option BuildError
  | [], s => (s, none)
  | name :: rest, s =>
    match fn (joinPath dir name) s with
    | (s, some err) => (s, some err)
    | (s, none) => eachDirLoop dir fn rest s

/-- Modelled from the spec: the helper `eachDir` (declared outside `src/`): call `fn` on
the path of every subdirectory of `dir`, in directory order, and return the first error. -/
def eachDir {σ : Type} (fs : LayerFS) (dir : String)
    (fn : String → σ → σ × Option BuildError) (s : σ) : σ × Option BuildError :=
  eachDirLoop dir fn (fs.subdirs dir) s

/-- The function `isBuild`: the descriptor decodes and its `build` field is true. -/
def isBuild (fs : LayerFS) (path : String) : Bool :=
  match fs.layerBuild path with
  | some build => build
  | none => false

/-- The function literal of the first `eachDir` call of `setupEnv`. -/
def setupEnvRootDir (fs : LayerFS) (path : String) (env : BuildEnv) :
    BuildEnv × Option BuildError :=
  if !isBuild fs (path ++ ".toml") then (env, none)
  else env.AddRootDir path

/-- The function literal of the second `eachDir` call of `setupEnv`. -/
def setupEnvEnvDirs (fs : LayerFS) (path : String) (env : BuildEnv) :
    BuildEnv × Option BuildError :=
  if !isBuild fs (path ++ ".toml") then (env, none)
  else
    match env.AddEnvDir (joinPath path "env") with
    | (env, some err) => (env, some err)
    | (env, none) => env.AddEnvDir (joinPath path "env.build")

/-- The function `setupEnv`: the environment after the calls, and the error returned. -/
def setupEnv (fs : LayerFS) (env : BuildEnv) (layersDir : String) :
    BuildEnv × Option BuildError :=
  match eachDir fs layersDir (setupEnvRootDir fs) env with
  | (env, some err) => (env, some err)
  | (env, none) => eachDir fs layersDir (setupEnvEnvDirs fs) env

/-- The layers of a layers directory whose descriptor has `build = true`, in directory
order, as the claim about `setupEnv` words them. -/
def buildLayers (fs : LayerFS) (layersDir : String) : List String :=
  ((fs.subdirs layersDir).map (joinPath layersDir)).filter fun path =>
    isBuild fs (path ++ ".toml")

/-- The environment calls the claim about `setupEnv` lists: `AddRootDir` for every build
layer, then for every build layer `AddEnvDir` of `env` and of `env.build`. -/
def setupEnvCalls (fs : LayerFS) (layersDir : String) : List EnvCall :=
  (buildLayers fs layersDir).map EnvCall.AddRootDir ++
    (buildLayers fs layersDir).flatMap fun path =>
      [EnvCall.AddEnvDir (joinPath path "env"), EnvCall.AddEnvDir (joinPath path "env.build")]

/-- A recorder with no call made yet, none of whose calls fails. -/
def envRecorder : BuildEnv :=
  { calls := [], fails := fun _ _ => none }

/-- The layers directory of buildpack `A`: `layer1` and `layer3` have a descriptor with
`build = true`, `layer2` has none. -/
def scenarioLayers : LayerFS :=
  { subdirs := fun dir => if dir = "/layers/A" then ["layer1", "layer2", "layer3"] else [],
    layerBuild := fun path =>
      if path = "/layers/A/layer1.toml" ∨ path = "/layers/A/layer3.toml" then some true
      else none }

/-- The type `Plan`, a Go map from a name to a map of values, as an association list. -/
abbrev Plan := List (String × List (String × MetaValue))

/-- The builtin `delete(plan, key)`. -/
def Plan.delete (plan : Plan) (key : String) : Plan :=
  plan.filter fun kv => kv.1 ≠ key

/-- Map write `plan[key] = entry`: replace the binding of `key`, or add one. -/
def Plan.set (plan : Plan) (key : String) (entry : List (String × MetaValue)) : Plan :=
  match plan with
  | [] => [(key, entry)]
  | (k, v) :: rest =>
    if k = key then (k, entry) :: rest else (k, v) :: Plan.set rest key entry

/-- The function `copyPlan`; the bindings are visited in the order of the list. -/
def copyPlan (m : Plan) : Plan :=
  m.foldl (fun out kv => out.set kv.1 kv.2) []

/-- A file of the plan directory of a buildpack, as `consumePlan` sees it: its name,
whether it is a directory, and what `toml.DecodeFile` gives for it. -/
structure PlanFile where
  Name : String
  IsDir : Bool
  decoded : Except BuildError (List (String × MetaValue))

/-- The loop of `consumePlan` over the files of the plan directory. -/
def consumePlanLoop : List PlanFile → Plan → Plan → Except BuildError (Plan × Plan)
  | [], plan, bom => .ok (plan, bom)
  | f :: rest, plan, bom =>
    if f.IsDir then consumePlanLoop rest plan bom
    else
      match f.decoded with
      | .error err => .error err
      | .ok entry =>
        let plan := plan.delete f.Name
        let bom := if entry.length > 0 then bom.set f.Name entry else bom
        consumePlanLoop rest plan bom

/-- The function `consumePlan`, given what `ioutil.ReadDir(planDir)` returns: the error, or
the maps `plan` and `bom` after the loop. -/
def consumePlan (files : Except BuildError (List PlanFile)) (plan bom : Plan) :
    Except BuildError (Plan × Plan) :=
  match files with
  | .error err => .error err
  | .ok files => consumePlanLoop files plan bom

/-- The struct `LaunchTOML`. -/
structure LaunchTOML where
  Processes : List Process
deriving DecidableEq, Repr

/-- What decoding `launch.toml` gives: the file does not exist, another error, or the
decoded value. -/
inductive LaunchRead where
  | notExist
  | failed (err : BuildError)
  | decoded (launch : LaunchTOML)
deriving DecidableEq, Repr

/-- The struct `BuildMetadata`. -/
structure BuildMetadata where
  Processes : List Process
  Buildpacks : List String
  BOM : Plan
deriving DecidableEq, Repr

/-- Modelled from the spec: the struct `Buildpack` (declared outside `src/`), a buildpack
of the group, with the fields `Builder.Build` reads: its id and the directory of its
descriptor. -/
structure Buildpack where
  ID : String
  Dir : String
deriving DecidableEq, Repr

/-- Modelled from the spec: the method `Buildpack.EscapedID` (declared outside `src/`), the
id with every `/` replaced by `_`. -/
def Buildpack.EscapedID (bp : Buildpack) : String :=
  String.mk (bp.ID.data.map fun c => if c = '/' then '_' else c)

/-- What one iteration of the loop of `Builder.Build` meets outside the program: the errors
of the two `os.MkdirAll` calls, of encoding the plan, of `filepath.Abs` on the build path
and of `cmd.Run` (`none` for success), the layers directory and the listing of the plan
directory after the command, and what decoding `launch.toml` gives. -/
structure BuildStep where
  mkdirLayers : Option BuildError
  mkdirPlan : Option BuildError
  encodePlan : Option BuildError
  absBuildPath : Option BuildError
  run : Option BuildError
  layers : LayerFS
  planFiles : Except BuildError (List PlanFile)
  launch : LaunchRead

/-- What `Builder.Build` meets outside the program: the three `filepath.Abs` calls, the
temporary plan directory, what each iteration of the loop meets (by position in the group),
and the order in which the keys of the process map are visited. -/
structure BuildSys where
  absPlatformDir : Except BuildError String
  absLayersDir : Except BuildError String
  absAppDir : Except BuildError String
  tempDir : Except BuildError String
  step : Nat → BuildStep
  ord : ProcOrder

/-- The struct `Builder` (without the output writers). -/
structure Builder where
  PlatformDir : String
  LayersDir : String
  AppDir : String
  Env : BuildEnv
  Buildpacks : List Buildpack
  Plan : Plan

/-- The local variables of `Builder.Build` that the loop updates, the environment, and
`ran`, the ids of the buildpacks whose build command has been started. -/
structure BuildState where
  procMap : processMap
  plan : Plan
  bom : Plan
  buildpackIDs : List String
  env : BuildEnv
  ran : List String

/-- What a call of `Builder.Build` leaves: the returned metadata or error, the environment
and the ids of the buildpacks whose build command was started. -/
structure BuildOutcome where
  result : Except BuildError BuildMetadata
  env : BuildEnv
  ran : List String

/-- The single quote character, as a string. -/
def sq : String := String.singleton (Char.ofNat 39)

/-- The message `fmt.Sprintf("buildpack %s " + what, quoted id)` of the `errors.Wrapf`
calls of `Builder.Build`, the id between single quotes. -/
def buildpackMsg (id what : String) : String :=
  "buildpack " ++ sq ++ id ++ sq ++ " " ++ what

/-- The loop of `Builder.Build` over the buildpacks, from position `i` of the group: the
state when the loop ends or returns, and the error returned, if any. -/
def Builder.buildLoop (sys : BuildSys) (layersDir planDir : String) :
    Nat → List Buildpack → BuildState → BuildState × Option BuildError
  | _, [], s => (s, none)
  | i, bp :: rest, s =>
    let bpDirName := bp.EscapedID
    let bpLayersDir := joinPath layersDir bpDirName
    let _bpPlanDir := joinPath planDir bpDirName
    let s := { s with buildpackIDs := s.buildpackIDs ++ [bpDirName] }
    match (sys.step i).mkdirLayers with
    | some err => (s, some err)
    | none =>
      match (sys.step i).mkdirPlan with
      | some err => (s, some err)
      | none =>
        match (sys.step i).encodePlan with
        | some err => (s, some (BuildError.wrapped err "encode plan"))
        | none =>
          match (sys.step i).absBuildPath with
          | some err => (s, some err)
          | none =>
            let s := { s with ran := s.ran ++ [bp.ID] }
            match (sys.step i).run with
            | some err => (s, some (BuildError.wrapped err (buildpackMsg bp.ID "/bin/build")))
            | none =>
              match setupEnv (sys.step i).layers s.env bpLayersDir with
              | (env, some err) =>
                ({ s with env := env },
                  some (BuildError.wrapped err (buildpackMsg bp.ID "setup env")))
              | (env, none) =>
                let s := { s with env := env }
                match consumePlan (sys.step i).planFiles s.plan s.bom with
                | .error err =>
                  (s, some (BuildError.wrapped err (buildpackMsg bp.ID "consume plan")))
                | .ok (plan, bom) =>
                  let s := { s with plan := plan, bom := bom }
                  match (sys.step i).launch with
                  | .notExist => Builder.buildLoop sys layersDir planDir (i + 1) rest s
                  | .failed err => (s, some err)
                  | .decoded launch =>
                    Builder.buildLoop sys layersDir planDir (i + 1) rest
                      { s with procMap := s.procMap.add launch.Processes }

/-- The method `Builder.Build`. -/
def Builder.Build (b : Builder) (sys : BuildSys) : BuildOutcome :=
  match sys.absPlatformDir with
  | .error err => { result := .error err, env := b.Env, ran := [] }
  | .ok _platformDir =>
    match sys.absLayersDir with
    | .error err => { result := .error err, env := b.Env, ran := [] }
    | .ok layersDir =>
      match sys.absAppDir with
      | .error err => { result := .error err, env := b.Env, ran := [] }
      | .ok _appDir =>
        match sys.tempDir with
        | .error err => { result := .error err, env := b.Env, ran := [] }
        | .ok planDir =>
          match Builder.buildLoop sys layersDir planDir 0 b.Buildpacks
              { procMap := [], plan := copyPlan b.Plan, bom := copyPlan b.Plan,
                buildpackIDs := [], env := b.Env, ran := [] } with
          | (s, some err) => { result := .error err, env := s.env, ran := s.ran }
          | (s, none) =>
            { result := .ok { Processes := s.procMap.list sys.ord,
                              Buildpacks := s.buildpackIDs, BOM := s.bom },
              env := s.env, ran := s.ran }

/-- An iteration in which every call succeeds, the layers directory has no subdirectory,
the plan directory is empty and there is no `launch.toml`. -/
def quietStep : BuildStep :=
  { mkdirLayers := none, mkdirPlan := none, encodePlan := none, absBuildPath := none,
    run := none, layers := { subdirs := fun _ => [], layerBuild := fun _ => none },
    planFiles := .ok [], launch := LaunchRead.notExist }

/-- The surroundings of a build in `/layers`, `/platform` and `/app` whose iterations meet
`step`. -/
def scenarioSys (step : Nat → BuildStep) : BuildSys :=
  { absPlatformDir := .ok "/platform", absLayersDir := .ok "/layers", absAppDir := .ok "/app",
    tempDir := .ok "/tmp/plan.1", step := step, ord := ProcOrder.insertion }

/-- A builder for the group `bps` with an empty plan and the recording environment. -/
def scenarioBuilder (bps : List Buildpack) : Builder :=
  { PlatformDir := "/platform", LayersDir := "/layers", AppDir := "/app", Env := envRecorder,
    Buildpacks := bps, Plan := [] }

/-- The build of one buildpack `A` that writes the layers of `scenarioLayers`. -/
def scenarioBuildLayers : BuildOutcome :=
  (scenarioBuilder [{ ID := "A", Dir := "/buildpacks/A" }]).Build
    (scenarioSys fun _ => { quietStep with layers := scenarioLayers })

/-- The build of the group `[A, B]` in which the build command of `A` exits with status 1. -/
def scenarioBuildFails : BuildOutcome :=
  (scenarioBuilder [{ ID := "A", Dir := "/buildpacks/A" },
      { ID := "B", Dir := "/buildpacks/B" }]).Build
    (scenarioSys fun i =>
      if i = 0 then { quietStep with run := some (BuildError.exit 1) } else quietStep)

/-- The build of one buildpack `A` whose plan directory holds the file `some-dep` with the
top-level key `version = "some-version"`. -/
def scenarioBuildBom : BuildOutcome :=
  (scenarioBuilder [{ ID := "A", Dir := "/buildpacks/A" }]).Build
    (scenarioSys fun _ =>
      { quietStep with
        planFiles := .ok [{ Name := "some-dep", IsDir := false,
                            decoded := .ok [("version", MetaValue.str "some-version")] }] })

/-- The trial in which `A` provides `dep` and then `B` requires `dep`. -/
def trialProvideThenRequire : detectTrial :=
  [{ toGroupBuildpack := bpRef "A" false, Requires := [], Provides := [{ Name := "dep" }] },
   { toGroupBuildpack := bpRef "B" false,
     Requires := [{ Name := "dep", Version := "", Metadata := none }], Provides := [] }]

/-! ## Saving an image (`src/save.go`) -/

/-- Modelled from the spec: an element of `imgutil.SaveError.Errors` (declared outside
`src/`), as `getSaveStatus` uses it: the name of an image and the text of the cause. -/
structure SaveDiagnostic where
  ImageName : String
  Cause : String
deriving DecidableEq, Repr

/-- Modelled from the spec: the values of the Go interface `error` that `saveImage` meets
(their types are declared outside `src/`, except `MultiError`): the error of a library
call, an `imgutil.SaveError` with its diagnostics, an error wrapped with a message by
`errors.Wrap`, and a `*MultiError` with its errors. -/
inductive ImageError where
  | plain (msg : String)
  | save (Errors : List SaveDiagnostic)
  | wrapped (cause : ImageError) (msg : String)
  | multi (Errors : List ImageError)

/-- Modelled from the spec: the identifier of an image (`imgutil.Identifier`, declared
outside `src/`), as the type switch of `saveImage` tells them apart: a
`local.IDIdentifier`, a `remote.DigestIdentifier` with its digest string, or another. -/
inductive ImageIdentifier where
  | localID (id : String)
  | remoteDigest (digest : String)
  | other (text : String)
deriving DecidableEq, Repr

/-- Modelled from the spec: the interface `imgutil.Image` (declared outside `src/`), as
what the methods `saveImage` calls return: `Name`, `Save` on the additional names (`none`
for nil), `Identifier` and `ManifestSize`. -/
structure Image where
  Name : String
  Save : List String → Option ImageError
  Identifier : Except ImageError ImageIdentifier
  ManifestSize : Except ImageError Int

/-- Modelled from the spec: the struct `ImageReport` (declared outside `src/`), with the
fields `saveImage` writes. -/
structure ImageReport where
  Tags : List String
  ImageID : String
  Digest : String
  ManifestSize : String
deriving DecidableEq, Repr

/-- The zero value `ImageReport{}`. -/
def ImageReport.zero : ImageReport :=
  { Tags := [], ImageID := "", Digest := "", ManifestSize := "" }

/-- The loop of `getSaveStatus` over the diagnostics of a save error. -/
def getSaveStatusLoop (imageName : String) : List SaveDiagnostic → Bool × String
  | [] => (true, "")
  | d :: rest => if d.ImageName = imageName then (false, d.Cause) else getSaveStatusLoop imageName rest

/-- The function `getSaveStatus`; `none` is the nil error. -/
def getSaveStatus (err : Option ImageError) (imageName : String) : Bool × String :=
  match err with
  | some (ImageError.save errors) => getSaveStatusLoop imageName errors
  | _ => (true, "")

/-- The loop of `saveImage` over the image name and the additional names. -/
def saveImageTags (saveErr : Option ImageError) (tags : List String) : List String → List String
  | [] => tags
  | n :: rest =>
    if !(getSaveStatus saveErr n).1 then saveImageTags saveErr tags rest
    else saveImageTags saveErr (tags ++ [n]) rest

/-- The part of `saveImage` from the call of `image.Identifier` on, `saveErr` being the
variable of that name (`none` for nil). -/
def saveImageReport (image : Image) (additionalNames : List String)
    (saveErr : Option ImageError) : ImageReport × Option ImageError :=
  let imageReport := ImageReport.zero
  match image.Identifier with
  | .error idErr =>
    match saveErr with
    | some saveErr => (ImageReport.zero, some (ImageError.multi [idErr, saveErr]))
    | none => (ImageReport.zero, some idErr)
  | .ok id =>
    let imageReport :=
      { imageReport with
        Tags := saveImageTags saveErr imageReport.Tags (image.Name :: additionalNames) }
    let imageReport :=
      match id with
      | .localID v => { imageReport with ImageID := v }
      | .remoteDigest digest => { imageReport with Digest := digest }
      | .other _ => imageReport
    let imageReport :=
      match image.ManifestSize with
      | .error _ => imageReport
      | .ok manifestSize =>
        if manifestSize ≠ 0 then { imageReport with ManifestSize := toString manifestSize }
        else imageReport
    (imageReport, saveErr)

/-- The function `saveImage`, without the log lines: an error of `Save` that is not a
save error is wrapped and returned with the empty report. -/
def saveImage (image : Image) (additionalNames : List String) :
    ImageReport × Option ImageError :=
  match image.Save additionalNames with
  | none => saveImageReport image additionalNames none
  | some (ImageError.save errors) =>
    saveImageReport image additionalNames (some (ImageError.save errors))
  | some err => (ImageReport.zero, some (ImageError.wrapped err "saving image"))

/-- An image `app` with a digest whose `Save` fails for the additional name `app:bad`. -/
def scenarioImage : Image :=
  { Name := "app",
    Save := fun _ => some (ImageError.save [{ ImageName := "app:bad", Cause := "denied" }]),
    Identifier := .ok (ImageIdentifier.remoteDigest "sha256:abc"),
    ManifestSize := .ok 0 }

/-- The trials over a list of results, in the order the claim about `runTrials` words:
one option per result in result order, enumerated lexicographically, the option of the
first result varying slowest. -/
def allTrials : detectResults → List detectTrial
  | [] => [[]]
  | r :: rs => r.options.flatMap fun o => (allTrials rs).map fun t => o :: t

/-- Trying the trials of a list in order with `f`, as the claim about `runTrials` words
it: the outcome on the first trial `f` accepts, no later trial being tried, or the error
of the last trial tried; `lastErr` is the error of the trial tried before, if any. -/
def firstAccepted {σ : Type} (f : trialFunc σ) :
    List detectTrial → Option DetectError → σ → TrialOutcome σ
  | [], none, s => some (.ok ([], []), s)
  | [], some lastErr, s => some (.error lastErr, s)
  | trial :: rest, _, s =>
    match f trial s with
    | none => none
    | some (.ok r, s) => some (.ok r, s)
    | some (.error err, s) => firstAccepted f rest (some err) s

/-- What a pass of `runTrial` over the buildpacks `listed` makes of the variables `trial`
and `retry`, worded without the order of the visits: it fails when a listed buildpack is
not optional, and otherwise removes every listed buildpack from the trial and sets `retry`
when one is listed. -/
def passOutcome (listed : List GroupBuildpack) (s : detectTrial × Bool) :
    Except DetectError (detectTrial × Bool) :=
  if listed.all (fun bp => bp.Optional) then
    .ok (s.1.filter (fun t => decide (t.toGroupBuildpack ∉ listed)), s.2 || !listed.isEmpty)
  else .error DetectError.errFailedDetection

/-- The buildpacks with an early require or an unused provide in a dependency map. -/
def depMap.unmet (m : depMap) : List GroupBuildpack :=
  (m.flatMap fun kv => kv.2.earlyRequires) ++ m.flatMap fun kv => kv.2.extraProvides

/-- The rounds of `runTrial`, worded without the order of the visits: each round computes
the dependency map of the trial and makes one pass over its unmet buildpacks. -/
def runTrialRounds : Nat → detectTrial → Option (Except DetectError (depMap × detectTrial))
  | 0, _ => none
  | fuel + 1, trial =>
    match passOutcome (newDepMap trial).unmet (trial, false) with
    | .error err => some (.error err)
    | .ok (t, retry) =>
      if retry then runTrialRounds fuel t
      else if t.length = 0 then some (.error DetectError.errFailedDetection)
      else some (.ok (newDepMap trial, t))

/-- The loop of `runTrial` with its two passes exchanged, `eachUnmetProvide` before
`eachUnmetRequire`: the variant that `runTrialLoop` is compared with. -/
def runTrialLoopProvidesFirst (ord : MapOrder) (i : Nat) :
    Nat → Nat → detectTrial → Option (Except DetectError (depMap × detectTrial))
  | 0, _, _ => none
  | fuel + 1, k, trial =>
    let deps := newDepMap trial
    match depMap.eachUnmetProvide runTrialCallback (ord.iter [i, k, 1] deps) (trial, false) with
    | .error err => some (.error err)
    | .ok s =>
      match depMap.eachUnmetRequire runTrialCallback (ord.iter [i, k, 0] deps) s with
      | .error err => some (.error err)
      | .ok (trial, retry) =>
        if retry then runTrialLoopProvidesFirst ord i fuel (k + 1) trial
        else if trial.length = 0 then some (.error DetectError.errFailedDetection)
        else some (.ok (deps, trial))

/-! ## Layers directory of a buildpack (`src/layers.go`) -/

/-- The library call `strings.HasSuffix`. -/
def hasSuffix (s suffix : String) : Bool :=
  decide (suffix.data.length ≤ s.data.length) &&
    decide (s.data.drop (s.data.length - suffix.data.length) = suffix.data)

/-- The library call `strings.TrimSuffix`. -/
def trimSuffix (s suffix : String) : String :=
  if hasSuffix s suffix then String.mk (s.data.take (s.data.length - suffix.data.length))
  else s

/-- The library call `filepath.Base`: the last element of the path, trailing separators
stripped; `.` for the empty path and `/` for a path of separators only. -/
def pathBase (path : String) : String :=
  if path = "" then "."
  else
    let stripped := path.data.reverse.dropWhile fun c => c = '/'
    let last := stripped.takeWhile fun c => c ≠ '/'
    if last = [] then "/" else String.mk last.reverse

/-- Modelled from the spec: the function `launch.EscapeID` (declared outside `src/`), the
id with every `/` replaced by `_`. -/
def EscapeID (id : String) : String :=
  String.mk (id.data.map fun c => if c = '/' then '_' else c)

/-- An entry of a directory listing (`os.FileInfo`), as far as it is read: its name and
whether it is a directory. -/
structure FileInfo where
  Name : String
  IsDir : Bool
deriving DecidableEq, Repr

/-- What `ioutil.ReadDir` returns: the entries, an error for which `os.IsNotExist` holds,
or another error. -/
inductive ReadDirResult where
  | listed (fis : List FileInfo)
  | notExist
  | failed (err : BuildError)
deriving DecidableEq, Repr

/-- Modelled from the spec: the struct `StoreTOML` (declared outside `src/`), the decoded
content of `store.toml`. -/
structure StoreTOML where
  Data : List (String × MetaValue)
deriving DecidableEq, Repr

/-- The struct `layer`. -/
structure layer where
  path : String
  identifier : String
deriving DecidableEq, Repr

/-- The struct `bpLayer`; it embeds `layer`. -/
structure bpLayer extends layer
deriving DecidableEq, Repr

/-- The struct `bpLayersDir`; `store = none` is the nil pointer. -/
structure bpLayersDir where
  path : String
  layers : List bpLayer
  name : String
  buildpack : GroupBuildpack
  store : Option StoreTOML
deriving DecidableEq, Repr

/-- The method `bpLayersDir.newBPLayer`. -/
def bpLayersDir.newBPLayer (bd : bpLayersDir) (name : String) : bpLayer :=
  { path := joinPath bd.path name, identifier := bd.buildpack.ID ++ ":" ++ name }

/-- The first loop of `readBuildpackLayersDir`, over the entries of the directory: the
variables `bpDir`, `names` (a set, as the list of its elements) and `tomls`. -/
def readLayersEntries (path : String) :
    List FileInfo → bpLayersDir × List String × List String →
      bpLayersDir × List String × List String
  | [], s => s
  | fi :: rest, (bpDir, names, tomls) =>
    if fi.IsDir then
      readLayersEntries path rest
        ({ bpDir with layers := bpDir.layers ++ [bpDir.newBPLayer fi.Name] },
          names ++ [fi.Name], tomls)
    else if hasSuffix fi.Name ".toml" then
      readLayersEntries path rest (bpDir, names, tomls ++ [joinPath path fi.Name])
    else readLayersEntries path rest (bpDir, names, tomls)

/-- The message of the error for a `store.toml` that does not decode; `%q` writes the id
between double quotes. -/
def errDecodingStore (id : String) : String :=
  "failed decoding store.toml for buildpack " ++ dq ++ id ++ dq

/-- The last statement of the second loop of `readBuildpackLayersDir`: the layer of `name`
is added unless `names` holds the name. -/
def addTomlLayer (names : List String) (name : String) (bpDir : bpLayersDir) : bpLayersDir :=
  if name ∉ names then { bpDir with layers := bpDir.layers ++ [bpDir.newBPLayer name] }
  else bpDir

/-- The second loop of `readBuildpackLayersDir`, over the TOML files.  `mustParse` is
`api.MustParse` (declared outside `src/`), which gives no version for a text it panics on;
`none` stands for that panic.  For a file `build.toml` the buildpack API is parsed, then
the text `0.5`. -/
def readLayersTomls (buildpack : GroupBuildpack) (mustParse : String → Option ApiVersion)
    (decodeStore : String → Except BuildError StoreTOML) (names : List String) :
    List String → bpLayersDir → Option (Except BuildError bpLayersDir)
  | [], bpDir => some (.ok bpDir)
  | tf :: rest, bpDir =>
    let name := trimSuffix (pathBase tf) ".toml"
    if name = "store" then
      match decodeStore tf with
      | .error err => some (.error (BuildError.wrapped err (errDecodingStore buildpack.ID)))
      | .ok bpStore =>
        readLayersTomls buildpack mustParse decodeStore names rest
          { bpDir with store := some bpStore }
    else if name = "launch" then
      readLayersTomls buildpack mustParse decodeStore names rest bpDir
    else if name = "build" then
      match mustParse buildpack.API with
      | none => none
      | some v =>
        match mustParse "0.5" with
        | none => none
        | some w =>
          if v.Compare w ≥ 0 then
            readLayersTomls buildpack mustParse decodeStore names rest bpDir
          else
            readLayersTomls buildpack mustParse decodeStore names rest
              (addTomlLayer names name bpDir)
    else
      readLayersTomls buildpack mustParse decodeStore names rest (addTomlLayer names name bpDir)

/-- The call `sort.Slice` of `readBuildpackLayersDir`: the layers in increasing order of
their identifiers. -/
def sortLayers (layers : List bpLayer) : List bpLayer :=
  List.insertionSort (fun a b => stringLE a.identifier b.identifier = true) layers

/-- The part of `readBuildpackLayersDir` after the call of `ioutil.ReadDir`, `fis` being
the entries it returned. -/
def readLayersOf (path : String) (buildpack : GroupBuildpack)
    (mustParse : String → Option ApiVersion)
    (decodeStore : String → Except BuildError StoreTOML) (fis : List FileInfo) :
    Option (Except BuildError bpLayersDir) :=
  let bpDir : bpLayersDir :=
    { name := buildpack.ID, path := path, layers := [], buildpack := buildpack, store := none }
  match readLayersEntries path fis (bpDir, [], []) with
  | (bpDir, names, tomls) =>
    match readLayersTomls buildpack mustParse decodeStore names tomls bpDir with
    | none => none
    | some (.error err) => some (.error err)
    | some (.ok bpDir) => some (.ok { bpDir with layers := sortLayers bpDir.layers })

/-- The function `readBuildpackLayersDir`, given what `ioutil.ReadDir` returns for a path,
what decoding a `store.toml` gives and what `api.MustParse` gives; a directory that does
not exist has no entries, and `none` stands for a panic of `api.MustParse`. -/
def readBuildpackLayersDir (layersDir : String) (buildpack : GroupBuildpack)
    (mustParse : String → Option ApiVersion) (readDir : String → ReadDirResult)
    (decodeStore : String → Except BuildError StoreTOML) :
    Option (Except BuildError bpLayersDir) :=
  let path := joinPath layersDir (EscapeID buildpack.ID)
  match readDir path with
  | .failed err => some (.error err)
  | .notExist => readLayersOf path buildpack mustParse decodeStore []
  | .listed fis => readLayersOf path buildpack mustParse decodeStore fis

/-- A layers directory of buildpack `A` holding the directory `cache` and the files
`cache.toml`, `build.toml`, `launch.toml`, `store.toml` and `deps.toml`. -/
def scenarioLayerFiles : List FileInfo :=
  [{ Name := "cache", IsDir := true }, { Name := "cache.toml", IsDir := false },
   { Name := "build.toml", IsDir := false }, { Name := "launch.toml", IsDir := false },
   { Name := "store.toml", IsDir := false }, { Name := "deps.toml", IsDir := false }]

/-- A reading of `api.MustParse` on the texts of the scenarios: `0.4` and `0.5` parse, any
other text panics. -/
def scenarioMustParse (text : String) : Option ApiVersion :=
  if text = "0.4" then some ⟨0, 4⟩ else if text = "0.5" then some ⟨0, 5⟩ else none

/-- Whether the second loop of `readBuildpackLayersDir` adds a layer for a TOML file whose
name without `.toml` is `name`, as the claim about it words the cases: not for `store` and
`launch`, not for `build` when the parsed buildpack API `api` is at least 0.5, and not when
a directory of that name has given the layer already. -/
def tomlGivesLayer (api : Option ApiVersion) (names : List String) (name : String) : Bool :=
  decide (name ≠ "store") && decide (name ≠ "launch") &&
    !(decide (name = "build") &&
      (match api with
        | some v => decide (v.Compare ⟨0, 5⟩ ≥ 0)
        | none => true)) && decide (name ∉ names)

/-- The buildpack `A@1` of the layers scenarios, with the text `api` as its buildpack
API. -/
def scenarioLayersBuildpack (api : String) : GroupBuildpack :=
  { ID := "A", Version := "1", Optional := false, API := api, Homepage := "" }

/-- The environment calls of the loop of `Builder.Build` from position `i` of the group, as
the statement about the calls of a build words them: for every buildpack in turn, the calls
of `setupEnv` for its layers directory, each with the directory as its only argument. -/
def buildEnvCalls (sys : BuildSys) (layersDir : String) : Nat → List Buildpack → List EnvCall
  | _, [] => []
  | i, bp :: rest =>
    setupEnvCalls (sys.step i).layers (joinPath layersDir bp.EscapedID) ++
      buildEnvCalls sys layersDir (i + 1) rest

/-- Map read `plan[key]`, with `none` for a key that is absent. -/
def Plan.get (plan : Plan) (key : String) : Option (List (String × MetaValue)) :=
  match plan with
  | [] => none
  | (k, v) :: rest => if k = key then some v else Plan.get rest key

/-- The entry that the files of a plan directory give the BOM under `name`, as the
statement about `consumePlan` words it: the entry decoded from the last file of that name
that is not a directory and decodes to an entry that is not empty. -/
def bomEntryOf : List PlanFile → String → Option (List (String × MetaValue))
  | [], _ => none
  | f :: rest, name =>
    match bomEntryOf rest name with
    | some entry => some entry
    | none =>
      if f.IsDir = false ∧ f.Name = name then
        match f.decoded with
        | .ok entry => if entry.length > 0 then some entry else none
        | .error _ => none
      else none

/-- The plan directory of the build `scenarioBuildBom`: the file `some-dep` with the
top-level key `version = "some-version"`. -/
def scenarioPlanFiles : List PlanFile :=
  [{ Name := "some-dep", IsDir := false,
     decoded := .ok [("version", MetaValue.str "some-version")] }]

/-! ## Lemmas on the association-list map -/

theorem depMap.get_set_same (m : depMap) (k : String) (e : depEntry) :
    (m.set k e).get k = e := by
  induction m with
  | nil => simp [depMap.set, depMap.get]
  | cons hd tl ih =>
    obtain ⟨k', v⟩ := hd
    by_cases h : k' = k
    · simp [depMap.set, depMap.get, h]
    · simp [depMap.set, depMap.get, h, ih]

theorem depMap.get_set_other (m : depMap) (k k' : String) (e : depEntry) (h : k ≠ k') :
    (m.set k e).get k' = m.get k' := by
  induction m with
  | nil => simp [depMap.set, depMap.get, h]
  | cons hd tl ih =>
    obtain ⟨k0, v⟩ := hd
    by_cases h0 : k0 = k
    · subst h0
      simp [depMap.set, depMap.get, h]
    · by_cases h1 : k0 = k'
      · subst h1
        simp [depMap.set, depMap.get, h0]
      · simp [depMap.set, depMap.get, h0, h1, ih]

theorem depMap.mem_set (m : depMap) (k : String) (e : depEntry) (k' : String) (e' : depEntry)
    (h : (k', e') ∈ m.set k e) : (k' = k ∧ e' = e) ∨ (k', e') ∈ m := by
  induction m with
  | nil =>
    simp [depMap.set] at h
    exact Or.inl h
  | cons hd tl ih =>
    obtain ⟨k0, v⟩ := hd
    by_cases h0 : k0 = k
    · subst h0
      simp only [depMap.set, if_true, List.mem_cons, Prod.mk.injEq] at h
      rcases h with h | h
      · exact Or.inl h
      · exact Or.inr (List.mem_cons_of_mem _ h)
    · simp only [depMap.set, h0, if_false, List.mem_cons, Prod.mk.injEq] at h
      rcases h with h | h
      · right
        simp [h.1, h.2]
      · rcases ih h with h | h
        · exact Or.inl h
        · exact Or.inr (List.mem_cons_of_mem _ h)

theorem depMap.mem_keys_set (m : depMap) (k : String) (e : depEntry) (k' : String) :
    k' ∈ (m.set k e).map Prod.fst ↔ k' = k ∨ k' ∈ m.map Prod.fst := by
  induction m with
  | nil => simp [depMap.set]
  | cons hd tl ih =>
    obtain ⟨k0, v⟩ := hd
    by_cases h0 : k0 = k
    · subst h0
      simp [depMap.set]
    · simp only [depMap.set, h0, if_false, List.map_cons, List.mem_cons, ih]
      tauto

theorem depMap.nodup_set (m : depMap) (k : String) (e : depEntry)
    (h : (m.map Prod.fst).Nodup) : ((m.set k e).map Prod.fst).Nodup := by
  induction m with
  | nil => simp [depMap.set]
  | cons hd tl ih =>
    obtain ⟨k0, v⟩ := hd
    simp only [List.map_cons, List.nodup_cons] at h
    by_cases h0 : k0 = k
    · subst h0
      simp only [depMap.set, if_true, List.map_cons, List.nodup_cons]
      exact h
    · simp only [depMap.set, h0, if_false, List.map_cons, List.nodup_cons]
      refine ⟨?_, ih h.2⟩
      intro hk
      rcases (depMap.mem_keys_set tl k e k0).1 hk with hk | hk
      · exact h0 hk
      · exact h.1 hk

/-- A binding stored in a map with unique keys is what `get` reads at its key. -/
theorem depMap.get_of_mem (m : depMap) (k : String) (e : depEntry)
    (hnd : (m.map Prod.fst).Nodup) (h : (k, e) ∈ m) : m.get k = e := by
  induction m with
  | nil => simp at h
  | cons hd tl ih =>
    obtain ⟨k0, v⟩ := hd
    simp only [List.map_cons, List.nodup_cons] at hnd
    simp only [List.mem_cons, Prod.mk.injEq] at h
    rcases h with h | h
    · simp [depMap.get, h.1, h.2]
    · have hne : k0 ≠ k := by
        intro hk
        subst hk
        exact hnd.1 (List.mem_map_of_mem Prod.fst h)
      simp [depMap.get, hne, ih hnd.2 h]

/-- What `get` reads is either stored in the map or the zero value. -/
theorem depMap.get_mem_or_zero (m : depMap) (k : String) :
    (k, m.get k) ∈ m ∨ m.get k = depEntry.zero := by
  induction m with
  | nil => simp [depMap.get]
  | cons hd tl ih =>
    obtain ⟨k0, v⟩ := hd
    by_cases h0 : k0 = k
    · subst h0
      simp [depMap.get]
    · simp only [depMap.get, h0, if_false]
      rcases ih with h | h
      · exact Or.inl (List.mem_cons_of_mem _ h)
      · exact Or.inr h

/-! ## The invariant is kept -/

theorem EntryOK.zero (trial : detectTrial) (name : String) : EntryOK trial name depEntry.zero := by
  simp [EntryOK, depEntry.zero]

theorem MapOK.nil (trial : detectTrial) : MapOK trial [] := by
  simp [MapOK]

theorem MapOK.get {trial : detectTrial} {m : depMap} (h : MapOK trial m) (name : String) :
    EntryOK trial name (m.get name) := by
  rcases depMap.get_mem_or_zero m name with hm | hz
  · exact (h.2 _ _ hm).1
  · rw [hz]
    exact EntryOK.zero trial name

theorem MapOK.set {trial : detectTrial} {m : depMap} (h : MapOK trial m) (name : String)
    (e : depEntry) (he : EntryOK trial name e) (hl : e.Live) : MapOK trial (m.set name e) := by
  refine ⟨depMap.nodup_set m name e h.1, ?_⟩
  intro k e' hmem
  rcases depMap.mem_set m name e k e' hmem with ⟨hk, hee⟩ | hm
  · subst hk
    subst hee
    exact ⟨he, hl⟩
  · exact h.2 _ _ hm

theorem MapOK.provide {trial : detectTrial} {m : depMap} (h : MapOK trial m)
    (o : detectOption) (ho : o ∈ trial) (p : Provide) (hp : p ∈ o.Provides) :
    MapOK trial (m.provide o.toGroupBuildpack p) := by
  have hg := h.get p.Name
  obtain ⟨h1, h2, h3, h4, h5⟩ := hg
  unfold depMap.provide
  apply h.set
  · refine ⟨h1, h2, ?_, h4, h5⟩
    intro q hq
    simp only [List.mem_append, List.mem_singleton] at hq
    rcases hq with hq | hq
    · exact h3 q hq
    · exact ⟨o, ho, hq.symm, hp⟩
  · right; left
    simp

theorem MapOK.require {trial : detectTrial} {m : depMap} (h : MapOK trial m)
    (o : detectOption) (ho : o ∈ trial) (r : Require) :
    MapOK trial (m.require o.toGroupBuildpack r) := by
  have hg := h.get r.Name
  obtain ⟨h1, h2, h3, h4, h5⟩ := hg
  unfold depMap.require
  apply h.set
  · by_cases hlen : ((m.get r.Name).Providers ++ (m.get r.Name).extraProvides).length = 0
    · simp only [hlen, if_true]
      have hnil : (m.get r.Name).Providers ++ (m.get r.Name).extraProvides = [] :=
        List.length_eq_zero.1 hlen
      have hP : (m.get r.Name).Providers = [] := (List.append_eq_nil.1 hnil).1
      refine ⟨h1, ?_, ?_, ?_, ?_⟩
      · intro q hq
        simp [hnil] at hq
      · intro q hq
        simp at hq
      · intro q hq
        simp only [List.mem_append, List.mem_singleton] at hq
        rcases hq with hq | hq
        · exact h4 q hq
        · exact ⟨o, ho, hq.symm⟩
      · simp only [hnil, true_iff]
        exact h5.1 hP
    · simp only [hlen, if_false]
      have hne : (m.get r.Name).Providers ++ (m.get r.Name).extraProvides ≠ [] := by
        intro hc
        exact hlen (by simp [hc])
      refine ⟨?_, ?_, ?_, h4, ?_⟩
      · intro q hq
        simp only [List.mem_append, List.mem_singleton] at hq
        rcases hq with hq | hq
        · exact h1 q hq
        · rw [hq]
      · intro q hq
        simp only [List.mem_append] at hq
        rcases hq with hq | hq
        · exact h2 q hq
        · exact h3 q hq
      · intro q hq
        simp at hq
      · constructor
        · intro hc
          exact absurd hc hne
        · intro hc
          simp at hc
  · by_cases hlen : ((m.get r.Name).Providers ++ (m.get r.Name).extraProvides).length = 0
    · simp only [hlen, if_true]
      right; right
      simp
    · simp only [hlen, if_false]
      left
      intro hc
      exact hlen (List.length_eq_zero.2 hc)

theorem MapOK.provides {trial : detectTrial} (o : detectOption) (ho : o ∈ trial) :
    ∀ (ps : List Provide) (m : depMap), MapOK trial m → (∀ p ∈ ps, p ∈ o.Provides) →
      MapOK trial (ps.foldl (fun m p => m.provide o.toGroupBuildpack p) m) := by
  intro ps
  induction ps with
  | nil => intro m h _; exact h
  | cons p ps ih =>
    intro m h hps
    simp only [List.foldl_cons]
    apply ih
    · exact h.provide o ho p (hps p (List.mem_cons_self _ _))
    · intro q hq
      exact hps q (List.mem_cons_of_mem _ hq)

theorem MapOK.requires {trial : detectTrial} (o : detectOption) (ho : o ∈ trial) :
    ∀ (rs : List Require) (m : depMap), MapOK trial m →
      MapOK trial (rs.foldl (fun m r => m.require o.toGroupBuildpack r) m) := by
  intro rs
  induction rs with
  | nil => intro m h; exact h
  | cons r rs ih =>
    intro m h
    simp only [List.foldl_cons]
    exact ih _ (h.require o ho r)

theorem MapOK.addOption {trial : detectTrial} {m : depMap} (h : MapOK trial m)
    (o : detectOption) (ho : o ∈ trial) : MapOK trial (m.addOption o) := by
  unfold depMap.addOption
  exact MapOK.requires o ho _ _ (MapOK.provides o ho _ _ h (fun _ hp => hp))

theorem MapOK.foldl {trial : detectTrial} :
    ∀ (l : detectTrial) (m : depMap), MapOK trial m → (∀ o ∈ l, o ∈ trial) →
      MapOK trial (l.foldl depMap.addOption m) := by
  intro l
  induction l with
  | nil => intro m h _; exact h
  | cons o l ih =>
    intro m h hl
    simp only [List.foldl_cons]
    apply ih
    · exact h.addOption o (hl o (List.mem_cons_self _ _))
    · intro q hq
      exact hl q (List.mem_cons_of_mem _ hq)

/-- The dependency map of a trial satisfies the invariant for that trial. -/
theorem newDepMap_ok (trial : detectTrial) : MapOK trial (newDepMap trial) :=
  MapOK.foldl trial [] (MapOK.nil trial) (fun _ h => h)

/-! ## The loops over unmet requires and provides -/

theorem eachUnmetRequire_eq {σ ε : Type} (f : String → GroupBuildpack → σ → Except ε σ)
    (m : depMap) (s : σ) :
    depMap.eachUnmetRequire f m s = depMap.eachUnmet (fun e => e.earlyRequires) f m s := by
  induction m generalizing s with
  | nil => rfl
  | cons hd tl ih =>
    obtain ⟨k, e⟩ := hd
    cases hl : e.earlyRequires with
    | nil => simp [depMap.eachUnmetRequire, depMap.eachUnmet, hl, eachBuildpack, ih]
    | cons b bs =>
      simp only [depMap.eachUnmetRequire, depMap.eachUnmet, hl, List.length_cons, ne_eq,
        Nat.add_one_ne_zero, not_false_eq_true, if_true]
      cases eachBuildpack f k (b :: bs) s with
      | error e => rfl
      | ok s1 => exact ih s1

theorem eachUnmetProvide_eq {σ ε : Type} (f : String → GroupBuildpack → σ → Except ε σ)
    (m : depMap) (s : σ) :
    depMap.eachUnmetProvide f m s = depMap.eachUnmet (fun e => e.extraProvides) f m s := by
  induction m generalizing s with
  | nil => rfl
  | cons hd tl ih =>
    obtain ⟨k, e⟩ := hd
    cases hl : e.extraProvides with
    | nil => simp [depMap.eachUnmetProvide, depMap.eachUnmet, hl, eachBuildpack, ih]
    | cons b bs =>
      simp only [depMap.eachUnmetProvide, depMap.eachUnmet, hl, List.length_cons, ne_eq,
        Nat.add_one_ne_zero, not_false_eq_true, if_true]
      cases eachBuildpack f k (b :: bs) s with
      | error e => rfl
      | ok s1 => exact ih s1

/-- A property of the state that every successful call of the callback keeps is kept
by the inner loop. -/
theorem eachBuildpack_inv {σ ε : Type} (f : String → GroupBuildpack → σ → Except ε σ)
    (name : String) (P : σ → Prop) :
    ∀ (bps : List GroupBuildpack) (s s' : σ),
      (∀ bp ∈ bps, ∀ s s', P s → f name bp s = .ok s' → P s') →
      P s → eachBuildpack f name bps s = .ok s' → P s' := by
  intro bps
  induction bps with
  | nil =>
    intro s s' _ hP h
    simp only [eachBuildpack, Except.ok.injEq] at h
    exact h ▸ hP
  | cons bp bps ih =>
    intro s s' hf hP h
    simp only [eachBuildpack] at h
    cases hfs : f name bp s with
    | error e => simp [hfs] at h
    | ok s1 =>
      simp only [hfs] at h
      exact ih s1 s' (fun b hb => hf b (List.mem_cons_of_mem _ hb))
        (hf bp (List.mem_cons_self _ _) s s1 hP hfs) h

/-- A property of the state that every successful call of the callback on a listed
buildpack keeps is kept by the whole loop. -/
theorem eachUnmet_inv {σ ε : Type} (sel : depEntry → List GroupBuildpack)
    (f : String → GroupBuildpack → σ → Except ε σ) (P : σ → Prop) :
    ∀ (m : depMap) (s s' : σ),
      (∀ k bp, depMap.Listed sel m bp → ∀ s s', P s → f k bp s = .ok s' → P s') →
      P s → depMap.eachUnmet sel f m s = .ok s' → P s' := by
  intro m
  induction m with
  | nil =>
    intro s s' _ hP h
    simp only [depMap.eachUnmet, Except.ok.injEq] at h
    exact h ▸ hP
  | cons hd tl ih =>
    obtain ⟨k, e⟩ := hd
    intro s s' hf hP h
    simp only [depMap.eachUnmet] at h
    cases hfs : eachBuildpack f k (sel e) s with
    | error e => simp [hfs] at h
    | ok s1 =>
      simp only [hfs] at h
      have h1 : P s1 := by
        refine eachBuildpack_inv f k P (sel e) s s1 ?_ hP hfs
        intro bp hbp
        exact hf k bp ⟨k, e, List.mem_cons_self _ _, hbp⟩
      refine ih s1 s' ?_ h1 h
      intro k' bp hl
      obtain ⟨k2, e2, hmem, hb⟩ := hl
      exact hf k' bp ⟨k2, e2, List.mem_cons_of_mem _ hmem, hb⟩

/-- When the loop succeeds, either the callback was never called (nothing is listed
and the state is unchanged) or the final state satisfies what every successful call
establishes and keeps. -/
theorem eachUnmet_called {σ ε : Type} (sel : depEntry → List GroupBuildpack)
    (f : String → GroupBuildpack → σ → Except ε σ) (Q : σ → Prop)
    (hQ : ∀ k bp s s', f k bp s = .ok s' → Q s') :
    ∀ (m : depMap) (s s' : σ), depMap.eachUnmet sel f m s = .ok s' →
      (s' = s ∧ ∀ k e, (k, e) ∈ m → sel e = []) ∨ Q s' := by
  intro m
  induction m with
  | nil =>
    intro s s' h
    simp only [depMap.eachUnmet, Except.ok.injEq] at h
    left
    exact ⟨h.symm, by simp⟩
  | cons hd tl ih =>
    obtain ⟨k, e⟩ := hd
    intro s s' h
    simp only [depMap.eachUnmet] at h
    cases hfs : eachBuildpack f k (sel e) s with
    | error e => simp [hfs] at h
    | ok s1 =>
      simp only [hfs] at h
      cases hsel : sel e with
      | nil =>
        rw [hsel] at hfs
        simp only [eachBuildpack, Except.ok.injEq] at hfs
        subst hfs
        rcases ih s s' h with ⟨h1, h2⟩ | h3
        · left
          refine ⟨h1, ?_⟩
          intro k' e' hmem
          simp only [List.mem_cons, Prod.mk.injEq] at hmem
          rcases hmem with hmem | hmem
          · rw [hmem.2]; exact hsel
          · exact h2 k' e' hmem
        · exact Or.inr h3
      | cons b bs =>
        right
        have hQ1 : Q s1 := by
          rw [hsel] at hfs
          simp only [eachBuildpack] at hfs
          cases hb : f k b s with
          | error e => simp [hb] at hfs
          | ok s0 =>
            simp only [hb] at hfs
            exact eachBuildpack_inv f k Q bs s0 s1 (fun bp _ s s' _ h => hQ k bp s s' h)
              (hQ k b s s0 hb) hfs
        exact eachUnmet_inv sel f Q tl s1 s' (fun k bp _ s s' _ h => hQ k bp s s' h) hQ1 h

theorem eachBuildpack_error {σ ε : Type} (f : String → GroupBuildpack → σ → Except ε σ)
    (name : String) (R : ε → Prop) (hR : ∀ k bp s e, f k bp s = .error e → R e) :
    ∀ (bps : List GroupBuildpack) (s : σ) (e : ε),
      eachBuildpack f name bps s = .error e → R e := by
  intro bps
  induction bps with
  | nil => intro s e h; simp [eachBuildpack] at h
  | cons bp bps ih =>
    intro s e h
    simp only [eachBuildpack] at h
    cases hfs : f name bp s with
    | error e0 =>
      simp only [hfs, Except.error.injEq] at h
      exact h ▸ hR name bp s e0 hfs
    | ok s1 =>
      simp only [hfs] at h
      exact ih s1 e h

/-- Every error of the loop is an error of the callback. -/
theorem eachUnmet_error {σ ε : Type} (sel : depEntry → List GroupBuildpack)
    (f : String → GroupBuildpack → σ → Except ε σ) (R : ε → Prop)
    (hR : ∀ k bp s e, f k bp s = .error e → R e) :
    ∀ (m : depMap) (s : σ) (e : ε), depMap.eachUnmet sel f m s = .error e → R e := by
  intro m
  induction m with
  | nil => intro s e h; simp [depMap.eachUnmet] at h
  | cons hd tl ih =>
    obtain ⟨k, en⟩ := hd
    intro s e h
    simp only [depMap.eachUnmet] at h
    cases hfs : eachBuildpack f k (sel en) s with
    | error e0 =>
      simp only [hfs, Except.error.injEq] at h
      exact h ▸ eachBuildpack_error f k R hR (sel en) s e0 hfs
    | ok s1 =>
      simp only [hfs] at h
      exact ih s1 e h

theorem eachBuildpack_fails {σ ε : Type} (f : String → GroupBuildpack → σ → Except ε σ)
    (name : String) (bad : GroupBuildpack) (hbad : ∀ k s s', f k bad s ≠ .ok s') :
    ∀ (bps : List GroupBuildpack) (s s' : σ), bad ∈ bps →
      eachBuildpack f name bps s ≠ .ok s' := by
  intro bps
  induction bps with
  | nil => intro s s' h; simp at h
  | cons bp bps ih =>
    intro s s' hmem h
    simp only [eachBuildpack] at h
    cases hfs : f name bp s with
    | error e0 => simp [hfs] at h
    | ok s1 =>
      simp only [hfs] at h
      simp only [List.mem_cons] at hmem
      rcases hmem with hmem | hmem
      · subst hmem
        exact hbad name s s1 hfs
      · exact ih s1 s' hmem h

/-- The loop fails when a listed buildpack makes the callback fail. -/
theorem eachUnmet_fails {σ ε : Type} (sel : depEntry → List GroupBuildpack)
    (f : String → GroupBuildpack → σ → Except ε σ)
    (bad : GroupBuildpack) (hbad : ∀ k s s', f k bad s ≠ .ok s') :
    ∀ (m : depMap) (s s' : σ), depMap.Listed sel m bad →
      depMap.eachUnmet sel f m s ≠ .ok s' := by
  intro m
  induction m with
  | nil =>
    intro s s' hl
    obtain ⟨k, e, hmem, _⟩ := hl
    simp at hmem
  | cons hd tl ih =>
    obtain ⟨k, en⟩ := hd
    intro s s' hl h
    simp only [depMap.eachUnmet] at h
    cases hfs : eachBuildpack f k (sel en) s with
    | error e0 => simp [hfs] at h
    | ok s1 =>
      simp only [hfs] at h
      obtain ⟨k2, e2, hmem, hb⟩ := hl
      simp only [List.mem_cons, Prod.mk.injEq] at hmem
      rcases hmem with hmem | hmem
      · rw [hmem.2] at hb
        exact eachBuildpack_fails f k bad hbad (sel en) s s1 hb hfs
      · exact ih s1 s' ⟨k2, e2, hmem, hb⟩ h

theorem depMap.Listed.perm {sel : depEntry → List GroupBuildpack} {m m' : depMap}
    {bp : GroupBuildpack} (hp : m'.Perm m) (h : depMap.Listed sel m bp) :
    depMap.Listed sel m' bp := by
  obtain ⟨k, e, hmem, hb⟩ := h
  exact ⟨k, e, hp.mem_iff.2 hmem, hb⟩

/-! ## The callback of `runTrial` -/

theorem runTrialCallback_ok {name : String} {bp : GroupBuildpack} {s s' : detectTrial × Bool}
    (h : runTrialCallback name bp s = .ok s') :
    bp.Optional = true ∧ s' = (s.1.remove bp, true) := by
  unfold runTrialCallback at h
  cases hb : bp.Optional with
  | false => simp [hb] at h
  | true =>
    simp only [hb, Bool.not_true, Bool.false_eq_true, if_false, Except.ok.injEq] at h
    exact ⟨rfl, h.symm⟩

theorem runTrialCallback_error {name : String} {bp : GroupBuildpack} {s : detectTrial × Bool}
    {e : DetectError} (h : runTrialCallback name bp s = .error e) :
    e = DetectError.errFailedDetection := by
  unfold runTrialCallback at h
  cases hb : bp.Optional with
  | false =>
    simp only [hb, Bool.not_false, if_true, Except.error.injEq] at h
    exact h.symm
  | true => simp [hb] at h

theorem runTrialCallback_required {name : String} {bp : GroupBuildpack}
    (hb : bp.Optional = false) (s s' : detectTrial × Bool) :
    runTrialCallback name bp s ≠ .ok s' := by
  intro h
  have := (runTrialCallback_ok h).1
  rw [hb] at this
  exact Bool.false_ne_true this

theorem detectTrial.remove_sublist (ts : detectTrial) (bp : GroupBuildpack) :
    (ts.remove bp).Sublist ts :=
  List.filter_sublist ts

theorem detectTrial.mem_remove {ts : detectTrial} {bp : GroupBuildpack} {o : detectOption} :
    o ∈ ts.remove bp ↔ o ∈ ts ∧ o.toGroupBuildpack ≠ bp := by
  simp [detectTrial.remove]

/-- Removing a buildpack that an option of the trial carries makes the trial shorter. -/
theorem detectTrial.remove_length_lt {ts : detectTrial} {bp : GroupBuildpack}
    (h : ∃ o ∈ ts, o.toGroupBuildpack = bp) : (ts.remove bp).length < ts.length := by
  obtain ⟨o, ho, hbp⟩ := h
  unfold detectTrial.remove
  apply List.length_filter_lt_length_iff_exists.2
  exact ⟨o, ho, by simp [hbp]⟩

/-! ## One round of `runTrial` -/

theorem RoundInv.start (trial : detectTrial) : RoundInv trial (trial, false) :=
  ⟨List.Sublist.refl _, fun _ h _ => h, fun _ => rfl, fun h => by simp at h⟩

theorem RoundInv.callback {trial0 : detectTrial} {name : String} {bp : GroupBuildpack}
    {s s' : detectTrial × Bool} (hbp : ∃ o ∈ trial0, o.toGroupBuildpack = bp)
    (hs : RoundInv trial0 s) (h : runTrialCallback name bp s = .ok s') : RoundInv trial0 s' := by
  obtain ⟨hopt, hs'⟩ := runTrialCallback_ok h
  obtain ⟨h1, h2, h3, h4⟩ := hs
  subst hs'
  refine ⟨(detectTrial.remove_sublist _ _).trans h1, ?_, ?_, ?_⟩
  · intro o ho hreq
    refine detectTrial.mem_remove.2 ⟨h2 o ho hreq, ?_⟩
    intro hc
    rw [← hc, hreq] at hopt
    exact Bool.false_ne_true hopt
  · intro hc
    simp at hc
  · intro _
    cases hr : s.2 with
    | false =>
      have := h3 hr
      rw [this]
      exact detectTrial.remove_length_lt hbp
    | true =>
      exact lt_of_le_of_lt (detectTrial.remove_sublist _ _).length_le (h4 hr)

/-- A buildpack listed in the dependency map of a trial belongs to an option of it. -/
theorem listed_newDepMap {trial : detectTrial} {bp : GroupBuildpack}
    (h : depMap.Listed (fun e => e.earlyRequires) (newDepMap trial) bp ∨
      depMap.Listed (fun e => e.extraProvides) (newDepMap trial) bp) :
    ∃ o ∈ trial, o.toGroupBuildpack = bp := by
  have hok := newDepMap_ok trial
  rcases h with ⟨k, e, hmem, hb⟩ | ⟨k, e, hmem, hb⟩
  · exact (hok.2 k e hmem).1.2.2.2.1 bp hb
  · obtain ⟨o, ho, hbp, _⟩ := (hok.2 k e hmem).1.2.2.1 bp hb
    exact ⟨o, ho, hbp⟩

/-- One round of `runTrial` that ends without an error: the two passes over the
dependency map of `trial`, in any visiting orders `m1` and `m2`. -/
theorem round_ok {trial : detectTrial} {m1 m2 : depMap}
    (hm1 : m1.Perm (newDepMap trial)) (hm2 : m2.Perm (newDepMap trial))
    {s1 s2 : detectTrial × Bool}
    (h1 : depMap.eachUnmetRequire runTrialCallback m1 (trial, false) = .ok s1)
    (h2 : depMap.eachUnmetProvide runTrialCallback m2 s1 = .ok s2) :
    RoundInv trial s2 ∧ (s2.2 = false → (newDepMap trial).Met) := by
  rw [eachUnmetRequire_eq] at h1
  rw [eachUnmetProvide_eq] at h2
  have r1 : RoundInv trial s1 := by
    refine eachUnmet_inv _ runTrialCallback (RoundInv trial) m1 _ s1 ?_ (RoundInv.start trial) h1
    intro k bp hl s s' hs hcb
    exact RoundInv.callback (listed_newDepMap (Or.inl (hl.perm hm1.symm))) hs hcb
  have r2 : RoundInv trial s2 := by
    refine eachUnmet_inv _ runTrialCallback (RoundInv trial) m2 _ s2 ?_ r1 h2
    intro k bp hl s s' hs hcb
    exact RoundInv.callback (listed_newDepMap (Or.inr (hl.perm hm2.symm))) hs hcb
  refine ⟨r2, ?_⟩
  intro hretry
  have hQ : ∀ k bp (s s' : detectTrial × Bool), runTrialCallback k bp s = .ok s' → s'.2 = true := by
    intro k bp s s' h
    rw [(runTrialCallback_ok h).2]
  rcases eachUnmet_called _ runTrialCallback (fun s => s.2 = true) hQ m2 s1 s2 h2 with
    ⟨hs, hnone2⟩ | hc
  · rcases eachUnmet_called _ runTrialCallback (fun s => s.2 = true) hQ m1 _ s1 h1 with
      ⟨_, hnone1⟩ | hc
    · intro k e hmem
      exact ⟨hnone1 k e (hm1.mem_iff.2 hmem), hnone2 k e (hm2.mem_iff.2 hmem)⟩
    · rw [hs] at hretry
      have hc' : s1.2 = true := hc
      rw [hc'] at hretry
      exact absurd hretry (by simp)
  · have hc' : s2.2 = true := hc
    rw [hc'] at hretry
    exact absurd hretry (by simp)

/-! ## The retry loop of `runTrial` -/

/-- What an accepting run of the retry loop returns. -/
theorem runTrialLoop_ok (ord : MapOrder) (i : Nat) :
    ∀ (fuel k : Nat) (trial : detectTrial) (deps : depMap) (t : detectTrial),
      runTrialLoop ord i fuel k trial = some (.ok (deps, t)) →
      deps = newDepMap t ∧ t ≠ [] ∧ t.Sublist trial ∧
        (∀ o ∈ trial, o.Optional = false → o ∈ t) ∧ deps.Met := by
  intro fuel
  induction fuel with
  | zero => intro k trial deps t h; simp [runTrialLoop] at h
  | succ fuel ih =>
    intro k trial deps t h
    simp only [runTrialLoop] at h
    cases h1 : depMap.eachUnmetRequire runTrialCallback
        (ord.iter [i, k, 0] (newDepMap trial)) (trial, false) with
    | error e => simp [h1] at h
    | ok s1 =>
      simp only [h1] at h
      cases h2 : depMap.eachUnmetProvide runTrialCallback
          (ord.iter [i, k, 1] (newDepMap trial)) s1 with
      | error e => simp [h2] at h
      | ok s2 =>
        obtain ⟨t2, retry⟩ := s2
        simp only [h2] at h
        obtain ⟨⟨r1, r2, r3, r4⟩, hmet⟩ := round_ok (ord.perm _ _) (ord.perm _ _) h1 h2
        cases retry with
        | true =>
          simp only [if_true] at h
          obtain ⟨a, b, c, d, e⟩ := ih (k + 1) t2 deps t h
          refine ⟨a, b, c.trans r1, ?_, e⟩
          intro o ho hreq
          exact d o (r2 o ho hreq) (hreq)
        | false =>
          have ht2 : t2 = trial := r3 rfl
          subst ht2
          simp only [Bool.false_eq_true, if_false] at h
          by_cases hlen : t2.length = 0
          · simp [hlen] at h
          · simp only [hlen, if_false, Option.some.injEq, Except.ok.injEq, Prod.mk.injEq] at h
            obtain ⟨hd, ht⟩ := h
            subst ht
            subst hd
            refine ⟨rfl, ?_, List.Sublist.refl _, fun _ ho _ => ho, hmet rfl⟩
            intro hc
            exact hlen (by simp [hc])

/-- The only error of the retry loop is the failed-detection error. -/
theorem runTrialLoop_error (ord : MapOrder) (i : Nat) :
    ∀ (fuel k : Nat) (trial : detectTrial) (err : DetectError),
      runTrialLoop ord i fuel k trial = some (.error err) →
      err = DetectError.errFailedDetection := by
  intro fuel
  induction fuel with
  | zero => intro k trial err h; simp [runTrialLoop] at h
  | succ fuel ih =>
    intro k trial err h
    simp only [runTrialLoop] at h
    cases h1 : depMap.eachUnmetRequire runTrialCallback
        (ord.iter [i, k, 0] (newDepMap trial)) (trial, false) with
    | error e =>
      simp only [h1, Option.some.injEq, Except.error.injEq] at h
      rw [eachUnmetRequire_eq] at h1
      rw [← h]
      exact eachUnmet_error _ runTrialCallback (fun e => e = DetectError.errFailedDetection)
        (fun _ _ _ _ hcb => runTrialCallback_error hcb) _ _ e h1
    | ok s1 =>
      simp only [h1] at h
      cases h2 : depMap.eachUnmetProvide runTrialCallback
          (ord.iter [i, k, 1] (newDepMap trial)) s1 with
      | error e =>
        simp only [h2, Option.some.injEq, Except.error.injEq] at h
        rw [eachUnmetProvide_eq] at h2
        rw [← h]
        exact eachUnmet_error _ runTrialCallback (fun e => e = DetectError.errFailedDetection)
          (fun _ _ _ _ hcb => runTrialCallback_error hcb) _ _ e h2
      | ok s2 =>
        obtain ⟨t2, retry⟩ := s2
        simp only [h2] at h
        cases retry with
        | true =>
          simp only [if_true] at h
          exact ih (k + 1) t2 err h
        | false =>
          simp only [Bool.false_eq_true, if_false] at h
          by_cases hlen : t2.length = 0
          · simp only [hlen, if_true, Option.some.injEq, Except.error.injEq] at h
            exact h.symm
          · simp [hlen] at h

/-- The retry loop finishes within `len(trial) + 1` rounds. -/
theorem runTrialLoop_isSome (ord : MapOrder) (i : Nat) :
    ∀ (fuel k : Nat) (trial : detectTrial), trial.length < fuel →
      (runTrialLoop ord i fuel k trial).isSome = true := by
  intro fuel
  induction fuel with
  | zero => intro k trial h; simp at h
  | succ fuel ih =>
    intro k trial hlt
    simp only [runTrialLoop]
    cases h1 : depMap.eachUnmetRequire runTrialCallback
        (ord.iter [i, k, 0] (newDepMap trial)) (trial, false) with
    | error e => simp
    | ok s1 =>
      simp only
      cases h2 : depMap.eachUnmetProvide runTrialCallback
          (ord.iter [i, k, 1] (newDepMap trial)) s1 with
      | error e => simp
      | ok s2 =>
        obtain ⟨t2, retry⟩ := s2
        simp only
        obtain ⟨⟨_, _, _, r4⟩, _⟩ := round_ok (ord.perm _ _) (ord.perm _ _) h1 h2
        cases retry with
        | true =>
          simp only [if_true]
          apply ih
          have := r4 rfl
          simp only at this
          omega
        | false =>
          simp only [Bool.false_eq_true, if_false]
          by_cases hlen : t2.length = 0
          · simp [hlen]
          · simp [hlen]

/-- The method `runTrial` always returns. -/
theorem runTrial_isSome (ord : MapOrder) (i : Nat) (trial : detectTrial) :
    (runTrial ord i trial).isSome = true :=
  runTrialLoop_isSome ord i _ 0 trial (Nat.lt_succ_self _)

/-! ## Classification of the detect runs -/

theorem classify_foldl (l : List (GroupBuildpack × DetectRun)) :
    ∀ c : Classification,
      l.foldl (fun c p => classifyStep c p.1 p.2) c =
        { results := c.results ++ passing l,
          detected := c.detected && allSkippable l,
          buildpackErr := c.buildpackErr || anyErrored l } := by
  induction l with
  | nil => intro c; simp [passing, allSkippable, anyErrored]
  | cons p l ih =>
    intro c
    obtain ⟨bp, run⟩ := p
    simp only [List.foldl_cons, ih]
    by_cases h0 : run.Code = CodeDetectPass
    · have h100 : run.Code ≠ CodeDetectFail := by
        rw [h0]; decide
      simp [classifyStep, passing, allSkippable, anyErrored, h0]
    · by_cases h100 : run.Code = CodeDetectFail
      · have hs : classifyStep c bp run = { c with detected := c.detected && bp.Optional } := by
          unfold classifyStep
          rw [if_neg h0, if_pos h100]
        rw [hs]
        have hd : decide (run.Code = CodeDetectFail) = true := decide_eq_true h100
        simp [passing, allSkippable, anyErrored, h0, hd, Bool.and_assoc]
      · have hs : classifyStep c bp run =
            { c with buildpackErr := true, detected := c.detected && bp.Optional } := by
          unfold classifyStep
          rw [if_neg h0, if_neg h100]
          simp
        rw [hs]
        simp [passing, allSkippable, anyErrored, h0, h100, Bool.and_assoc]

/-- What the second loop of `process` computes. -/
theorem classify_eq (done : List GroupBuildpack) (loaded : List DetectRun) :
    classify done loaded =
      { results := passing (done.zip loaded),
        detected := allSkippable (done.zip loaded),
        buildpackErr := anyErrored (done.zip loaded) } := by
  unfold classify
  rw [classify_foldl]
  simp

/-! ## Trials of a list of results -/

theorem detectResult.options_ne_nil (r : detectResult) : r.options ≠ [] := by
  simp [detectResult.options, List.enum]

theorem runTrialsOptions_ok {σ : Type} (next : trialFunc σ) (pre : detectTrial) :
    ∀ (options : List detectOption) (lastErr : Option DetectError) (s : σ)
      (r : depMap × detectTrial) (s' : σ),
      runTrialsOptions next pre options lastErr s = some (.ok r, s') →
      (∃ o ∈ options, ∃ s0, next (pre ++ [o]) s0 = some (.ok r, s')) ∨ options = [] := by
  intro options
  induction options with
  | nil => intro lastErr s r s' _; exact Or.inr rfl
  | cons o os ih =>
    intro lastErr s r s' h
    left
    simp only [runTrialsOptions] at h
    cases hn : next (pre ++ [o]) s with
    | none => simp [hn] at h
    | some res =>
      obtain ⟨res, s1⟩ := res
      cases res with
      | ok r1 =>
        simp only [hn, Option.some.injEq, Prod.mk.injEq, Except.ok.injEq] at h
        exact ⟨o, List.mem_cons_self _ _, s, by rw [hn, h.1, h.2]⟩
      | error e =>
        simp only [hn] at h
        rcases ih (some e) s1 r s' h with ⟨o', ho', s0, h0⟩ | hnil
        · exact ⟨o', List.mem_cons_of_mem _ ho', s0, h0⟩
        · subst hnil
          simp [runTrialsOptions] at h

/-- An accepting result of `runTrialsFrom` is the result of the trial function on a
trial that extends the prefix by one option of each result. -/
theorem runTrialsFrom_ok {σ : Type} (f : trialFunc σ) :
    ∀ (rs : detectResults) (pre : detectTrial) (s : σ) (r : depMap × detectTrial) (s' : σ),
      runTrialsFrom f rs pre s = some (.ok r, s') →
      ∃ sel s0, PicksFrom rs sel ∧ f (pre ++ sel) s0 = some (.ok r, s') := by
  intro rs
  induction rs with
  | nil =>
    intro pre s r s' h
    simp only [runTrialsFrom] at h
    exact ⟨[], s, List.Forall₂.nil, by simpa using h⟩
  | cons res rs ih =>
    intro pre s r s' h
    simp only [runTrialsFrom] at h
    rcases runTrialsOptions_ok _ pre res.options none s r s' h with ⟨o, ho, s0, h0⟩ | hnil
    · obtain ⟨sel, s1, hsel, hf⟩ := ih (pre ++ [o]) s0 r s' h0
      refine ⟨o :: sel, s1, List.Forall₂.cons ho hsel, ?_⟩
      simpa using hf
    · exact absurd hnil res.options_ne_nil

/-- A plan that `resolve` returns comes from a trial that `runTrial` accepted. -/
theorem resolve_ok {ord : MapOrder} {results : detectResults}
    {found : List GroupBuildpack} {plan : List BuildPlanEntry}
    (h : resolve ord results = some (.ok (found, plan))) :
    ∃ trial0 i deps t, PicksFrom results trial0 ∧
      runTrial ord i trial0 = some (.ok (deps, t)) ∧
      found = t.map (fun r => r.toGroupBuildpack.noOpt) ∧
      plan = (ord.iter [] deps).map (fun dep => dep.2.toBuildPlanEntry.noOpt) := by
  unfold resolve at h
  cases hr : runTrials results (processTrialFunc ord) 0 with
  | none => simp [hr] at h
  | some res =>
    obtain ⟨res, s1⟩ := res
    cases res with
    | error e => simp [hr] at h
    | ok r =>
      obtain ⟨deps, t⟩ := r
      simp only [hr, Option.some.injEq, Except.ok.injEq, Prod.mk.injEq] at h
      obtain ⟨sel, s0, hsel, hf⟩ := runTrialsFrom_ok _ results [] 0 (deps, t) s1 hr
      simp only [List.nil_append, processTrialFunc] at hf
      cases hrt : runTrial ord (s0 + 1) sel with
      | none => simp [hrt] at hf
      | some r0 =>
        simp only [hrt, Option.some.injEq, Prod.mk.injEq] at hf
        refine ⟨sel, s0 + 1, deps, t, hsel, ?_, h.1.symm, h.2.symm⟩
        rw [hrt, hf.1]

/-- A plan that `process` returns is the plan `resolve` returns on the results of
the buildpacks that passed. -/
theorem process_ok {ord : MapOrder} {runs : Runs} {done : List GroupBuildpack}
    {found : List GroupBuildpack} {plan : List BuildPlanEntry}
    (h : process ord runs done = some (.ok (found, plan))) :
    ∃ loaded, loadRuns runs done = .ok loaded ∧
      resolve ord (passing (done.zip loaded)) = some (.ok (found, plan)) := by
  unfold process at h
  cases hl : loadRuns runs done with
  | error e => simp [hl] at h
  | ok loaded =>
    simp only [hl, classify_eq] at h
    refine ⟨loaded, rfl, ?_⟩
    cases hd : allSkippable (done.zip loaded) with
    | false =>
      simp only [hd, Bool.not_false, if_true] at h
      split at h <;> simp at h
    | true =>
      simpa [hd] using h

/-! ## From the search down to `process` -/

theorem groupDetectLoop_fromProcess (c : DetectConfig)
    (orderDetect : BuildpackOrder → List GroupBuildpack → List GroupBuildpack → Bool → Runs →
      DetectOutcome)
    (ho : ∀ order done next optional runs,
      FromProcess c.ord (orderDetect order done next optional runs)) :
    ∀ (members done : List GroupBuildpack) (runs : Runs),
      FromProcess c.ord (BuildpackGroup.detectLoop c orderDetect members done runs) := by
  intro members
  induction members with
  | nil =>
    intro done runs found plan runs' h
    simp only [BuildpackGroup.detectLoop] at h
    cases hp : process c.ord runs done with
    | none => simp [hp] at h
    | some r =>
      simp only [hp, Option.some.injEq, Prod.mk.injEq] at h
      exact ⟨runs, done, by rw [hp, h.1]⟩
  | cons bp rest ih =>
    intro done runs found plan runs' h
    simp only [BuildpackGroup.detectLoop] at h
    by_cases hid : hasID done bp.ID = true
    · simp only [hid, if_true] at h
      exact ih done runs found plan runs' h
    · simp only [hid, Bool.false_eq_true, if_false] at h
      cases hl : c.Lookup bp with
      | error msg => simp [hl] at h
      | ok info =>
        simp only [hl] at h
        cases hord : info.Order with
        | some order =>
          simp only [hord] at h
          exact ho _ _ _ _ _ found plan runs' h
        | none =>
          simp only [hord] at h
          exact ih _ _ found plan runs' h

theorem orderDetectLoop_fromProcess (ord : MapOrder)
    (groupDetect : BuildpackGroup → List GroupBuildpack → Runs → DetectOutcome)
    (hg : ∀ g done runs, FromProcess ord (groupDetect g done runs))
    (done : List GroupBuildpack) (ngroup : BuildpackGroup) (optional : Bool) :
    ∀ (groups : List BuildpackGroup) (buildpackErr : Bool) (runs : Runs),
      FromProcess ord
        (BuildpackOrder.detectLoop groupDetect done ngroup optional groups buildpackErr runs) := by
  intro groups
  induction groups with
  | nil =>
    intro b runs found plan runs' h
    simp only [BuildpackOrder.detectLoop] at h
    cases optional with
    | true =>
      simp only [if_true] at h
      exact hg _ _ _ found plan runs' h
    | false =>
      cases b <;> simp at h
  | cons g groups ih =>
    intro b runs found plan runs' h
    simp only [BuildpackOrder.detectLoop] at h
    split at h
    · simp at h
    · exact ih _ _ found plan runs' h
    · exact ih _ _ found plan runs' h
    · rename_i r runs1 _ _ heq
      simp only [Option.some.injEq, Prod.mk.injEq] at h
      exact hg _ _ _ found plan runs1 (by rw [heq, h.1])

/-- A group and plan selected by `BuildpackGroup.detect` were returned by `process`. -/
theorem groupDetect_fromProcess (c : DetectConfig) :
    ∀ (fuel : Nat) (bg : BuildpackGroup) (done : List GroupBuildpack) (runs : Runs),
      FromProcess c.ord (BuildpackGroup.detect c fuel bg done runs) := by
  intro fuel
  induction fuel with
  | zero =>
    intro bg done runs found plan runs' h
    simp [BuildpackGroup.detect] at h
  | succ fuel ih =>
    intro bg done runs
    simp only [BuildpackGroup.detect]
    apply groupDetectLoop_fromProcess
    intro order done next optional runs
    exact orderDetectLoop_fromProcess c.ord _ (fun g d r => ih g d r) _ _ _ _ _ _

/-- A group and plan selected by `BuildpackOrder.detect` were returned by `process`. -/
theorem orderDetect_fromProcess (c : DetectConfig) (fuel : Nat) (bo : BuildpackOrder)
    (done next : List GroupBuildpack) (optional : Bool) (runs : Runs) :
    FromProcess c.ord (BuildpackOrder.detect c fuel bo done next optional runs) :=
  orderDetectLoop_fromProcess c.ord _
    (fun g d r => groupDetect_fromProcess c fuel g d r) _ _ _ _ _ _

theorem finishDetect_ok {r : Except DetectError (List GroupBuildpack × List BuildPlanEntry)}
    {g : BuildpackGroup} {p : BuildPlan} (h : finishDetect r = .ok (g, p)) :
    ∃ found plan, r = .ok (found, plan) ∧ g = { Group := found } ∧
      p = { Entries := plan.map fun e =>
        { e with Requires := e.Requires.map Require.convertVersionToMetadata } } := by
  unfold finishDetect at h
  split at h
  · simp at h
  · simp at h
  · simp at h
  · rename_i bps entries
    simp only [Except.ok.injEq, Prod.mk.injEq] at h
    exact ⟨bps, entries, rfl, h.1.symm, h.2.symm⟩

/-- A plan returned by plan resolution is, up to the conversion of the versions of its
requires, a plan that `process` returned. -/
theorem ReturnedPlan.fromProcess {plan : List BuildPlanEntry} (h : ReturnedPlan plan) :
    ∃ ord runs done found plan0, process ord runs done = some (.ok (found, plan0)) ∧
      ∃ conv : Require → Require, (∀ r, (conv r).Name = r.Name) ∧
        plan = plan0.map fun e => { e with Requires := e.Requires.map conv } := by
  rcases h with ⟨ord, runs, done, found, h⟩ | ⟨c, fuel, bg, runs, g, h⟩ | ⟨c, fuel, bo, runs, g, h⟩
  · refine ⟨ord, runs, done, found, plan, h, id, fun _ => rfl, ?_⟩
    simp
  · unfold BuildpackGroup.Detect at h
    simp only at h
    split at h
    · simp at h
    · rename_i r runs' heq
      simp only [Option.some.injEq] at h
      obtain ⟨found, plan0, hr, _, hp⟩ := finishDetect_ok h
      subst hr
      obtain ⟨runs0, done, hproc⟩ := groupDetect_fromProcess c fuel bg [] _ found plan0 runs' heq
      refine ⟨c.ord, runs0, done, found, plan0, hproc, Require.convertVersionToMetadata, ?_, ?_⟩
      · intro r
        unfold Require.convertVersionToMetadata
        split <;> rfl
      · simpa using hp
  · unfold BuildpackOrder.Detect at h
    simp only at h
    split at h
    · simp at h
    · rename_i r runs' heq
      simp only [Option.some.injEq] at h
      obtain ⟨found, plan0, hr, _, hp⟩ := finishDetect_ok h
      subst hr
      obtain ⟨runs0, done, hproc⟩ :=
        orderDetect_fromProcess c fuel bo [] [] false _ found plan0 runs' heq
      refine ⟨c.ord, runs0, done, found, plan0, hproc, Require.convertVersionToMetadata, ?_, ?_⟩
      · intro r
        unfold Require.convertVersionToMetadata
        split <;> rfl
      · simpa using hp

/-! ## Accepted plans -/

/-- What `resolve` returns when it accepts: the group and plan of a non-empty trial `t`
whose dependency map has nothing unmet, `t` being what is left of a trial that picks
one option per result. -/
theorem resolve_accepts {ord : MapOrder} {results : detectResults}
    {found : List GroupBuildpack} {plan : List BuildPlanEntry}
    (h : resolve ord results = some (.ok (found, plan))) :
    ∃ trial0 t, PicksFrom results trial0 ∧ t.Sublist trial0 ∧ t ≠ [] ∧
      found = t.map (fun r => r.toGroupBuildpack.noOpt) ∧
      plan = (ord.iter [] (newDepMap t)).map (fun dep => dep.2.toBuildPlanEntry.noOpt) ∧
      (newDepMap t).Met := by
  obtain ⟨trial0, i, deps, t, hpick, hrun, hfound, hplan⟩ := resolve_ok h
  obtain ⟨hdeps, hne, hsub, _, hmet⟩ := runTrialLoop_ok ord i _ 0 trial0 deps t hrun
  subst hdeps
  exact ⟨trial0, t, hpick, hsub, hne, hfound, hplan, hmet⟩

/-- An entry of a dependency map with nothing unmet has providers and requires. -/
theorem met_entry {t : detectTrial} (hmet : (newDepMap t).Met) {k : String} {e : depEntry}
    (hmem : (k, e) ∈ newDepMap t) :
    EntryOK t k e ∧ e.Providers ≠ [] ∧ e.Requires ≠ [] := by
  obtain ⟨hok, hlive⟩ := (newDepMap_ok t).2 k e hmem
  obtain ⟨h1, h2⟩ := hmet k e hmem
  have hP : e.Providers ≠ [] := by
    rcases hlive with h | h | h
    · exact h
    · exact absurd h2 h
    · exact absurd h1 h
  exact ⟨hok, hP, fun hc => hP (hok.2.2.2.2.2 hc)⟩

/-- Claim C1: every entry of a plan returned without error by plan resolution
(`process`, `BuildpackGroup.Detect`, `BuildpackOrder.Detect`) has at least one provider
and at least one require. -/
theorem plan_entries_have_provider_and_require (plan : List BuildPlanEntry)
    (h : ReturnedPlan plan) :
    ∀ e ∈ plan, e.Providers ≠ [] ∧ e.Requires ≠ [] := by
  obtain ⟨ord, runs, done, found, plan0, hproc, conv, _, hplan⟩ := h.fromProcess
  obtain ⟨loaded, _, hres⟩ := process_ok hproc
  obtain ⟨trial0, t, _, _, _, _, hp0, hmet⟩ := resolve_accepts hres
  intro e he
  rw [hplan, hp0] at he
  simp only [List.map_map, List.mem_map, Function.comp] at he
  obtain ⟨⟨k, de⟩, hmem, hee⟩ := he
  have hmem' : (k, de) ∈ newDepMap t := (ord.perm [] _).mem_iff.1 hmem
  obtain ⟨_, hP, hR⟩ := met_entry hmet hmem'
  rw [← hee]
  simp only [BuildPlanEntry.noOpt, ne_eq, List.map_eq_nil_iff]
  exact ⟨hP, hR⟩

/-- Witness of `plan_entries_have_provider_and_require`: the plan of scenario "single group
passes", returned by `BuildpackOrder.Detect` on the order `[[A, B]]`. -/
theorem plan_entries_have_provider_and_require_witness :
    BuildpackOrder.Detect scenarioPass 1 [{ Group := [bpRef "A" false, bpRef "B" false] }] none =
        some (.ok ({ Group := [{ bpRef "A" false with API := "0.4" },
                               { bpRef "B" false with API := "0.4" }] },
                   { Entries := scenarioPassPlan })) ∧
      ∀ e ∈ scenarioPassPlan, e.Providers ≠ [] ∧ e.Requires ≠ [] :=
  ⟨rfl, plan_entries_have_provider_and_require scenarioPassPlan
    (Or.inr (Or.inr ⟨scenarioPass, 1, [{ Group := [bpRef "A" false, bpRef "B" false] }], none,
      _, rfl⟩))⟩

/-- Claim C2: in a plan returned without error by plan resolution, all requires of one
entry carry the same dependency name, and the requires of two different entries never
carry the same name. -/
theorem plan_entry_names_unique (plan : List BuildPlanEntry) (h : ReturnedPlan plan) :
    (∀ e ∈ plan, ∀ r1 ∈ e.Requires, ∀ r2 ∈ e.Requires, r1.Name = r2.Name) ∧
      plan.Pairwise (fun e1 e2 => ∀ r1 ∈ e1.Requires, ∀ r2 ∈ e2.Requires, r1.Name ≠ r2.Name) := by
  obtain ⟨ord, runs, done, found, plan0, hproc, conv, hconv, hplan⟩ := h.fromProcess
  obtain ⟨loaded, _, hres⟩ := process_ok hproc
  obtain ⟨trial0, t, _, _, _, _, hp0, hmet⟩ := resolve_accepts hres
  have hname : ∀ k de, (k, de) ∈ ord.iter [] (newDepMap t) →
      ∀ r ∈ de.Requires, (conv r).Name = k := by
    intro k de hmem r hr
    have hmem' : (k, de) ∈ newDepMap t := (ord.perm [] _).mem_iff.1 hmem
    rw [hconv]
    exact (met_entry hmet hmem').1.1 r hr
  rw [hplan, hp0]
  simp only [List.map_map]
  constructor
  · intro e he r1 hr1 r2 hr2
    simp only [List.mem_map, Function.comp] at he
    obtain ⟨⟨k, de⟩, hmem, hee⟩ := he
    rw [← hee] at hr1 hr2
    simp only [BuildPlanEntry.noOpt, List.mem_map] at hr1 hr2
    obtain ⟨q1, hq1, rfl⟩ := hr1
    obtain ⟨q2, hq2, rfl⟩ := hr2
    rw [hname k de hmem q1 hq1, hname k de hmem q2 hq2]
  · rw [List.pairwise_map]
    have hnd : ((ord.iter [] (newDepMap t)).map Prod.fst).Nodup :=
      ((ord.perm [] (newDepMap t)).map Prod.fst).nodup_iff.2 (newDepMap_ok t).1
    have hpw : (ord.iter [] (newDepMap t)).Pairwise (fun a b => a.1 ≠ b.1) := by
      rw [List.Nodup, List.pairwise_map] at hnd
      exact hnd
    refine hpw.imp_of_mem ?_
    intro a b ha hb hab r1 hr1 r2 hr2
    obtain ⟨ka, da⟩ := a
    obtain ⟨kb, db⟩ := b
    simp only [Function.comp, BuildPlanEntry.noOpt, List.mem_map] at hr1 hr2
    obtain ⟨q1, hq1, rfl⟩ := hr1
    obtain ⟨q2, hq2, rfl⟩ := hr2
    rw [hname ka da ha q1 hq1, hname kb db hb q2 hq2]
    exact hab

/-- Witness of `plan_entry_names_unique`: the two-entry plan that `BuildpackGroup.Detect`
returns on the group `[A, B]` of `scenarioTwoNames`. -/
theorem plan_entry_names_unique_witness :
    BuildpackGroup.Detect scenarioTwoNames 1 { Group := [bpRef "A" false, bpRef "B" false] } none =
        some (.ok ({ Group := [{ bpRef "A" false with API := "0.4" },
                               { bpRef "B" false with API := "0.4" }] },
                   { Entries := scenarioTwoNamesPlan })) ∧
      ((∀ e ∈ scenarioTwoNamesPlan, ∀ r1 ∈ e.Requires, ∀ r2 ∈ e.Requires, r1.Name = r2.Name) ∧
        scenarioTwoNamesPlan.Pairwise
          (fun e1 e2 => ∀ r1 ∈ e1.Requires, ∀ r2 ∈ e2.Requires, r1.Name ≠ r2.Name)) :=
  ⟨rfl, plan_entry_names_unique scenarioTwoNamesPlan
    (Or.inr (Or.inl ⟨scenarioTwoNames, 1, { Group := [bpRef "A" false, bpRef "B" false] }, none,
      _, rfl⟩))⟩

/-! ## Where the options of a plan come from -/

theorem loadRuns_zip {runs : Runs} :
    ∀ {done : List GroupBuildpack} {loaded : List DetectRun},
      loadRuns runs done = .ok loaded →
      ∀ bp run, (bp, run) ∈ done.zip loaded → bp ∈ done ∧ runs.Load bp.String = some run := by
  intro done
  induction done with
  | nil => intro loaded _ bp run hmem; simp at hmem
  | cons b rest ih =>
    intro loaded h bp run hmem
    simp only [loadRuns] at h
    cases hl : runs.Load b.String with
    | none => simp [hl] at h
    | some r0 =>
      simp only [hl] at h
      cases hrest : loadRuns runs rest with
      | error e => simp [hrest] at h
      | ok out =>
        simp only [hrest, Except.ok.injEq] at h
        subst h
        simp only [List.zip_cons_cons, List.mem_cons, Prod.mk.injEq] at hmem
        rcases hmem with ⟨hb, hr⟩ | hmem
        · subst hb
          subst hr
          exact ⟨List.mem_cons_self _ _, hl⟩
        · obtain ⟨h1, h2⟩ := ih hrest bp run hmem
          exact ⟨List.mem_cons_of_mem _ h1, h2⟩

theorem PicksFrom.mem {results : detectResults} {sel : detectTrial} (h : PicksFrom results sel) :
    ∀ o ∈ sel, ∃ r ∈ results, o ∈ r.options := by
  unfold PicksFrom at h
  induction h with
  | nil => intro o ho; simp at ho
  | cons hhd _ ih =>
    intro o ho
    simp only [List.mem_cons] at ho
    rcases ho with ho | ho
    · subst ho
      exact ⟨_, List.mem_cons_self _ _, hhd⟩
    · obtain ⟨r, hr, hor⟩ := ih o ho
      exact ⟨r, List.mem_cons_of_mem _ hr, hor⟩

/-- Claim C3: when `process` returns a plan, the plan is that of an accepted trial `t`
(the selected group lists its buildpacks, and each of its options is an option of the
detect run of a buildpack of the group); every provider of every entry is the
buildpack of an option of `t` whose section provides the name that the requires of the
entry carry. -/
theorem plan_providers_provide_name (ord : MapOrder) (runs : Runs) (done : List GroupBuildpack)
    (found : List GroupBuildpack) (plan : List BuildPlanEntry)
    (h : process ord runs done = some (.ok (found, plan))) :
    ∃ t : detectTrial, found = t.map (fun o => o.toGroupBuildpack.noOpt) ∧
      (∀ o ∈ t, ∃ bp ∈ done, ∃ run, runs.Load bp.String = some run ∧
        o ∈ (detectResult.mk bp run).options) ∧
      ∀ e ∈ plan, ∀ p ∈ e.Providers, ∀ r ∈ e.Requires,
        ∃ o ∈ t, o.toGroupBuildpack.noOpt.noAPI.noHomepage = p ∧ Provide.mk r.Name ∈ o.Provides := by
  obtain ⟨loaded, hload, hres⟩ := process_ok h
  obtain ⟨trial0, t, hpick, hsub, _, hfound, hp0, hmet⟩ := resolve_accepts hres
  refine ⟨t, hfound, ?_, ?_⟩
  · intro o ho
    obtain ⟨r, hr, hor⟩ := hpick.mem o (hsub.subset ho)
    simp only [passing, List.mem_map, List.mem_filter] at hr
    obtain ⟨⟨bp, run⟩, ⟨hzip, _⟩, hrr⟩ := hr
    obtain ⟨hbp, hrun⟩ := loadRuns_zip hload bp run hzip
    exact ⟨bp, hbp, run, hrun, by rw [hrr]; exact hor⟩
  · intro e he p hp r hr
    rw [hp0] at he
    simp only [List.mem_map] at he
    obtain ⟨⟨k, de⟩, hmem, hee⟩ := he
    have hmem' : (k, de) ∈ newDepMap t := (ord.perm [] _).mem_iff.1 hmem
    obtain ⟨hok, _, _⟩ := met_entry hmet hmem'
    rw [← hee] at hp hr
    simp only [BuildPlanEntry.noOpt, List.mem_map] at hp hr
    obtain ⟨q, hq, rfl⟩ := hp
    obtain ⟨o, ho, hoq, hprov⟩ := hok.2.1 q hq
    refine ⟨o, ho, by rw [hoq], ?_⟩
    rw [hok.1 r hr]
    exact hprov

/-- Witness of `plan_providers_provide_name`: `process` on the leaves `[A, B]` and the runs of
scenario "single group passes". -/
theorem plan_providers_provide_name_witness :
    process MapOrder.insertion scenarioPassRuns [bpRef "A" false, bpRef "B" false] =
        some (.ok ([bpRef "A" false, bpRef "B" false], scenarioPassPlan)) ∧
      ∃ t : detectTrial,
        [bpRef "A" false, bpRef "B" false] = t.map (fun o => o.toGroupBuildpack.noOpt) ∧
        (∀ o ∈ t, ∃ bp ∈ [bpRef "A" false, bpRef "B" false], ∃ run,
          scenarioPassRuns.Load bp.String = some run ∧ o ∈ (detectResult.mk bp run).options) ∧
        ∀ e ∈ scenarioPassPlan, ∀ p ∈ e.Providers, ∀ r ∈ e.Requires,
          ∃ o ∈ t, o.toGroupBuildpack.noOpt.noAPI.noHomepage = p ∧
            Provide.mk r.Name ∈ o.Provides :=
  ⟨rfl, plan_providers_provide_name MapOrder.insertion scenarioPassRuns
    [bpRef "A" false, bpRef "B" false] _ scenarioPassPlan rfl⟩

/-- Claim C6: when `runTrial` accepts, the trial it returns is not empty, is a subsequence
of the input trial (same relative order) and holds every non-optional option of the
input; the dependency map it returns is the one computed from the returned trial, and
that map has no early require and no unused provide under any name. -/
theorem runTrial_accepts (ord : MapOrder) (i : Nat) (trial : detectTrial) (deps : depMap)
    (t : detectTrial) (h : runTrial ord i trial = some (.ok (deps, t))) :
    t ≠ [] ∧ t.Sublist trial ∧ (∀ o ∈ trial, o.Optional = false → o ∈ t) ∧
      deps = newDepMap t ∧
      ∀ name, (deps.get name).earlyRequires = [] ∧ (deps.get name).extraProvides = [] := by
  obtain ⟨hdeps, hne, hsub, hkeep, hmet⟩ := runTrialLoop_ok ord i _ 0 trial deps t h
  refine ⟨hne, hsub, hkeep, hdeps, ?_⟩
  intro name
  rcases depMap.get_mem_or_zero deps name with hm | hz
  · exact hmet _ _ hm
  · rw [hz]
    exact ⟨rfl, rfl⟩

/-- Witness of `runTrial_accepts`: the optional first option of `trialWithEarlyRequire` is
dropped and the second one is kept. -/
theorem runTrial_accepts_witness :
    runTrial MapOrder.insertion 1 trialWithEarlyRequire =
        some (.ok (newDepMap (trialWithEarlyRequire.drop 1), trialWithEarlyRequire.drop 1)) ∧
      (trialWithEarlyRequire.drop 1 ≠ [] ∧
        (trialWithEarlyRequire.drop 1).Sublist trialWithEarlyRequire ∧
        (∀ o ∈ trialWithEarlyRequire, o.Optional = false → o ∈ trialWithEarlyRequire.drop 1) ∧
        newDepMap (trialWithEarlyRequire.drop 1) = newDepMap (trialWithEarlyRequire.drop 1) ∧
        ∀ name, ((newDepMap (trialWithEarlyRequire.drop 1)).get name).earlyRequires = [] ∧
          ((newDepMap (trialWithEarlyRequire.drop 1)).get name).extraProvides = []) :=
  ⟨rfl, runTrial_accepts MapOrder.insertion 1 trialWithEarlyRequire _ _ rfl⟩

/-! ## Following one name through the stream -/

theorem depMap.get_provide_other (m : depMap) (bp : GroupBuildpack) (p : Provide) (name : String)
    (h : p.Name ≠ name) : (m.provide bp p).get name = m.get name := by
  unfold depMap.provide
  exact depMap.get_set_other m _ _ _ h

theorem depMap.get_require_other (m : depMap) (bp : GroupBuildpack) (r : Require) (name : String)
    (h : r.Name ≠ name) : (m.require bp r).get name = m.get name := by
  unfold depMap.require
  exact depMap.get_set_other m _ _ _ h

theorem depMap.get_provide_same (m : depMap) (bp : GroupBuildpack) (p : Provide) :
    (m.provide bp p).get p.Name =
      { m.get p.Name with extraProvides := (m.get p.Name).extraProvides ++ [bp] } := by
  unfold depMap.provide
  exact depMap.get_set_same m _ _

/-- A require on a name that nothing provides so far is recorded as early, and the
name stays unprovided. -/
theorem depMap.require_unprovided (m : depMap) (bp : GroupBuildpack) (r : Require)
    (h : m.Unprovided r.Name) :
    (m.require bp r).Unprovided r.Name ∧ bp ∈ ((m.require bp r).get r.Name).earlyRequires := by
  obtain ⟨h1, h2⟩ := h
  unfold depMap.Unprovided depMap.require
  rw [depMap.get_set_same]
  simp [h1, h2]

/-- Early requires are never taken back. -/
theorem depMap.early_provide (m : depMap) (bp : GroupBuildpack) (p : Provide) (name : String)
    (b : GroupBuildpack) (h : b ∈ (m.get name).earlyRequires) :
    b ∈ ((m.provide bp p).get name).earlyRequires := by
  by_cases hn : p.Name = name
  · subst hn
    rw [depMap.get_provide_same]
    exact h
  · rw [depMap.get_provide_other m bp p name hn]
    exact h

theorem depMap.early_require (m : depMap) (bp : GroupBuildpack) (r : Require) (name : String)
    (b : GroupBuildpack) (h : b ∈ (m.get name).earlyRequires) :
    b ∈ ((m.require bp r).get name).earlyRequires := by
  by_cases hn : r.Name = name
  · subst hn
    unfold depMap.require
    rw [depMap.get_set_same]
    simp only
    split
    · exact List.mem_append_left _ h
    · exact h
  · rw [depMap.get_require_other m bp r name hn]
    exact h

theorem depMap.early_provides (bp : GroupBuildpack) (name : String) (b : GroupBuildpack) :
    ∀ (ps : List Provide) (m : depMap), b ∈ (m.get name).earlyRequires →
      b ∈ ((ps.foldl (fun m p => m.provide bp p) m).get name).earlyRequires := by
  intro ps
  induction ps with
  | nil => intro m h; exact h
  | cons p ps ih => intro m h; exact ih _ (depMap.early_provide m bp p name b h)

theorem depMap.early_requires (bp : GroupBuildpack) (name : String) (b : GroupBuildpack) :
    ∀ (rs : List Require) (m : depMap), b ∈ (m.get name).earlyRequires →
      b ∈ ((rs.foldl (fun m r => m.require bp r) m).get name).earlyRequires := by
  intro rs
  induction rs with
  | nil => intro m h; exact h
  | cons r rs ih => intro m h; exact ih _ (depMap.early_require m bp r name b h)

theorem depMap.early_addOption (m : depMap) (q : detectOption) (name : String)
    (b : GroupBuildpack) (h : b ∈ (m.get name).earlyRequires) :
    b ∈ ((m.addOption q).get name).earlyRequires := by
  unfold depMap.addOption
  exact depMap.early_requires _ name b _ _ (depMap.early_provides _ name b _ _ h)

theorem depMap.early_foldl (name : String) (b : GroupBuildpack) :
    ∀ (l : detectTrial) (m : depMap), b ∈ (m.get name).earlyRequires →
      b ∈ ((l.foldl depMap.addOption m).get name).earlyRequires := by
  intro l
  induction l with
  | nil => intro m h; exact h
  | cons q l ih => intro m h; exact ih _ (depMap.early_addOption m q name b h)

theorem depMap.unprovided_provides (bp : GroupBuildpack) (name : String) :
    ∀ (ps : List Provide) (m : depMap), (∀ p ∈ ps, p.Name ≠ name) → m.Unprovided name →
      (ps.foldl (fun m p => m.provide bp p) m).Unprovided name := by
  intro ps
  induction ps with
  | nil => intro m _ h; exact h
  | cons p ps ih =>
    intro m hps h
    simp only [List.foldl_cons]
    apply ih
    · intro q hq
      exact hps q (List.mem_cons_of_mem _ hq)
    · unfold depMap.Unprovided
      rw [depMap.get_provide_other m bp p name (hps p (List.mem_cons_self _ _))]
      exact h

theorem depMap.unprovided_requires (bp : GroupBuildpack) (name : String) :
    ∀ (rs : List Require) (m : depMap), m.Unprovided name →
      (rs.foldl (fun m r => m.require bp r) m).Unprovided name := by
  intro rs
  induction rs with
  | nil => intro m h; exact h
  | cons r rs ih =>
    intro m h
    simp only [List.foldl_cons]
    apply ih
    by_cases hn : r.Name = name
    · subst hn
      exact (depMap.require_unprovided m bp r h).1
    · unfold depMap.Unprovided
      rw [depMap.get_require_other m bp r name hn]
      exact h

theorem depMap.unprovided_foldl (name : String) :
    ∀ (l : detectTrial) (m : depMap), (∀ q ∈ l, ∀ p ∈ q.Provides, p.Name ≠ name) →
      m.Unprovided name → (l.foldl depMap.addOption m).Unprovided name := by
  intro l
  induction l with
  | nil => intro m _ h; exact h
  | cons q l ih =>
    intro m hl h
    simp only [List.foldl_cons]
    apply ih
    · intro q' hq'
      exact hl q' (List.mem_cons_of_mem _ hq')
    · unfold depMap.addOption
      exact depMap.unprovided_requires _ name _ _
        (depMap.unprovided_provides _ name _ _ (hl q (List.mem_cons_self _ _)) h)

/-- Streaming requires, one of them on `name`, into a map in which nothing provides
`name` records the buildpack as an early require of `name`. -/
theorem depMap.requires_early (bp : GroupBuildpack) (name : String) :
    ∀ (rs : List Require) (m : depMap), (∃ r ∈ rs, r.Name = name) → m.Unprovided name →
      bp ∈ ((rs.foldl (fun m r => m.require bp r) m).get name).earlyRequires := by
  intro rs
  induction rs with
  | nil => intro m h _; simp at h
  | cons r rs ih =>
    intro m hex h
    simp only [List.foldl_cons]
    by_cases hn : r.Name = name
    · subst hn
      exact depMap.early_requires bp _ bp rs _ (depMap.require_unprovided m bp r h).2
    · apply ih
      · obtain ⟨r', hr', hname⟩ := hex
        simp only [List.mem_cons] at hr'
        rcases hr' with hr' | hr'
        · subst hr'
          exact absurd hname hn
        · exact ⟨r', hr', hname⟩
      · unfold depMap.Unprovided
        rw [depMap.get_require_other m bp r name hn]
        exact h

/-- An option that requires a name provided neither by it nor by an earlier option is
an early require of that name in the dependency map of the trial. -/
theorem newDepMap_early (pre post : detectTrial) (o : detectOption) (name : String)
    (hr : ∃ r ∈ o.Requires, r.Name = name)
    (hp : ∀ q ∈ pre ++ [o], ∀ p ∈ q.Provides, p.Name ≠ name) :
    o.toGroupBuildpack ∈ ((newDepMap (pre ++ o :: post)).get name).earlyRequires := by
  unfold newDepMap
  rw [List.foldl_append, List.foldl_cons]
  apply depMap.early_foldl
  have h0 : (pre.foldl depMap.addOption []).Unprovided name := by
    apply depMap.unprovided_foldl
    · intro q hq
      exact hp q (List.mem_append_left _ hq)
    · exact ⟨rfl, rfl⟩
  unfold depMap.addOption
  apply depMap.requires_early _ name _ _ hr
  exact depMap.unprovided_provides _ name _ _ (hp o (by simp)) h0

theorem depMap.extra_provide (m : depMap) (bp : GroupBuildpack) (p : Provide) (name : String)
    (b : GroupBuildpack) (h : b ∈ (m.get name).extraProvides) :
    b ∈ ((m.provide bp p).get name).extraProvides := by
  by_cases hn : p.Name = name
  · subst hn
    rw [depMap.get_provide_same]
    exact List.mem_append_left _ h
  · rw [depMap.get_provide_other m bp p name hn]
    exact h

theorem depMap.extra_provides (bp : GroupBuildpack) (name : String) (b : GroupBuildpack) :
    ∀ (ps : List Provide) (m : depMap), b ∈ (m.get name).extraProvides →
      b ∈ ((ps.foldl (fun m p => m.provide bp p) m).get name).extraProvides := by
  intro ps
  induction ps with
  | nil => intro m h; exact h
  | cons p ps ih => intro m h; exact ih _ (depMap.extra_provide m bp p name b h)

theorem depMap.extra_requires (bp : GroupBuildpack) (name : String) (b : GroupBuildpack) :
    ∀ (rs : List Require) (m : depMap), (∀ r ∈ rs, r.Name ≠ name) →
      b ∈ (m.get name).extraProvides →
      b ∈ ((rs.foldl (fun m r => m.require bp r) m).get name).extraProvides := by
  intro rs
  induction rs with
  | nil => intro m _ h; exact h
  | cons r rs ih =>
    intro m hrs h
    simp only [List.foldl_cons]
    apply ih
    · intro q hq
      exact hrs q (List.mem_cons_of_mem _ hq)
    · rw [depMap.get_require_other m bp r name (hrs r (List.mem_cons_self _ _))]
      exact h

theorem depMap.extra_foldl (name : String) (b : GroupBuildpack) :
    ∀ (l : detectTrial) (m : depMap), (∀ q ∈ l, ∀ r ∈ q.Requires, r.Name ≠ name) →
      b ∈ (m.get name).extraProvides →
      b ∈ ((l.foldl depMap.addOption m).get name).extraProvides := by
  intro l
  induction l with
  | nil => intro m _ h; exact h
  | cons q l ih =>
    intro m hl h
    simp only [List.foldl_cons]
    apply ih
    · intro q' hq'
      exact hl q' (List.mem_cons_of_mem _ hq')
    · unfold depMap.addOption
      exact depMap.extra_requires _ name b _ _ (hl q (List.mem_cons_self _ _))
        (depMap.extra_provides _ name b _ _ h)

/-- Streaming provides, one of them of `name`, records the buildpack as an unused
provide of `name`. -/
theorem depMap.provides_extra (bp : GroupBuildpack) (name : String) :
    ∀ (ps : List Provide) (m : depMap), (∃ p ∈ ps, p.Name = name) →
      bp ∈ ((ps.foldl (fun m p => m.provide bp p) m).get name).extraProvides := by
  intro ps
  induction ps with
  | nil => intro m h; simp at h
  | cons p ps ih =>
    intro m hex
    simp only [List.foldl_cons]
    by_cases hn : p.Name = name
    · subst hn
      apply depMap.extra_provides
      rw [depMap.get_provide_same]
      simp
    · apply ih
      obtain ⟨p', hp', hname⟩ := hex
      simp only [List.mem_cons] at hp'
      rcases hp' with hp' | hp'
      · subst hp'
        exact absurd hname hn
      · exact ⟨p', hp', hname⟩

/-- An option that provides a name required neither by it nor by a later option is an
unused provide of that name in the dependency map of the trial. -/
theorem newDepMap_extra (pre post : detectTrial) (o : detectOption) (name : String)
    (hp : ∃ p ∈ o.Provides, p.Name = name)
    (hr : ∀ q ∈ o :: post, ∀ r ∈ q.Requires, r.Name ≠ name) :
    o.toGroupBuildpack ∈ ((newDepMap (pre ++ o :: post)).get name).extraProvides := by
  unfold newDepMap
  rw [List.foldl_append, List.foldl_cons]
  apply depMap.extra_foldl
  · intro q hq
    exact hr q (List.mem_cons_of_mem _ hq)
  · unfold depMap.addOption
    apply depMap.extra_requires _ name _ _ _ (hr o (List.mem_cons_self _ _))
    exact depMap.provides_extra _ name _ _ hp

/-- A buildpack that `get` finds in a list of the entry of `name` is listed in the map. -/
theorem depMap.listed_of_get (sel : depEntry → List GroupBuildpack) (hz : sel depEntry.zero = [])
    (m : depMap) (name : String) (bp : GroupBuildpack) (h : bp ∈ sel (m.get name)) :
    depMap.Listed sel m bp := by
  rcases depMap.get_mem_or_zero m name with hm | hzero
  · exact ⟨name, m.get name, hm, h⟩
  · rw [hzero, hz] at h
    simp at h

/-- A pass over a map that lists a non-optional buildpack fails with the
failed-detection error. -/
theorem eachUnmet_required (sel : depEntry → List GroupBuildpack) (m : depMap)
    (bp : GroupBuildpack) (hopt : bp.Optional = false) (hl : depMap.Listed sel m bp)
    (s : detectTrial × Bool) :
    depMap.eachUnmet sel runTrialCallback m s = .error DetectError.errFailedDetection := by
  cases h : depMap.eachUnmet sel runTrialCallback m s with
  | error e =>
    rw [eachUnmet_error sel runTrialCallback (fun e => e = DetectError.errFailedDetection)
      (fun _ _ _ _ hcb => runTrialCallback_error hcb) m s e h]
  | ok s' =>
    exact absurd h (eachUnmet_fails sel runTrialCallback bp
      (fun _ s s' => runTrialCallback_required hopt s s') m s s' hl)

/-- Claim C5: a trial in which a non-optional option requires a name that neither an
earlier option nor the option itself provides, or provides a name that neither the
option itself nor a later option requires, is rejected by `runTrial` with the
failed-detection error. -/
theorem runTrial_rejects (ord : MapOrder) (i : Nat) (pre post : detectTrial) (o : detectOption)
    (name : String) (hopt : o.Optional = false)
    (h : ((∃ r ∈ o.Requires, r.Name = name) ∧ ∀ q ∈ pre ++ [o], ∀ p ∈ q.Provides, p.Name ≠ name) ∨
      ((∃ p ∈ o.Provides, p.Name = name) ∧ ∀ q ∈ o :: post, ∀ r ∈ q.Requires, r.Name ≠ name)) :
    runTrial ord i (pre ++ o :: post) = some (.error DetectError.errFailedDetection) := by
  unfold runTrial
  simp only [runTrialLoop]
  rcases h with ⟨hr, hp⟩ | ⟨hp, hr⟩
  · have hl : depMap.Listed (fun e => e.earlyRequires)
        (ord.iter [i, 0, 0] (newDepMap (pre ++ o :: post))) o.toGroupBuildpack :=
      (depMap.listed_of_get _ rfl _ name _ (newDepMap_early pre post o name hr hp)).perm
        (ord.perm _ _)
    rw [eachUnmetRequire_eq, eachUnmet_required _ _ _ hopt hl]
  · have hl : depMap.Listed (fun e => e.extraProvides)
        (ord.iter [i, 0, 1] (newDepMap (pre ++ o :: post))) o.toGroupBuildpack :=
      (depMap.listed_of_get _ rfl _ name _ (newDepMap_extra pre post o name hp hr)).perm
        (ord.perm _ _)
    cases h1 : depMap.eachUnmetRequire runTrialCallback
        (ord.iter [i, 0, 0] (newDepMap (pre ++ o :: post))) (pre ++ o :: post, false) with
    | error e =>
      rw [eachUnmetRequire_eq] at h1
      rw [eachUnmet_error _ runTrialCallback (fun e => e = DetectError.errFailedDetection)
        (fun _ _ _ _ hcb => runTrialCallback_error hcb) _ _ e h1]
    | ok s1 =>
      simp only
      rw [eachUnmetProvide_eq, eachUnmet_required _ _ _ hopt hl]

/-- Witness of `runTrial_rejects`: the non-optional `B` requires `x`, which only the later
`A` provides. -/
theorem runTrial_rejects_witness :
    runTrial MapOrder.reversed 1
        ([] ++ { toGroupBuildpack := bpRef "B" false,
                 Requires := [{ Name := "x", Version := "", Metadata := none }],
                 Provides := [] } ::
          [{ toGroupBuildpack := bpRef "A" false, Requires := [],
             Provides := [{ Name := "x" }] }]) =
      some (.error DetectError.errFailedDetection) :=
  runTrial_rejects MapOrder.reversed 1 [] _ _ "x" rfl
    (Or.inl ⟨⟨_, List.mem_cons_self _ _, rfl⟩, by decide⟩)

/-! ## The gate of `process` -/

theorem MapOrder.iter_nil (ord : MapOrder) (tag : List Nat) : ord.iter tag [] = [] :=
  List.Perm.eq_nil (ord.perm tag [])

theorem allSkippable_eq_false {l : List (GroupBuildpack × DetectRun)} :
    allSkippable l = false ↔ ∃ p ∈ l, p.1.Optional = false ∧ p.2.Code ≠ CodeDetectPass := by
  unfold allSkippable
  rw [← Bool.not_eq_true, List.all_eq_true]
  constructor
  · intro h
    by_contra hc
    apply h
    intro p hp
    by_cases h0 : p.2.Code = CodeDetectPass
    · simp [h0]
    · cases hopt : p.1.Optional with
      | true => simp
      | false => exact absurd ⟨p, hp, hopt, h0⟩ hc
  · intro ⟨p, hp, hopt, h0⟩ h
    have := h p hp
    simp [hopt, h0] at this

theorem anyErrored_eq_true {l : List (GroupBuildpack × DetectRun)} :
    anyErrored l = true ↔ ∃ p ∈ l, p.2.Code ≠ CodeDetectPass ∧ p.2.Code ≠ CodeDetectFail := by
  unfold anyErrored
  simp [List.any_eq_true]

theorem detectResult.options_noOpt (r : detectResult) :
    ∀ o ∈ r.options, o.toGroupBuildpack.noOpt = r.toGroupBuildpack.noOpt := by
  intro o ho
  simp only [detectResult.options, List.mem_map] at ho
  obtain ⟨⟨i, s⟩, _, rfl⟩ := ho
  rfl

/-- Claim C7: with the runs of all buildpacks of the group loaded, `process` fails ahead
of plan resolution exactly when a non-optional buildpack has a code other than 0: then
the error is the buildpack error if some buildpack, optional or not, has a code other
than 0 and 100, and the failed-detection error if none has; otherwise `process` is plan
resolution over the buildpacks that passed, so a selected group holds only buildpacks
whose code is 0.  On the order `[[A, B optional]]` with `A` passing and `B` exiting 100
the selected group is `[A]` and the plan is empty, for every map order. -/
theorem process_gate (ord : MapOrder) (runs : Runs) (done : List GroupBuildpack)
    (loaded : List DetectRun) (h : loadRuns runs done = .ok loaded) :
    ((∃ p ∈ done.zip loaded, p.1.Optional = false ∧ p.2.Code ≠ CodeDetectPass) →
      ((∃ p ∈ done.zip loaded, p.2.Code ≠ CodeDetectPass ∧ p.2.Code ≠ CodeDetectFail) →
        process ord runs done = some (.error DetectError.errBuildpack)) ∧
      ((¬ ∃ p ∈ done.zip loaded, p.2.Code ≠ CodeDetectPass ∧ p.2.Code ≠ CodeDetectFail) →
        process ord runs done = some (.error DetectError.errFailedDetection))) ∧
    ((¬ ∃ p ∈ done.zip loaded, p.1.Optional = false ∧ p.2.Code ≠ CodeDetectPass) →
      process ord runs done = resolve ord (passing (done.zip loaded))) ∧
    (∀ found plan, process ord runs done = some (.ok (found, plan)) →
      ∀ g ∈ found, ∃ p ∈ done.zip loaded, p.2.Code = CodeDetectPass ∧ g = p.1.noOpt) ∧
    (∀ ord' : MapOrder,
      BuildpackOrder.Detect (scenarioOptionalDrop ord') 1
          [{ Group := [bpRef "A" false, bpRef "B" true] }] none =
        some (.ok ({ Group := [{ bpRef "A" false with API := "0.4" }] }, { Entries := [] }))) := by
  refine ⟨?_, ?_, ?_, ?_⟩
  · intro hfail
    have hd : allSkippable (done.zip loaded) = false := allSkippable_eq_false.2 hfail
    constructor
    · intro herr
      have he : anyErrored (done.zip loaded) = true := anyErrored_eq_true.2 herr
      simp [process, h, classify_eq, hd, he]
    · intro herr
      have he : anyErrored (done.zip loaded) = false := by
        rw [← Bool.not_eq_true, anyErrored_eq_true]
        exact herr
      simp [process, h, classify_eq, hd, he]
  · intro hpass
    have hd : allSkippable (done.zip loaded) = true := by
      rw [← Bool.not_eq_false, allSkippable_eq_false]
      exact hpass
    simp [process, h, classify_eq, hd]
  · intro found plan hproc g hg
    obtain ⟨loaded', hload, hres⟩ := process_ok hproc
    rw [h] at hload
    simp only [Except.ok.injEq] at hload
    subst hload
    obtain ⟨trial0, t, hpick, hsub, _, hfound, _, _⟩ := resolve_accepts hres
    rw [hfound] at hg
    simp only [List.mem_map] at hg
    obtain ⟨o, ho, rfl⟩ := hg
    obtain ⟨r, hr, hor⟩ := hpick.mem o (hsub.subset ho)
    simp only [passing, List.mem_map, List.mem_filter, decide_eq_true_eq] at hr
    obtain ⟨p, ⟨hzip, hcode⟩, rfl⟩ := hr
    exact ⟨p, hzip, hcode, detectResult.options_noOpt _ o hor⟩
  · intro ord'
    simp [BuildpackOrder.Detect, BuildpackOrder.detect, BuildpackOrder.detectLoop,
      BuildpackGroup.detect, BuildpackGroup.detectLoop, BuildpackGroup.append, hasID, bpRef,
      scenarioOptionalDrop, leafStore, Runs.Load, Runs.Store, GroupBuildpack.String, runWith,
      process, loadRuns, classify, classifyStep, CodeDetectPass, CodeDetectFail, resolve, runTrials,
      runTrialsFrom, runTrialsOptions, detectResult.options, List.enum, List.enumFrom,
      processTrialFunc, runTrial, runTrialLoop, newDepMap, depMap.addOption, MapOrder.iter_nil,
      depMap.eachUnmetRequire, depMap.eachUnmetProvide, finishDetect, GroupBuildpack.noOpt]

/-- Witness of `process_gate`: on the leaves `[A, B optional]` of scenario "optional drop",
where `B` exits 100, `process` goes on to plan resolution over `A` alone. -/
theorem process_gate_witness :
    loadRuns scenarioOptionalDropRuns [bpRef "A" false, bpRef "B" true] =
        .ok [runWith 0 [] [], runWith 100 [] []] ∧
      process MapOrder.insertion scenarioOptionalDropRuns [bpRef "A" false, bpRef "B" true] =
        resolve MapOrder.insertion
          (passing ([bpRef "A" false, bpRef "B" true].zip [runWith 0 [] [], runWith 100 [] []])) :=
  ⟨rfl, (process_gate MapOrder.insertion scenarioOptionalDropRuns
    [bpRef "A" false, bpRef "B" true] [runWith 0 [] [], runWith 100 [] []] rfl).2.1 (by decide)⟩

/-- Claim C8: a group none of whose buildpacks passes detect is never selected, `process`
returns an error.  With all runs loaded no result enters plan resolution, and plan
resolution over no result fails with the failed-detection error, the empty trial having
no leaf; so when every buildpack of the group is optional (the empty group included)
the error of `process` is the failed-detection error. -/
theorem group_without_pass_fails (ord : MapOrder) (runs : Runs) (done : List GroupBuildpack)
    (hnone : ∀ bp ∈ done, ∀ run, runs.Load bp.String = some run → run.Code ≠ CodeDetectPass) :
    (∃ err, process ord runs done = some (.error err)) ∧
    (∀ loaded, loadRuns runs done = .ok loaded →
      passing (done.zip loaded) = [] ∧
      resolve ord [] = some (.error DetectError.errFailedDetection) ∧
      ((∀ bp ∈ done, bp.Optional = true) →
        process ord runs done = some (.error DetectError.errFailedDetection))) := by
  have hres : resolve ord [] = some (.error DetectError.errFailedDetection) := by
    simp [resolve, runTrials, runTrialsFrom, processTrialFunc, runTrial, runTrialLoop, newDepMap,
      MapOrder.iter_nil, depMap.eachUnmetRequire, depMap.eachUnmetProvide]
  have hpass : ∀ loaded, loadRuns runs done = .ok loaded → passing (done.zip loaded) = [] := by
    intro loaded hl
    simp only [passing, List.map_eq_nil_iff, List.filter_eq_nil_iff, decide_eq_true_eq]
    intro p hp
    obtain ⟨hbp, hrun⟩ := loadRuns_zip hl p.1 p.2 hp
    exact hnone p.1 hbp p.2 hrun
  constructor
  · cases hl : loadRuns runs done with
    | error e => exact ⟨e, by simp [process, hl]⟩
    | ok loaded =>
      simp only [process, hl, classify_eq, hpass loaded hl, hres]
      cases allSkippable (done.zip loaded) with
      | true => exact ⟨DetectError.errFailedDetection, by simp⟩
      | false =>
        cases anyErrored (done.zip loaded) with
        | true => exact ⟨DetectError.errBuildpack, by simp⟩
        | false => exact ⟨DetectError.errFailedDetection, by simp⟩
  · intro loaded hl
    refine ⟨hpass loaded hl, hres, ?_⟩
    intro hopt
    have hd : allSkippable (done.zip loaded) = true := by
      rw [← Bool.not_eq_false, allSkippable_eq_false]
      intro ⟨p, hp, hreq, _⟩
      have := hopt p.1 (loadRuns_zip hl p.1 p.2 hp).1
      rw [hreq] at this
      exact Bool.false_ne_true this
    simp [process, hl, classify_eq, hd, hpass loaded hl, hres]

/-- Witness of `group_without_pass_fails`: the group `[B optional]` with `B` exiting 100. -/
theorem group_without_pass_fails_witness :
    process MapOrder.insertion [("B@1", runWith 100 [] [])] [bpRef "B" true] =
      some (.error DetectError.errFailedDetection) :=
  (group_without_pass_fails MapOrder.insertion [("B@1", runWith 100 [] [])] [bpRef "B" true]
    (by
      intro bp hbp run hrun
      simp only [List.mem_singleton] at hbp
      subst hbp
      simp only [Runs.Load, GroupBuildpack.String, bpRef] at hrun
      have hrun' : runWith 100 [] [] = run := by simpa using hrun
      rw [← hrun']
      decide)).2 [runWith 100 [] []] rfl |>.2.2 (by decide)

/-! ## Searching an order -/

/-- After groups that fall through, the loop of `BuildpackOrder.detect` goes on with what
is left of the order. -/
theorem orderDetectLoop_fallsThrough
    (groupDetect : BuildpackGroup → List GroupBuildpack → Runs → DetectOutcome)
    (done : List GroupBuildpack) (ngroup : BuildpackGroup) (optional : Bool)
    (rest : List BuildpackGroup) :
    ∀ (pre : List BuildpackGroup) (b : Bool) (runs : Runs) (b1 : Bool) (runs1 : Runs),
      FallsThrough groupDetect done ngroup pre b runs b1 runs1 →
      BuildpackOrder.detectLoop groupDetect done ngroup optional (pre ++ rest) b runs =
        BuildpackOrder.detectLoop groupDetect done ngroup optional rest b1 runs1 := by
  intro pre
  induction pre with
  | nil =>
    intro b runs b1 runs1 h
    obtain ⟨hb, hr⟩ := h
    rw [hb, hr]
    rfl
  | cons g pre ih =>
    intro b runs b1 runs1 h
    obtain ⟨runs0, h | h⟩ := h
    · simp only [List.cons_append, BuildpackOrder.detectLoop, h.1]
      exact ih _ _ _ _ h.2
    · simp only [List.cons_append, BuildpackOrder.detectLoop, h.1]
      exact ih _ _ _ _ h.2

/-- Claim C9: `BuildpackOrder.detect` returns the result of the first group of the order
whose evaluation does not fail with the failed-detection or the buildpack error, be it a
selected group or an error of another kind, together with the runs map as that group
left it; the groups after it play no part, whatever they are. -/
theorem order_first_result (c : DetectConfig) (fuel : Nat) (pre post : List BuildpackGroup)
    (g : BuildpackGroup) (done next : List GroupBuildpack) (optional : Bool) (runs : Runs)
    (b1 : Bool) (runs1 runs2 : Runs)
    (r : Except DetectError (List GroupBuildpack × List BuildPlanEntry))
    (hpre : FallsThrough (fun g d r => BuildpackGroup.detect c fuel g d r) done { Group := next }
      pre false runs b1 runs1)
    (hg : BuildpackGroup.detect c fuel (g.append [{ Group := next }]) done runs1 = some (r, runs2))
    (hr : r ≠ .error DetectError.errFailedDetection ∧ r ≠ .error DetectError.errBuildpack) :
    BuildpackOrder.detect c fuel (pre ++ g :: post) done next optional runs = some (r, runs2) := by
  unfold BuildpackOrder.detect
  rw [orderDetectLoop_fallsThrough _ done _ optional (g :: post) pre false runs b1 runs1 hpre]
  simp only [BuildpackOrder.detectLoop, hg]
  split
  · rename_i heq
    simp at heq
  · rename_i heq
    simp only [Option.some.injEq, Prod.mk.injEq] at heq
    exact absurd heq.1 hr.2
  · rename_i heq
    simp only [Option.some.injEq, Prod.mk.injEq] at heq
    exact absurd heq.1 hr.1
  · rename_i heq
    exact heq.symm

/-- Witness of `order_first_result`: on the order `[[A], [B]]` with `A` exiting 100 and `B`
exiting 0 the group `[B]` is selected. -/
theorem order_first_result_witness :
    BuildpackOrder.detect scenarioBacktrack 1
        ([{ Group := [bpRef "A" false] }] ++ { Group := [bpRef "B" false] } :: []) [] [] false [] =
      some (.ok ([{ bpRef "B" false with API := "0.4" }], []),
        [("A@1", runWith 100 [] []), ("B@1", runWith 0 [] [])]) :=
  order_first_result scenarioBacktrack 1 [{ Group := [bpRef "A" false] }] []
    { Group := [bpRef "B" false] } [] [] false [] false
    [("A@1", runWith 100 [] [])] [("A@1", runWith 100 [] []), ("B@1", runWith 0 [] [])]
    (.ok ([{ bpRef "B" false with API := "0.4" }], []))
    ⟨_, Or.inr ⟨rfl, rfl, rfl⟩⟩ rfl ⟨by simp, by simp⟩

/-! ## Scenarios on which the code and the specification part -/

theorem MapOrder.iter_singleton (ord : MapOrder) (tag : List Nat) (a : String × depEntry) :
    ord.iter tag [a] = [a] :=
  List.perm_singleton.1 (ord.perm tag [a])

/-- Counterexample to claim C4: on the group `[A optional, B]`, with `A` requiring `x`, `B`
providing `x` and both detects exiting 0, `BuildpackGroup.Detect` fails with the
failed-detection error; it selects no group. -/
theorem early_require_scenario_fails :
    BuildpackGroup.Detect (scenarioEarlyRequire MapOrder.insertion) 1
        { Group := [bpRef "A" true, bpRef "B" false] } none =
      some (.error (DetectFailure.lifecycle DetectError.errFailedDetection
        LifecycleErrorType.ErrTypeFailedDetection)) ∧
    ¬ ∃ plan, BuildpackGroup.Detect (scenarioEarlyRequire MapOrder.insertion) 1
        { Group := [bpRef "A" true, bpRef "B" false] } none =
      some (.ok ({ Group := [{ bpRef "B" false with API := "0.4" }] }, plan)) := by
  have h : BuildpackGroup.Detect (scenarioEarlyRequire MapOrder.insertion) 1
        { Group := [bpRef "A" true, bpRef "B" false] } none =
      some (.error (DetectFailure.lifecycle DetectError.errFailedDetection
        LifecycleErrorType.ErrTypeFailedDetection)) := rfl
  refine ⟨h, ?_⟩
  intro ⟨plan, hp⟩
  rw [h] at hp
  simp at hp

/-- Claim C4, amended: on the group `[A optional, B]`, with `A` requiring `x`, `B` providing
`x` and both detects exiting 0, for every map order: the pass over the unmet requires
finds the require of `A` early and drops `A`, leaving the trial `[B]`; the pass over the
unmet provides then finds the provide of `B` unused and, `B` not being optional, fails;
`BuildpackGroup.Detect` returns the failed-detection error. -/
theorem early_require_dropped_then_unused_provide (ord : MapOrder) :
    depMap.eachUnmetRequire runTrialCallback (ord.iter [1, 0, 0] (newDepMap trialEarlyRequire))
        (trialEarlyRequire, false) = .ok (trialEarlyRequire.drop 1, true) ∧
    depMap.eachUnmetProvide runTrialCallback (ord.iter [1, 0, 1] (newDepMap trialEarlyRequire))
        (trialEarlyRequire.drop 1, true) = .error DetectError.errFailedDetection ∧
    BuildpackGroup.Detect (scenarioEarlyRequire ord) 1
        { Group := [bpRef "A" true, bpRef "B" false] } none =
      some (.error (DetectFailure.lifecycle DetectError.errFailedDetection
        LifecycleErrorType.ErrTypeFailedDetection)) := by
  have hmap : newDepMap trialEarlyRequire =
      [("x", { Providers := [], Requires := [],
               earlyRequires := [{ bpRef "A" true with API := "0.4" }],
               extraProvides := [{ bpRef "B" false with API := "0.4" }] })] := rfl
  refine ⟨?_, ?_, ?_⟩
  · rw [hmap, MapOrder.iter_singleton]
    rfl
  · rw [hmap, MapOrder.iter_singleton]
    rfl
  · have hrun : runTrial ord 1 trialEarlyRequire =
        some (.error DetectError.errFailedDetection) := by
      unfold runTrial
      simp only [runTrialLoop, hmap, MapOrder.iter_singleton]
      rfl
    have hproc : process ord
        [("A@1", runWith 0 ["x"] []), ("B@1", runWith 0 [] ["x"])]
        [{ bpRef "A" true with API := "0.4" }, { bpRef "B" false with API := "0.4" }] =
        some (.error DetectError.errFailedDetection) := by
      have hres : (classify
          [{ bpRef "A" true with API := "0.4" }, { bpRef "B" false with API := "0.4" }]
          [runWith 0 ["x"] [], runWith 0 [] ["x"]]) =
          { results := [{ toGroupBuildpack := { bpRef "A" true with API := "0.4" },
                          toDetectRun := runWith 0 ["x"] [] },
                        { toGroupBuildpack := { bpRef "B" false with API := "0.4" },
                          toDetectRun := runWith 0 [] ["x"] }],
            detected := true, buildpackErr := false } := rfl
      have hload : loadRuns [("A@1", runWith 0 ["x"] []), ("B@1", runWith 0 [] ["x"])]
          [{ bpRef "A" true with API := "0.4" }, { bpRef "B" false with API := "0.4" }] =
          .ok [runWith 0 ["x"] [], runWith 0 [] ["x"]] := rfl
      simp only [process, hload, hres]
      simp [resolve, runTrials, runTrialsFrom, runTrialsOptions, detectResult.options, List.enum,
        List.enumFrom, processTrialFunc, runWith, bpRef]
      simp only [bpRef] at hrun
      simp [trialEarlyRequire, bpRef] at hrun
      simp [hrun]
    have hdet : BuildpackGroup.detect (scenarioEarlyRequire ord) 1
        { Group := [bpRef "A" true, bpRef "B" false] } [] [] =
        some (.error DetectError.errFailedDetection,
          [("A@1", runWith 0 ["x"] []), ("B@1", runWith 0 [] ["x"])]) := by
      have hstep : BuildpackGroup.detect (scenarioEarlyRequire ord) 1
          { Group := [bpRef "A" true, bpRef "B" false] } [] [] =
          (match process ord [("A@1", runWith 0 ["x"] []), ("B@1", runWith 0 [] ["x"])]
              [{ bpRef "A" true with API := "0.4" }, { bpRef "B" false with API := "0.4" }] with
            | none => none
            | some r => some (r, [("A@1", runWith 0 ["x"] []), ("B@1", runWith 0 [] ["x"])])) := rfl
      rw [hstep, hproc]
    simp only [BuildpackGroup.Detect, hdet]
    rfl

/-- Claim C10, the code at the failing inputs.  In `scenarioErrored` the detect of `A` exits
with code 1.  On the order `[[A optional]]` the run of `A` is examined (it is in the runs
map the search leaves), the group is viable, plan resolution fails, and the error of
`BuildpackOrder.Detect` is of the failed-detection type.  On the order
`[[M optional, B]]`, `M` a meta-buildpack with the order `[[A]]`, the alternative `[A, B]`
fails with the buildpack error, the search falls through the optional `M` to `[B]`, and
the error is again of the failed-detection type.  On `[[A]]`, with `A` not optional, the
error is of the buildpack type. -/
theorem errored_detect_reported_as_failed_detection :
    (BuildpackOrder.detect scenarioErrored 1 [{ Group := [bpRef "A" true] }] [] [] false [] =
        some (.error DetectError.errFailedDetection, [("A@1", runWith 1 [] [])]) ∧
      BuildpackOrder.Detect scenarioErrored 1 [{ Group := [bpRef "A" true] }] none =
        some (.error (DetectFailure.lifecycle DetectError.errFailedDetection
          LifecycleErrorType.ErrTypeFailedDetection))) ∧
    (BuildpackOrder.detect scenarioErrored 2
          [{ Group := [bpRef "M" true, bpRef "B" false] }] [] [] false [] =
        some (.error DetectError.errFailedDetection,
          [("A@1", runWith 1 [] []), ("B@1", runWith 100 [] [])]) ∧
      BuildpackOrder.Detect scenarioErrored 2
          [{ Group := [bpRef "M" true, bpRef "B" false] }] none =
        some (.error (DetectFailure.lifecycle DetectError.errFailedDetection
          LifecycleErrorType.ErrTypeFailedDetection))) ∧
    BuildpackOrder.Detect scenarioErrored 1 [{ Group := [bpRef "A" false] }] none =
      some (.error (DetectFailure.lifecycle DetectError.errBuildpack
        LifecycleErrorType.ErrTypeBuildpack)) :=
  ⟨⟨rfl, rfl⟩, ⟨rfl, rfl⟩, rfl⟩

/-! ## Meta-buildpacks -/

/-- After members that are skipped or are leaves, the loop of `BuildpackGroup.detect` goes
on with the members that follow, from the leaves and runs collected so far. -/
theorem detectLoop_collectLeaves (c : DetectConfig)
    (orderDetect : BuildpackOrder → List GroupBuildpack → List GroupBuildpack → Bool → Runs →
      DetectOutcome) (rest : List GroupBuildpack) :
    ∀ (before done : List GroupBuildpack) (runs : Runs) (done' : List GroupBuildpack)
      (runs' : Runs), collectLeaves c before done runs = some (done', runs') →
      BuildpackGroup.detectLoop c orderDetect (before ++ rest) done runs =
        BuildpackGroup.detectLoop c orderDetect rest done' runs' := by
  intro before
  induction before with
  | nil =>
    intro done runs done' runs' h
    simp only [collectLeaves, Option.some.injEq, Prod.mk.injEq] at h
    rw [h.1, h.2]
    rfl
  | cons bp before ih =>
    intro done runs done' runs' h
    simp only [collectLeaves] at h
    simp only [List.cons_append, BuildpackGroup.detectLoop]
    by_cases hid : hasID done bp.ID = true
    · simp only [hid, if_true] at h ⊢
      exact ih _ _ _ _ h
    · simp only [hid, Bool.false_eq_true, if_false] at h ⊢
      cases hl : c.Lookup bp with
      | error msg => simp [hl] at h
      | ok info =>
        simp only [hl] at h ⊢
        cases hord : info.Order with
        | some order => simp [hord] at h
        | none =>
          simp only [hord] at h ⊢
          exact ih _ _ _ _ h

theorem BuildpackGroup.append_append_nil (g : BuildpackGroup) (tail : List GroupBuildpack) :
    (g.append [{ Group := tail }]).append [{ Group := [] }] = g.append [{ Group := tail }] := by
  simp [BuildpackGroup.append]

/-- Searching an order with the continuation `tail` is searching the order of its groups
extended by `tail`, and on exhaustion going on with `tail` alone when `optional` is set. -/
theorem orderDetectLoop_expand
    (groupDetect : BuildpackGroup → List GroupBuildpack → Runs → DetectOutcome)
    (done tail : List GroupBuildpack) (optional : Bool) :
    ∀ (order : List BuildpackGroup) (b : Bool) (runs : Runs),
      BuildpackOrder.detectLoop groupDetect done { Group := tail } optional order b runs =
        match BuildpackOrder.detectLoop groupDetect done { Group := [] } false
            (order.map fun g => g.append [{ Group := tail }]) b runs with
        | some (.error e, runs'') =>
          if (e = DetectError.errFailedDetection ∨ e = DetectError.errBuildpack) ∧
              optional = true then
            groupDetect { Group := tail } done runs''
          else some (.error e, runs'')
        | other => other := by
  intro order
  induction order with
  | nil =>
    intro b runs
    cases optional <;> cases b <;> simp [BuildpackOrder.detectLoop]
  | cons g order ih =>
    intro b runs
    simp only [List.map_cons, BuildpackOrder.detectLoop, BuildpackGroup.append_append_nil]
    cases hg : groupDetect (g.append [{ Group := tail }]) done runs with
    | none => rfl
    | some res =>
      obtain ⟨r, runs1⟩ := res
      cases r with
      | ok v => rfl
      | error e =>
        cases e with
        | errFailedDetection => exact ih b runs1
        | errBuildpack => exact ih true runs1
        | missingDetection s => simp
        | lookupFailed s => simp

/-- Counterexample to claim C11: in the group `[A@1, A@2]`, where `A@1` is a leaf and `A@2`
a meta-buildpack with the order `[[B]]`, the member `A@2` is skipped because the id `A` is
already among the leaves: the group's result is the group `[A@1]`, while searching the order
`[[B]]` with the leaf `A@1` kept selects `[A@1, B]`. -/
theorem shadowed_meta_buildpack_not_expanded :
    BuildpackGroup.detect scenarioShadowedMeta 2
        { Group := [bpRef "A" false, { bpRef "A" false with Version := "2" }] } [] [] =
      some (.ok ([{ bpRef "A" false with API := "0.4" }], []), [("A@1", runWith 0 [] [])]) ∧
    BuildpackOrder.detect scenarioShadowedMeta 1
        (List.map (fun g : BuildpackGroup => g.append [{ Group := [] }])
          [({ Group := [bpRef "B" false] } : BuildpackGroup)])
        [{ bpRef "A" false with API := "0.4" }] [] false [("A@1", runWith 0 [] [])] =
      some (.ok ([{ bpRef "A" false with API := "0.4" }, { bpRef "B" false with API := "0.4" }], []),
        [("A@1", runWith 0 [] []), ("B@1", runWith 0 [] [])]) ∧
    BuildpackGroup.detect scenarioShadowedMeta 2
        { Group := [bpRef "A" false, { bpRef "A" false with Version := "2" }] } [] [] ≠
      BuildpackOrder.detect scenarioShadowedMeta 1
        (List.map (fun g : BuildpackGroup => g.append [{ Group := [] }])
          [({ Group := [bpRef "B" false] } : BuildpackGroup)])
        [{ bpRef "A" false with API := "0.4" }] [] false [("A@1", runWith 0 [] [])] := by
  have h1 : BuildpackGroup.detect scenarioShadowedMeta 2
        { Group := [bpRef "A" false, { bpRef "A" false with Version := "2" }] } [] [] =
      some (.ok ([{ bpRef "A" false with API := "0.4" }], []), [("A@1", runWith 0 [] [])]) := rfl
  have h2 : BuildpackOrder.detect scenarioShadowedMeta 1
        (List.map (fun g : BuildpackGroup => g.append [{ Group := [] }])
          [({ Group := [bpRef "B" false] } : BuildpackGroup)])
        [{ bpRef "A" false with API := "0.4" }] [] false [("A@1", runWith 0 [] [])] =
      some (.ok ([{ bpRef "A" false with API := "0.4" }, { bpRef "B" false with API := "0.4" }], []),
        [("A@1", runWith 0 [] []), ("B@1", runWith 0 [] [])]) := rfl
  refine ⟨h1, h2, ?_⟩
  rw [h1, h2]
  simp

/-- Claim C11, amended: let the members before position `i` of a group be leaves (or be
skipped), leaving the leaves `done'`, and let the member `bp` at position `i` be a
meta-buildpack with the order `order` whose id does not occur in `done'`.  Then the result
of the group is the result of searching the order of the groups of `order`, each extended
by the members `tail` after position `i`, with `done'` kept as already selected; except
that when this search is exhausted (it ends in the failed-detection or the buildpack
error) and `bp` is optional, the result is that of evaluating `tail` alone with `done'`
kept.  When `bp` is not optional the error of the exhausted search is the result. -/
theorem meta_buildpack_expands (c : DetectConfig) (fuel : Nat)
    (before tail : List GroupBuildpack) (bp : GroupBuildpack) (done : List GroupBuildpack)
    (runs : Runs) (done' : List GroupBuildpack) (runs' : Runs) (info : BuildpackTOML)
    (order : BuildpackOrder)
    (hbefore : collectLeaves c before done runs = some (done', runs'))
    (hnew : hasID done' bp.ID = false)
    (hinfo : c.Lookup bp = .ok info) (horder : info.Order = some order) :
    BuildpackGroup.detect c (fuel + 1) { Group := before ++ bp :: tail } done runs =
      match BuildpackOrder.detect c fuel (order.map fun g => g.append [{ Group := tail }])
          done' [] false runs' with
      | some (.error e, runs'') =>
        if (e = DetectError.errFailedDetection ∨ e = DetectError.errBuildpack) ∧
            bp.Optional = true then
          BuildpackGroup.detect c fuel { Group := tail } done' runs''
        else some (.error e, runs'')
      | other => other := by
  simp only [BuildpackGroup.detect]
  rw [detectLoop_collectLeaves c _ (bp :: tail) before done runs done' runs' hbefore]
  simp only [BuildpackGroup.detectLoop, hnew, Bool.false_eq_true, if_false, hinfo, horder]
  exact orderDetectLoop_expand (fun g d r => BuildpackGroup.detect c fuel g d r) done' tail
    bp.Optional order false runs'

/-- Witness of `meta_buildpack_expands`: the group `[C, M optional, D]` of `scenarioMeta`, where
`M` has the order `[[A], [B]]` and `A` exits 100, selects `[C, B, D]`. -/
theorem meta_buildpack_expands_witness :
    BuildpackGroup.detect scenarioMeta (1 + 1)
        { Group := [bpRef "C" false] ++ bpRef "M" true :: [bpRef "D" false] } [] [] =
      some (.ok ([{ bpRef "C" false with API := "0.4" }, { bpRef "B" false with API := "0.4" },
                  { bpRef "D" false with API := "0.4" }], []),
        [("C@1", runWith 0 [] []), ("A@1", runWith 100 [] []), ("D@1", runWith 0 [] []),
         ("B@1", runWith 0 [] [])]) :=
  (meta_buildpack_expands scenarioMeta 1 [bpRef "C" false] [bpRef "D" false] (bpRef "M" true) [] []
    [{ bpRef "C" false with API := "0.4" }] [("C@1", runWith 0 [] [])]
    { API := "0.4",
      Buildpack := { ID := "M", Version := "1", Name := "M", ClearEnv := false, Homepage := "" },
      Order := some [{ Group := [bpRef "A" false] }, { Group := [bpRef "B" false] }],
      Dir := "/cnb/M" }
    [{ Group := [bpRef "A" false] }, { Group := [bpRef "B" false] }] rfl rfl rfl rfl).trans rfl

/-- In `scenarioCyclic` the evaluation of the group `[M]` never finishes, whatever the leaves
and runs it starts from. -/
theorem cyclic_group_never_returns :
    ∀ (fuel : Nat) (runs : Runs),
      BuildpackGroup.detect scenarioCyclic fuel { Group := [bpRef "M" false] } [] runs = none := by
  intro fuel
  induction fuel with
  | zero => intro runs; rfl
  | succ fuel ih =>
    intro runs
    have hl : scenarioCyclic.Lookup (bpRef "M" false) =
        .ok { API := "0.4",
              Buildpack := { ID := "M", Version := "1", Name := "M", ClearEnv := false,
                             Homepage := "" },
              Order := some [{ Group := [bpRef "M" false] }], Dir := "/cnb/M" } := rfl
    have ha : ({ Group := [bpRef "M" false] } : BuildpackGroup).append [{ Group := [] }] =
        { Group := [bpRef "M" false] } := rfl
    simp only [BuildpackGroup.detect, BuildpackGroup.detectLoop, hasID, Bool.false_eq_true,
      if_false, hl, BuildpackOrder.detectLoop, ha, ih]

/-- Claim C12, the code at the failing input: on the order `[[M]]`, where the order of the
meta-buildpack `M` is `[[M]]`, `BuildpackOrder.Detect` does not return within any number
of nested group evaluations; it returns no error, and the code has no `cyclic order` error
to return. -/
theorem cyclic_order_never_returns :
    ∀ fuel : Nat,
      BuildpackOrder.Detect scenarioCyclic fuel [{ Group := [bpRef "M" false] }] none = none := by
  intro fuel
  have h := cyclic_group_never_returns fuel []
  have ha : ({ Group := [bpRef "M" false] } : BuildpackGroup).append [{ Group := [] }] =
      { Group := [bpRef "M" false] } := rfl
  simp only [BuildpackOrder.Detect, BuildpackOrder.detect, BuildpackOrder.detectLoop, ha, h]

/-! ## Deduplication of leaves -/

theorem hasID_iff (bps : List GroupBuildpack) (id : String) :
    hasID bps id = true ↔ id ∈ bps.map fun b => b.ID := by
  induction bps with
  | nil => simp [hasID]
  | cons b bps ih =>
    by_cases h : b.ID = id
    · simp [hasID, h]
    · simp only [hasID, h, if_false, ih, List.map_cons, List.mem_cons]
      constructor
      · intro hm; exact Or.inr hm
      · intro hm
        rcases hm with hm | hm
        · exact absurd hm.symm h
        · exact hm

theorem firstOccurrences_sublist :
    ∀ (l : List GroupBuildpack) (seen : List String), (firstOccurrences seen l).Sublist l := by
  intro l
  induction l with
  | nil => intro seen; exact List.Sublist.refl _
  | cons b l ih =>
    intro seen
    simp only [firstOccurrences]
    split
    · exact (ih seen).cons b
    · exact (ih _).cons₂ b

theorem firstOccurrences_nodup :
    ∀ (l : List GroupBuildpack) (seen : List String), seen.Nodup →
      (seen ++ (firstOccurrences seen l).map fun b => b.ID).Nodup := by
  intro l
  induction l with
  | nil => intro seen h; simpa [firstOccurrences] using h
  | cons b l ih =>
    intro seen h
    simp only [firstOccurrences]
    split
    · exact ih seen h
    · rename_i hb
      have h' : (seen ++ [b.ID]).Nodup := by
        rw [List.nodup_append]
        refine ⟨h, List.nodup_singleton _, ?_⟩
        intro x hx hx'
        simp only [List.mem_singleton] at hx'
        subst hx'
        exact hb hx
      have := ih (seen ++ [b.ID]) h'
      simpa [List.append_assoc] using this

theorem firstOccurrences_covers :
    ∀ (l : List GroupBuildpack) (seen : List String), ∀ m ∈ l,
      m.ID ∈ seen ++ (firstOccurrences seen l).map fun b => b.ID := by
  intro l
  induction l with
  | nil => intro seen m hm; simp at hm
  | cons b l ih =>
    intro seen m hm
    simp only [List.mem_cons] at hm
    simp only [firstOccurrences]
    split
    · rename_i hb
      rcases hm with hm | hm
      · subst hm
        exact List.mem_append_left _ hb
      · exact ih seen m hm
    · rcases hm with hm | hm
      · subst hm
        simp
      · have := ih (seen ++ [b.ID]) m hm
        simpa [List.append_assoc] using this

/-- The leaves that the loop of `BuildpackGroup.detect` collects are the leaves it started
from followed by the first occurrences, by id, of the members. -/
theorem collectLeaves_firstOccurrences (c : DetectConfig) :
    ∀ (members done : List GroupBuildpack) (runs : Runs) (done' : List GroupBuildpack)
      (runs' : Runs), collectLeaves c members done runs = some (done', runs') →
      ∃ kept, done' = done ++ kept ∧
        kept.map (fun b => b.noAPI.noHomepage) =
          (firstOccurrences (done.map fun b => b.ID) members).map fun b => b.noAPI.noHomepage := by
  intro members
  induction members with
  | nil =>
    intro done runs done' runs' h
    simp only [collectLeaves, Option.some.injEq, Prod.mk.injEq] at h
    exact ⟨[], by simp [h.1], rfl⟩
  | cons bp members ih =>
    intro done runs done' runs' h
    simp only [collectLeaves] at h
    by_cases hid : hasID done bp.ID = true
    · simp only [hid, if_true] at h
      obtain ⟨kept, hk, hs⟩ := ih _ _ _ _ h
      refine ⟨kept, hk, ?_⟩
      rw [hs]
      simp only [firstOccurrences, (hasID_iff done bp.ID).1 hid, if_true]
    · simp only [hid, Bool.false_eq_true, if_false] at h
      cases hl : c.Lookup bp with
      | error msg => simp [hl] at h
      | ok info =>
        simp only [hl] at h
        cases hord : info.Order with
        | some order => simp [hord] at h
        | none =>
          simp only [hord] at h
          obtain ⟨kept, hk, hs⟩ := ih _ _ _ _ h
          have hnot : bp.ID ∉ done.map fun b => b.ID := fun hc => hid ((hasID_iff done bp.ID).2 hc)
          refine ⟨GroupBuildpack.mk bp.ID bp.Version bp.Optional info.API info.Buildpack.Homepage ::
            kept, by rw [hk]; simp, ?_⟩
          simp only [firstOccurrences, hnot, if_false, List.map_cons]
          simp only [List.map_append, List.map_cons, List.map_nil] at hs
          rw [hs]
          rfl

/-- Claim C13: for a group whose members are leaves (or are skipped), starting from the
leaves `done` carried over from the enclosing groups, the group is evaluated by `process`
on the list `done'` made of `done` followed by the kept members; the kept members are the
first occurrences by id, whatever the version, of the members whose id is not in `done`,
in group order; when the ids of `done` are pairwise distinct so are those of `done'`, and
the id of every member occurs in `done'`. -/
theorem leaves_deduplicated (c : DetectConfig) (members done : List GroupBuildpack) (runs : Runs)
    (done' : List GroupBuildpack) (runs' : Runs)
    (h : collectLeaves c members done runs = some (done', runs')) :
    (∀ fuel, BuildpackGroup.detect c (fuel + 1) { Group := members } done runs =
      match process c.ord runs' done' with
      | none => none
      | some r => some (r, runs')) ∧
    ∃ kept, done' = done ++ kept ∧
      kept.map (fun b => b.noAPI.noHomepage) =
        (firstOccurrences (done.map fun b => b.ID) members).map (fun b => b.noAPI.noHomepage) ∧
      (kept.map fun b => b.noAPI.noHomepage).Sublist (members.map fun b => b.noAPI.noHomepage) ∧
      ((done.map fun b => b.ID).Nodup → (done'.map fun b => b.ID).Nodup) ∧
      ∀ m ∈ members, hasID done' m.ID = true := by
  constructor
  · intro fuel
    simp only [BuildpackGroup.detect]
    have := detectLoop_collectLeaves c
      (fun order done next optional runs =>
        BuildpackOrder.detectLoop (fun g d r => BuildpackGroup.detect c fuel g d r)
          done { Group := next } optional order false runs)
      [] members done runs done' runs' h
    rw [List.append_nil] at this
    rw [this]
    rfl
  · obtain ⟨kept, hk, hs⟩ := collectLeaves_firstOccurrences c members done runs done' runs' h
    have hids : kept.map (fun b => b.ID) =
        (firstOccurrences (done.map fun b => b.ID) members).map fun b => b.ID := by
      have := congrArg (List.map fun b : GroupBuildpack => b.ID) hs
      simpa [List.map_map, Function.comp, GroupBuildpack.noAPI, GroupBuildpack.noHomepage] using this
    refine ⟨kept, hk, hs, ?_, ?_, ?_⟩
    · rw [hs]
      exact (firstOccurrences_sublist members _).map _
    · intro hnd
      rw [hk, List.map_append, hids]
      exact firstOccurrences_nodup members _ hnd
    · intro m hm
      rw [hasID_iff, hk, List.map_append, hids]
      exact firstOccurrences_covers members _ m hm

/-- Witness of `leaves_deduplicated`: in the group `[A@1, B@1, A@2]` the member `A@2` is skipped;
the leaves evaluated are `[A@1, B@1]`. -/
theorem leaves_deduplicated_witness :
    collectLeaves scenarioPass
        [bpRef "A" false, bpRef "B" false, { bpRef "A" false with Version := "2" }] [] [] =
      some ([{ bpRef "A" false with API := "0.4" }, { bpRef "B" false with API := "0.4" }],
        scenarioPassRuns) ∧
    ∀ m ∈ [bpRef "A" false, bpRef "B" false, { bpRef "A" false with Version := "2" }],
      hasID [{ bpRef "A" false with API := "0.4" }, { bpRef "B" false with API := "0.4" }] m.ID =
        true :=
  ⟨rfl, (leaves_deduplicated scenarioPass
    [bpRef "A" false, bpRef "B" false, { bpRef "A" false with Version := "2" }] [] []
    [{ bpRef "A" false with API := "0.4" }, { bpRef "B" false with API := "0.4" }]
    scenarioPassRuns rfl).2.choose_spec.2.2.2.2⟩

/-! ## The runs map and the log of detect invocations -/

theorem Runs.load_store_same (runs : Runs) (key : String) (run : DetectRun) :
    (runs.Store key run).Load key = some run := by
  induction runs with
  | nil => simp [Runs.Store, Runs.Load]
  | cons hd tl ih =>
    obtain ⟨k, v⟩ := hd
    by_cases h : k = key
    · simp [Runs.Store, Runs.Load, h]
    · simp [Runs.Store, Runs.Load, h, ih]

theorem Runs.load_store_other (runs : Runs) (key key' : String) (run : DetectRun)
    (h : key ≠ key') : (runs.Store key run).Load key' = runs.Load key' := by
  induction runs with
  | nil => simp [Runs.Store, Runs.Load, h]
  | cons hd tl ih =>
    obtain ⟨k, v⟩ := hd
    by_cases h0 : k = key
    · subst h0
      simp [Runs.Store, Runs.Load, h]
    · by_cases h1 : k = key'
      · subst h1
        simp [Runs.Store, Runs.Load, h0]
      · simp [Runs.Store, Runs.Load, h0, h1, ih]

theorem RunsGrow.refl (runs : Runs) (log : List String) : RunsGrow runs log runs log :=
  ⟨fun _ _ h => h, [], by simp, List.nodup_nil, by simp⟩

theorem RunsGrow.trans {runs0 runs1 runs2 : Runs} {log0 log1 log2 : List String}
    (h1 : RunsGrow runs0 log0 runs1 log1) (h2 : RunsGrow runs1 log1 runs2 log2) :
    RunsGrow runs0 log0 runs2 log2 := by
  obtain ⟨m1, a1, hl1, hn1, ha1⟩ := h1
  obtain ⟨m2, a2, hl2, hn2, ha2⟩ := h2
  refine ⟨fun k run h => m2 k run (m1 k run h), a1 ++ a2, ?_, ?_, ?_⟩
  · rw [hl2, hl1, List.append_assoc]
  · rw [List.nodup_append]
    refine ⟨hn1, hn2, ?_⟩
    intro k hk1 hk2
    have hs := (ha1 k hk1).2
    have hn := (ha2 k hk2).1
    rw [hn] at hs
    simp at hs
  · intro k hk
    simp only [List.mem_append] at hk
    rcases hk with hk | hk
    · refine ⟨(ha1 k hk).1, ?_⟩
      obtain ⟨run, hrun⟩ := Option.isSome_iff_exists.1 (ha1 k hk).2
      rw [m2 k run hrun]
      rfl
    · refine ⟨?_, (ha2 k hk).2⟩
      cases h0 : runs0.Load k with
      | none => rfl
      | some run =>
        have := m1 k run h0
        rw [(ha2 k hk).1] at this
        simp at this

/-- Storing the run of a key that has none, and logging the key. -/
theorem RunsGrow.store (runs : Runs) (log : List String) (key : String) (run : DetectRun)
    (h : runs.Load key = none) : RunsGrow runs log (runs.Store key run) (log ++ [key]) := by
  refine ⟨?_, [key], rfl, List.nodup_singleton _, ?_⟩
  · intro k r hk
    by_cases hkk : key = k
    · subst hkk
      rw [h] at hk
      simp at hk
    · rw [Runs.load_store_other runs key k run hkk]
      exact hk
  · intro k hk
    simp only [List.mem_singleton] at hk
    subst hk
    exact ⟨h, by rw [Runs.load_store_same]; rfl⟩

theorem LogInv.of_grow {ord : MapOrder} {runs0 runs1 : Runs} {log0 log1 : List String}
    {out : LoggedOutcome} (hg : RunsGrow runs0 log0 runs1 log1) (h : LogInv ord runs1 log1 out) :
    LogInv ord runs0 log0 out := by
  intro r runs log hout
  obtain ⟨h1, h2⟩ := h r runs log hout
  exact ⟨hg.trans h1, h2⟩

theorem groupDetectLoopLogged_inv (c : DetectConfig)
    (orderDetect : BuildpackOrder → List GroupBuildpack → List GroupBuildpack → Bool → Runs →
      List String → LoggedOutcome)
    (ho : ∀ order done next optional runs log,
      LogInv c.ord runs log (orderDetect order done next optional runs log)) :
    ∀ (members done : List GroupBuildpack) (runs : Runs) (log : List String),
      LogInv c.ord runs log
        (BuildpackGroup.detectLoopLogged c orderDetect members done runs log) := by
  intro members
  induction members with
  | nil =>
    intro done runs log r runs' log' h
    simp only [BuildpackGroup.detectLoopLogged] at h
    cases hp : process c.ord runs done with
    | none => simp [hp] at h
    | some r0 =>
      simp only [hp, Option.some.injEq, Prod.mk.injEq] at h
      obtain ⟨hr, hruns, hlog⟩ := h
      subst hr hruns hlog
      exact ⟨RunsGrow.refl _ _, fun found plan hok => ⟨done, by rw [hp, hok]⟩⟩
  | cons bp rest ih =>
    intro done runs log
    simp only [BuildpackGroup.detectLoopLogged]
    by_cases hid : hasID done bp.ID = true
    · simp only [hid, if_true]
      exact ih done runs log
    · simp only [hid, Bool.false_eq_true, if_false]
      cases hl : c.Lookup bp with
      | error msg =>
        intro r runs' log' h
        simp only [Option.some.injEq, Prod.mk.injEq] at h
        obtain ⟨hr, hruns, hlog⟩ := h
        subst hr hruns hlog
        exact ⟨RunsGrow.refl _ _, fun found plan hok => by simp at hok⟩
      | ok info =>
        simp only
        cases hord : info.Order with
        | some order =>
          simp only
          exact ho _ _ _ _ _ _
        | none =>
          simp only
          cases hload : runs.Load bp.String with
          | some run =>
            simp only
            exact ih _ runs log
          | none =>
            simp only
            exact LogInv.of_grow (RunsGrow.store runs log bp.String (c.Detect info) hload)
              (ih _ _ _)

theorem orderDetectLoopLogged_inv (ord : MapOrder)
    (groupDetect : BuildpackGroup → List GroupBuildpack → Runs → List String → LoggedOutcome)
    (hg : ∀ g done runs log, LogInv ord runs log (groupDetect g done runs log))
    (done : List GroupBuildpack) (ngroup : BuildpackGroup) (optional : Bool) :
    ∀ (groups : List BuildpackGroup) (b : Bool) (runs : Runs) (log : List String),
      LogInv ord runs log
        (BuildpackOrder.detectLoopLogged groupDetect done ngroup optional groups b runs log) := by
  intro groups
  induction groups with
  | nil =>
    intro b runs log
    simp only [BuildpackOrder.detectLoopLogged]
    cases optional with
    | true =>
      simp only [if_true]
      exact hg _ _ _ _
    | false =>
      intro r runs' log' h
      cases b with
      | true =>
        simp only [Bool.false_eq_true, if_false, if_true, Option.some.injEq, Prod.mk.injEq] at h
        obtain ⟨hr, hruns, hlog⟩ := h
        subst hr hruns hlog
        exact ⟨RunsGrow.refl _ _, fun found plan hok => by simp at hok⟩
      | false =>
        simp only [Bool.false_eq_true, if_false, Option.some.injEq, Prod.mk.injEq] at h
        obtain ⟨hr, hruns, hlog⟩ := h
        subst hr hruns hlog
        exact ⟨RunsGrow.refl _ _, fun found plan hok => by simp at hok⟩
  | cons g groups ih =>
    intro b runs log
    simp only [BuildpackOrder.detectLoopLogged]
    have hgi := hg (g.append [ngroup]) done runs log
    cases hres : groupDetect (g.append [ngroup]) done runs log with
    | none =>
      intro r runs' log' h
      simp at h
    | some res =>
      obtain ⟨r0, runs1, log1⟩ := res
      have hgrow := (hgi r0 runs1 log1 hres).1
      cases r0 with
      | ok v =>
        intro r runs' log' h
        simp only [Option.some.injEq, Prod.mk.injEq] at h
        obtain ⟨hr, hruns, hlog⟩ := h
        subst hr hruns hlog
        exact hgi _ _ _ hres
      | error e =>
        cases e with
        | errFailedDetection => exact LogInv.of_grow hgrow (ih b runs1 log1)
        | errBuildpack => exact LogInv.of_grow hgrow (ih true runs1 log1)
        | missingDetection s =>
          intro r runs' log' h
          simp only [Option.some.injEq, Prod.mk.injEq] at h
          obtain ⟨hr, hruns, hlog⟩ := h
          subst hr hruns hlog
          exact hgi _ _ _ hres
        | lookupFailed s =>
          intro r runs' log' h
          simp only [Option.some.injEq, Prod.mk.injEq] at h
          obtain ⟨hr, hruns, hlog⟩ := h
          subst hr hruns hlog
          exact hgi _ _ _ hres

theorem groupDetectLogged_inv (c : DetectConfig) :
    ∀ (fuel : Nat) (bg : BuildpackGroup) (done : List GroupBuildpack) (runs : Runs)
      (log : List String), LogInv c.ord runs log (BuildpackGroup.detectLogged c fuel bg done runs log) := by
  intro fuel
  induction fuel with
  | zero =>
    intro bg done runs log r runs' log' h
    simp [BuildpackGroup.detectLogged] at h
  | succ fuel ih =>
    intro bg done runs log
    simp only [BuildpackGroup.detectLogged]
    apply groupDetectLoopLogged_inv
    intro order done next optional runs log
    exact orderDetectLoopLogged_inv c.ord _ (fun g d r l => ih g d r l) _ _ _ _ _ _ _

theorem orderDetectLogged_inv (c : DetectConfig) (fuel : Nat) (bo : BuildpackOrder)
    (done next : List GroupBuildpack) (optional : Bool) (runs : Runs) (log : List String) :
    LogInv c.ord runs log (BuildpackOrder.detectLogged c fuel bo done next optional runs log) :=
  orderDetectLoopLogged_inv c.ord _
    (fun g d r l => groupDetectLogged_inv c fuel g d r l) _ _ _ _ _ _ _

theorem groupDetectLoopLogged_erase (c : DetectConfig)
    (orderDetectL : BuildpackOrder → List GroupBuildpack → List GroupBuildpack → Bool → Runs →
      List String → LoggedOutcome)
    (orderDetect : BuildpackOrder → List GroupBuildpack → List GroupBuildpack → Bool → Runs →
      DetectOutcome)
    (ho : ∀ order done next optional runs log,
      eraseLog (orderDetectL order done next optional runs log) =
        orderDetect order done next optional runs) :
    ∀ (members done : List GroupBuildpack) (runs : Runs) (log : List String),
      eraseLog (BuildpackGroup.detectLoopLogged c orderDetectL members done runs log) =
        BuildpackGroup.detectLoop c orderDetect members done runs := by
  intro members
  induction members with
  | nil =>
    intro done runs log
    simp only [BuildpackGroup.detectLoopLogged, BuildpackGroup.detectLoop]
    cases process c.ord runs done <;> rfl
  | cons bp rest ih =>
    intro done runs log
    simp only [BuildpackGroup.detectLoopLogged, BuildpackGroup.detectLoop]
    by_cases hid : hasID done bp.ID = true
    · simp only [hid, if_true]
      exact ih done runs log
    · simp only [hid, Bool.false_eq_true, if_false]
      cases hl : c.Lookup bp with
      | error msg => rfl
      | ok info =>
        simp only
        cases hord : info.Order with
        | some order => exact ho _ _ _ _ _ _
        | none =>
          simp only
          cases hload : runs.Load bp.String with
          | some run => exact ih _ runs log
          | none => exact ih _ _ _

theorem orderDetectLoopLogged_erase
    (groupDetectL : BuildpackGroup → List GroupBuildpack → Runs → List String → LoggedOutcome)
    (groupDetect : BuildpackGroup → List GroupBuildpack → Runs → DetectOutcome)
    (hg : ∀ g done runs log, eraseLog (groupDetectL g done runs log) = groupDetect g done runs)
    (done : List GroupBuildpack) (ngroup : BuildpackGroup) (optional : Bool) :
    ∀ (groups : List BuildpackGroup) (b : Bool) (runs : Runs) (log : List String),
      eraseLog (BuildpackOrder.detectLoopLogged groupDetectL done ngroup optional groups b runs log) =
        BuildpackOrder.detectLoop groupDetect done ngroup optional groups b runs := by
  intro groups
  induction groups with
  | nil =>
    intro b runs log
    simp only [BuildpackOrder.detectLoopLogged, BuildpackOrder.detectLoop]
    cases optional with
    | true => exact hg _ _ _ _
    | false => cases b <;> rfl
  | cons g groups ih =>
    intro b runs log
    simp only [BuildpackOrder.detectLoopLogged, BuildpackOrder.detectLoop]
    have hgi := hg (g.append [ngroup]) done runs log
    cases hres : groupDetectL (g.append [ngroup]) done runs log with
    | none =>
      rw [hres] at hgi
      rw [← hgi]
      rfl
    | some res =>
      obtain ⟨r0, runs1, log1⟩ := res
      rw [hres] at hgi
      rw [← hgi]
      cases r0 with
      | ok v => rfl
      | error e =>
        cases e with
        | errFailedDetection => exact ih b runs1 log1
        | errBuildpack => exact ih true runs1 log1
        | missingDetection s => rfl
        | lookupFailed s => rfl

/-- Without the log, `BuildpackGroup.detectLogged` is `BuildpackGroup.detect`. -/
theorem groupDetectLogged_erase (c : DetectConfig) :
    ∀ (fuel : Nat) (bg : BuildpackGroup) (done : List GroupBuildpack) (runs : Runs)
      (log : List String),
      eraseLog (BuildpackGroup.detectLogged c fuel bg done runs log) =
        BuildpackGroup.detect c fuel bg done runs := by
  intro fuel
  induction fuel with
  | zero => intro bg done runs log; rfl
  | succ fuel ih =>
    intro bg done runs log
    simp only [BuildpackGroup.detectLogged, BuildpackGroup.detect]
    apply groupDetectLoopLogged_erase
    intro order done next optional runs log
    exact orderDetectLoopLogged_erase _ _ (fun g d r l => ih g d r l) _ _ _ _ _ _ _

/-- Without the log, `BuildpackOrder.detectLogged` is `BuildpackOrder.detect`. -/
theorem orderDetectLogged_erase (c : DetectConfig) (fuel : Nat) (bo : BuildpackOrder)
    (done next : List GroupBuildpack) (optional : Bool) (runs : Runs) (log : List String) :
    eraseLog (BuildpackOrder.detectLogged c fuel bo done next optional runs log) =
      BuildpackOrder.detect c fuel bo done next optional runs :=
  orderDetectLoopLogged_erase _ _ (fun g d r l => groupDetectLogged_erase c fuel g d r l)
    _ _ _ _ _ _ _

/-- The detect pass in which every goroutine runs to its end at the `go` statement that
starts it: when the pass over an order starts from the runs map `runs0` and ends with the
runs map `runs` and the log `log` of the keys whose detect script was invoked, then: the
outcome is that of `BuildpackOrder.detect`; no key occurs twice in the log; no detect was
invoked for a key that had a run in `runs0`; every run stored in `runs0` is still stored,
unchanged, in `runs`; and a selected group with its plan is what `process` returns reading
the runs of the map `runs`. -/
theorem detect_invoked_at_most_once (c : DetectConfig) (fuel : Nat) (bo : BuildpackOrder)
    (done next : List GroupBuildpack) (optional : Bool) (runs0 : Runs)
    (r : Except DetectError (List GroupBuildpack × List BuildPlanEntry)) (runs : Runs)
    (log : List String)
    (h : BuildpackOrder.detectLogged c fuel bo done next optional runs0 [] = some (r, runs, log)) :
    BuildpackOrder.detect c fuel bo done next optional runs0 = some (r, runs) ∧
    log.Nodup ∧
    (∀ k ∈ log, runs0.Load k = none) ∧
    (∀ k run, runs0.Load k = some run → runs.Load k = some run) ∧
    (∀ found plan, r = .ok (found, plan) →
      ∃ leaves, process c.ord runs leaves = some (.ok (found, plan))) := by
  have he := orderDetectLogged_erase c fuel bo done next optional runs0 []
  rw [h] at he
  obtain ⟨⟨hmono, added, hlog, hnd, hadded⟩, hproc⟩ :=
    orderDetectLogged_inv c fuel bo done next optional runs0 [] r runs log h
  simp only [List.nil_append] at hlog
  subst hlog
  exact ⟨he.symm, hnd, fun k hk => (hadded k hk).1, hmono, hproc⟩

/-- Witness of `detect_invoked_at_most_once`: on the order `[[A, B], [B]]` of scenario
"backtracking" the detect of `B` is invoked for the first group and not again for the
second. -/
theorem detect_invoked_at_most_once_witness :
    BuildpackOrder.detectLogged scenarioBacktrack 1
        [{ Group := [bpRef "A" false, bpRef "B" false] }, { Group := [bpRef "B" false] }]
        [] [] false [] [] =
      some (.ok ([{ bpRef "B" false with API := "0.4" }], []),
        [("A@1", runWith 100 [] []), ("B@1", runWith 0 [] [])], ["A@1", "B@1"]) ∧
    ["A@1", "B@1"].Nodup :=
  ⟨rfl, (detect_invoked_at_most_once scenarioBacktrack 1
    [{ Group := [bpRef "A" false, bpRef "B" false] }, { Group := [bpRef "B" false] }]
    [] [] false [] _ _ _ rfl).2.1⟩

theorem PassState.go_atOnce (c : DetectConfig) (s : PassState) (key : String)
    (info : BuildpackTOML) (wg : Nat) (h : s.AtOnce) :
    (PassState.go c s key info wg).AtOnce ∧
    (PassState.go c s key info wg).runs =
      (match s.runs.Load key with
        | some _ => s.runs
        | none => s.runs.Store key (c.Detect info)) ∧
    (PassState.go c s key info wg).log =
      (match s.runs.Load key with
        | some _ => s.log
        | none => s.log ++ [key]) := by
  obtain ⟨hpool, hsched⟩ := h
  cases hload : s.runs.Load key with
  | some run =>
    simp [PassState.go, PassState.yield, PassState.AtOnce, hpool, hsched, schedAtOnce,
      PassState.stepAt, Goroutine.step, hload]
  | none =>
    simp [PassState.go, PassState.yield, PassState.AtOnce, hpool, hsched, schedAtOnce,
      PassState.stepAt, Goroutine.step, hload]

theorem PassState.wait_atOnce (c : DetectConfig) (s : PassState) (wg : Nat) (h : s.AtOnce) :
    (PassState.Wait c s wg).AtOnce ∧ (PassState.Wait c s wg).runs = s.runs ∧
    (PassState.Wait c s wg).log = s.log := by
  obtain ⟨hpool, hsched⟩ := h
  simp [PassState.Wait, PassState.yield, PassState.AtOnce, hpool, hsched, schedAtOnce,
    PassState.stepAt, finishWaitGroup]

theorem groupDetectLoopSched_atOnce (c : DetectConfig)
    (orderDetect : BuildpackOrder → List GroupBuildpack → List GroupBuildpack → Bool → Nat →
      PassState → SchedOutcome)
    (orderDetectL : BuildpackOrder → List GroupBuildpack → List GroupBuildpack → Bool → Runs →
      List String → LoggedOutcome)
    (ho : ∀ order done next optional wg (s : PassState), s.AtOnce →
      eraseSched (orderDetect order done next optional wg s) =
        orderDetectL order done next optional s.runs s.log ∧
      ∀ r t, orderDetect order done next optional wg s = some (r, t) → t.AtOnce) :
    ∀ (members done : List GroupBuildpack) (wg : Nat) (s : PassState), s.AtOnce →
      eraseSched (BuildpackGroup.detectLoopSched c orderDetect members done wg s) =
        BuildpackGroup.detectLoopLogged c orderDetectL members done s.runs s.log ∧
      ∀ r t, BuildpackGroup.detectLoopSched c orderDetect members done wg s = some (r, t) →
        t.AtOnce := by
  intro members
  induction members with
  | nil =>
    intro done wg s hs
    obtain ⟨hat, hruns, hlog⟩ := PassState.wait_atOnce c s wg hs
    simp only [BuildpackGroup.detectLoopSched, BuildpackGroup.detectLoopLogged, hruns]
    cases process c.ord s.runs done with
    | none => exact ⟨rfl, fun r t h => by cases h⟩
    | some r =>
      refine ⟨?_, ?_⟩
      · simp only [eraseSched, hruns, hlog]
      · intro r' t h
        simp only [Option.some.injEq, Prod.mk.injEq] at h
        rw [← h.2]
        exact hat
  | cons bp rest ih =>
    intro done wg s hs
    simp only [BuildpackGroup.detectLoopSched, BuildpackGroup.detectLoopLogged]
    by_cases hid : hasID done bp.ID = true
    · simp only [hid, if_true]
      exact ih done wg s hs
    · simp only [hid, Bool.false_eq_true, if_false]
      cases hl : c.Lookup bp with
      | error msg =>
        refine ⟨rfl, ?_⟩
        intro r t h
        simp only [Option.some.injEq, Prod.mk.injEq] at h
        rw [← h.2]
        exact hs
      | ok info =>
        simp only
        cases hord : info.Order with
        | some order => exact ho _ _ _ _ _ _ hs
        | none =>
          simp only
          obtain ⟨hat, hruns, hlog⟩ := PassState.go_atOnce c s bp.String info wg hs
          have := ih (done ++ [{ bp with API := info.API, Homepage := info.Buildpack.Homepage }])
            wg _ hat
          rw [hruns, hlog] at this
          cases hload : s.runs.Load bp.String with
          | some run =>
            rw [hload] at this
            exact this
          | none =>
            rw [hload] at this
            exact this

theorem orderDetectLoopSched_atOnce
    (groupDetect : BuildpackGroup → List GroupBuildpack → Nat → PassState → SchedOutcome)
    (groupDetectL : BuildpackGroup → List GroupBuildpack → Runs → List String → LoggedOutcome)
    (hg : ∀ g done wg (s : PassState), s.AtOnce →
      eraseSched (groupDetect g done wg s) = groupDetectL g done s.runs s.log ∧
      ∀ r t, groupDetect g done wg s = some (r, t) → t.AtOnce)
    (done : List GroupBuildpack) (ngroup : BuildpackGroup) (optional : Bool) :
    ∀ (groups : List BuildpackGroup) (b : Bool) (wg : Nat) (s : PassState), s.AtOnce →
      eraseSched (BuildpackOrder.detectLoopSched groupDetect done ngroup optional groups b
          wg s) =
        BuildpackOrder.detectLoopLogged groupDetectL done ngroup optional groups b
          s.runs s.log ∧
      ∀ r t, BuildpackOrder.detectLoopSched groupDetect done ngroup optional groups b wg s =
        some (r, t) → t.AtOnce := by
  intro groups
  induction groups with
  | nil =>
    intro b wg s hs
    simp only [BuildpackOrder.detectLoopSched, BuildpackOrder.detectLoopLogged]
    cases optional with
    | true => exact hg _ _ _ _ hs
    | false =>
      cases b with
      | true =>
        refine ⟨rfl, ?_⟩
        intro r t h
        simp only [Bool.false_eq_true, if_false, if_true, Option.some.injEq,
          Prod.mk.injEq] at h
        rw [← h.2]
        exact hs
      | false =>
        refine ⟨rfl, ?_⟩
        intro r t h
        simp only [Bool.false_eq_true, if_false, Option.some.injEq, Prod.mk.injEq] at h
        rw [← h.2]
        exact hs
  | cons g groups ih =>
    intro b wg s hs
    simp only [BuildpackOrder.detectLoopSched, BuildpackOrder.detectLoopLogged]
    obtain ⟨hgi, hgat⟩ := hg (g.append [ngroup]) done wg s hs
    cases hres : groupDetect (g.append [ngroup]) done wg s with
    | none =>
      rw [hres] at hgi
      rw [← hgi]
      exact ⟨rfl, fun r t h => by cases h⟩
    | some out =>
      obtain ⟨r, t⟩ := out
      rw [hres] at hgi
      have hat : t.AtOnce := hgat r t hres
      have hat' : PassState.AtOnce { t with fresh := t.fresh + 1 } := hat
      rw [← hgi]
      simp only [eraseSched]
      cases r with
      | ok v =>
        refine ⟨rfl, ?_⟩
        intro r' t' h
        simp only [Option.some.injEq, Prod.mk.injEq] at h
        rw [← h.2]
        exact hat
      | error e =>
        cases e with
        | errBuildpack => exact ih true t.fresh _ hat'
        | errFailedDetection => exact ih b t.fresh _ hat'
        | lookupFailed msg =>
          refine ⟨rfl, ?_⟩
          intro r' t' h
          simp only [Option.some.injEq, Prod.mk.injEq] at h
          rw [← h.2]
          exact hat
        | missingDetection key =>
          refine ⟨rfl, ?_⟩
          intro r' t' h
          simp only [Option.some.injEq, Prod.mk.injEq] at h
          rw [← h.2]
          exact hat

theorem groupDetectSched_atOnce (c : DetectConfig) :
    ∀ (fuel : Nat) (bg : BuildpackGroup) (done : List GroupBuildpack) (wg : Nat)
      (s : PassState), s.AtOnce →
      eraseSched (BuildpackGroup.detectSched c fuel bg done wg s) =
        BuildpackGroup.detectLogged c fuel bg done s.runs s.log ∧
      ∀ r t, BuildpackGroup.detectSched c fuel bg done wg s = some (r, t) → t.AtOnce := by
  intro fuel
  induction fuel with
  | zero =>
    intro bg done wg s _
    exact ⟨rfl, fun r t h => by cases h⟩
  | succ fuel ih =>
    intro bg done wg s hs
    simp only [BuildpackGroup.detectSched, BuildpackGroup.detectLogged]
    exact groupDetectLoopSched_atOnce c _ _
      (fun order done next optional wg s hs =>
        orderDetectLoopSched_atOnce _ _ (fun g d w t ht => ih g d w t ht) done
          { Group := next } optional order false wg s hs)
      bg.Group done wg s hs

/-- The pass with its goroutines under the schedule that lets every goroutine run to its
end at the `go` statement that starts it: started with no goroutine in the pool, it has the
result, the runs map and the log of `BuildpackOrder.detectLogged`, and leaves no goroutine
in the pool. -/
theorem orderDetectSched_atOnce (c : DetectConfig) (fuel : Nat) (bo : BuildpackOrder)
    (done next : List GroupBuildpack) (optional : Bool) (wg : Nat) (s : PassState)
    (hs : s.AtOnce) :
    eraseSched (BuildpackOrder.detectSched c fuel bo done next optional wg s) =
      BuildpackOrder.detectLogged c fuel bo done next optional s.runs s.log ∧
    ∀ r t, BuildpackOrder.detectSched c fuel bo done next optional wg s = some (r, t) →
      t.AtOnce :=
  orderDetectLoopSched_atOnce _ _ (fun g d w t ht => groupDetectSched_atOnce c fuel g d w t ht)
    done { Group := next } optional bo false wg s hs

/-- Claim C14, the code at the failing input: the order `[[L, M], [L]]` in which `M` is a
meta-buildpack, not optional, whose order holds no group.  `BuildpackGroup.detect` starts
the goroutine of `L` for the first group and returns through `info.Order.detect` of `M`,
which fails the group without a call of `wg.Wait()`; the second group starts another
goroutine for `L`.  When the first goroutine has called `Load` and not yet `Store` at that
moment, the second one finds no run either, and `info.Detect` is invoked twice for the key
`L@1` within the one pass: the log of invocations holds the key twice.  When every
goroutine runs to its end where it is started, `info.Detect` is invoked once. -/
theorem detect_invoked_twice_after_empty_order :
    (BuildpackOrder.detectSched scenarioEmptyOrder 2 scenarioEmptyOrderGroups [] [] false 0
        (PassState.init [] (schedOf [[0], [1], [0, 0]]))).map
        (fun out => (out.1, out.2.log, out.2.runs)) =
      some (.ok ([{ bpRef "L" false with API := "0.4" }], []), ["L@1", "L@1"],
        [("L@1", runWith 0 [] [])]) ∧
    (BuildpackOrder.detectSched scenarioEmptyOrder 2 scenarioEmptyOrderGroups [] [] false 0
        (PassState.init [] schedAtOnce)).map
        (fun out => (out.1, out.2.log, out.2.runs)) =
      some (.ok ([{ bpRef "L" false with API := "0.4" }], []), ["L@1"],
        [("L@1", runWith 0 [] [])]) ∧
    ¬ ["L@1", "L@1"].Nodup := by
  refine ⟨rfl, rfl, by decide⟩

/-! ## Conversion of the versions of requires -/

theorem metadataLookup_set_same (m : List (String × MetaValue)) (key : String) (v : MetaValue) :
    metadataLookup (metadataSet m key v) key = some v := by
  induction m with
  | nil => simp [metadataSet, metadataLookup]
  | cons hd tl ih =>
    obtain ⟨k, w⟩ := hd
    by_cases h : k = key
    · simp [metadataSet, metadataLookup, h]
    · simp [metadataSet, metadataLookup, h, ih]

theorem metadataLookup_set_other (m : List (String × MetaValue)) (key key' : String)
    (v : MetaValue) (h : key ≠ key') :
    metadataLookup (metadataSet m key v) key' = metadataLookup m key' := by
  induction m with
  | nil => simp [metadataSet, metadataLookup, h]
  | cons hd tl ih =>
    obtain ⟨k, w⟩ := hd
    by_cases h0 : k = key
    · subst h0
      simp [metadataSet, metadataLookup, h]
    · by_cases h1 : k = key'
      · subst h1
        simp [metadataSet, metadataLookup, h0]
      · simp [metadataSet, metadataLookup, h0, h1, ih]

theorem Require.convertVersionToMetadata_empty (r : Require) (h : r.Version = "") :
    r.convertVersionToMetadata = r := by
  simp [Require.convertVersionToMetadata, h]

theorem Require.convertVersionToMetadata_version (r : Require) :
    r.convertVersionToMetadata.Version = "" := by
  unfold Require.convertVersionToMetadata
  split
  · rfl
  · rename_i h
    simpa using h

theorem Require.convertVersionToMetadata_get (r : Require) (h : r.Version ≠ "") :
    r.convertVersionToMetadata.metadataGet "version" = some (MetaValue.str r.Version) := by
  simp only [Require.convertVersionToMetadata, h, ne_eq, not_false_eq_true, if_true,
    Require.metadataGet]
  exact metadataLookup_set_same _ _ _

/-- Claim C15: every require of every entry of a plan that `BuildpackGroup.Detect` or
`BuildpackOrder.Detect` returns has an empty top-level version.  The plan is the plan
`process` returned with `convertVersionToMetadata` applied to each require, and that
conversion puts a non-empty top-level version under the metadata key `version`. -/
theorem plan_requires_have_no_toplevel_version (plan : List BuildPlanEntry)
    (h : DetectReturned plan) :
    (∀ e ∈ plan, ∀ r ∈ e.Requires, r.Version = "") ∧
    (∃ ord runs done found plan0, process ord runs done = some (.ok (found, plan0)) ∧
      plan = plan0.map fun e =>
        { e with Requires := e.Requires.map Require.convertVersionToMetadata }) ∧
    ∀ r0 : Require, r0.Version ≠ "" →
      r0.convertVersionToMetadata.metadataGet "version" = some (MetaValue.str r0.Version) := by
  have key : ∃ ord runs done found plan0, process ord runs done = some (.ok (found, plan0)) ∧
      plan = plan0.map fun e =>
        { e with Requires := e.Requires.map Require.convertVersionToMetadata } := by
    rcases h with ⟨c, fuel, bg, runs, g, h⟩ | ⟨c, fuel, bo, runs, g, h⟩
    · unfold BuildpackGroup.Detect at h
      simp only at h
      split at h
      · simp at h
      · rename_i r runs' heq
        simp only [Option.some.injEq] at h
        obtain ⟨found, plan0, hr, _, hp⟩ := finishDetect_ok h
        subst hr
        obtain ⟨runs0, done, hproc⟩ :=
          groupDetect_fromProcess c fuel bg [] _ found plan0 runs' heq
        exact ⟨c.ord, runs0, done, found, plan0, hproc, by simpa using hp⟩
    · unfold BuildpackOrder.Detect at h
      simp only at h
      split at h
      · simp at h
      · rename_i r runs' heq
        simp only [Option.some.injEq] at h
        obtain ⟨found, plan0, hr, _, hp⟩ := finishDetect_ok h
        subst hr
        obtain ⟨runs0, done, hproc⟩ :=
          orderDetect_fromProcess c fuel bo [] [] false _ found plan0 runs' heq
        exact ⟨c.ord, runs0, done, found, plan0, hproc, by simpa using hp⟩
  refine ⟨?_, key, fun r0 h0 => Require.convertVersionToMetadata_get r0 h0⟩
  obtain ⟨_, _, _, _, plan0, _, hplan⟩ := key
  intro e he r hr
  rw [hplan] at he
  simp only [List.mem_map] at he
  obtain ⟨e0, _, rfl⟩ := he
  simp only [List.mem_map] at hr
  obtain ⟨r0, _, rfl⟩ := hr
  exact Require.convertVersionToMetadata_version r0

/-- Witness of `plan_requires_have_no_toplevel_version`: in `scenarioVersioned` the require of
`B` on `dep` with the top-level version `1.2` is returned with that version under
`metadata.version`. -/
theorem plan_requires_have_no_toplevel_version_witness :
    BuildpackOrder.Detect scenarioVersioned 1
        [{ Group := [bpRef "A" false, bpRef "B" false] }] none =
      some (.ok ({ Group := [{ bpRef "A" false with API := "0.4" },
                             { bpRef "B" false with API := "0.4" }] },
                 { Entries := scenarioVersionedPlan })) ∧
    ∀ e ∈ scenarioVersionedPlan, ∀ r ∈ e.Requires, r.Version = "" :=
  ⟨rfl, (plan_requires_have_no_toplevel_version scenarioVersionedPlan
    (Or.inr ⟨scenarioVersioned, 1, [{ Group := [bpRef "A" false, bpRef "B" false] }], none,
      _, rfl⟩)).1⟩

/-- Claim C18: `convertVersionToMetadata` leaves a require with an empty version unchanged;
on a require with a non-empty version it sets the metadata key `version` to the old
version (in a metadata map made for it when there was none, over a value that was there),
empties the version, and keeps the name and the value of every other metadata key. -/
theorem convertVersionToMetadata_spec (r : Require) :
    (r.Version = "" → r.convertVersionToMetadata = r) ∧
    (r.Version ≠ "" →
      r.convertVersionToMetadata.metadataGet "version" = some (MetaValue.str r.Version) ∧
      r.convertVersionToMetadata.Metadata ≠ none ∧
      r.convertVersionToMetadata.Version = "" ∧
      r.convertVersionToMetadata.Name = r.Name ∧
      ∀ key, key ≠ "version" →
        r.convertVersionToMetadata.metadataGet key = r.metadataGet key) := by
  refine ⟨Require.convertVersionToMetadata_empty r, ?_⟩
  intro h
  refine ⟨Require.convertVersionToMetadata_get r h, ?_,
    Require.convertVersionToMetadata_version r, ?_, ?_⟩
  · simp [Require.convertVersionToMetadata, h]
  · simp [Require.convertVersionToMetadata, h]
  · intro key hkey
    simp only [Require.convertVersionToMetadata, h, ne_eq, not_false_eq_true, if_true,
      Require.metadataGet]
    rw [metadataLookup_set_other _ _ _ _ (Ne.symm hkey)]
    cases r.Metadata <;> rfl

/-- Witness of `convertVersionToMetadata_spec`: a require with the version `2` and the metadata
`{version = 1, launch = true}` keeps `launch` and gets `version = "2"`. -/
theorem convertVersionToMetadata_spec_witness :
    Require.convertVersionToMetadata
        { Name := "dep", Version := "2",
          Metadata := some [("version", MetaValue.int 1), ("launch", MetaValue.bool true)] } =
      { Name := "dep", Version := "",
        Metadata := some [("version", MetaValue.str "2"), ("launch", MetaValue.bool true)] } ∧
    (Require.convertVersionToMetadata
        { Name := "dep", Version := "2",
          Metadata := some [("version", MetaValue.int 1), ("launch", MetaValue.bool true)] }).metadataGet
      "version" = some (MetaValue.str "2") :=
  ⟨rfl, ((convertVersionToMetadata_spec
    { Name := "dep", Version := "2",
      Metadata := some [("version", MetaValue.int 1), ("launch", MetaValue.bool true)] }).2
    (by decide)).1⟩

/-- Claim C19: `convertMetadataToVersion` leaves a require without the metadata key
`version` unchanged; otherwise it sets the version to the text of that metadata value
(for a string, the string itself) and changes nothing else, so the metadata, its key
`version` included, and the name stay; the require `{name, metadata.version = "v1"}` becomes
`{name, version = "v1", metadata.version = "v1"}`. -/
theorem convertMetadataToVersion_spec (r : Require) :
    (r.metadataGet "version" = none → r.convertMetadataToVersion = r) ∧
    (∀ v, r.metadataGet "version" = some v →
      r.convertMetadataToVersion = { r with Version := v.render } ∧
      r.convertMetadataToVersion.Metadata = r.Metadata ∧
      r.convertMetadataToVersion.Name = r.Name ∧
      ∀ s, v = MetaValue.str s → r.convertMetadataToVersion.Version = s) ∧
    Require.convertMetadataToVersion
        { Name := "dep", Version := "", Metadata := some [("version", MetaValue.str "v1")] } =
      { Name := "dep", Version := "v1", Metadata := some [("version", MetaValue.str "v1")] } := by
  refine ⟨?_, ?_, rfl⟩
  · intro h
    simp [Require.convertMetadataToVersion, h]
  · intro v h
    refine ⟨by simp [Require.convertMetadataToVersion, h],
      by simp [Require.convertMetadataToVersion, h],
      by simp [Require.convertMetadataToVersion, h], ?_⟩
    intro s hs
    subst hs
    simp [Require.convertMetadataToVersion, h, MetaValue.render]

/-- Witness of `convertMetadataToVersion_spec`: the metadata value `1`, an integer, gives the
version `1`. -/
theorem convertMetadataToVersion_spec_witness :
    Require.convertMetadataToVersion
        { Name := "dep", Version := "", Metadata := some [("version", MetaValue.int 1)] } =
      { Name := "dep", Version := "1", Metadata := some [("version", MetaValue.int 1)] } :=
  ((convertMetadataToVersion_spec
    { Name := "dep", Version := "", Metadata := some [("version", MetaValue.int 1)] }).2.1
    (MetaValue.int 1) rfl).1.trans rfl

/-- Claim C20: `convertVersionToMetadata` and `convertMetadataToVersion` are idempotent. -/
theorem conversions_idempotent (r : Require) :
    r.convertVersionToMetadata.convertVersionToMetadata = r.convertVersionToMetadata ∧
    r.convertMetadataToVersion.convertMetadataToVersion = r.convertMetadataToVersion := by
  constructor
  · exact Require.convertVersionToMetadata_empty _ (Require.convertVersionToMetadata_version r)
  · cases h : r.metadataGet "version" with
    | none => simp [Require.convertMetadataToVersion, h]
    | some v =>
      have h1 : r.convertMetadataToVersion = { r with Version := v.render } := by
        simp [Require.convertMetadataToVersion, h]
      have h2 : Require.metadataGet { r with Version := v.render } "version" = some v := h
      rw [h1]
      simp [Require.convertMetadataToVersion, h2]

/-! ## Validation of the versions in a detect run -/

theorem Require.hasInconsistentVersions_iff (r : Require) :
    r.hasInconsistentVersions = true ↔
      r.Version ≠ "" ∧ ∃ v, r.metadataGet "version" = some v ∧ v ≠ MetaValue.str r.Version := by
  unfold Require.hasInconsistentVersions
  cases h : r.metadataGet "version" with
  | none => simp
  | some v =>
    simp only [Bool.and_eq_true, decide_eq_true_eq, Option.some.injEq, exists_eq_left']
    constructor
    · intro ⟨h1, h2⟩
      exact ⟨h1, fun hc => h2 hc.symm⟩
    · intro ⟨h1, h2⟩
      exact ⟨h1, fun hc => h2 hc.symm⟩

theorem Require.hasDoublySpecifiedVersions_iff (r : Require) :
    r.hasDoublySpecifiedVersions = true ↔
      r.Version ≠ "" ∧ (r.metadataGet "version").isSome = true := by
  unfold Require.hasDoublySpecifiedVersions
  cases h : r.metadataGet "version" with
  | none => simp
  | some v => simp

/-- A check of the primary section or of an alternate finds a require exactly when some
require of one of these sections passes the check of requires. -/
theorem sections_any_iff (f : Require → Bool) (sections : planSections) (or : planSectionsList) :
    (sections.Requires.any f || or.any fun p => p.Requires.any f) = true ↔
      ∃ p ∈ sections :: or, ∃ r ∈ p.Requires, f r = true := by
  simp only [Bool.or_eq_true, List.any_eq_true, List.mem_cons]
  constructor
  · intro h
    rcases h with ⟨r, hr, hf⟩ | ⟨p, hp, r, hr, hf⟩
    · exact ⟨sections, Or.inl rfl, r, hr, hf⟩
    · exact ⟨p, Or.inr hp, r, hr, hf⟩
  · intro ⟨p, hp, r, hr, hf⟩
    rcases hp with hp | hp
    · subst hp
      exact Or.inl ⟨r, hr, hf⟩
    · exact Or.inr ⟨p, hp, r, hr, hf⟩

/-- Claim C16: for a buildpack with API 0.2 whose detect exits 0 and whose plan file
decodes, the run that `BuildpackTOML.Detect` returns has code -1 and the error "version
does not match metadata.version" exactly when some require of the primary section or of an
`or` alternate has a non-empty top-level version and a metadata value `version` other than
that string; otherwise (the two agree, or one of them is absent) the run has code 0 and no
error.  The sections are returned as decoded. -/
theorem detect_api_0_2_inconsistent_versions (b : BuildpackTOML) (sections : planSections)
    (or : planSectionsList) (output : List Nat) :
    (((b.Detect ⟨0, 2⟩ (.decoded sections or output)).1.Code = -1 ∧
        (b.Detect ⟨0, 2⟩ (.decoded sections or output)).1.Err =
          some (errInconsistentVersion b.Buildpack.ID)) ↔
      ∃ p ∈ sections :: or, ∃ r ∈ p.Requires,
        r.Version ≠ "" ∧ ∃ v, r.metadataGet "version" = some v ∧ v ≠ MetaValue.str r.Version) ∧
    ((¬ ∃ p ∈ sections :: or, ∃ r ∈ p.Requires,
        r.Version ≠ "" ∧ ∃ v, r.metadataGet "version" = some v ∧ v ≠ MetaValue.str r.Version) →
      (b.Detect ⟨0, 2⟩ (.decoded sections or output)).1.Code = 0 ∧
        (b.Detect ⟨0, 2⟩ (.decoded sections or output)).1.Err = none) ∧
    (b.Detect ⟨0, 2⟩ (.decoded sections or output)).1.toplanSections = sections ∧
    (b.Detect ⟨0, 2⟩ (.decoded sections or output)).1.Or = or := by
  have hE : ApiVersion.Equal ⟨0, 2⟩ ⟨0, 2⟩ = true := by decide
  have hC : ¬ (ApiVersion.Compare ⟨0, 2⟩ ⟨0, 3⟩ ≥ 0) := by decide
  have hiff := sections_any_iff Require.hasInconsistentVersions sections or
  simp only [Require.hasInconsistentVersions_iff] at hiff
  cases hany : (sections.Requires.any Require.hasInconsistentVersions ||
      or.any fun p => p.Requires.any Require.hasInconsistentVersions) with
  | true =>
    have hex := hiff.1 hany
    have hrun : (b.Detect ⟨0, 2⟩ (.decoded sections or output)).1 =
        { toplanSections := sections, Or := or, Output := output, Code := -1,
          Err := some (errInconsistentVersion b.Buildpack.ID) } := by
      simp only [BuildpackTOML.Detect, hE, hC, if_true, if_false,
        planSections.hasInconsistentVersions, planSectionsList.hasInconsistentVersions]
      rw [show (sections.Requires.any Require.hasInconsistentVersions ||
        or.any planSections.hasInconsistentVersions) = true from hany]
      rfl
    rw [hrun]
    exact ⟨⟨fun _ => hex, fun _ => ⟨rfl, rfl⟩⟩, fun hn => absurd hex hn, rfl, rfl⟩
  | false =>
    have hnex : ¬ ∃ p ∈ sections :: or, ∃ r ∈ p.Requires,
        r.Version ≠ "" ∧ ∃ v, r.metadataGet "version" = some v ∧ v ≠ MetaValue.str r.Version := by
      intro hc
      have := hiff.2 hc
      rw [hany] at this
      exact Bool.false_ne_true this
    have hrun : (b.Detect ⟨0, 2⟩ (.decoded sections or output)).1 =
        { toplanSections := sections, Or := or, Output := output, Code := 0, Err := none } := by
      simp only [BuildpackTOML.Detect, hE, hC, if_true, if_false,
        planSections.hasInconsistentVersions, planSectionsList.hasInconsistentVersions]
      rw [show (sections.Requires.any Require.hasInconsistentVersions ||
        or.any planSections.hasInconsistentVersions) = false from hany]
      rfl
    rw [hrun]
    refine ⟨⟨fun h => ?_, fun h => absurd h hnex⟩, fun _ => ⟨rfl, rfl⟩, rfl, rfl⟩
    have := h.1
    simp at this

theorem ApiVersion.not_equal_0_2 (api : ApiVersion) (h : api.Compare ⟨0, 3⟩ ≥ 0) :
    api.Equal ⟨0, 2⟩ = false := by
  unfold ApiVersion.Equal
  rw [decide_eq_false_iff_not]
  unfold ApiVersion.Compare at h ⊢
  intro hc
  split_ifs at h hc <;> simp_all

/-- Claim C17: for a buildpack with API 0.3 or higher whose detect exits 0 and whose plan
file decodes, the run that `BuildpackTOML.Detect` returns has code -1 and the error "cannot
be specified together" exactly when some require of the primary section or of an `or`
alternate has a non-empty top-level version and the metadata key `version`, whatever its
value; otherwise the run has code 0 and no error.  The deprecation warning is logged
exactly when some require has a non-empty top-level version, so a bare top-level version
gives the warning and leaves the code at 0. -/
theorem detect_api_0_3_doubly_specified_versions (b : BuildpackTOML) (api : ApiVersion)
    (sections : planSections) (or : planSectionsList) (output : List Nat)
    (hapi : api.Compare ⟨0, 3⟩ ≥ 0) :
    (((b.Detect api (.decoded sections or output)).1.Code = -1 ∧
        (b.Detect api (.decoded sections or output)).1.Err =
          some (errDoublySpecifiedVersion b.Buildpack.ID)) ↔
      ∃ p ∈ sections :: or, ∃ r ∈ p.Requires,
        r.Version ≠ "" ∧ (r.metadataGet "version").isSome = true) ∧
    ((¬ ∃ p ∈ sections :: or, ∃ r ∈ p.Requires,
        r.Version ≠ "" ∧ (r.metadataGet "version").isSome = true) →
      (b.Detect api (.decoded sections or output)).1.Code = 0 ∧
        (b.Detect api (.decoded sections or output)).1.Err = none) ∧
    ((b.Detect api (.decoded sections or output)).2 = [warnTopLevelVersion b.Buildpack.ID] ↔
      ∃ p ∈ sections :: or, ∃ r ∈ p.Requires, r.Version ≠ "") ∧
    (b.Detect api (.decoded sections or output)).1.toplanSections = sections ∧
    (b.Detect api (.decoded sections or output)).1.Or = or := by
  have hE : api.Equal ⟨0, 2⟩ = false := api.not_equal_0_2 hapi
  have hiff := sections_any_iff Require.hasDoublySpecifiedVersions sections or
  simp only [Require.hasDoublySpecifiedVersions_iff] at hiff
  have hwiff := sections_any_iff Require.hasTopLevelVersions sections or
  simp only [Require.hasTopLevelVersions, decide_eq_true_eq] at hwiff
  have hwarn : (b.Detect api (.decoded sections or output)).2 =
      if (sections.Requires.any Require.hasTopLevelVersions ||
          or.any fun p => p.Requires.any Require.hasTopLevelVersions) = true then
        [warnTopLevelVersion b.Buildpack.ID] else [] := by
    simp only [BuildpackTOML.Detect, hE, hapi, if_true, Bool.false_eq_true, if_false,
      planSections.hasTopLevelVersions, planSectionsList.hasTopLevelVersions]
    split <;> rfl
  have hw : (b.Detect api (.decoded sections or output)).2 = [warnTopLevelVersion b.Buildpack.ID] ↔
      ∃ p ∈ sections :: or, ∃ r ∈ p.Requires, r.Version ≠ "" := by
    rw [hwarn]
    constructor
    · intro h
      split at h
      · rename_i hc
        exact hwiff.1 (by simpa [Require.hasTopLevelVersions] using hc)
      · simp at h
    · intro h
      have := hwiff.2 h
      simp only [Require.hasTopLevelVersions] at this ⊢
      rw [if_pos this]
  cases hany : (sections.Requires.any Require.hasDoublySpecifiedVersions ||
      or.any fun p => p.Requires.any Require.hasDoublySpecifiedVersions) with
  | true =>
    have hex := hiff.1 hany
    have hrun : (b.Detect api (.decoded sections or output)).1 =
        { toplanSections := sections, Or := or, Output := output, Code := -1,
          Err := some (errDoublySpecifiedVersion b.Buildpack.ID) } := by
      simp only [BuildpackTOML.Detect, hE, hapi, if_true, Bool.false_eq_true, if_false,
        planSections.hasDoublySpecifiedVersions, planSectionsList.hasDoublySpecifiedVersions]
      rw [show (sections.Requires.any Require.hasDoublySpecifiedVersions ||
        or.any planSections.hasDoublySpecifiedVersions) = true from hany]
      rfl
    rw [hrun]
    exact ⟨⟨fun _ => hex, fun _ => ⟨rfl, rfl⟩⟩, fun hn => absurd hex hn, hw, rfl, rfl⟩
  | false =>
    have hnex : ¬ ∃ p ∈ sections :: or, ∃ r ∈ p.Requires,
        r.Version ≠ "" ∧ (r.metadataGet "version").isSome = true := by
      intro hc
      have := hiff.2 hc
      rw [hany] at this
      exact Bool.false_ne_true this
    have hrun : (b.Detect api (.decoded sections or output)).1 =
        { toplanSections := sections, Or := or, Output := output, Code := 0, Err := none } := by
      simp only [BuildpackTOML.Detect, hE, hapi, if_true, Bool.false_eq_true, if_false,
        planSections.hasDoublySpecifiedVersions, planSectionsList.hasDoublySpecifiedVersions]
      rw [show (sections.Requires.any Require.hasDoublySpecifiedVersions ||
        or.any planSections.hasDoublySpecifiedVersions) = false from hany]
      rfl
    rw [hrun]
    refine ⟨⟨fun h => ?_, fun h => absurd h hnex⟩, fun _ => ⟨rfl, rfl⟩, hw, rfl, rfl⟩
    have := h.1
    simp at this

/-- Witness of `detect_api_0_3_doubly_specified_versions`: with API 0.3 a require with the bare
top-level version `1` is accepted with code 0 and the deprecation warning. -/
theorem detect_api_0_3_doubly_specified_versions_witness :
    (BuildpackTOML.Detect (leafDescriptor "A" "0.3") ⟨0, 3⟩
        (.decoded { Requires := [{ Name := "dep", Version := "1", Metadata := none }],
                    Provides := [] } [] [])).1.Code = 0 ∧
    (BuildpackTOML.Detect (leafDescriptor "A" "0.3") ⟨0, 3⟩
        (.decoded { Requires := [{ Name := "dep", Version := "1", Metadata := none }],
                    Provides := [] } [] [])).2 = [warnTopLevelVersion "A"] :=
  ⟨((detect_api_0_3_doubly_specified_versions (leafDescriptor "A" "0.3") ⟨0, 3⟩
      { Requires := [{ Name := "dep", Version := "1", Metadata := none }], Provides := [] } [] []
      (by decide)).2.1 (by decide)).1,
    (detect_api_0_3_doubly_specified_versions (leafDescriptor "A" "0.3") ⟨0, 3⟩
      { Requires := [{ Name := "dep", Version := "1", Metadata := none }], Provides := [] } [] []
      (by decide)).2.2.1.2 ⟨_, List.mem_cons_self _ _, _, List.mem_cons_self _ _, by decide⟩⟩

/-- Witness of `detect_api_0_2_inconsistent_versions`: with API 0.2 a require with the version
`1` and the metadata value `version = "2"` gives code -1; with `version = "1"` in both
places the code stays 0. -/
theorem detect_api_0_2_inconsistent_versions_witness :
    (BuildpackTOML.Detect (leafDescriptor "A" "0.2") ⟨0, 2⟩
        (.decoded { Requires := [{ Name := "dep", Version := "1",
                                   Metadata := some [("version", MetaValue.str "2")] }],
                    Provides := [] } [] [])).1.Code = -1 ∧
    (BuildpackTOML.Detect (leafDescriptor "A" "0.2") ⟨0, 2⟩
        (.decoded { Requires := [{ Name := "dep", Version := "1",
                                   Metadata := some [("version", MetaValue.str "1")] }],
                    Provides := [] } [] [])).1.Code = 0 :=
  ⟨((detect_api_0_2_inconsistent_versions (leafDescriptor "A" "0.2")
      { Requires := [{ Name := "dep", Version := "1",
                       Metadata := some [("version", MetaValue.str "2")] }],
        Provides := [] } [] []).1.2
      ⟨_, List.mem_cons_self _ _, _, List.mem_cons_self _ _, by decide,
        MetaValue.str "2", rfl, by decide⟩).1,
    ((detect_api_0_2_inconsistent_versions (leafDescriptor "A" "0.2")
      { Requires := [{ Name := "dep", Version := "1",
                       Metadata := some [("version", MetaValue.str "1")] }],
        Provides := [] } [] []).2.1 (by decide)).1⟩

/-! ## The two conversions composed -/

theorem metadataSet_eq_self_iff (m : List (String × MetaValue)) (key : String) (v : MetaValue) :
    metadataSet m key v = m ↔ metadataLookup m key = some v := by
  constructor
  · intro h
    rw [← h]
    exact metadataLookup_set_same m key v
  · intro h
    induction m with
    | nil => simp [metadataLookup] at h
    | cons hd tl ih =>
      obtain ⟨k, w⟩ := hd
      by_cases hk : k = key
      · simp only [metadataLookup, hk, if_true, Option.some.injEq] at h
        simp [metadataSet, hk, h]
      · simp only [metadataLookup, hk, if_false] at h
        simp [metadataSet, hk, ih h]

theorem metadataSet_injective (m : List (String × MetaValue)) (key : String) (v w : MetaValue)
    (h : metadataSet m key v = metadataSet m key w) : v = w := by
  have h1 := metadataLookup_set_same m key v
  rw [h, metadataLookup_set_same] at h1
  exact (Option.some.inj h1).symm

theorem MetaValue.render_str (s : String) : (MetaValue.str s).render = s := rfl

/-- Counterexample to claim C21: for the require with the top-level version `a` and the
metadata value `version = "b"`, converting to the top level first leaves `b` under
`metadata.version`, converting directly leaves `a`. -/
theorem convertVersionToMetadata_after_toplevel_differs :
    (Require.convertMetadataToVersion
        { Name := "dep", Version := "a",
          Metadata := some [("version", MetaValue.str "b")] }).convertVersionToMetadata =
      { Name := "dep", Version := "", Metadata := some [("version", MetaValue.str "b")] } ∧
    Require.convertVersionToMetadata
        { Name := "dep", Version := "a", Metadata := some [("version", MetaValue.str "b")] } =
      { Name := "dep", Version := "", Metadata := some [("version", MetaValue.str "a")] } ∧
    (Require.convertMetadataToVersion
        { Name := "dep", Version := "a",
          Metadata := some [("version", MetaValue.str "b")] }).convertVersionToMetadata ≠
      Require.convertVersionToMetadata
        { Name := "dep", Version := "a", Metadata := some [("version", MetaValue.str "b")] } := by
  refine ⟨rfl, rfl, ?_⟩
  decide

/-- Claim C21, amended: `convertVersionToMetadata` after `convertMetadataToVersion` equals
`convertVersionToMetadata` alone exactly on the requires whose two versions do not
conflict: the metadata has no key `version`; or the top-level version is empty and the
metadata value is a string (or a value whose text is empty); or the top-level version is
not empty and is the text of the metadata value. -/
theorem convertVersionToMetadata_after_toplevel (r : Require) :
    r.convertMetadataToVersion.convertVersionToMetadata = r.convertVersionToMetadata ↔
      (r.metadataGet "version" = none ∨
        ∃ v, r.metadataGet "version" = some v ∧
          ((r.Version = "" ∧ (v.render = "" ∨ v = MetaValue.str v.render)) ∨
            (r.Version ≠ "" ∧ r.Version = v.render))) := by
  obtain ⟨name, version, metadata⟩ := r
  cases hget : Require.metadataGet ⟨name, version, metadata⟩ "version" with
  | none =>
    simp [Require.convertMetadataToVersion, hget]
  | some v =>
    have hmeta : ∃ m, metadata = some m ∧ metadataLookup m "version" = some v := by
      cases metadata with
      | none => simp [Require.metadataGet] at hget
      | some m => exact ⟨m, rfl, hget⟩
    obtain ⟨m, rfl, hlook⟩ := hmeta
    simp only [Require.convertMetadataToVersion, hget, false_or, Option.some.injEq,
      exists_eq_left', reduceCtorEq]
    by_cases hr : v.render = ""
    · by_cases hv : version = ""
      · subst hv
        simp [Require.convertVersionToMetadata, hr]
      · simp only [Require.convertVersionToMetadata, hr, hv, ne_eq, not_true_eq_false,
          if_false, not_false_eq_true, if_true, Require.mk.injEq, true_and, Option.some.injEq,
          false_and, or_false, false_or]
        constructor
        · intro h
          have h2 := (metadataSet_eq_self_iff m "version" (MetaValue.str version)).1 h.symm
          rw [hlook] at h2
          have h3 := Option.some.inj h2
          rw [h3] at hr
          exact absurd hr hv
        · intro h
          exact h.elim
    · by_cases hv : version = ""
      · subst hv
        simp only [Require.convertVersionToMetadata, hr, ne_eq, not_false_eq_true, if_true,
          not_true_eq_false, if_false, Require.mk.injEq, true_and, Option.some.injEq, false_or,
          false_and, or_false]
        rw [metadataSet_eq_self_iff, hlook]
        constructor
        · intro h; exact Option.some.inj h
        · intro h; rw [← h]
      · simp only [Require.convertVersionToMetadata, hr, hv, ne_eq, not_false_eq_true, if_true,
          Require.mk.injEq, true_and, Option.some.injEq, false_and, false_or, true_and]
        constructor
        · intro h
          have := metadataSet_injective m "version" _ _ h
          exact (MetaValue.str.inj this).symm
        · intro h
          rw [h]

/-- Witness of `convertVersionToMetadata_after_toplevel`: a require with an empty top-level
version and the metadata value `version = "v1"`. -/
theorem convertVersionToMetadata_after_toplevel_witness :
    (Require.convertMetadataToVersion
        { Name := "dep", Version := "",
          Metadata := some [("version", MetaValue.str "v1")] }).convertVersionToMetadata =
      Require.convertVersionToMetadata
        { Name := "dep", Version := "", Metadata := some [("version", MetaValue.str "v1")] } :=
  (convertVersionToMetadata_after_toplevel
    { Name := "dep", Version := "", Metadata := some [("version", MetaValue.str "v1")] }).2
    (Or.inr ⟨MetaValue.str "v1", rfl, Or.inl ⟨rfl, Or.inr rfl⟩⟩)

/-- Counterexample to claim C22: for the require with the top-level version `1` and no
metadata, converting to the metadata form first leaves `version = "1"` in the metadata,
converting to the top level directly leaves the require without metadata. -/
theorem convertMetadataToVersion_after_metadata_differs :
    (Require.convertVersionToMetadata
        { Name := "dep", Version := "1", Metadata := none }).convertMetadataToVersion =
      { Name := "dep", Version := "1", Metadata := some [("version", MetaValue.str "1")] } ∧
    Require.convertMetadataToVersion { Name := "dep", Version := "1", Metadata := none } =
      { Name := "dep", Version := "1", Metadata := none } ∧
    (Require.convertVersionToMetadata
        { Name := "dep", Version := "1", Metadata := none }).convertMetadataToVersion ≠
      Require.convertMetadataToVersion { Name := "dep", Version := "1", Metadata := none } := by
  refine ⟨rfl, rfl, ?_⟩
  decide

/-- Claim C22, amended: `convertMetadataToVersion` after `convertVersionToMetadata` equals
`convertMetadataToVersion` alone exactly on the requires whose top-level version is empty
or is already the string under the metadata key `version`. -/
theorem convertMetadataToVersion_after_metadata (r : Require) :
    r.convertVersionToMetadata.convertMetadataToVersion = r.convertMetadataToVersion ↔
      (r.Version = "" ∨ r.metadataGet "version" = some (MetaValue.str r.Version)) := by
  obtain ⟨name, version, metadata⟩ := r
  by_cases hv : version = ""
  · subst hv
    simp [Require.convertVersionToMetadata]
  · simp only [hv, false_or]
    cases metadata with
    | none =>
      simp [Require.convertVersionToMetadata, Require.convertMetadataToVersion,
        Require.metadataGet, metadataSet, metadataLookup, MetaValue.render, hv]
    | some m =>
      have hleft : (Require.convertVersionToMetadata
          ⟨name, version, some m⟩).convertMetadataToVersion =
          ⟨name, version, some (metadataSet m "version" (MetaValue.str version))⟩ := by
        simp [Require.convertVersionToMetadata, Require.convertMetadataToVersion,
          Require.metadataGet, metadataLookup_set_same, MetaValue.render, hv]
      rw [hleft]
      cases hlook : metadataLookup m "version" with
      | none =>
        have hget : Require.metadataGet ⟨name, version, some m⟩ "version" = none := hlook
        simp only [Require.convertMetadataToVersion, hget, Require.mk.injEq, true_and,
          Option.some.injEq, reduceCtorEq, iff_false]
        intro h
        rw [metadataSet_eq_self_iff, hlook] at h
        simp at h
      | some v =>
        have hget : Require.metadataGet ⟨name, version, some m⟩ "version" = some v := hlook
        simp only [Require.convertMetadataToVersion, hget, Require.mk.injEq, true_and,
          Option.some.injEq]
        constructor
        · intro ⟨_, h⟩
          rw [metadataSet_eq_self_iff, hlook] at h
          exact (Option.some.inj h)
        · intro h
          subst h
          exact ⟨rfl, (metadataSet_eq_self_iff m "version" _).2 hlook⟩

/-- Witness of `convertMetadataToVersion_after_metadata`: a require with the top-level version
`v1` and the metadata value `version = "v1"`. -/
theorem convertMetadataToVersion_after_metadata_witness :
    (Require.convertVersionToMetadata
        { Name := "dep", Version := "v1",
          Metadata := some [("version", MetaValue.str "v1")] }).convertMetadataToVersion =
      Require.convertMetadataToVersion
        { Name := "dep", Version := "v1", Metadata := some [("version", MetaValue.str "v1")] } :=
  (convertMetadataToVersion_after_metadata
    { Name := "dep", Version := "v1", Metadata := some [("version", MetaValue.str "v1")] }).2
    (Or.inr rfl)

/-! ## Per-buildpack plan and plan filtering -/

theorem findProviders_eq (bpID : String) (entry : BuildPlanEntry) (out : List Require)
    (ps : List GroupBuildpack) :
    BuildPlan.findProviders bpID entry out ps =
      if ps.any (fun q => decide (q.ID = bpID)) then out ++ entry.Requires else out := by
  induction ps with
  | nil => simp [BuildPlan.findProviders]
  | cons q rest ih =>
    by_cases h : q.ID = bpID
    · simp [BuildPlan.findProviders, h]
    · simp [BuildPlan.findProviders, h, ih]

theorem find_foldl_eq (bpID : String) (es : List BuildPlanEntry) (out : List Require) :
    es.foldl (fun out entry => BuildPlan.findProviders bpID entry out entry.Providers) out =
      out ++ ((es.filter fun e => e.Providers.any fun q => decide (q.ID = bpID)).map
        BuildPlanEntry.Requires).flatten := by
  induction es generalizing out with
  | nil => simp
  | cons e rest ih =>
    rw [List.foldl_cons, ih, findProviders_eq]
    by_cases h : (e.Providers.any fun q => decide (q.ID = bpID)) = true
    · simp only [h, if_true, List.filter_cons_of_pos, List.map_cons, List.flatten_cons,
        List.append_assoc]
    · have hf : (e.Providers.any fun q => decide (q.ID = bpID)) = false := by
        simpa using h
      rw [List.filter_cons_of_neg (by simp [hf])]
      simp [hf]

theorem find_concat_helper (p : BuildPlan) (bpID : String) :
    (p.Find bpID).Entries =
      ((p.Entries.filter fun e => e.Providers.any fun q => decide (q.ID = bpID)).map
        BuildPlanEntry.Requires).flatten := by
  simp only [BuildPlan.Find, find_foldl_eq, List.nil_append]

/-- Claim C23: for every plan and buildpack id, the entries of `p.Find id` are the
concatenation, in plan order, of the requires of the entries that list a provider with
that id; each such entry contributes its requires once, the other entries nothing. -/
theorem find_concatenates_provided_requires (p : BuildPlan) (bpID : String) :
    (p.Find bpID).Entries =
      ((p.Entries.filter fun e => e.Providers.any fun q => decide (q.ID = bpID)).map
        BuildPlanEntry.Requires).flatten := by
  simp only [BuildPlan.Find, find_foldl_eq, List.nil_append]

theorem containsEntryName_eq (met : String) (rs : List Require) :
    containsEntryName met rs = rs.any fun r => decide (met = r.Name) := by
  induction rs with
  | nil => rfl
  | cons r rest ih =>
    by_cases h : met = r.Name
    · simp [containsEntryName, h]
    · simp [containsEntryName, h, ih]

theorem containsEntry_eq (metRequires : List String) (entry : BuildPlanEntry) :
    containsEntry metRequires entry =
      entry.Requires.any fun r => decide (r.Name ∈ metRequires) := by
  induction metRequires with
  | nil => simp [containsEntry]
  | cons met rest ih =>
    simp only [containsEntry, containsEntryName_eq, ih]
    rw [Bool.eq_iff_iff]
    simp only [Bool.if_true_left, Bool.or_eq_true, List.any_eq_true, decide_eq_true_eq,
      List.mem_cons]
    constructor
    · rintro (⟨r, hr, h⟩ | ⟨r, hr, h⟩)
      · exact ⟨r, hr, Or.inl h.symm⟩
      · exact ⟨r, hr, Or.inr h⟩
    · rintro ⟨r, hr, h | h⟩
      · exact Or.inl ⟨r, hr, h.symm⟩
      · exact Or.inr ⟨r, hr, h⟩

theorem filter_foldl_eq (metRequires : List String) (es out : List BuildPlanEntry) :
    es.foldl (fun out planEntry =>
        if !containsEntry metRequires planEntry then out ++ [planEntry] else out) out =
      out ++ es.filter fun e => !containsEntry metRequires e := by
  induction es generalizing out with
  | nil => simp
  | cons e rest ih =>
    rw [List.foldl_cons, ih]
    cases h : containsEntry metRequires e <;> simp [h]

/-- Claim C24, as the code behaves: `BuildPlan.Filter` is given the met names only, not the
buildpack that reported them.  The entry for `dep`, whose only provider is `A`, is dropped
when `dep` is reported as met, whoever reported it; in general the entries kept are those
none of whose requires has a met name, whatever their providers. -/
theorem filter_drops_entry_claimed_by_non_provider :
    (scenarioFilterPlan.Filter ["dep"]).Entries = [] ∧
    (scenarioFilterPlan.Find "B").Entries = [] ∧
    ∀ (p : BuildPlan) (metRequires : List String),
      (p.Filter metRequires).Entries =
        p.Entries.filter fun e => !(e.Requires.any fun r => decide (r.Name ∈ metRequires)) := by
  refine ⟨by decide, by decide, ?_⟩
  intro p metRequires
  have h := filter_foldl_eq metRequires p.Entries []
  simp only [List.nil_append, containsEntry_eq] at h
  simpa only [BuildPlan.Filter, containsEntry_eq] using h

/-! ## The process map -/

theorem processMap.get_set (m : processMap) (k k' : String) (v : Process) :
    (m.set k v).get k' = if k = k' then v else m.get k' := by
  induction m with
  | nil => simp [processMap.set, processMap.get]
  | cons kv rest ih =>
    obtain ⟨a, b⟩ := kv
    by_cases hak : a = k
    · subst hak
      by_cases hk : a = k' <;> simp [processMap.set, processMap.get, hk]
    · by_cases hk : a = k'
      · subst hk
        have hne : ¬k = a := fun h => hak h.symm
        simp [processMap.set, processMap.get, hak, hne]
      · simp [processMap.set, processMap.get, hak, hk, ih]

theorem processMap.keys_set (m : processMap) (k : String) (v : Process) :
    (m.set k v).map Prod.fst =
      if k ∈ m.map Prod.fst then m.map Prod.fst else m.map Prod.fst ++ [k] := by
  induction m with
  | nil => simp [processMap.set]
  | cons kv rest ih =>
    obtain ⟨a, b⟩ := kv
    by_cases hak : a = k
    · subst hak
      simp [processMap.set]
    · have hne : ¬k = a := fun h => hak h.symm
      simp only [processMap.set, hak, if_false, List.map_cons, ih, List.mem_cons, hne,
        false_or]
      split <;> simp

theorem processMap.mem_procKeys_set (m : processMap) (k k' : String) (v : Process) :
    k' ∈ (m.set k v).map Prod.fst ↔ k' ∈ m.map Prod.fst ∨ k' = k := by
  rw [processMap.keys_set]
  split
  · rename_i h
    constructor
    · exact Or.inl
    · rintro (h' | h')
      · exact h'
      · subst h'
        exact h
  · simp

theorem processMap.nodup_keys_set (m : processMap) (k : String) (v : Process)
    (h : (m.map Prod.fst).Nodup) : ((m.set k v).map Prod.fst).Nodup := by
  rw [processMap.keys_set]
  split
  · exact h
  · rename_i hk
    exact List.Nodup.append h (List.nodup_singleton k) (by simpa using hk)

theorem processMap.add_cons (m : processMap) (p : Process) (l : List Process) :
    m.add (p :: l) = (m.set p.Type_ p).add l := rfl

theorem processMap.add_append (m : processMap) (l₁ l₂ : List Process) :
    m.add (l₁ ++ l₂) = (m.add l₁).add l₂ := by
  simp [processMap.add, List.foldl_append]

theorem processMap.foldl_add (m : processMap) (calls : List (List Process)) :
    calls.foldl processMap.add m = m.add calls.flatten := by
  induction calls generalizing m with
  | nil => rfl
  | cons l rest ih => rw [List.foldl_cons, ih, List.flatten_cons, processMap.add_append]

theorem processMap.nodup_keys_add (m : processMap) (l : List Process)
    (h : (m.map Prod.fst).Nodup) : ((m.add l).map Prod.fst).Nodup := by
  induction l generalizing m with
  | nil => exact h
  | cons p rest ih =>
    rw [processMap.add_cons]
    exact ih _ (processMap.nodup_keys_set m _ _ h)

theorem processMap.mem_keys_add (m : processMap) (l : List Process) (k : String) :
    k ∈ (m.add l).map Prod.fst ↔ k ∈ m.map Prod.fst ∨ ∃ p ∈ l, p.Type_ = k := by
  induction l generalizing m with
  | nil => simp [processMap.add]
  | cons p rest ih =>
    rw [processMap.add_cons, ih, processMap.mem_procKeys_set]
    simp only [List.mem_cons, exists_eq_or_imp]
    constructor
    · rintro ((h | h) | h)
      · exact Or.inl h
      · exact Or.inr (Or.inl h.symm)
      · exact Or.inr (Or.inr h)
    · rintro (h | h | h)
      · exact Or.inl (Or.inl h)
      · exact Or.inl (Or.inr h.symm)
      · exact Or.inr h

theorem lastOfType_cons (t : String) (p : Process) (l : List Process) :
    lastOfType t (p :: l) =
      match lastOfType t l with
      | some q => some q
      | none => if p.Type_ = t then some p else none := by
  unfold lastOfType
  by_cases h : p.Type_ = t
  · rw [List.filter_cons_of_pos (by simpa using h), List.getLast?_cons]
    cases (List.filter (fun p => decide (p.Type_ = t)) l).getLast? <;> simp [h]
  · rw [List.filter_cons_of_neg (by simpa using h)]
    cases (List.filter (fun p => decide (p.Type_ = t)) l).getLast? <;> simp [h]

theorem lastOfType_type (t : String) (l : List Process) (p : Process)
    (h : lastOfType t l = some p) : p.Type_ = t ∧ p ∈ l := by
  have hmem := List.mem_of_getLast?_eq_some h
  rw [List.mem_filter] at hmem
  exact ⟨by simpa using hmem.2, hmem.1⟩

theorem lastOfType_isSome (t : String) (l : List Process) :
    (∃ p, lastOfType t l = some p) ↔ ∃ p ∈ l, p.Type_ = t := by
  constructor
  · rintro ⟨p, hp⟩
    exact ⟨p, (lastOfType_type t l p hp).2, (lastOfType_type t l p hp).1⟩
  · rintro ⟨p, hp, ht⟩
    cases h : lastOfType t l with
    | some q => exact ⟨q, rfl⟩
    | none =>
      unfold lastOfType at h
      rw [List.getLast?_eq_none_iff] at h
      have : p ∈ List.filter (fun p => decide (p.Type_ = t)) l :=
        List.mem_filter.2 ⟨hp, by simpa using ht⟩
      rw [h] at this
      cases this

theorem processMap.get_add (m : processMap) (l : List Process) (t : String) :
    (m.add l).get t =
      match lastOfType t l with
      | some p => p
      | none => m.get t := by
  induction l generalizing m with
  | nil => rfl
  | cons p rest ih =>
    rw [processMap.add_cons, ih, lastOfType_cons]
    cases lastOfType t rest with
    | some q => rfl
    | none =>
      by_cases h : p.Type_ = t <;> simp [processMap.get_set, h]

theorem stringLE_iff (a b : String) : stringLE a b = true ↔ a ≤ b := by
  simp [stringLE, String.le_iff_toList_le]

theorem sortStrings_perm (l : List String) : (sortStrings l).Perm l :=
  List.perm_insertionSort _ l

theorem sortStrings_sorted (l : List String) :
    List.Sorted (fun a b : String => a ≤ b) (sortStrings l) := by
  have ht : IsTotal String (fun a b => stringLE a b = true) :=
    ⟨fun a b => by simp only [stringLE_iff]; exact le_total a b⟩
  have htr : IsTrans String (fun a b => stringLE a b = true) :=
    ⟨fun a b c => by simp only [stringLE_iff]; exact le_trans⟩
  have hs : List.Sorted (fun a b => stringLE a b = true) (sortStrings l) :=
    List.sorted_insertionSort (fun a b => stringLE a b = true) l
  exact List.Pairwise.imp (fun {a b} h => (stringLE_iff a b).1 h) hs

theorem sortStrings_eq_of_perm (l l' : List String) (hp : l.Perm l')
    (hs : List.Sorted (fun a b : String => a ≤ b) l') : sortStrings l = l' :=
  List.eq_of_perm_of_sorted ((sortStrings_perm l).trans hp) (sortStrings_sorted l) hs

theorem processMap.mem_list_keys (ord : ProcOrder) (m : processMap) (k : String) :
    k ∈ sortStrings ((ord.iter m).map Prod.fst) ↔ k ∈ m.map Prod.fst :=
  ((sortStrings_perm _).trans ((ord.perm m).map Prod.fst)).mem_iff

theorem processMap.list_types (ord : ProcOrder) (m : processMap)
    (h : ∀ k ∈ m.map Prod.fst, (m.get k).Type_ = k) :
    (m.list ord).map Process.Type_ = sortStrings ((ord.iter m).map Prod.fst) := by
  simp only [processMap.list, List.map_map]
  conv_rhs => rw [← List.map_id (sortStrings ((ord.iter m).map Prod.fst))]
  apply List.map_congr_left
  intro k hk
  exact h k ((processMap.mem_list_keys ord m k).1 hk)

theorem processMap.get_type_of_added (l : List Process) (k : String)
    (hk : k ∈ (processMap.add [] l).map Prod.fst) :
    ((processMap.add [] l).get k).Type_ = k ∧
      lastOfType k l = some ((processMap.add [] l).get k) := by
  rw [processMap.mem_keys_add] at hk
  have hex : ∃ p ∈ l, p.Type_ = k := by simpa using hk
  obtain ⟨q, hq⟩ := (lastOfType_isSome k l).2 hex
  have hget : (processMap.add [] l).get k = q := by
    rw [processMap.get_add, hq]
  rw [hget]
  exact ⟨(lastOfType_type k l q hq).1, hq⟩

/-- Claim C25: for every sequence of `processMap.add` calls on the empty map and every
order in which the keys are visited, the types of the processes that `processMap.list`
returns are strictly ascending in string order, and the types listed are the types of the
processes that were added. -/
theorem list_types_strictly_ascending (ord : ProcOrder) (calls : List (List Process)) :
    List.Sorted (fun a b : String => a < b)
      (((calls.foldl processMap.add []).list ord).map Process.Type_) ∧
    ∀ t, t ∈ ((calls.foldl processMap.add []).list ord).map Process.Type_ ↔
      ∃ l ∈ calls, ∃ p ∈ l, p.Type_ = t := by
  rw [processMap.foldl_add]
  have htypes := processMap.list_types ord (processMap.add [] calls.flatten)
    (fun k hk => (processMap.get_type_of_added calls.flatten k hk).1)
  rw [htypes]
  constructor
  · apply List.Sorted.lt_of_le (sortStrings_sorted _)
    have hnd : ((processMap.add [] calls.flatten).map Prod.fst).Nodup :=
      processMap.nodup_keys_add [] _ List.nodup_nil
    exact ((sortStrings_perm _).trans
      ((ord.perm (processMap.add [] calls.flatten)).map Prod.fst)).nodup_iff.2 hnd
  · intro t
    rw [processMap.mem_list_keys, processMap.mem_keys_add]
    simp only [List.map_nil, List.not_mem_nil, false_or, List.mem_flatten]
    constructor
    · rintro ⟨p, ⟨l, hl, hp⟩, ht⟩
      exact ⟨l, hl, p, hp, ht⟩
    · rintro ⟨l, hl, p, hp, ht⟩
      exact ⟨p, ⟨l, hl, hp⟩, ht⟩

/-- Claim C26: for every sequence of `processMap.add` calls on the empty map, a process is
listed exactly when it is the last process of its type among those added, in call order
and then list order; an `add` call leaves the process stored for a type unchanged unless
the call names the type, and then stores the last process of that type in the call; and
after `A = [web: a-web]`, then `B = [web: b-web, worker: b-worker]`, the list is
`[web: b-web, worker: b-worker]`, whatever the order in which the keys are visited. -/
theorem list_last_added_wins :
    (∀ (ord : ProcOrder) (calls : List (List Process)) (p : Process),
      p ∈ (calls.foldl processMap.add []).list ord ↔
        lastOfType p.Type_ calls.flatten = some p) ∧
    (∀ (m : processMap) (l : List Process) (t : String),
      (m.add l).get t =
        match lastOfType t l with
        | some p => p
        | none => m.get t) ∧
    (∀ ord : ProcOrder,
      ([scenarioProcessesA, scenarioProcessesB].foldl processMap.add []).list ord =
        [{ Type_ := "web", Command := "b-web" }, { Type_ := "worker", Command := "b-worker" }]) := by
  refine ⟨?_, processMap.get_add, ?_⟩
  · intro ord calls p
    rw [processMap.foldl_add]
    have hlist : p ∈ (processMap.add [] calls.flatten).list ord ↔
        ∃ k, k ∈ (processMap.add [] calls.flatten).map Prod.fst ∧
          (processMap.add [] calls.flatten).get k = p := by
      unfold processMap.list
      rw [List.mem_map]
      constructor
      · rintro ⟨k, hk, hp⟩
        exact ⟨k, (processMap.mem_list_keys ord _ k).1 hk, hp⟩
      · rintro ⟨k, hk, hp⟩
        exact ⟨k, (processMap.mem_list_keys ord _ k).2 hk, hp⟩
    rw [hlist]
    constructor
    · rintro ⟨k, hk, rfl⟩
      have h := processMap.get_type_of_added calls.flatten k hk
      rw [h.1]
      exact h.2
    · intro h
      refine ⟨p.Type_, ?_, ?_⟩
      · rw [processMap.mem_keys_add]
        exact Or.inr ((lastOfType_isSome _ _).1 ⟨p, h⟩)
      · rw [processMap.get_add, h]
  · intro ord
    have hm : [scenarioProcessesA, scenarioProcessesB].foldl processMap.add [] =
        [("web", { Type_ := "web", Command := "b-web" }),
         ("worker", { Type_ := "worker", Command := "b-worker" })] := by decide
    rw [hm]
    have hkeys : sortStrings ((ord.iter
        [("web", { Type_ := "web", Command := "b-web" }),
         ("worker", { Type_ := "worker", Command := "b-worker" })]).map Prod.fst) =
        ["web", "worker"] := by
      have hperm := (ord.perm
        [("web", { Type_ := "web", Command := "b-web" }),
         ("worker", { Type_ := "worker", Command := "b-worker" })]).map Prod.fst
      apply sortStrings_eq_of_perm _ ["web", "worker"] hperm
      have hle : "web" ≤ "worker" := (stringLE_iff "web" "worker").1 (by decide)
      simp only [List.Sorted, List.pairwise_cons, List.mem_singleton, forall_eq,
        List.not_mem_nil, false_implies, implies_true, List.Pairwise.nil, and_true]
      exact hle
    simp only [processMap.list, hkeys]
    decide

/-! ## Environment calls of `setupEnv` -/

theorem eachDirLoop_calls (dir : String)
    (fn : String → BuildEnv → BuildEnv × Option BuildError) (g : String → List EnvCall)
    (hfn : ∀ path env, (fn path env).1.fails = env.fails ∧
      ∃ made rest, (fn path env).1.calls = env.calls ++ made ∧ made ++ rest = g path ∧
        ((fn path env).2 = none → rest = []) ∧
        ((∀ h c, env.fails h c = none) → (fn path env).2 = none))
    (names : List String) (env : BuildEnv) :
    (eachDirLoop dir fn names env).1.fails = env.fails ∧
    ∃ made rest, (eachDirLoop dir fn names env).1.calls = env.calls ++ made ∧
      made ++ rest = names.flatMap (fun n => g (joinPath dir n)) ∧
      ((eachDirLoop dir fn names env).2 = none → rest = []) ∧
      ((∀ h c, env.fails h c = none) → (eachDirLoop dir fn names env).2 = none) := by
  induction names generalizing env with
  | nil =>
    exact ⟨rfl, [], [], by simp [eachDirLoop], rfl, fun _ => rfl, fun _ => rfl⟩
  | cons name rest ih =>
    obtain ⟨hfails, made₁, rest₁, hcalls, hsplit, hdone, hok⟩ := hfn (joinPath dir name) env
    cases hr : fn (joinPath dir name) env with
    | mk env₁ e =>
      rw [hr] at hfails hcalls hdone hok
      cases e with
      | some err =>
        have hloop : eachDirLoop dir fn (name :: rest) env = (env₁, some err) := by
          simp [eachDirLoop, hr]
        rw [hloop]
        refine ⟨hfails, made₁, rest₁ ++ rest.flatMap (fun n => g (joinPath dir n)), hcalls,
          ?_, ?_, ?_⟩
        · rw [← List.append_assoc, hsplit]
          rfl
        · intro h
          cases h
        · intro h
          exact hok h
      | none =>
        have hloop : eachDirLoop dir fn (name :: rest) env = eachDirLoop dir fn rest env₁ := by
          simp [eachDirLoop, hr]
        rw [hloop]
        obtain ⟨hfails₂, made₂, rest₂, hcalls₂, hsplit₂, hdone₂, hok₂⟩ := ih env₁
        have hrest₁ : rest₁ = [] := hdone rfl
        subst hrest₁
        rw [List.append_nil] at hsplit
        refine ⟨hfails₂.trans hfails, made₁ ++ made₂, rest₂, ?_, ?_, hdone₂, ?_⟩
        · rw [hcalls₂]
          show env₁.calls ++ made₂ = env.calls ++ (made₁ ++ made₂)
          have hc : env₁.calls = env.calls ++ made₁ := hcalls
          rw [hc, List.append_assoc]
        · rw [List.append_assoc, hsplit₂, hsplit]
          rfl
        · intro h
          apply hok₂
          intro h' c
          have hf : env₁.fails = env.fails := hfails
          rw [hf]
          exact h h' c

theorem flatMap_build_layers (fs : LayerFS) (dir : String) (h : String → List EnvCall)
    (names : List String) :
    names.flatMap (fun n =>
        if isBuild fs (joinPath dir n ++ ".toml") then h (joinPath dir n) else []) =
      ((names.map (joinPath dir)).filter fun path => isBuild fs (path ++ ".toml")).flatMap h := by
  induction names with
  | nil => rfl
  | cons n rest ih =>
    simp only [List.flatMap_cons, List.map_cons, ih]
    cases hb : isBuild fs (joinPath dir n ++ ".toml") <;> simp [hb]

theorem setupEnvRootDir_calls (fs : LayerFS) (path : String) (env : BuildEnv) :
    (setupEnvRootDir fs path env).1.fails = env.fails ∧
    ∃ made rest, (setupEnvRootDir fs path env).1.calls = env.calls ++ made ∧
      made ++ rest =
        (if isBuild fs (path ++ ".toml") then [EnvCall.AddRootDir path] else []) ∧
      ((setupEnvRootDir fs path env).2 = none → rest = []) ∧
      ((∀ h c, env.fails h c = none) → (setupEnvRootDir fs path env).2 = none) := by
  unfold setupEnvRootDir
  cases hb : isBuild fs (path ++ ".toml")
  · exact ⟨rfl, [], [], by simp, by simp, fun _ => rfl, fun _ => rfl⟩
  · refine ⟨rfl, [EnvCall.AddRootDir path], [], ?_, by simp, fun _ => rfl, ?_⟩
    · simp [BuildEnv.AddRootDir, BuildEnv.call]
    · intro h
      simp [BuildEnv.AddRootDir, BuildEnv.call, h]

theorem setupEnvEnvDirs_calls (fs : LayerFS) (path : String) (env : BuildEnv) :
    (setupEnvEnvDirs fs path env).1.fails = env.fails ∧
    ∃ made rest, (setupEnvEnvDirs fs path env).1.calls = env.calls ++ made ∧
      made ++ rest =
        (if isBuild fs (path ++ ".toml") then
          [EnvCall.AddEnvDir (joinPath path "env"), EnvCall.AddEnvDir (joinPath path "env.build")]
        else []) ∧
      ((setupEnvEnvDirs fs path env).2 = none → rest = []) ∧
      ((∀ h c, env.fails h c = none) → (setupEnvEnvDirs fs path env).2 = none) := by
  unfold setupEnvEnvDirs
  cases hb : isBuild fs (path ++ ".toml")
  · exact ⟨rfl, [], [], by simp, by simp, fun _ => rfl, fun _ => rfl⟩
  · cases hf : env.fails env.calls (EnvCall.AddEnvDir (joinPath path "env")) with
    | some err =>
      refine ⟨?_, [EnvCall.AddEnvDir (joinPath path "env")],
        [EnvCall.AddEnvDir (joinPath path "env.build")], ?_, by simp, ?_, ?_⟩
      · simp [BuildEnv.AddEnvDir, BuildEnv.call, hf]
      · simp [BuildEnv.AddEnvDir, BuildEnv.call, hf]
      · simp [BuildEnv.AddEnvDir, BuildEnv.call, hf]
      · intro h
        rw [h] at hf
        cases hf
    | none =>
      refine ⟨?_, [EnvCall.AddEnvDir (joinPath path "env"),
        EnvCall.AddEnvDir (joinPath path "env.build")], [], ?_, by simp, fun _ => rfl, ?_⟩
      · simp [BuildEnv.AddEnvDir, BuildEnv.call, hf]
      · simp [BuildEnv.AddEnvDir, BuildEnv.call, hf]
      · intro h
        simp [BuildEnv.AddEnvDir, BuildEnv.call, hf, h]

theorem setupEnv_trace (fs : LayerFS) (env : BuildEnv) (layersDir : String) :
    (setupEnv fs env layersDir).1.fails = env.fails ∧
    ∃ made rest, (setupEnv fs env layersDir).1.calls = env.calls ++ made ∧
      made ++ rest = setupEnvCalls fs layersDir ∧
      ((setupEnv fs env layersDir).2 = none → rest = []) ∧
      ((∀ h c, env.fails h c = none) → (setupEnv fs env layersDir).2 = none) := by
  have hroots : (buildLayers fs layersDir).map EnvCall.AddRootDir =
      (fs.subdirs layersDir).flatMap (fun n =>
        if isBuild fs (joinPath layersDir n ++ ".toml") then
          [EnvCall.AddRootDir (joinPath layersDir n)] else []) := by
    rw [flatMap_build_layers fs layersDir (fun path => [EnvCall.AddRootDir path])]
    unfold buildLayers
    generalize List.filter _ _ = l
    induction l with
    | nil => rfl
    | cons a t ih => simp [List.flatMap_cons, ih]
  have hdirs : ((buildLayers fs layersDir).flatMap fun path =>
      [EnvCall.AddEnvDir (joinPath path "env"), EnvCall.AddEnvDir (joinPath path "env.build")]) =
      (fs.subdirs layersDir).flatMap (fun n =>
        if isBuild fs (joinPath layersDir n ++ ".toml") then
          [EnvCall.AddEnvDir (joinPath (joinPath layersDir n) "env"),
            EnvCall.AddEnvDir (joinPath (joinPath layersDir n) "env.build")] else []) := by
    rw [flatMap_build_layers fs layersDir (fun path =>
      [EnvCall.AddEnvDir (joinPath path "env"), EnvCall.AddEnvDir (joinPath path "env.build")])]
    rfl
  obtain ⟨hfails₁, made₁, rest₁, hcalls₁, hsplit₁, hdone₁, hok₁⟩ :=
    eachDirLoop_calls layersDir (setupEnvRootDir fs) _ (setupEnvRootDir_calls fs)
      (fs.subdirs layersDir) env
  rw [← hroots] at hsplit₁
  unfold setupEnv eachDir
  cases hr : eachDirLoop layersDir (setupEnvRootDir fs) (fs.subdirs layersDir) env with
  | mk env₁ e =>
    rw [hr] at hfails₁ hcalls₁ hdone₁ hok₁
    cases e with
    | some err =>
      refine ⟨hfails₁, made₁, rest₁ ++ ((buildLayers fs layersDir).flatMap fun path =>
        [EnvCall.AddEnvDir (joinPath path "env"),
          EnvCall.AddEnvDir (joinPath path "env.build")]), hcalls₁, ?_, ?_, ?_⟩
      · rw [← List.append_assoc, hsplit₁]
        rfl
      · intro h
        cases h
      · intro h
        exact hok₁ h
    | none =>
      obtain ⟨hfails₂, made₂, rest₂, hcalls₂, hsplit₂, hdone₂, hok₂⟩ :=
        eachDirLoop_calls layersDir (setupEnvEnvDirs fs) _ (setupEnvEnvDirs_calls fs)
          (fs.subdirs layersDir) env₁
      rw [← hdirs] at hsplit₂
      have hrest₁ : rest₁ = [] := hdone₁ rfl
      subst hrest₁
      rw [List.append_nil] at hsplit₁
      refine ⟨hfails₂.trans hfails₁, made₁ ++ made₂, rest₂, ?_, ?_, hdone₂, ?_⟩
      · show (eachDirLoop layersDir (setupEnvEnvDirs fs) (fs.subdirs layersDir) env₁).1.calls =
          env.calls ++ (made₁ ++ made₂)
        have hc : env₁.calls = env.calls ++ made₁ := hcalls₁
        rw [hcalls₂, hc, List.append_assoc]
      · rw [List.append_assoc, hsplit₂, hsplit₁]
        rfl
      · intro h
        apply hok₂
        intro h' c
        have hf : env₁.fails = env.fails := hfails₁
        rw [hf]
        exact h h' c

/-- Claim C27: the calls `setupEnv` makes on the environment for the layers directory of
one buildpack.  When it returns no error they are exactly `AddRootDir` for every layer whose
descriptor has `build = true`, in directory order, followed by `AddEnvDir` of `env` and then
of `env.build` for each of those layers in the same order, and nothing for the other layers;
when a call fails they are an initial part of that list; and it returns no error whenever
no call of the environment fails. -/
theorem setupEnv_calls (fs : LayerFS) (env : BuildEnv) (layersDir : String) :
    ((setupEnv fs env layersDir).2 = none →
      (setupEnv fs env layersDir).1.calls = env.calls ++ setupEnvCalls fs layersDir) ∧
    (∃ made rest, (setupEnv fs env layersDir).1.calls = env.calls ++ made ∧
      made ++ rest = setupEnvCalls fs layersDir) ∧
    ((∀ h c, env.fails h c = none) → (setupEnv fs env layersDir).2 = none) := by
  obtain ⟨_, made, rest, hcalls, hsplit, hdone, hok⟩ := setupEnv_trace fs env layersDir
  refine ⟨?_, ⟨made, rest, hcalls, hsplit⟩, hok⟩
  intro h
  have hrest := hdone h
  subst hrest
  rw [List.append_nil] at hsplit
  rw [hcalls, hsplit]

/-- Witness of `setupEnv_calls`: the layers `layer1`, `layer2`, `layer3` of buildpack `A`,
of which `layer1` and `layer3` are build layers, and an environment none of whose calls
fails. -/
theorem setupEnv_calls_witness :
    (setupEnv scenarioLayers envRecorder "/layers/A").2 = none ∧
    (setupEnv scenarioLayers envRecorder "/layers/A").1.calls =
      [EnvCall.AddRootDir "/layers/A/layer1", EnvCall.AddRootDir "/layers/A/layer3",
        EnvCall.AddEnvDir "/layers/A/layer1/env", EnvCall.AddEnvDir "/layers/A/layer1/env.build",
        EnvCall.AddEnvDir "/layers/A/layer3/env",
        EnvCall.AddEnvDir "/layers/A/layer3/env.build"] :=
  ⟨(setupEnv_calls scenarioLayers envRecorder "/layers/A").2.2 (fun _ _ => rfl),
    ((setupEnv_calls scenarioLayers envRecorder "/layers/A").1
      ((setupEnv_calls scenarioLayers envRecorder "/layers/A").2.2 (fun _ _ => rfl))).trans
      (by decide)⟩

/-! ## The build driver on three builds -/

/-- Counterexample to claim C28: `BuildEnv.AddEnvDir` takes the directory and nothing else,
and `Builder.Build` has no buildpack API to consult.  For the buildpack `A` whose build
leaves the build layers `layer1` and `layer3`, the build succeeds and every env-dir
addition is a call `AddEnvDir(dir)`: neither `override` nor `prepend-path` is passed. -/
theorem build_env_dirs_carry_no_action :
    scenarioBuildLayers.result = .ok { Processes := [], Buildpacks := ["A"], BOM := [] } ∧
    scenarioBuildLayers.env.calls =
      [EnvCall.AddRootDir "/layers/A/layer1", EnvCall.AddRootDir "/layers/A/layer3",
        EnvCall.AddEnvDir "/layers/A/layer1/env",
        EnvCall.AddEnvDir "/layers/A/layer1/env.build",
        EnvCall.AddEnvDir "/layers/A/layer3/env",
        EnvCall.AddEnvDir "/layers/A/layer3/env.build"] := by
  refine ⟨rfl, by decide⟩

/-- Counterexample to claim C29: `Builder.Build` has no lifecycle error type to return.
When the build command of `A` exits with status 1 in the group `[A, B]`, `Builder.Build`
returns no metadata and the build command of `B` is not started, but the error returned is
the exit error wrapped by `errors.Wrapf` with a message, which is not a lifecycle error and
so has no error type. -/
theorem build_command_failure_is_wrapped_error :
    scenarioBuildFails.result =
      .error (BuildError.wrapped (BuildError.exit 1) (buildpackMsg "A" "/bin/build")) ∧
    scenarioBuildFails.ran = ["A"] ∧
    (BuildError.wrapped (BuildError.exit 1) (buildpackMsg "A" "/bin/build")).lifecycleType =
      none ∧
    (BuildError.wrapped (BuildError.exit 1) (buildpackMsg "A" "/bin/build")).lifecycleType ≠
      some LifecycleErrorType.ErrTypeBuildpack := by
  refine ⟨rfl, rfl, rfl, ?_⟩
  decide

/-- Counterexample to claim C30: `consumePlan` stores every non-empty decoded plan file
in the BOM without looking at its keys.  When buildpack `A` writes the plan file `some-dep`
with the top-level key `version`, `Builder.Build` succeeds and the BOM of the result holds
the entry with its top-level version. -/
theorem build_keeps_bom_toplevel_version :
    scenarioBuildBom.result =
      .ok { Processes := [], Buildpacks := ["A"],
            BOM := [("some-dep", [("version", MetaValue.str "some-version")])] } ∧
    scenarioBuildBom.ran = ["A"] := by
  exact ⟨rfl, rfl⟩

theorem buildLoop_trace (sys : BuildSys) (layersDir planDir : String) :
    ∀ (bps : List Buildpack) (i : Nat) (s : BuildState),
      (Builder.buildLoop sys layersDir planDir i bps s).2 = none →
      (Builder.buildLoop sys layersDir planDir i bps s).1.env.calls =
        s.env.calls ++ buildEnvCalls sys layersDir i bps ∧
      (Builder.buildLoop sys layersDir planDir i bps s).1.ran =
        s.ran ++ bps.map fun bp => bp.ID := by
  intro bps
  induction bps with
  | nil =>
    intro i s _
    simp [Builder.buildLoop, buildEnvCalls]
  | cons bp rest ih =>
    intro i s h
    obtain ⟨_, made, tail, hcalls, hsplit, hdone, _⟩ :=
      setupEnv_trace (sys.step i).layers s.env (joinPath layersDir bp.EscapedID)
    simp only [Builder.buildLoop] at h ⊢
    cases h₁ : (sys.step i).mkdirLayers with
    | some e => simp [h₁] at h
    | none =>
    cases h₂ : (sys.step i).mkdirPlan with
    | some e => simp [h₁, h₂] at h
    | none =>
    cases h₃ : (sys.step i).encodePlan with
    | some e => simp [h₁, h₂, h₃] at h
    | none =>
    cases h₄ : (sys.step i).absBuildPath with
    | some e => simp [h₁, h₂, h₃, h₄] at h
    | none =>
    cases h₅ : (sys.step i).run with
    | some e => simp [h₁, h₂, h₃, h₄, h₅] at h
    | none =>
    simp only [h₁, h₂, h₃, h₄, h₅] at h ⊢
    cases h₆ : setupEnv (sys.step i).layers s.env (joinPath layersDir bp.EscapedID) with
    | mk env oerr =>
    rw [h₆] at hcalls hdone
    cases oerr with
    | some e => simp [h₆] at h
    | none =>
    have htail : tail = [] := hdone rfl
    subst htail
    rw [List.append_nil] at hsplit
    subst hsplit
    simp only [h₆] at h ⊢
    cases h₇ : consumePlan (sys.step i).planFiles s.plan s.bom with
    | error e => simp [h₇] at h
    | ok pb =>
    obtain ⟨plan, bom⟩ := pb
    simp only [h₇] at h ⊢
    cases h₈ : (sys.step i).launch with
    | failed e => simp [h₈] at h
    | notExist =>
      simp only [h₈] at h ⊢
      obtain ⟨hc, hr⟩ := ih _ _ h
      have hcalls' : env.calls = s.env.calls ++
          setupEnvCalls (sys.step i).layers (joinPath layersDir bp.EscapedID) := hcalls
      rw [hc, hr]
      simp [buildEnvCalls, hcalls', List.append_assoc]
    | decoded launch =>
      simp only [h₈] at h ⊢
      obtain ⟨hc, hr⟩ := ih _ _ h
      have hcalls' : env.calls = s.env.calls ++
          setupEnvCalls (sys.step i).layers (joinPath layersDir bp.EscapedID) := hcalls
      rw [hc, hr]
      simp [buildEnvCalls, hcalls', List.append_assoc]

theorem buildLoop_append (sys : BuildSys) (layersDir planDir : String) :
    ∀ (pre rest : List Buildpack) (i : Nat) (s : BuildState),
      (Builder.buildLoop sys layersDir planDir i pre s).2 = none →
      Builder.buildLoop sys layersDir planDir i (pre ++ rest) s =
        Builder.buildLoop sys layersDir planDir (i + pre.length) rest
          (Builder.buildLoop sys layersDir planDir i pre s).1 := by
  intro pre
  induction pre with
  | nil =>
    intro rest i s _
    simp [Builder.buildLoop]
  | cons bp pre ih =>
    intro rest i s h
    have hlen : i + (bp :: pre).length = i + 1 + pre.length := by
      simp only [List.length_cons]
      omega
    rw [hlen]
    simp only [Builder.buildLoop, List.cons_append] at h ⊢
    cases h₁ : (sys.step i).mkdirLayers with
    | some e => simp [h₁] at h
    | none =>
    cases h₂ : (sys.step i).mkdirPlan with
    | some e => simp [h₁, h₂] at h
    | none =>
    cases h₃ : (sys.step i).encodePlan with
    | some e => simp [h₁, h₂, h₃] at h
    | none =>
    cases h₄ : (sys.step i).absBuildPath with
    | some e => simp [h₁, h₂, h₃, h₄] at h
    | none =>
    cases h₅ : (sys.step i).run with
    | some e => simp [h₁, h₂, h₃, h₄, h₅] at h
    | none =>
    simp only [h₁, h₂, h₃, h₄, h₅] at h ⊢
    cases h₆ : setupEnv (sys.step i).layers s.env (joinPath layersDir bp.EscapedID) with
    | mk env oerr =>
    cases oerr with
    | some e => simp [h₆] at h
    | none =>
    simp only [h₆] at h ⊢
    cases h₇ : consumePlan (sys.step i).planFiles s.plan s.bom with
    | error e => simp [h₇] at h
    | ok pb =>
    obtain ⟨plan, bom⟩ := pb
    simp only [h₇] at h ⊢
    cases h₈ : (sys.step i).launch with
    | failed e => simp [h₈] at h
    | notExist =>
      simp only [h₈] at h ⊢
      exact ih _ _ _ h
    | decoded launch =>
      simp only [h₈] at h ⊢
      exact ih _ _ _ h

theorem Plan.get_set_ite (plan : Plan) (key : String) (entry : List (String × MetaValue))
    (name : String) :
    (plan.set key entry).get name = if key = name then some entry else plan.get name := by
  induction plan with
  | nil => simp [Plan.set, Plan.get]
  | cons kv rest ih =>
    obtain ⟨k, v⟩ := kv
    by_cases hk : k = key
    · subst hk
      by_cases hn : k = name
      · simp [Plan.set, Plan.get, hn]
      · simp [Plan.set, Plan.get, hn]
    · by_cases hn : k = name
      · subst hn
        have hkn : ¬key = k := fun h => hk h.symm
        simp [Plan.set, Plan.get, hk, hkn]
      · simp [Plan.set, Plan.get, hk, hn, ih]

theorem consumePlanLoop_bom :
    ∀ (files : List PlanFile) (plan bom : Plan),
      (∀ f ∈ files, f.IsDir = false → ∃ entry, f.decoded = .ok entry) →
      ∃ plan₁ bom₁, consumePlanLoop files plan bom = .ok (plan₁, bom₁) ∧
        ∀ name, bom₁.get name =
          match bomEntryOf files name with
          | some entry => some entry
          | none => bom.get name := by
  intro files
  induction files with
  | nil =>
    intro plan bom _
    exact ⟨plan, bom, rfl, fun name => rfl⟩
  | cons f rest ih =>
    intro plan bom hdec
    have hrest : ∀ g ∈ rest, g.IsDir = false → ∃ entry, g.decoded = .ok entry :=
      fun g hg => hdec g (List.mem_cons_of_mem _ hg)
    cases hd : f.IsDir with
    | true =>
      obtain ⟨plan₁, bom₁, hrun, hget⟩ := ih plan bom hrest
      refine ⟨plan₁, bom₁, ?_, ?_⟩
      · simp only [consumePlanLoop, hd, if_true]
        exact hrun
      · intro name
        rw [hget name]
        simp only [bomEntryOf, hd]
        cases bomEntryOf rest name <;> simp
    | false =>
      obtain ⟨entry, hentry⟩ := hdec f (List.mem_cons_self _ _) hd
      obtain ⟨plan₁, bom₁, hrun, hget⟩ := ih (plan.delete f.Name)
        (if entry.length > 0 then bom.set f.Name entry else bom) hrest
      refine ⟨plan₁, bom₁, ?_, ?_⟩
      · simp only [consumePlanLoop, hd, hentry]
        exact hrun
      · intro name
        rw [hget name]
        simp only [bomEntryOf, hd, hentry, true_and]
        cases bomEntryOf rest name with
        | some e => rfl
        | none =>
          by_cases hlen : entry.length > 0
          · by_cases hn : f.Name = name
            · simp [hlen, hn, Plan.get_set_ite]
            · simp [hlen, hn, Plan.get_set_ite]
          · by_cases hn : f.Name = name
            · simp [hlen, hn]
            · simp [hlen, hn]

/-- Claim C28, amended: the environment calls of a build that succeeds.  `Builder.Build`
makes, for every buildpack of the group in turn, the calls of `setupEnv` for the layers
directory of the buildpack: `AddRootDir` for each build layer and then `AddEnvDir` of `env`
and of `env.build` for each build layer.  Every `AddEnvDir` call has the directory as its
only argument; no action is passed and no buildpack API is consulted. -/
theorem build_env_dir_calls (b : Builder) (sys : BuildSys) (layersDir : String)
    (hlayers : sys.absLayersDir = .ok layersDir)
    (hok : ∃ md, (b.Build sys).result = .ok md) :
    (b.Build sys).env.calls = b.Env.calls ++ buildEnvCalls sys layersDir 0 b.Buildpacks := by
  obtain ⟨md, hmd⟩ := hok
  unfold Builder.Build at hmd ⊢
  cases h₁ : sys.absPlatformDir with
  | error e => simp [h₁] at hmd
  | ok platformDir =>
  cases h₂ : sys.absAppDir with
  | error e => simp [h₁, h₂, hlayers] at hmd
  | ok appDir =>
  cases h₃ : sys.tempDir with
  | error e => simp [h₁, h₂, h₃, hlayers] at hmd
  | ok planDir =>
  simp only [h₁, h₂, h₃, hlayers] at hmd ⊢
  obtain ⟨s₀, hs₀⟩ : ∃ s₀ : BuildState, s₀ =
      { procMap := [], plan := copyPlan b.Plan, bom := copyPlan b.Plan,
        buildpackIDs := [], env := b.Env, ran := [] } := ⟨_, rfl⟩
  rw [← hs₀] at hmd ⊢
  have htrace := buildLoop_trace sys layersDir planDir b.Buildpacks 0 s₀
  cases hloop : Builder.buildLoop sys layersDir planDir 0 b.Buildpacks s₀ with
  | mk s oerr =>
  rw [hloop] at hmd htrace
  cases oerr with
  | some e => simp at hmd
  | none =>
    have hc := (htrace rfl).1
    rw [hs₀] at hc
    exact hc

/-- Witness of `build_env_dir_calls`: the build of the buildpack `A` whose layers directory
holds the build layers `layer1` and `layer3`. -/
theorem build_env_dir_calls_witness :
    scenarioBuildLayers.env.calls =
      [] ++ buildEnvCalls (scenarioSys fun _ => { quietStep with layers := scenarioLayers })
        "/layers" 0 [{ ID := "A", Dir := "/buildpacks/A" }] :=
  build_env_dir_calls (scenarioBuilder [{ ID := "A", Dir := "/buildpacks/A" }])
    (scenarioSys fun _ => { quietStep with layers := scenarioLayers }) "/layers" rfl
    ⟨_, rfl⟩

/-- Claim C29, amended: a build command that fails.  When the buildpacks before `bp` in the
group are built without an error and the command of `bp` is started and fails with `err`,
`Builder.Build` returns no metadata and the error `err` wrapped by `errors.Wrapf` with the
message naming the buildpack, which is not a lifecycle error and has no error type; the
commands started are those of the buildpacks before `bp` and of `bp`, so no later buildpack
of the group is run. -/
theorem build_command_failure (b : Builder) (sys : BuildSys)
    (platformDir layersDir appDir planDir : String) (pre post : List Buildpack)
    (bp : Buildpack) (err : BuildError)
    (hplatform : sys.absPlatformDir = .ok platformDir)
    (hlayers : sys.absLayersDir = .ok layersDir)
    (happ : sys.absAppDir = .ok appDir)
    (htemp : sys.tempDir = .ok planDir)
    (hgroup : b.Buildpacks = pre ++ bp :: post)
    (hpre : (Builder.buildLoop sys layersDir planDir 0 pre
      { procMap := [], plan := copyPlan b.Plan, bom := copyPlan b.Plan,
        buildpackIDs := [], env := b.Env, ran := [] }).2 = none)
    (hmkdirLayers : (sys.step pre.length).mkdirLayers = none)
    (hmkdirPlan : (sys.step pre.length).mkdirPlan = none)
    (hencode : (sys.step pre.length).encodePlan = none)
    (habs : (sys.step pre.length).absBuildPath = none)
    (hrun : (sys.step pre.length).run = some err) :
    (b.Build sys).result =
      .error (BuildError.wrapped err (buildpackMsg bp.ID "/bin/build")) ∧
    (b.Build sys).ran = (pre.map fun p => p.ID) ++ [bp.ID] ∧
    (BuildError.wrapped err (buildpackMsg bp.ID "/bin/build")).lifecycleType = none := by
  have hran := (buildLoop_trace sys layersDir planDir pre 0 _ hpre).2
  have happend := buildLoop_append sys layersDir planDir pre (bp :: post) 0 _ hpre
  rw [Nat.zero_add] at happend
  unfold Builder.Build
  simp only [hplatform, hlayers, happ, htemp, hgroup, happend, Builder.buildLoop,
    hmkdirLayers, hmkdirPlan, hencode, habs, hrun, hran, List.nil_append]
  simp [BuildError.lifecycleType]

/-- Witness of `build_command_failure`: the group `[A, B]` in which the build command of
`A` exits with status 1. -/
theorem build_command_failure_witness :
    scenarioBuildFails.result =
      .error (BuildError.wrapped (BuildError.exit 1) (buildpackMsg "A" "/bin/build")) ∧
    scenarioBuildFails.ran = [] ++ ["A"] ∧
    (BuildError.wrapped (BuildError.exit 1) (buildpackMsg "A" "/bin/build")).lifecycleType =
      none :=
  build_command_failure
    (scenarioBuilder [{ ID := "A", Dir := "/buildpacks/A" }, { ID := "B", Dir := "/buildpacks/B" }])
    (scenarioSys fun i =>
      if i = 0 then { quietStep with run := some (BuildError.exit 1) } else quietStep)
    "/platform" "/layers" "/app" "/tmp/plan.1" [] [{ ID := "B", Dir := "/buildpacks/B" }]
    { ID := "A", Dir := "/buildpacks/A" } (BuildError.exit 1) rfl rfl rfl rfl rfl rfl rfl rfl
    rfl rfl rfl

/-- Claim C30, amended: the BOM after `consumePlan`.  When every file of the plan directory
that is not a directory decodes, `consumePlan` returns no error, and the BOM then holds
under every name the entry decoded from the last such file of that name whose entry is not
empty, unchanged and whatever its keys, a top-level `version` included; a name with no
such file keeps the entry it had. -/
theorem consumePlan_stores_entries (files : List PlanFile) (plan bom : Plan)
    (hdec : ∀ f ∈ files, f.IsDir = false → ∃ entry, f.decoded = .ok entry) :
    ∃ plan₁ bom₁, consumePlan (.ok files) plan bom = .ok (plan₁, bom₁) ∧
      ∀ name, bom₁.get name =
        match bomEntryOf files name with
        | some entry => some entry
        | none => bom.get name :=
  consumePlanLoop_bom files plan bom hdec

/-- Witness of `consumePlan_stores_entries`: the plan directory with the file `some-dep`
that holds the top-level key `version`. -/
theorem consumePlan_stores_entries_witness :
    ∃ plan₁ bom₁,
      consumePlan (.ok scenarioPlanFiles) [] [] = .ok (plan₁, bom₁) ∧
      ∀ name, bom₁.get name =
        match bomEntryOf scenarioPlanFiles name with
        | some entry => some entry
        | none => Plan.get [] name :=
  consumePlan_stores_entries scenarioPlanFiles [] []
    (fun f hf _ => by
      rw [scenarioPlanFiles, List.mem_singleton] at hf
      rw [hf]
      exact ⟨_, rfl⟩)

/-! ## Updates of the dependency map, options of a result -/

/-- Claim C32: for every dependency map, buildpack and require, `require` reads the entry
of the name of the require; when neither its providers nor its extra provides hold a
buildpack it appends the buildpack to the early requires and leaves the rest of the
entry as it was; otherwise it moves the extra provides, in order, to the end of the
providers, empties the extra provides and appends the require to the requires.  `provide`
only appends the buildpack to the extra provides of the name.  Both leave the entries and
the keys of the other names as they were, and `A` providing `dep` followed by `B` requiring
`dep` gives the single entry with providers `[A]` and requires `[dep]`. -/
theorem require_provide_update (m : depMap) (bp : GroupBuildpack) :
    (∀ r : Require, (m.require bp r).get r.Name =
      if (m.get r.Name).Providers = [] ∧ (m.get r.Name).extraProvides = [] then
        { m.get r.Name with earlyRequires := (m.get r.Name).earlyRequires ++ [bp] }
      else
        { Providers := (m.get r.Name).Providers ++ (m.get r.Name).extraProvides,
          Requires := (m.get r.Name).Requires ++ [r],
          earlyRequires := (m.get r.Name).earlyRequires,
          extraProvides := [] }) ∧
    (∀ p : Provide, (m.provide bp p).get p.Name =
      { m.get p.Name with extraProvides := (m.get p.Name).extraProvides ++ [bp] }) ∧
    (∀ (r : Require) (name : String), r.Name ≠ name →
      (m.require bp r).get name = m.get name ∧
      (name ∈ (m.require bp r).map Prod.fst ↔ name ∈ m.map Prod.fst)) ∧
    (∀ (p : Provide) (name : String), p.Name ≠ name →
      (m.provide bp p).get name = m.get name ∧
      (name ∈ (m.provide bp p).map Prod.fst ↔ name ∈ m.map Prod.fst)) ∧
    newDepMap trialProvideThenRequire =
      [("dep", { Providers := [bpRef "A" false],
                 Requires := [{ Name := "dep", Version := "", Metadata := none }],
                 earlyRequires := [], extraProvides := [] })] := by
  refine ⟨?_, ?_, ?_, ?_, by decide⟩
  · intro r
    simp only [depMap.require, depMap.get_set_same]
    generalize m.get r.Name = e
    obtain ⟨⟨providers, requires⟩, early, extra⟩ := e
    cases providers <;> cases extra <;> simp
  · intro p
    simp only [depMap.provide, depMap.get_set_same]
  · intro r name h
    refine ⟨depMap.get_require_other m bp r name h, ?_⟩
    simp only [depMap.require, depMap.mem_keys_set]
    constructor
    · rintro (h' | h')
      · exact absurd h'.symm h
      · exact h'
    · exact Or.inr
  · intro p name h
    refine ⟨depMap.get_provide_other m bp p name h, ?_⟩
    simp only [depMap.provide, depMap.mem_keys_set]
    constructor
    · rintro (h' | h')
      · exact absurd h'.symm h
      · exact h'
    · exact Or.inr

/-- Claim C33: for every detect result with `k` alternates, `options` returns `k + 1`
options whose sections are the primary section followed by the alternates in order; every
option carries the id and the version (and the API and homepage) of the leaf, the last one
has the optional flag of the leaf and every earlier one is not optional. -/
theorem options_of_result (r : detectResult) :
    r.options.length = r.Or.length + 1 ∧
    r.options.map detectOption.toplanSections = r.toplanSections :: r.Or ∧
    (∀ o ∈ r.options, o.ID = r.ID ∧ o.Version = r.Version ∧ o.API = r.API ∧
      o.Homepage = r.Homepage) ∧
    r.options.map (fun o => o.Optional) = List.replicate r.Or.length false ++ [r.Optional] := by
  have hgen : ∀ (l : List planSections) (n : Nat),
      ((l.enumFrom n).map fun (p : Nat × planSections) =>
        ({ toGroupBuildpack :=
            { r.toGroupBuildpack with Optional := r.Optional && (p.1 == r.Or.length) },
           toplanSections := p.2 } : detectOption)).map detectOption.toplanSections = l ∧
      (∀ o ∈ (l.enumFrom n).map fun (p : Nat × planSections) =>
        ({ toGroupBuildpack :=
            { r.toGroupBuildpack with Optional := r.Optional && (p.1 == r.Or.length) },
           toplanSections := p.2 } : detectOption),
        o.ID = r.ID ∧ o.Version = r.Version ∧ o.API = r.API ∧ o.Homepage = r.Homepage) ∧
      ((l.enumFrom n).map fun (p : Nat × planSections) =>
        ({ toGroupBuildpack :=
            { r.toGroupBuildpack with Optional := r.Optional && (p.1 == r.Or.length) },
           toplanSections := p.2 } : detectOption)).map (fun o => o.Optional) =
        (List.range' n l.length).map fun i => r.Optional && (i == r.Or.length) := by
    intro l
    induction l with
    | nil => intro n; simp
    | cons s rest ih =>
      intro n
      obtain ⟨h1, h2, h3⟩ := ih (n + 1)
      refine ⟨?_, ?_, ?_⟩
      · simp only [List.enumFrom_cons, List.map_cons, h1]
      · intro o ho
        simp only [List.enumFrom_cons, List.map_cons, List.mem_cons] at ho
        rcases ho with rfl | ho
        · exact ⟨rfl, rfl, rfl, rfl⟩
        · exact h2 o ho
      · simp only [List.enumFrom_cons, List.map_cons, h3, List.length_cons, List.range'_succ]
  obtain ⟨h1, h2, h3⟩ := hgen (r.toplanSections :: r.Or) 0
  refine ⟨?_, h1, h2, ?_⟩
  · simp [detectResult.options]
  · have hopt : r.options.map (fun o => o.Optional) =
        (List.range' 0 (r.toplanSections :: r.Or).length).map
          fun i => r.Optional && (i == r.Or.length) := h3
    rw [hopt, List.length_cons, ← List.range_eq_range', List.range_succ, List.map_append]
    congr 1
    · rw [List.eq_replicate_iff]
      refine ⟨by simp, ?_⟩
      intro b hb
      simp only [List.mem_map, List.mem_range] at hb
      obtain ⟨i, hi, rfl⟩ := hb
      have : (i == r.Or.length) = false := by
        simp only [beq_eq_false_iff_ne, ne_eq]
        omega
      simp [this]
    · simp

/-- Claim C39: for every plan and list of met names, the entries of `p.Filter met` are the
entries of `p`, in their order, none of whose requires has a name in `met`; an entry
without requires is kept; and no require of `(p.Filter met).Find id` has a name in `met`. -/
theorem filter_keeps_entries_without_met_names (p : BuildPlan) (met : List String) :
    (p.Filter met).Entries =
      p.Entries.filter (fun e => e.Requires.all fun r => decide (r.Name ∉ met)) ∧
    (p.Filter met).Entries.Sublist p.Entries ∧
    (∀ e ∈ p.Entries, e.Requires = [] → e ∈ (p.Filter met).Entries) ∧
    ∀ id : String, ∀ r ∈ ((p.Filter met).Find id).Entries, r.Name ∉ met := by
  have hfoldl := filter_foldl_eq met p.Entries []
  have hfilter : (p.Filter met).Entries =
      p.Entries.filter (fun e => e.Requires.all fun r => decide (r.Name ∉ met)) := by
    simp only [BuildPlan.Filter]
    rw [hfoldl, List.nil_append]
    apply List.filter_congr
    intro e _
    rw [containsEntry_eq, Bool.eq_iff_iff]
    simp
  refine ⟨hfilter, ?_, ?_, ?_⟩
  · rw [hfilter]
    exact List.filter_sublist _
  · intro e he hreq
    rw [hfilter, List.mem_filter]
    exact ⟨he, by simp [hreq]⟩
  · intro id r hr
    rw [find_concat_helper] at hr
    simp only [List.mem_flatten, List.mem_map, List.mem_filter] at hr
    obtain ⟨rs, ⟨e, ⟨he, _⟩, rfl⟩, hrs⟩ := hr
    rw [hfilter, List.mem_filter] at he
    have hall := he.2
    simp only [List.all_eq_true, decide_eq_true_eq] at hall
    exact hall r hrs

/-- Claim C38: for every selected group and plan that `process` returns without error,
every provider of every entry of the plan is a member of the selected group with its API
and homepage cleared, so it has the id and the version of that member. -/
theorem plan_providers_in_selected_group (ord : MapOrder) (runs : Runs)
    (done found : List GroupBuildpack) (plan : List BuildPlanEntry)
    (h : process ord runs done = some (.ok (found, plan))) :
    ∀ e ∈ plan, ∀ p ∈ e.Providers,
      ∃ g ∈ found, p = g.noAPI.noHomepage ∧ g.ID = p.ID ∧ g.Version = p.Version := by
  obtain ⟨loaded, _, hres⟩ := process_ok h
  obtain ⟨trial0, t, _, _, _, hfound, hplan, hmet⟩ := resolve_accepts hres
  intro e he p hp
  rw [hplan] at he
  simp only [List.mem_map] at he
  obtain ⟨⟨k, de⟩, hmem, hee⟩ := he
  have hmem' : (k, de) ∈ newDepMap t := (ord.perm [] _).mem_iff.1 hmem
  obtain ⟨hok, _, _⟩ := met_entry hmet hmem'
  rw [← hee] at hp
  simp only [BuildPlanEntry.noOpt, List.mem_map] at hp
  obtain ⟨q, hq, rfl⟩ := hp
  obtain ⟨o, ho, hoq, _⟩ := hok.2.1 q hq
  subst hoq
  refine ⟨o.toGroupBuildpack.noOpt, ?_, rfl, rfl, rfl⟩
  rw [hfound]
  exact List.mem_map.2 ⟨o, ho, rfl⟩

/-- Witness of `plan_providers_in_selected_group`: `process` on the leaves `[A, B]` and the
runs of the scenario in which `A` provides `dep` and `B` requires it. -/
theorem plan_providers_in_selected_group_witness :
    process MapOrder.insertion scenarioPassRuns [bpRef "A" false, bpRef "B" false] =
        some (.ok ([bpRef "A" false, bpRef "B" false], scenarioPassPlan)) ∧
      ∀ e ∈ scenarioPassPlan, ∀ p ∈ e.Providers,
        ∃ g ∈ [bpRef "A" false, bpRef "B" false],
          p = g.noAPI.noHomepage ∧ g.ID = p.ID ∧ g.Version = p.Version :=
  ⟨rfl, plan_providers_in_selected_group MapOrder.insertion scenarioPassRuns
    [bpRef "A" false, bpRef "B" false] _ scenarioPassPlan rfl⟩

/-! ## Tags of the report of `saveImage` -/

theorem getSaveStatusLoop_fst (imageName : String) (errors : List SaveDiagnostic) :
    (getSaveStatusLoop imageName errors).1 =
      errors.all fun d => decide (d.ImageName ≠ imageName) := by
  induction errors with
  | nil => rfl
  | cons d rest ih =>
    by_cases h : d.ImageName = imageName
    · simp [getSaveStatusLoop, h]
    · simp [getSaveStatusLoop, h, ih]

theorem saveImageTags_eq (saveErr : Option ImageError) (names tags : List String) :
    saveImageTags saveErr tags names =
      tags ++ names.filter fun n => (getSaveStatus saveErr n).1 := by
  induction names generalizing tags with
  | nil => simp [saveImageTags]
  | cons n rest ih =>
    cases h : (getSaveStatus saveErr n).1
    · simp [saveImageTags, h, ih]
    · simp [saveImageTags, h, ih]

theorem saveImageReport_tags (image : Image) (additionalNames : List String)
    (saveErr : Option ImageError) (id : ImageIdentifier) (hid : image.Identifier = .ok id) :
    (saveImageReport image additionalNames saveErr).1.Tags =
        (image.Name :: additionalNames).filter (fun n => (getSaveStatus saveErr n).1) ∧
      (saveImageReport image additionalNames saveErr).2 = saveErr := by
  unfold saveImageReport
  rw [hid]
  simp only [saveImageTags_eq, ImageReport.zero, List.nil_append]
  constructor
  · cases id <;> cases image.ManifestSize <;> simp only [] <;> split <;> rfl
  · trivial

/-- Claim C40: for every image and list of additional names.  When the identifier of the
image can be read and `Save` succeeded, the tags of the report are the image name followed
by the additional names and no error is returned; when `Save` failed with a save error,
the tags are those of these names, in that order, for which the save error holds no
diagnostic with that image name, and the save error is returned with the report.  When
`Save` fails with another error, the report is empty and the error is returned wrapped. -/
theorem saveImage_tags (image : Image) (additionalNames : List String) :
    (∀ id, image.Identifier = .ok id →
      (image.Save additionalNames = none →
        (saveImage image additionalNames).1.Tags = image.Name :: additionalNames ∧
        (saveImage image additionalNames).2 = none) ∧
      (∀ errors, image.Save additionalNames = some (ImageError.save errors) →
        (saveImage image additionalNames).1.Tags =
          (image.Name :: additionalNames).filter
            (fun n => errors.all fun d => decide (d.ImageName ≠ n)) ∧
        (saveImage image additionalNames).2 = some (ImageError.save errors))) ∧
    (∀ err, image.Save additionalNames = some err → (∀ errors, err ≠ ImageError.save errors) →
      saveImage image additionalNames =
        (ImageReport.zero, some (ImageError.wrapped err "saving image"))) := by
  refine ⟨?_, ?_⟩
  · intro id hid
    refine ⟨?_, ?_⟩
    · intro hsave
      have h := saveImageReport_tags image additionalNames none id hid
      simp only [saveImage, hsave]
      refine ⟨?_, h.2⟩
      rw [h.1]
      simp [getSaveStatus]
    · intro errors hsave
      have h := saveImageReport_tags image additionalNames (some (ImageError.save errors)) id hid
      simp only [saveImage, hsave]
      refine ⟨?_, h.2⟩
      rw [h.1]
      apply List.filter_congr
      intro n _
      simp only [getSaveStatus]
      exact getSaveStatusLoop_fst n errors
  · intro err hsave hnot
    unfold saveImage
    rw [hsave]
    cases err with
    | save errors => exact absurd rfl (hnot errors)
    | plain _ => rfl
    | wrapped _ _ => rfl
    | multi _ => rfl

/-- Witness of `saveImage_tags`: the image `app`, whose identifier is a digest and whose
`Save` reports a diagnostic for `app:bad`, saved with the additional names `app:bad` and
`app:ok`. -/
theorem saveImage_tags_witness :
    (saveImage scenarioImage ["app:bad", "app:ok"]).1.Tags = ["app", "app:ok"] ∧
    (saveImage scenarioImage ["app:bad", "app:ok"]).1.Digest = "sha256:abc" ∧
    (saveImage scenarioImage ["app:bad", "app:ok"]).2 =
      some (ImageError.save [{ ImageName := "app:bad", Cause := "denied" }]) :=
  ⟨(((saveImage_tags scenarioImage ["app:bad", "app:ok"]).1 _ rfl).2 _ rfl).1.trans
      (by decide),
    rfl,
    (((saveImage_tags scenarioImage ["app:bad", "app:ok"]).1 _ rfl).2 _ rfl).2⟩

/-! ## Enumeration of the trials -/

theorem allTrials_ne_nil (rs : detectResults) : allTrials rs ≠ [] := by
  induction rs with
  | nil => simp [allTrials]
  | cons r rest ih =>
    obtain ⟨o, os, ho⟩ := List.exists_cons_of_ne_nil (detectResult.options_ne_nil r)
    obtain ⟨t, ts, ht⟩ := List.exists_cons_of_ne_nil ih
    simp [allTrials, ho, ht]

theorem mem_allTrials (rs : detectResults) (t : detectTrial) :
    t ∈ allTrials rs ↔ PicksFrom rs t := by
  induction rs generalizing t with
  | nil =>
    simp only [allTrials, List.mem_singleton, PicksFrom]
    constructor
    · rintro rfl
      exact List.Forall₂.nil
    · intro h
      cases h
      rfl
  | cons r rest ih =>
    simp only [allTrials, List.mem_flatMap, List.mem_map, PicksFrom]
    constructor
    · rintro ⟨o, ho, t', ht', rfl⟩
      exact List.Forall₂.cons ho ((ih t').1 ht')
    · intro h
      cases h with
      | cons ho hrest => exact ⟨_, ho, _, (ih _).2 hrest, rfl⟩

theorem firstAccepted_append {σ : Type} (f : trialFunc σ) (t : detectTrial)
    (A B : List detectTrial) (e e' : Option DetectError) (s : σ) :
    firstAccepted f (t :: A ++ B) e s =
      match firstAccepted f (t :: A) e' s with
      | none => none
      | some (.ok r, s') => some (.ok r, s')
      | some (.error err, s') => firstAccepted f B (some err) s' := by
  induction A generalizing t e e' s with
  | nil =>
    simp only [List.cons_append, List.nil_append, firstAccepted]
    cases f t s with
    | none => rfl
    | some p =>
      obtain ⟨r, s'⟩ := p
      cases r <;> rfl
  | cons a rest ih =>
    simp only [List.cons_append, firstAccepted]
    cases f t s with
    | none => rfl
    | some p =>
      obtain ⟨r, s'⟩ := p
      cases r with
      | ok v => rfl
      | error err => exact ih a (some err) (some err) s'

theorem firstAccepted_append_ne {σ : Type} (f : trialFunc σ)
    (A B : List detectTrial) (hA : A ≠ []) (e e' : Option DetectError) (s : σ) :
    firstAccepted f (A ++ B) e s =
      match firstAccepted f A e' s with
      | none => none
      | some (.ok r, s') => some (.ok r, s')
      | some (.error err, s') => firstAccepted f B (some err) s' := by
  obtain ⟨t, ts, rfl⟩ := List.exists_cons_of_ne_nil hA
  exact firstAccepted_append f t ts B e e' s

theorem runTrialsOptions_firstAccepted {σ : Type} (f : trialFunc σ) (next : trialFunc σ)
    (tails : List detectTrial) (htails : tails ≠ [])
    (hnext : ∀ trial s, next trial s =
      firstAccepted f (tails.map fun t => trial ++ t) none s)
    (pre : detectTrial) :
    ∀ (options : List detectOption) (lastErr : Option DetectError) (s : σ),
      runTrialsOptions next pre options lastErr s =
        firstAccepted f
          ((options.flatMap fun o => tails.map fun t => o :: t).map fun t => pre ++ t)
          lastErr s := by
  intro options
  induction options with
  | nil =>
    intro lastErr s
    cases lastErr <;> rfl
  | cons o rest ih =>
    intro lastErr s
    have hmap : ((o :: rest).flatMap fun o => tails.map fun t => o :: t).map
        (fun t => pre ++ t) =
        (tails.map fun t => (pre ++ [o]) ++ t) ++
          ((rest.flatMap fun o => tails.map fun t => o :: t).map fun t => pre ++ t) := by
      simp [List.flatMap_cons, List.map_append, List.map_map, Function.comp_def]
    rw [hmap, firstAccepted_append_ne f _ _ (by simpa using htails) lastErr none s]
    simp only [runTrialsOptions, hnext]
    cases firstAccepted f (tails.map fun t => (pre ++ [o]) ++ t) none s with
    | none => rfl
    | some p =>
      obtain ⟨r, s'⟩ := p
      cases r with
      | ok v => rfl
      | error err => exact ih (some err) s'

theorem runTrialsFrom_firstAccepted {σ : Type} (f : trialFunc σ) :
    ∀ (rs : detectResults) (pre : detectTrial) (s : σ),
      runTrialsFrom f rs pre s =
        firstAccepted f ((allTrials rs).map fun t => pre ++ t) none s := by
  intro rs
  induction rs with
  | nil =>
    intro pre s
    simp only [runTrialsFrom, allTrials, List.map_cons, List.map_nil, List.append_nil,
      firstAccepted]
    cases f pre s with
    | none => rfl
    | some p =>
      obtain ⟨r, s'⟩ := p
      cases r <;> rfl
  | cons r rest ih =>
    intro pre s
    simp only [runTrialsFrom, allTrials]
    exact runTrialsOptions_firstAccepted f _ (allTrials rest) (allTrials_ne_nil rest)
      (fun trial s => ih trial s) pre r.options none s

/-- Claim C34: for every list of detect results and every trial function `f`, `runTrials`
is `f` tried in order on the trials that pick one option per result in result order,
enumerated lexicographically with the option of the first result varying slowest: it
returns the outcome of `f` on the first trial that `f` accepts, with the state `f` left
then (no later trial is tried), and the error of the last trial when `f` rejects them all.
The trials enumerated are exactly those that pick one option of each result, and there is
at least one. -/
theorem runTrials_first_accepted {σ : Type} (rs : detectResults) (f : trialFunc σ) (s : σ) :
    runTrials rs f s = firstAccepted f (allTrials rs) none s ∧
    (∀ t, t ∈ allTrials rs ↔ PicksFrom rs t) ∧
    allTrials rs ≠ [] ∧
    (∀ (r : detectResult) (rest : detectResults),
      allTrials (r :: rest) = r.options.flatMap fun o => (allTrials rest).map fun t => o :: t) := by
  refine ⟨?_, mem_allTrials rs, allTrials_ne_nil rs, fun _ _ => rfl⟩
  have h := runTrialsFrom_firstAccepted f rs [] s
  simpa [runTrials] using h

/-! ## The rounds of `runTrial` do not depend on the order of the visits -/

theorem eachBuildpack_callback (name : String) (bps : List GroupBuildpack)
    (s : detectTrial × Bool) :
    eachBuildpack runTrialCallback name bps s = passOutcome bps s := by
  induction bps generalizing s with
  | nil => simp [eachBuildpack, passOutcome]
  | cons bp rest ih =>
    cases hopt : bp.Optional
    · simp [eachBuildpack, runTrialCallback, passOutcome, hopt]
    · simp only [eachBuildpack, runTrialCallback, hopt, Bool.not_true, Bool.false_eq_true,
        if_false, ih, passOutcome, List.all_cons, Bool.true_and, detectTrial.remove,
        List.filter_filter, List.isEmpty_cons, Bool.not_false, Bool.or_true, Bool.true_or]
      split
      · congr 2
        apply List.filter_congr
        intro t _
        simp only [List.mem_cons, not_or, Bool.decide_and, decide_not]
        exact Bool.and_comm _ _
      · rfl

theorem passOutcome_append (l₁ l₂ : List GroupBuildpack) (s : detectTrial × Bool) :
    passOutcome (l₁ ++ l₂) s =
      match passOutcome l₁ s with
      | .error err => .error err
      | .ok s' => passOutcome l₂ s' := by
  simp only [passOutcome, List.all_append]
  cases h₁ : l₁.all (fun bp => bp.Optional) <;> cases h₂ : l₂.all (fun bp => bp.Optional)
  · simp
  · simp
  · simp
  · simp only [Bool.and_self, if_true, List.filter_filter]
    congr 2
    · apply List.filter_congr
      intro t _
      simp only [List.mem_append, not_or, Bool.decide_and, decide_not]
      exact Bool.and_comm _ _
    · cases l₁ <;> cases l₂ <;> cases s.2 <;> rfl

theorem passOutcome_perm {l₁ l₂ : List GroupBuildpack} (h : l₁.Perm l₂)
    (s : detectTrial × Bool) : passOutcome l₁ s = passOutcome l₂ s := by
  have hall : l₁.all (fun bp => bp.Optional) = l₂.all (fun bp => bp.Optional) := by
    rw [Bool.eq_iff_iff]
    simp only [List.all_eq_true]
    exact ⟨fun h' x hx => h' x (h.mem_iff.2 hx), fun h' x hx => h' x (h.mem_iff.1 hx)⟩
  have hfilter : s.1.filter (fun t => decide (t.toGroupBuildpack ∉ l₁)) =
      s.1.filter (fun t => decide (t.toGroupBuildpack ∉ l₂)) := by
    apply List.filter_congr
    intro t _
    simp [h.mem_iff]
  simp only [passOutcome, hall, hfilter, h.isEmpty_eq]

theorem eachUnmet_callback (sel : depEntry → List GroupBuildpack) (m : depMap)
    (s : detectTrial × Bool) :
    depMap.eachUnmet sel runTrialCallback m s =
      passOutcome (m.flatMap fun kv => sel kv.2) s := by
  induction m generalizing s with
  | nil => simp [depMap.eachUnmet, passOutcome]
  | cons kv rest ih =>
    obtain ⟨name, entry⟩ := kv
    simp only [depMap.eachUnmet, eachBuildpack_callback, List.flatMap_cons, passOutcome_append]
    cases passOutcome (sel entry) s with
    | error err => rfl
    | ok s' => exact ih s'

theorem eachUnmetRequire_pass (ord : MapOrder) (tag : List Nat) (m : depMap)
    (s : detectTrial × Bool) :
    depMap.eachUnmetRequire runTrialCallback (ord.iter tag m) s =
      passOutcome (m.flatMap fun kv => kv.2.earlyRequires) s := by
  rw [eachUnmetRequire_eq, eachUnmet_callback]
  exact passOutcome_perm ((ord.perm tag m).flatMap_right _) s

theorem eachUnmetProvide_pass (ord : MapOrder) (tag : List Nat) (m : depMap)
    (s : detectTrial × Bool) :
    depMap.eachUnmetProvide runTrialCallback (ord.iter tag m) s =
      passOutcome (m.flatMap fun kv => kv.2.extraProvides) s := by
  rw [eachUnmetProvide_eq, eachUnmet_callback]
  exact passOutcome_perm ((ord.perm tag m).flatMap_right _) s

theorem runTrialLoop_rounds (ord : MapOrder) (i : Nat) :
    ∀ (fuel k : Nat) (trial : detectTrial),
      runTrialLoop ord i fuel k trial = runTrialRounds fuel trial := by
  intro fuel
  induction fuel with
  | zero => intro k trial; rfl
  | succ n ih =>
    intro k trial
    simp only [runTrialLoop, runTrialRounds, eachUnmetRequire_pass, eachUnmetProvide_pass,
      depMap.unmet, passOutcome_append]
    cases passOutcome ((newDepMap trial).flatMap fun kv => kv.2.earlyRequires) (trial, false) with
    | error err => rfl
    | ok s =>
      simp only []
      cases passOutcome ((newDepMap trial).flatMap fun kv => kv.2.extraProvides) s with
      | error err => rfl
      | ok s' =>
        obtain ⟨t, retry⟩ := s'
        simp only [ih]

theorem runTrialLoopProvidesFirst_rounds (ord : MapOrder) (i : Nat) :
    ∀ (fuel k : Nat) (trial : detectTrial),
      runTrialLoopProvidesFirst ord i fuel k trial = runTrialRounds fuel trial := by
  intro fuel
  induction fuel with
  | zero => intro k trial; rfl
  | succ n ih =>
    intro k trial
    have hswap : passOutcome (newDepMap trial).unmet (trial, false) =
        passOutcome (((newDepMap trial).flatMap fun kv => kv.2.extraProvides) ++
          (newDepMap trial).flatMap fun kv => kv.2.earlyRequires) (trial, false) :=
      passOutcome_perm List.perm_append_comm _
    simp only [runTrialLoopProvidesFirst, runTrialRounds, eachUnmetRequire_pass,
      eachUnmetProvide_pass, hswap, passOutcome_append]
    cases passOutcome ((newDepMap trial).flatMap fun kv => kv.2.extraProvides) (trial, false) with
    | error err => rfl
    | ok s =>
      simp only []
      cases passOutcome ((newDepMap trial).flatMap fun kv => kv.2.earlyRequires) s with
      | error err => rfl
      | ok s' =>
        obtain ⟨t, retry⟩ := s'
        simp only [ih]

theorem passOutcome_retry_shrinks (trial t : detectTrial)
    (h : passOutcome (newDepMap trial).unmet (trial, false) = .ok (t, true)) :
    t.length < trial.length := by
  rw [depMap.unmet, passOutcome_append] at h
  cases h₁ : passOutcome ((newDepMap trial).flatMap fun kv => kv.2.earlyRequires)
      (trial, false) with
  | error err => rw [h₁] at h; cases h
  | ok s₁ =>
    rw [h₁] at h
    have h₁' : depMap.eachUnmetRequire runTrialCallback
        (MapOrder.insertion.iter [] (newDepMap trial)) (trial, false) = .ok s₁ := by
      rw [eachUnmetRequire_pass]
      exact h₁
    have h₂' : depMap.eachUnmetProvide runTrialCallback
        (MapOrder.insertion.iter [] (newDepMap trial)) s₁ = .ok (t, true) := by
      rw [eachUnmetProvide_pass]
      exact h
    exact (round_ok (List.Perm.refl _) (List.Perm.refl _) h₁' h₂').1.2.2.2 rfl

theorem runTrialRounds_fuel :
    ∀ (n m : Nat) (trial : detectTrial), trial.length < n → trial.length < m →
      runTrialRounds n trial = runTrialRounds m trial := by
  intro n
  induction n with
  | zero => intro m trial h; omega
  | succ n ih =>
    intro m trial hn hm
    cases m with
    | zero => omega
    | succ m =>
      simp only [runTrialRounds]
      cases hp : passOutcome (newDepMap trial).unmet (trial, false) with
      | error err => rfl
      | ok s =>
        obtain ⟨t, retry⟩ := s
        cases retry with
        | false => rfl
        | true =>
          have hlt := passOutcome_retry_shrinks trial t hp
          simp only [if_true]
          exact ih m t (by omega) (by omega)

theorem runTrial_eq_rounds (ord : MapOrder) (i : Nat) (trial : detectTrial) :
    runTrial ord i trial = runTrialRounds (trial.length + 1) trial :=
  runTrialLoop_rounds ord i _ 0 trial

theorem firstAccepted_isSome {σ : Type} (f : trialFunc σ)
    (hf : ∀ t s, (f t s).isSome = true) :
    ∀ (l : List detectTrial) (e : Option DetectError) (s : σ),
      (firstAccepted f l e s).isSome = true := by
  intro l
  induction l with
  | nil => intro e s; cases e <;> rfl
  | cons t rest ih =>
    intro e s
    have h := hf t s
    simp only [firstAccepted]
    cases hft : f t s with
    | none => rw [hft] at h; cases h
    | some p =>
      obtain ⟨r, s'⟩ := p
      cases r with
      | ok v => rfl
      | error err => exact ih (some err) s'

theorem processTrialFunc_order (ord ord' : MapOrder) :
    processTrialFunc ord = processTrialFunc ord' := by
  funext trial i
  simp only [processTrialFunc, runTrial_eq_rounds]

theorem resolve_isSome (ord : MapOrder) (results : detectResults) :
    (resolve ord results).isSome = true := by
  have h : (runTrials results (processTrialFunc ord) 0).isSome = true := by
    have hfrom := runTrialsFrom_firstAccepted (processTrialFunc ord) results [] 0
    simp only [runTrials, hfrom]
    apply firstAccepted_isSome
    intro t s
    simp only [processTrialFunc]
    have ht := runTrial_isSome ord (s + 1) t
    cases hr : runTrial ord (s + 1) t with
    | none => rw [hr] at ht; cases ht
    | some r => rfl
  simp only [resolve]
  cases hr : runTrials results (processTrialFunc ord) 0 with
  | none => rw [hr] at h; cases h
  | some p =>
    obtain ⟨r, s⟩ := p
    cases r with
    | error err => rfl
    | ok v => rfl

theorem resolve_order (ord ord' : MapOrder) (results : detectResults) :
    (∀ err, resolve ord results = some (.error err) →
      resolve ord' results = some (.error err)) ∧
    (∀ found plan, resolve ord results = some (.ok (found, plan)) →
      ∃ plan', resolve ord' results = some (.ok (found, plan')) ∧ plan'.Perm plan) := by
  simp only [resolve, processTrialFunc_order ord ord']
  cases runTrials results (processTrialFunc ord') 0 with
  | none =>
    exact ⟨fun err h => (by cases h), fun found plan h => (by cases h)⟩
  | some p =>
    obtain ⟨r, s⟩ := p
    cases r with
    | error e =>
      exact ⟨fun err h => h, fun found plan h => (by cases h)⟩
    | ok v =>
      obtain ⟨deps, trial⟩ := v
      refine ⟨fun err h => (by cases h), ?_⟩
      intro found plan h
      simp only [Option.some.injEq, Except.ok.injEq, Prod.mk.injEq] at h
      obtain ⟨hf, hp⟩ := h
      subst hf hp
      exact ⟨_, rfl, (((ord'.perm [] deps).trans (ord.perm [] deps).symm).map _)⟩

/-- Claim C35: the outcome of `runTrial` is the same for every order in which the names of
the dependency map are visited and for every trial number, and the same when the pass over
the unused provides is made before the pass over the early requires.  `process` returns
for every visiting order: the same error, or the same selected group with plans that are
rearrangements of one another. -/
theorem runTrial_order_independent :
    (∀ (ord ord' : MapOrder) (i i' : Nat) (trial : detectTrial),
      runTrial ord i trial = runTrial ord' i' trial) ∧
    (∀ (ord : MapOrder) (i : Nat) (trial : detectTrial),
      runTrialLoopProvidesFirst ord i (trial.length + 1) 0 trial = runTrial ord i trial) ∧
    (∀ (ord ord' : MapOrder) (runs : Runs) (done : List GroupBuildpack),
      process ord runs done ≠ none ∧
      (∀ err, process ord runs done = some (.error err) →
        process ord' runs done = some (.error err)) ∧
      (∀ found plan, process ord runs done = some (.ok (found, plan)) →
        ∃ plan', process ord' runs done = some (.ok (found, plan')) ∧ plan'.Perm plan)) := by
  refine ⟨?_, ?_, ?_⟩
  · intro ord ord' i i' trial
    rw [runTrial_eq_rounds, runTrial_eq_rounds]
  · intro ord i trial
    rw [runTrial_eq_rounds, runTrialLoopProvidesFirst_rounds]
  · intro ord ord' runs done
    simp only [process]
    cases loadRuns runs done with
    | error e =>
      exact ⟨by simp, fun err h => h, fun found plan h => (by cases h)⟩
    | ok loaded =>
      simp only []
      cases hd : (classify done loaded).detected with
      | false =>
        simp only [Bool.not_false, if_true]
        cases (classify done loaded).buildpackErr with
        | false => exact ⟨by simp, fun err h => h, fun found plan h => (by simp at h)⟩
        | true => exact ⟨by simp, fun err h => h, fun found plan h => (by simp at h)⟩
      | true =>
        simp only [Bool.not_true, Bool.false_eq_true, if_false]
        have hsome := resolve_isSome ord (classify done loaded).results
        have hord := resolve_order ord ord' (classify done loaded).results
        refine ⟨?_, hord.1, hord.2⟩
        intro hnone
        rw [hnone] at hsome
        cases hsome

/-- Witness of `runTrial_order_independent`: `process` on the leaves `[A, B]` and the runs of
the scenario in which `A` provides `dep` and `B` requires it, visiting the names in
insertion order and in the reverse order. -/
theorem runTrial_order_independent_witness :
    process MapOrder.insertion scenarioPassRuns [bpRef "A" false, bpRef "B" false] =
        some (.ok ([bpRef "A" false, bpRef "B" false], scenarioPassPlan)) ∧
      ∃ plan', process MapOrder.reversed scenarioPassRuns [bpRef "A" false, bpRef "B" false] =
          some (.ok ([bpRef "A" false, bpRef "B" false], plan')) ∧
        plan'.Perm scenarioPassPlan :=
  ⟨rfl, (runTrial_order_independent.2.2 MapOrder.insertion MapOrder.reversed scenarioPassRuns
    [bpRef "A" false, bpRef "B" false]).2.2 _ scenarioPassPlan rfl⟩

/-- Claim C36: the retry loop of `runTrial` ends for every trial.  `runTrial` allows
`len(trial) + 1` runs of the loop body and returns a result within them; allowing more
runs gives the same result, from every round number; and a round whose two passes do not
fail and that asks for another round leaves a trial with fewer options than it started
from. -/
theorem runTrial_terminates (ord : MapOrder) (i : Nat) (trial : detectTrial) :
    (∃ r, runTrial ord i trial = some r) ∧
    (∀ fuel k : Nat, trial.length < fuel →
      runTrialLoop ord i fuel k trial = runTrial ord i trial) ∧
    (∀ (k : Nat) (s₁ s₂ : detectTrial × Bool),
      depMap.eachUnmetRequire runTrialCallback (ord.iter [i, k, 0] (newDepMap trial))
          (trial, false) = .ok s₁ →
      depMap.eachUnmetProvide runTrialCallback (ord.iter [i, k, 1] (newDepMap trial)) s₁ =
          .ok s₂ →
      s₂.2 = true → s₂.1.length < trial.length) := by
  refine ⟨?_, ?_, ?_⟩
  · have h := runTrial_isSome ord i trial
    cases hr : runTrial ord i trial with
    | none => rw [hr] at h; cases h
    | some r => exact ⟨r, rfl⟩
  · intro fuel k hlt
    rw [runTrialLoop_rounds, runTrial_eq_rounds]
    exact runTrialRounds_fuel fuel (trial.length + 1) trial hlt (by omega)
  · intro k s₁ s₂ h₁ h₂ hretry
    exact (round_ok (ord.perm _ _) (ord.perm _ _) h₁ h₂).1.2.2.2 hretry

/-- Witness of `runTrial_terminates`: the trial whose optional first option has an early
require needs a second round, which ten allowed rounds give as well. -/
theorem runTrial_terminates_witness :
    runTrialLoop MapOrder.insertion 1 10 0 trialWithEarlyRequire =
        runTrial MapOrder.insertion 1 trialWithEarlyRequire ∧
      runTrial MapOrder.insertion 1 trialWithEarlyRequire =
        some (.ok (newDepMap (trialWithEarlyRequire.drop 1), trialWithEarlyRequire.drop 1)) :=
  ⟨(runTrial_terminates MapOrder.insertion 1 trialWithEarlyRequire).2.1 10 0 (by decide), rfl⟩

/-! ## The requires of an accepted trial -/

theorem requires_inv_provide (m : depMap) (bp : GroupBuildpack) (p : Provide)
    (rs : List Require)
    (hJ : ∀ name, (m.get name).earlyRequires = [] →
      (m.get name).Requires = rs.filter fun q => q.Name = name) :
    ∀ name, ((m.provide bp p).get name).earlyRequires = [] →
      ((m.provide bp p).get name).Requires = rs.filter fun q => q.Name = name := by
  intro name
  by_cases h : p.Name = name
  · subst h
    rw [depMap.get_provide_same]
    exact hJ p.Name
  · rw [depMap.get_provide_other m bp p name h]
    exact hJ name

theorem requires_inv_require (m : depMap) (bp : GroupBuildpack) (r : Require)
    (rs : List Require)
    (hJ : ∀ name, (m.get name).earlyRequires = [] →
      (m.get name).Requires = rs.filter fun q => q.Name = name) :
    ∀ name, ((m.require bp r).get name).earlyRequires = [] →
      ((m.require bp r).get name).Requires = (rs ++ [r]).filter fun q => q.Name = name := by
  intro name
  by_cases h : r.Name = name
  · subst h
    have hJ' := hJ r.Name
    simp only [depMap.require, depMap.get_set_same]
    generalize m.get r.Name = e at hJ'
    obtain ⟨⟨providers, requires⟩, early, extra⟩ := e
    simp only at hJ'
    cases providers <;> cases extra <;> simp <;> intro hearly <;> simp [hJ' hearly]
  · rw [depMap.get_require_other m bp r name h]
    intro hearly
    rw [hJ name hearly, List.filter_append]
    simp [h]

theorem requires_inv_addOption (m : depMap) (o : detectOption) (rs : List Require)
    (hJ : ∀ name, (m.get name).earlyRequires = [] →
      (m.get name).Requires = rs.filter fun q => q.Name = name) :
    ∀ name, ((m.addOption o).get name).earlyRequires = [] →
      ((m.addOption o).get name).Requires = (rs ++ o.Requires).filter fun q => q.Name = name := by
  have hprov : ∀ (ps : List Provide) (m : depMap),
      (∀ name, (m.get name).earlyRequires = [] →
        (m.get name).Requires = rs.filter fun q => q.Name = name) →
      ∀ name, ((ps.foldl (fun m p => m.provide o.toGroupBuildpack p) m).get name).earlyRequires
          = [] →
        ((ps.foldl (fun m p => m.provide o.toGroupBuildpack p) m).get name).Requires =
          rs.filter fun q => q.Name = name := by
    intro ps
    induction ps with
    | nil => intro m h; exact h
    | cons p rest ih =>
      intro m h
      exact ih (m.provide o.toGroupBuildpack p)
        (requires_inv_provide m o.toGroupBuildpack p rs h)
  have hreq : ∀ (qs : List Require) (m : depMap) (rs : List Require),
      (∀ name, (m.get name).earlyRequires = [] →
        (m.get name).Requires = rs.filter fun q => q.Name = name) →
      ∀ name, ((qs.foldl (fun m r => m.require o.toGroupBuildpack r) m).get name).earlyRequires
          = [] →
        ((qs.foldl (fun m r => m.require o.toGroupBuildpack r) m).get name).Requires =
          (rs ++ qs).filter fun q => q.Name = name := by
    intro qs
    induction qs with
    | nil => intro m rs h; simpa using h
    | cons q rest ih =>
      intro m rs h
      have := ih (m.require o.toGroupBuildpack q) (rs ++ [q])
        (requires_inv_require m o.toGroupBuildpack q rs h)
      simpa [List.append_assoc] using this
  exact hreq o.Requires _ rs (hprov o.Provides m hJ)

theorem requires_inv_foldl :
    ∀ (l : detectTrial) (m : depMap) (rs : List Require),
      (∀ name, (m.get name).earlyRequires = [] →
        (m.get name).Requires = rs.filter fun q => q.Name = name) →
      ∀ name, ((l.foldl depMap.addOption m).get name).earlyRequires = [] →
        ((l.foldl depMap.addOption m).get name).Requires =
          (rs ++ l.flatMap fun o => o.Requires).filter fun q => q.Name = name := by
  intro l
  induction l with
  | nil => intro m rs h; simpa using h
  | cons o rest ih =>
    intro m rs h
    have := ih (m.addOption o) (rs ++ o.Requires) (requires_inv_addOption m o rs h)
    simpa [List.flatMap_cons, List.append_assoc] using this

theorem newDepMap_requires (t : detectTrial) (name : String)
    (h : ((newDepMap t).get name).earlyRequires = []) :
    ((newDepMap t).get name).Requires =
      (t.flatMap fun o => o.Requires).filter fun q => q.Name = name := by
  have := requires_inv_foldl t [] [] (fun name _ => by simp [depMap.get, depEntry.zero]) name h
  simpa [newDepMap] using this

theorem flatMap_filter_name_perm (L : List Require) :
    ∀ keys : List String, keys.Nodup →
      (keys.flatMap fun k => L.filter fun q => q.Name = k).Perm
        (L.filter fun q => decide (q.Name ∈ keys)) := by
  intro keys
  induction keys with
  | nil => intro _; simp
  | cons k rest ih =>
    intro hnd
    rw [List.nodup_cons] at hnd
    have hsplit := List.filter_append_perm (fun q : Require => decide (q.Name = k))
      (L.filter fun q => decide (q.Name ∈ k :: rest))
    have h₁ : ((L.filter fun q => decide (q.Name ∈ k :: rest)).filter
        fun q => decide (q.Name = k)) = L.filter fun q => decide (q.Name = k) := by
      rw [List.filter_filter]
      apply List.filter_congr
      intro q _
      by_cases hq : q.Name = k <;> simp [hq]
    have h₂ : ((L.filter fun q => decide (q.Name ∈ k :: rest)).filter
        fun q => !decide (q.Name = k)) = L.filter fun q => decide (q.Name ∈ rest) := by
      rw [List.filter_filter]
      apply List.filter_congr
      intro q _
      by_cases hq : q.Name = k
      · have : q.Name ∉ rest := fun h => hnd.1 (hq ▸ h)
        simp [hq, this, hnd.1]
      · simp [hq]
    rw [h₁, h₂] at hsplit
    rw [List.flatMap_cons]
    exact (List.Perm.append_left _ (ih hnd.2)).trans hsplit

/-- Claim C37: when `process` returns a selected group and a plan, they come from an
accepted trial `t` whose buildpacks are the selected group.  The requires of every entry of
the plan are the requires of one name declared by the options of `t`, all of them, in the
order of the group and as often as declared; requires of different entries have different
names; and the requires of all entries together are a rearrangement of the requires
declared by the options of `t`, none dropped and none added. -/
theorem plan_requires_are_declared (ord : MapOrder) (runs : Runs)
    (done found : List GroupBuildpack) (plan : List BuildPlanEntry)
    (h : process ord runs done = some (.ok (found, plan))) :
    ∃ t : detectTrial, found = t.map (fun o => o.toGroupBuildpack.noOpt) ∧
      (∀ e ∈ plan, ∃ name, e.Requires ≠ [] ∧
        e.Requires = (t.flatMap fun o => o.Requires).filter fun q => q.Name = name) ∧
      plan.Pairwise (fun e e' => ∀ r ∈ e.Requires, ∀ r' ∈ e'.Requires, r.Name ≠ r'.Name) ∧
      (plan.flatMap fun e => e.Requires).Perm (t.flatMap fun o => o.Requires) := by
  obtain ⟨loaded, _, hres⟩ := process_ok h
  obtain ⟨trial0, t, _, _, _, hfound, hplan, hmet⟩ := resolve_accepts hres
  have hnd : ((newDepMap t).map Prod.fst).Nodup := (newDepMap_ok t).1
  have hperm := ord.perm [] (newDepMap t)
  have hentry : ∀ k e, (k, e) ∈ newDepMap t →
      e.Requires = (t.flatMap fun o => o.Requires).filter fun q => q.Name = k := by
    intro k e hmem
    have hget := depMap.get_of_mem (newDepMap t) k e hnd hmem
    have hreq := newDepMap_requires t k (by rw [hget]; exact (hmet k e hmem).1)
    rw [hget] at hreq
    exact hreq
  have hnd' : ((ord.iter [] (newDepMap t)).map Prod.fst).Nodup :=
    (hperm.map Prod.fst).nodup_iff.2 hnd
  refine ⟨t, hfound, ?_, ?_, ?_⟩
  · intro e he
    rw [hplan] at he
    simp only [List.mem_map] at he
    obtain ⟨⟨k, de⟩, hmem, rfl⟩ := he
    have hmem' : (k, de) ∈ newDepMap t := hperm.mem_iff.1 hmem
    exact ⟨k, (met_entry hmet hmem').2.2, hentry k de hmem'⟩
  · rw [hplan, List.pairwise_map]
    have hpw : (ord.iter [] (newDepMap t)).Pairwise (fun a b => a.1 ≠ b.1) :=
      List.pairwise_map.1 hnd'
    refine hpw.imp_of_mem ?_
    intro a b ha hb hab r hr r' hr'
    have hra := hentry a.1 a.2 (hperm.mem_iff.1 ha)
    have hrb := hentry b.1 b.2 (hperm.mem_iff.1 hb)
    have hr₁ : r ∈ a.2.Requires := hr
    have hr₂ : r' ∈ b.2.Requires := hr'
    rw [hra, List.mem_filter] at hr₁
    rw [hrb, List.mem_filter] at hr₂
    have e₁ : r.Name = a.1 := by simpa using hr₁.2
    have e₂ : r'.Name = b.1 := by simpa using hr₂.2
    rw [e₁, e₂]
    exact hab
  · have hflat : (plan.flatMap fun e => e.Requires) =
        ((ord.iter [] (newDepMap t)).map Prod.fst).flatMap fun k =>
          (t.flatMap fun o => o.Requires).filter fun q => q.Name = k := by
      rw [hplan, List.flatMap_map, List.flatMap_map]
      apply List.flatMap_congr
      intro kv hkv
      exact hentry kv.1 kv.2 (hperm.mem_iff.1 hkv)
    rw [hflat]
    refine (flatMap_filter_name_perm _ _ hnd').trans ?_
    rw [List.filter_eq_self.2]
    intro r hr
    simp only [decide_eq_true_eq]
    have hkeys : r.Name ∈ (newDepMap t).map Prod.fst := by
      rcases depMap.get_mem_or_zero (newDepMap t) r.Name with hm | hz
      · exact List.mem_map.2 ⟨_, hm, rfl⟩
      · have hreq := newDepMap_requires t r.Name (by rw [hz]; rfl)
        rw [hz] at hreq
        have hmem : r ∈ (t.flatMap fun o => o.Requires).filter fun q => q.Name = r.Name :=
          List.mem_filter.2 ⟨hr, by simp⟩
        rw [← hreq] at hmem
        cases hmem
    exact (hperm.map Prod.fst).mem_iff.2 hkeys

/-- Witness of `plan_requires_are_declared`: `process` on the leaves `[A, B]` and the runs of
the scenario in which `A` provides `dep` and `B` requires it. -/
theorem plan_requires_are_declared_witness :
    process MapOrder.insertion scenarioPassRuns [bpRef "A" false, bpRef "B" false] =
        some (.ok ([bpRef "A" false, bpRef "B" false], scenarioPassPlan)) ∧
      ∃ t : detectTrial,
        [bpRef "A" false, bpRef "B" false] = t.map (fun o => o.toGroupBuildpack.noOpt) ∧
        (∀ e ∈ scenarioPassPlan, ∃ name, e.Requires ≠ [] ∧
          e.Requires = (t.flatMap fun o => o.Requires).filter fun q => q.Name = name) ∧
        scenarioPassPlan.Pairwise
          (fun e e' => ∀ r ∈ e.Requires, ∀ r' ∈ e'.Requires, r.Name ≠ r'.Name) ∧
        (scenarioPassPlan.flatMap fun e => e.Requires).Perm (t.flatMap fun o => o.Requires) :=
  ⟨rfl, plan_requires_are_declared MapOrder.insertion scenarioPassRuns
    [bpRef "A" false, bpRef "B" false] _ scenarioPassPlan rfl⟩

/-! ## Layers read from a layers directory -/

theorem hasSuffix_append (n suffix : String) : hasSuffix (n ++ suffix) suffix = true := by
  simp [hasSuffix, String.data_append]

theorem trimSuffix_append (n suffix : String) : trimSuffix (n ++ suffix) suffix = n := by
  simp [trimSuffix, hasSuffix_append, String.data_append]

theorem eq_append_of_hasSuffix (s suffix : String) (h : hasSuffix s suffix = true) :
    s = trimSuffix s suffix ++ suffix := by
  apply String.ext
  simp only [trimSuffix, h, if_true, String.data_append]
  simp only [hasSuffix, Bool.and_eq_true, decide_eq_true_eq] at h
  conv_lhs => rw [← List.take_append_drop (s.data.length - suffix.data.length) s.data]
  rw [h.2]

theorem takeWhile_append_stop {α : Type} (p : α → Bool) (l : List α) (a : α) (r : List α)
    (hl : ∀ x ∈ l, p x = true) (ha : p a = false) : (l ++ a :: r).takeWhile p = l := by
  induction l with
  | nil => simp [List.takeWhile, ha]
  | cons x rest ih =>
    have hx := hl x (List.mem_cons_self _ _)
    simp only [List.cons_append, List.takeWhile_cons, hx, if_true]
    rw [ih (fun y hy => hl y (List.mem_cons_of_mem _ hy))]

theorem splitSlash_ne_nil (l : List Char) : splitSlash l ≠ [] := by
  induction l with
  | nil => simp [splitSlash]
  | cons c cs ih =>
    by_cases hc : c = '/'
    · simp [splitSlash, hc]
    · simp only [splitSlash, hc, if_false]
      cases splitSlash cs <;> simp

theorem splitSlash_no_slash (f : List Char) (hf : '/' ∉ f) : splitSlash f = [f] := by
  induction f with
  | nil => rfl
  | cons c cs ih =>
    have hc : c ≠ '/' := fun h => hf (h ▸ List.mem_cons_self _ _)
    have hcs : '/' ∉ cs := fun h => hf (List.mem_cons_of_mem _ h)
    simp [splitSlash, hc, ih hcs]

theorem splitSlash_append (a f : List Char) (hf : '/' ∉ f) :
    splitSlash (a ++ '/' :: f) = splitSlash a ++ [f] := by
  induction a with
  | nil => simp [splitSlash, splitSlash_no_slash f hf]
  | cons c cs ih =>
    by_cases hc : c = '/'
    · simp [splitSlash, hc, ih]
    · obtain ⟨h, t, ht⟩ := List.exists_cons_of_ne_nil (splitSlash_ne_nil cs)
      have hstep : splitSlash (c :: (cs ++ '/' :: f)) =
          match splitSlash (cs ++ '/' :: f) with
          | [] => [[c]]
          | h :: t => (c :: h) :: t := by
        simp [splitSlash, hc]
      have hstep' : splitSlash (c :: cs) =
          match splitSlash cs with
          | [] => [[c]]
          | h :: t => (c :: h) :: t := by
        simp [splitSlash, hc]
      rw [List.cons_append, hstep, hstep', ih, ht]
      rfl

theorem cleanStep_name (rooted : Bool) (out : List (List Char)) (f : List Char)
    (h₀ : f ≠ []) (h₁ : f ≠ ['.']) (h₂ : f ≠ ['.', '.']) :
    cleanStep rooted out f = f :: out := by
  simp [cleanStep, h₀, h₁, h₂]

theorem joinSlash_append (l : List (List Char)) (f : List Char) :
    joinSlash (l ++ [f]) = if l = [] then f else joinSlash l ++ '/' :: f := by
  induction l with
  | nil => rfl
  | cons e es ih =>
    cases es with
    | nil => simp [joinSlash]
    | cons e' es' =>
      have ih' : joinSlash (e' :: (es' ++ [f])) = joinSlash (e' :: es') ++ '/' :: f := by
        simpa using ih
      have hstep : joinSlash (e :: e' :: (es' ++ [f])) =
          e ++ '/' :: joinSlash (e' :: (es' ++ [f])) := rfl
      have hstep' : joinSlash (e :: e' :: es') = e ++ '/' :: joinSlash (e' :: es') := rfl
      rw [List.cons_append, List.cons_append, hstep, ih', if_neg (by simp), hstep']
      simp

theorem takeWhile_all {α : Type} (p : α → Bool) (l : List α) (hl : ∀ x ∈ l, p x = true) :
    l.takeWhile p = l := by
  induction l with
  | nil => rfl
  | cons x rest ih =>
    have hx := hl x (List.mem_cons_self _ _)
    simp only [List.takeWhile_cons, hx, if_true]
    rw [ih (fun y hy => hl y (List.mem_cons_of_mem _ hy))]

theorem pathBase_mk (pre f : List Char) (hne : f ≠ []) (hs : '/' ∉ f)
    (hpre : pre = [] ∨ ∃ p, pre = p ++ ['/']) : pathBase (String.mk (pre ++ f)) = String.mk f := by
  have hnonempty : String.mk (pre ++ f) ≠ "" := by
    intro h
    have := congrArg String.data h
    simp at this
    exact hne this.2
  obtain ⟨c, tl, hrev⟩ := List.exists_cons_of_ne_nil
    (show f.reverse ≠ [] by simpa using hne)
  have hc : c ≠ '/' := by
    intro h
    apply hs
    have : c ∈ f.reverse := by rw [hrev]; exact List.mem_cons_self _ _
    rw [← h]
    simpa using this
  have hall : ∀ x ∈ f.reverse, (fun c => decide (c ≠ '/')) x = true := by
    intro x hx
    have hx' : x ∈ f := by simpa using hx
    have : x ≠ '/' := fun h => hs (h ▸ hx')
    simpa using this
  have hdrop : ((pre ++ f).reverse.dropWhile fun c => decide (c = '/')) =
      f.reverse ++ pre.reverse := by
    rw [List.reverse_append, hrev]
    simp [List.dropWhile, hc]
  have htake : ((f.reverse ++ pre.reverse).takeWhile fun c => decide (c ≠ '/')) =
      f.reverse := by
    rcases hpre with rfl | ⟨p, rfl⟩
    · rw [List.reverse_nil, List.append_nil]
      exact takeWhile_all _ _ hall
    · rw [List.reverse_append, List.reverse_singleton, List.singleton_append]
      exact takeWhile_append_stop _ _ _ _ hall (by simp)
  have hrevne : f.reverse ≠ [] := by simpa using hne
  simp only [pathBase, hnonempty, if_false, hdrop, htake]
  simp [hrevne]

theorem pathClean_last (s : String) (cs : List (List Char)) (f : List Char)
    (hsplit : splitSlash s.data = cs ++ [f])
    (h₀ : f ≠ []) (h₁ : f ≠ ['.']) (h₂ : f ≠ ['.', '.']) :
    ∃ pre, (pre = [] ∨ ∃ p, pre = p ++ ['/']) ∧ pathClean s = String.mk (pre ++ f) := by
  have hs : s ≠ "" := by
    intro h
    rw [h] at hsplit
    have h' : [([] : List Char)] = cs ++ [f] := hsplit
    cases cs with
    | nil =>
      simp only [List.nil_append, List.cons.injEq, and_true] at h'
      exact h₀ h'.symm
    | cons c t =>
      have := congrArg List.length h'
      simp at this
  simp only [pathClean, hs, if_false, hsplit, List.foldl_append, List.foldl_cons, List.foldl_nil,
    cleanStep_name _ _ f h₀ h₁ h₂, List.reverse_cons, joinSlash_append]
  generalize (List.foldl (cleanStep (decide (s.data.head? = some '/'))) [] cs).reverse = l
  cases hr : decide (s.data.head? = some '/') <;> by_cases hl : l = []
  · refine ⟨[], Or.inl rfl, ?_⟩
    simp [hl, h₀]
  · refine ⟨joinSlash l ++ ['/'], Or.inr ⟨_, rfl⟩, ?_⟩
    simp [hl]
  · refine ⟨['/'], Or.inr ⟨[], rfl⟩, ?_⟩
    simp [hl]
  · refine ⟨'/' :: joinSlash l ++ ['/'], Or.inr ⟨'/' :: joinSlash l, rfl⟩, ?_⟩
    simp [hl]

theorem pathBase_joinPath (dir name : String) (hne : name ≠ "") (hs : '/' ∉ name.data)
    (hdot : name ≠ ".") (hdotdot : name ≠ "..") : pathBase (joinPath dir name) = name := by
  have h₀ : name.data ≠ [] := fun h => hne (String.ext h)
  have h₁ : name.data ≠ ['.'] := fun h => hdot (String.ext h)
  have h₂ : name.data ≠ ['.', '.'] := fun h => hdotdot (String.ext h)
  by_cases hdir : dir = ""
  · have hsplit : splitSlash name.data = [] ++ [name.data] := splitSlash_no_slash _ hs
    obtain ⟨pre, hpre, hclean⟩ := pathClean_last name [] name.data hsplit h₀ h₁ h₂
    simp only [joinPath, hdir, ne_eq, not_true_eq_false, if_false, hne, not_false_eq_true,
      if_true, hclean]
    exact pathBase_mk pre name.data h₀ hs hpre
  · have hsplit : splitSlash (dir ++ "/" ++ name).data = splitSlash dir.data ++ [name.data] := by
      have : (dir ++ "/" ++ name).data = dir.data ++ '/' :: name.data := by
        simp [String.data_append]
      rw [this]
      exact splitSlash_append _ _ hs
    obtain ⟨pre, hpre, hclean⟩ := pathClean_last _ _ name.data hsplit h₀ h₁ h₂
    simp only [joinPath, hdir, ne_eq, not_false_eq_true, if_true, hclean]
    exact pathBase_mk pre name.data h₀ hs hpre

theorem newBPLayer_injective (bd : bpLayersDir) (a b : String)
    (h : bd.newBPLayer a = bd.newBPLayer b) : a = b := by
  simp only [bpLayersDir.newBPLayer, bpLayer.mk.injEq, layer.mk.injEq] at h
  have := congrArg String.data h.2
  simp only [String.data_append, List.append_assoc] at this
  exact String.ext (List.append_cancel_left (List.append_cancel_left this))

theorem readLayersEntries_eq (path : String) :
    ∀ (fis : List FileInfo) (bd : bpLayersDir) (names tomls : List String),
      readLayersEntries path fis (bd, names, tomls) =
        ({ bd with layers := bd.layers ++
            (fis.filter fun fi => fi.IsDir).map fun fi => bd.newBPLayer fi.Name },
          names ++ (fis.filter fun fi => fi.IsDir).map (fun fi => fi.Name),
          tomls ++ (fis.filter fun fi => !fi.IsDir && hasSuffix fi.Name ".toml").map
            fun fi => joinPath path fi.Name) := by
  intro fis
  induction fis with
  | nil => intro bd names tomls; simp [readLayersEntries]
  | cons fi rest ih =>
    intro bd names tomls
    cases hdir : fi.IsDir
    · cases hsuf : hasSuffix fi.Name ".toml"
      · simp [readLayersEntries, hdir, hsuf, ih]
      · simp [readLayersEntries, hdir, hsuf, ih]
    · simp [readLayersEntries, hdir, ih, bpLayersDir.newBPLayer]

theorem addTomlLayer_eq (names : List String) (name : String) (bd : bpLayersDir) :
    (addTomlLayer names name bd).path = bd.path ∧
    (addTomlLayer names name bd).buildpack = bd.buildpack ∧
    (addTomlLayer names name bd).name = bd.name ∧
    (addTomlLayer names name bd).layers =
      bd.layers ++ if name ∉ names then [bd.newBPLayer name] else [] := by
  unfold addTomlLayer
  by_cases h : name ∉ names
  · simp [h]
  · simp [h]

theorem readLayersTomls_store (buildpack : GroupBuildpack)
    (mustParse : String → Option ApiVersion)
    (decodeStore : String → Except BuildError StoreTOML) (names : List String)
    (tf : String) (rest : List String) (bd : bpLayersDir)
    (h : trimSuffix (pathBase tf) ".toml" = "store") :
    readLayersTomls buildpack mustParse decodeStore names (tf :: rest) bd =
      match decodeStore tf with
      | .error err => some (.error (BuildError.wrapped err (errDecodingStore buildpack.ID)))
      | .ok bpStore =>
        readLayersTomls buildpack mustParse decodeStore names rest
          { bd with store := some bpStore } := by
  simp [readLayersTomls, h]

theorem readLayersTomls_launch (buildpack : GroupBuildpack)
    (mustParse : String → Option ApiVersion)
    (decodeStore : String → Except BuildError StoreTOML) (names : List String)
    (tf : String) (rest : List String) (bd : bpLayersDir)
    (h : trimSuffix (pathBase tf) ".toml" = "launch") :
    readLayersTomls buildpack mustParse decodeStore names (tf :: rest) bd =
      readLayersTomls buildpack mustParse decodeStore names rest bd := by
  simp [readLayersTomls, h]

theorem readLayersTomls_build (buildpack : GroupBuildpack)
    (mustParse : String → Option ApiVersion) (hparse : mustParse "0.5" = some ⟨0, 5⟩)
    (decodeStore : String → Except BuildError StoreTOML) (names : List String)
    (tf : String) (rest : List String) (bd : bpLayersDir)
    (h : trimSuffix (pathBase tf) ".toml" = "build") :
    readLayersTomls buildpack mustParse decodeStore names (tf :: rest) bd =
      match mustParse buildpack.API with
      | none => none
      | some v =>
        if v.Compare ⟨0, 5⟩ ≥ 0 then
          readLayersTomls buildpack mustParse decodeStore names rest bd
        else
          readLayersTomls buildpack mustParse decodeStore names rest
            (addTomlLayer names "build" bd) := by
  simp only [readLayersTomls, h, hparse]
  simp

theorem readLayersTomls_other (buildpack : GroupBuildpack)
    (mustParse : String → Option ApiVersion)
    (decodeStore : String → Except BuildError StoreTOML) (names : List String)
    (tf : String) (rest : List String) (bd : bpLayersDir)
    (h₁ : trimSuffix (pathBase tf) ".toml" ≠ "store")
    (h₂ : trimSuffix (pathBase tf) ".toml" ≠ "launch")
    (h₃ : trimSuffix (pathBase tf) ".toml" ≠ "build") :
    readLayersTomls buildpack mustParse decodeStore names (tf :: rest) bd =
      readLayersTomls buildpack mustParse decodeStore names rest
        (addTomlLayer names (trimSuffix (pathBase tf) ".toml") bd) := by
  simp [readLayersTomls, h₁, h₂, h₃]

theorem readLayersTomls_eq (buildpack : GroupBuildpack)
    (mustParse : String → Option ApiVersion) (hparse : mustParse "0.5" = some ⟨0, 5⟩)
    (decodeStore : String → Except BuildError StoreTOML) (names : List String) :
    ∀ (tomls : List String) (bd : bpLayersDir),
      (∀ bd', readLayersTomls buildpack mustParse decodeStore names tomls bd = some (.ok bd') →
        bd'.path = bd.path ∧ bd'.buildpack = bd.buildpack ∧ bd'.name = bd.name ∧
        bd'.layers = bd.layers ++
          ((tomls.map fun tf => trimSuffix (pathBase tf) ".toml").filter
            (tomlGivesLayer (mustParse buildpack.API) names)).map fun name =>
              bd.newBPLayer name) ∧
      ((∀ tf, ∃ st, decodeStore tf = .ok st) →
        ("build" ∈ (tomls.map fun tf => trimSuffix (pathBase tf) ".toml") →
          ∃ v, mustParse buildpack.API = some v) →
        ∃ bd', readLayersTomls buildpack mustParse decodeStore names tomls bd =
          some (.ok bd')) := by
  intro tomls
  induction tomls with
  | nil =>
    intro bd
    refine ⟨?_, fun _ _ => ⟨bd, rfl⟩⟩
    intro bd' h
    simp only [readLayersTomls, Option.some.injEq, Except.ok.injEq] at h
    subst h
    simp
  | cons tf rest ih =>
    intro bd
    obtain ⟨api, hapi⟩ : ∃ api, mustParse buildpack.API = api := ⟨_, rfl⟩
    have hrest : ∀ (bd₁ : bpLayersDir) (extra : List bpLayer),
        bd₁.path = bd.path → bd₁.buildpack = bd.buildpack → bd₁.name = bd.name →
        bd₁.layers = bd.layers ++ extra →
        (∀ bd', readLayersTomls buildpack mustParse decodeStore names rest bd₁ =
            some (.ok bd') →
          bd'.path = bd.path ∧ bd'.buildpack = bd.buildpack ∧ bd'.name = bd.name ∧
          bd'.layers = bd.layers ++ (extra ++
            ((rest.map fun tf => trimSuffix (pathBase tf) ".toml").filter
              (tomlGivesLayer api names)).map fun name => bd.newBPLayer name)) := by
      intro bd₁ extra hp hb hn hl bd' h
      obtain ⟨hp', hb', hn', hl'⟩ := (ih bd₁).1 bd' h
      refine ⟨hp'.trans hp, hb'.trans hb, hn'.trans hn, ?_⟩
      rw [hl', hl, List.append_assoc, hapi]
      simp only [bpLayersDir.newBPLayer, hp, hb]
    have htail : (∀ tf, ∃ st, decodeStore tf = .ok st) →
        ("build" ∈ ((tf :: rest).map fun tf => trimSuffix (pathBase tf) ".toml") →
          ∃ v, api = some v) →
        ∀ bd₁, ∃ bd', readLayersTomls buildpack mustParse decodeStore names rest bd₁ =
          some (.ok bd') := by
      intro hall hbuild bd₁
      refine (ih bd₁).2 hall (fun hmem => ?_)
      rw [hapi]
      exact hbuild (by
        rw [List.map_cons]
        exact List.mem_cons_of_mem _ hmem)
    rw [hapi]
    by_cases h₁ : trimSuffix (pathBase tf) ".toml" = "store"
    · have hkeep : tomlGivesLayer api names (trimSuffix (pathBase tf) ".toml") = false := by
        simp [tomlGivesLayer, h₁]
      rw [readLayersTomls_store _ _ _ _ _ _ _ h₁]
      cases hdec : decodeStore tf with
      | error err =>
        refine ⟨?_, ?_⟩
        · intro bd' h
          simp at h
        · intro hall _
          obtain ⟨st, hst⟩ := hall tf
          rw [hst] at hdec
          cases hdec
      | ok st =>
        refine ⟨?_, ?_⟩
        · intro bd' h
          have := hrest { bd with store := some st } [] rfl rfl rfl (by simp) bd' h
          simpa [hkeep] using this
        · intro hall hbuild
          exact htail hall hbuild { bd with store := some st }
    · by_cases h₂ : trimSuffix (pathBase tf) ".toml" = "launch"
      · have hkeep : tomlGivesLayer api names (trimSuffix (pathBase tf) ".toml") = false := by
          simp [tomlGivesLayer, h₂]
        rw [readLayersTomls_launch _ _ _ _ _ _ _ h₂]
        refine ⟨?_, ?_⟩
        · intro bd' h
          have := hrest bd [] rfl rfl rfl (by simp) bd' h
          simpa [hkeep] using this
        · intro hall hbuild
          exact htail hall hbuild bd
      · by_cases h₃ : trimSuffix (pathBase tf) ".toml" = "build"
        · obtain ⟨ap, ab, an, al⟩ := addTomlLayer_eq names "build" bd
          rw [readLayersTomls_build _ _ hparse _ _ _ _ _ h₃, hapi]
          cases api with
          | none =>
            refine ⟨?_, ?_⟩
            · intro bd' h
              simp at h
            · intro _ hbuild
              obtain ⟨v, hv'⟩ := hbuild (by
                rw [List.map_cons, h₃]
                exact List.mem_cons_self _ _)
              cases hv'
          | some v =>
            by_cases h₄ : v.Compare ⟨0, 5⟩ ≥ 0
            · have hkeep : tomlGivesLayer (some v) names "build" = false := by
                simp [tomlGivesLayer, h₄]
              simp only [h₄, if_true]
              refine ⟨?_, ?_⟩
              · intro bd' h
                have := hrest bd [] rfl rfl rfl (by simp) bd' h
                simpa [hkeep, h₃] using this
              · intro hall hbuild
                exact htail hall hbuild bd
            · have hkeep : tomlGivesLayer (some v) names "build" =
                  decide ("build" ∉ names) := by
                simp [tomlGivesLayer, h₄]
              simp only [h₄, if_false]
              refine ⟨?_, ?_⟩
              · intro bd' h
                have := hrest _ _ ap ab an al bd' h
                by_cases hn : "build" ∉ names
                · simpa [hkeep, hn, h₃] using this
                · simpa [hkeep, hn, h₃] using this
              · intro hall hbuild
                exact htail hall hbuild (addTomlLayer names "build" bd)
        · obtain ⟨ap, ab, an, al⟩ :=
            addTomlLayer_eq names (trimSuffix (pathBase tf) ".toml") bd
          have hkeep : tomlGivesLayer api names (trimSuffix (pathBase tf) ".toml") =
              decide (trimSuffix (pathBase tf) ".toml" ∉ names) := by
            simp [tomlGivesLayer, h₁, h₂, h₃]
          rw [readLayersTomls_other _ _ _ _ _ _ _ h₁ h₂ h₃]
          refine ⟨?_, ?_⟩
          · intro bd' h
            have := hrest _ _ ap ab an al bd' h
            by_cases hn : trimSuffix (pathBase tf) ".toml" ∉ names
            · simpa [hkeep, hn] using this
            · simpa [hkeep, hn] using this
          · intro hall hbuild
            exact htail hall hbuild (addTomlLayer names (trimSuffix (pathBase tf) ".toml") bd)

theorem mem_toml_names (path : String) (fis : List FileInfo)
    (hnames : ∀ fi ∈ fis, fi.Name ≠ "" ∧ '/' ∉ fi.Name.data) (name : String) :
    name ∈ (((fis.filter fun fi => !fi.IsDir && hasSuffix fi.Name ".toml").map
        fun fi => joinPath path fi.Name).map fun tf => trimSuffix (pathBase tf) ".toml") ↔
      (⟨name ++ ".toml", false⟩ : FileInfo) ∈ fis := by
  simp only [List.map_map, List.mem_map, List.mem_filter, Function.comp_apply,
    Bool.and_eq_true, Bool.not_eq_true']
  constructor
  · rintro ⟨fi, ⟨hfi, hdir, hsuf⟩, hname⟩
    rw [pathBase_joinPath path fi.Name (hnames fi hfi).1 (hnames fi hfi).2
      (fun h => by rw [h] at hsuf; exact absurd hsuf (by decide))
      (fun h => by rw [h] at hsuf; exact absurd hsuf (by decide))] at hname
    have heq := eq_append_of_hasSuffix fi.Name ".toml" hsuf
    rw [hname] at heq
    have : fi = ⟨name ++ ".toml", false⟩ := by
      cases fi
      simp only [FileInfo.mk.injEq]
      exact ⟨heq, hdir⟩
    rw [← this]
    exact hfi
  · intro hfi
    refine ⟨⟨name ++ ".toml", false⟩, ⟨hfi, rfl, hasSuffix_append name ".toml"⟩, ?_⟩
    have h := hnames _ hfi
    have hsuf := hasSuffix_append name ".toml"
    rw [pathBase_joinPath path (name ++ ".toml") h.1 h.2
      (fun h' => by rw [h'] at hsuf; exact absurd hsuf (by decide))
      (fun h' => by rw [h'] at hsuf; exact absurd hsuf (by decide))]
    exact trimSuffix_append name ".toml"

theorem mem_sortLayers (layers : List bpLayer) (l : bpLayer) :
    l ∈ sortLayers layers ↔ l ∈ layers :=
  (List.perm_insertionSort _ layers).mem_iff

theorem readLayersTomls_panics (buildpack : GroupBuildpack)
    (mustParse : String → Option ApiVersion) (hparse : mustParse "0.5" = some ⟨0, 5⟩)
    (decodeStore : String → Except BuildError StoreTOML) (names : List String)
    (hall : ∀ tf, ∃ st, decodeStore tf = .ok st) (hnone : mustParse buildpack.API = none) :
    ∀ (tomls : List String) (bd : bpLayersDir),
      "build" ∈ (tomls.map fun tf => trimSuffix (pathBase tf) ".toml") →
      readLayersTomls buildpack mustParse decodeStore names tomls bd = none := by
  intro tomls
  induction tomls with
  | nil => intro bd h; simp at h
  | cons tf rest ih =>
    intro bd h
    by_cases h₃ : trimSuffix (pathBase tf) ".toml" = "build"
    · rw [readLayersTomls_build _ _ hparse _ _ _ _ _ h₃, hnone]
    · have hmem : "build" ∈ (rest.map fun tf => trimSuffix (pathBase tf) ".toml") := by
        rw [List.map_cons, List.mem_cons] at h
        rcases h with h | h
        · exact absurd h.symm h₃
        · exact h
      by_cases h₁ : trimSuffix (pathBase tf) ".toml" = "store"
      · rw [readLayersTomls_store _ _ _ _ _ _ _ h₁]
        obtain ⟨st, hst⟩ := hall tf
        rw [hst]
        exact ih _ hmem
      · by_cases h₂ : trimSuffix (pathBase tf) ".toml" = "launch"
        · rw [readLayersTomls_launch _ _ _ _ _ _ _ h₂]
          exact ih _ hmem
        · rw [readLayersTomls_other _ _ _ _ _ _ _ h₁ h₂ h₃]
          exact ih _ hmem

/-- Claim C31: the layers `readBuildpackLayersDir` returns for a listed layers directory
whose entries have proper file names, `api.MustParse` reading the text `0.5` as the version
0.5.  When `store.toml` decodes, the call returns a layers directory if `build.toml` is not
listed or the buildpack API parses, and panics if `build.toml` is listed and the buildpack
API does not parse.  Every layer returned is the layer of a name, and the layer of `name`
is returned exactly when the directory `name` is listed, or the file `name.toml` is listed
and `name` is neither `store` nor `launch` nor, for a buildpack API of 0.5 or higher,
`build`.  So `launch.toml` and `store.toml` give no layer, `build.toml` gives the layer
`build` below API 0.5 and none from 0.5 on, and every other `name.toml` gives the layer
`name`. -/
theorem layers_of_layers_dir (layersDir : String) (buildpack : GroupBuildpack)
    (mustParse : String → Option ApiVersion) (readDir : String → ReadDirResult)
    (decodeStore : String → Except BuildError StoreTOML) (fis : List FileInfo)
    (hread : readDir (joinPath layersDir (EscapeID buildpack.ID)) = ReadDirResult.listed fis)
    (hnames : ∀ fi ∈ fis, fi.Name ≠ "" ∧ '/' ∉ fi.Name.data)
    (hparse : mustParse "0.5" = some ⟨0, 5⟩) :
    ((∀ tf, ∃ st, decodeStore tf = .ok st) →
      (((⟨"build.toml", false⟩ : FileInfo) ∈ fis → ∃ v, mustParse buildpack.API = some v) →
        ∃ bpDir, readBuildpackLayersDir layersDir buildpack mustParse readDir decodeStore =
          some (.ok bpDir)) ∧
      ((⟨"build.toml", false⟩ : FileInfo) ∈ fis → mustParse buildpack.API = none →
        readBuildpackLayersDir layersDir buildpack mustParse readDir decodeStore = none)) ∧
    ∀ bpDir, readBuildpackLayersDir layersDir buildpack mustParse readDir decodeStore =
        some (.ok bpDir) →
      (∀ l ∈ bpDir.layers, ∃ name, l = bpDir.newBPLayer name) ∧
      ∀ name, bpDir.newBPLayer name ∈ bpDir.layers ↔
        ((⟨name, true⟩ : FileInfo) ∈ fis ∨
          ((⟨name ++ ".toml", false⟩ : FileInfo) ∈ fis ∧ name ≠ "store" ∧ name ≠ "launch" ∧
            (name = "build" →
              ∃ v, mustParse buildpack.API = some v ∧ v.Compare ⟨0, 5⟩ < 0))) := by
  simp only [readBuildpackLayersDir, hread, readLayersOf, readLayersEntries_eq]
  obtain ⟨bd, hbd⟩ : ∃ bd : bpLayersDir, bd =
      bpLayersDir.mk (joinPath layersDir (EscapeID buildpack.ID))
        ([] ++ (fis.filter fun fi => fi.IsDir).map fun fi =>
          (bpLayersDir.mk (joinPath layersDir (EscapeID buildpack.ID)) [] buildpack.ID
            buildpack none).newBPLayer fi.Name)
        buildpack.ID buildpack none := ⟨_, rfl⟩
  rw [← hbd]
  have hbdlayers : bd.layers = (fis.filter fun fi => fi.IsDir).map fun fi =>
      bd.newBPLayer fi.Name := by
    rw [hbd]
    simp [bpLayersDir.newBPLayer]
  have hbuildname : "build" ∈ (([] ++
      (fis.filter fun (fi : FileInfo) => !fi.IsDir && hasSuffix fi.Name ".toml").map
        fun (fi : FileInfo) =>
          joinPath (joinPath layersDir (EscapeID buildpack.ID)) fi.Name).map
          fun tf => trimSuffix (pathBase tf) ".toml") ↔
      (⟨"build.toml", false⟩ : FileInfo) ∈ fis := by
    rw [List.nil_append]
    exact mem_toml_names _ fis hnames "build"
  obtain ⟨hok, htotal⟩ := readLayersTomls_eq buildpack mustParse hparse decodeStore
    ([] ++ (fis.filter fun fi => fi.IsDir).map fun fi => fi.Name)
    ([] ++ (fis.filter fun fi => !fi.IsDir && hasSuffix fi.Name ".toml").map
      fun fi => joinPath (joinPath layersDir (EscapeID buildpack.ID)) fi.Name) bd
  refine ⟨fun hall => ⟨?_, ?_⟩, ?_⟩
  · intro hbuild
    obtain ⟨bd', h⟩ := htotal hall (fun hmem => hbuild (hbuildname.1 hmem))
    rw [h]
    exact ⟨_, rfl⟩
  · intro hmem hnone
    rw [readLayersTomls_panics buildpack mustParse hparse decodeStore _ hall hnone _ bd
      (hbuildname.2 hmem)]
  · intro bpDir h
    cases hr : readLayersTomls buildpack mustParse decodeStore
        ([] ++ (fis.filter fun fi => fi.IsDir).map fun fi => fi.Name)
        ([] ++ (fis.filter fun fi => !fi.IsDir && hasSuffix fi.Name ".toml").map
          fun fi => joinPath (joinPath layersDir (EscapeID buildpack.ID)) fi.Name) bd with
    | none => rw [hr] at h; cases h
    | some r =>
      cases r with
      | error err => rw [hr] at h; cases h
      | ok bd' =>
        rw [hr] at h
        simp only [Option.some.injEq, Except.ok.injEq] at h
        obtain ⟨hp, hb, _, hl⟩ := hok bd' hr
        have hnew : ∀ name, bpDir.newBPLayer name = bd.newBPLayer name := by
          intro name
          rw [← h]
          simp only [bpLayersDir.newBPLayer, hp, hb]
        have hlayers : ∀ l, l ∈ bpDir.layers ↔ l ∈ bd'.layers := by
          intro l
          rw [← h]
          exact mem_sortLayers bd'.layers l
        refine ⟨?_, ?_⟩
        · intro l hmem
          rw [hlayers, hl, hbdlayers] at hmem
          simp only [List.mem_append, List.mem_map] at hmem
          rcases hmem with ⟨fi, _, rfl⟩ | ⟨name, _, rfl⟩
          · exact ⟨fi.Name, (hnew _).symm⟩
          · exact ⟨name, (hnew _).symm⟩
        · intro name
          have hinj : ∀ l : List String,
              bd.newBPLayer name ∈ l.map (fun n => bd.newBPLayer n) ↔ name ∈ l := by
            intro l
            rw [List.mem_map]
            constructor
            · rintro ⟨n, hn, heq⟩
              rw [← newBPLayer_injective bd _ _ heq]
              exact hn
            · intro hn
              exact ⟨name, hn, rfl⟩
          have hdirs : bd.layers =
              ((fis.filter fun fi => fi.IsDir).map fun fi => fi.Name).map
                fun n => bd.newBPLayer n := by
            rw [hbdlayers, List.map_map]
            rfl
          have hdirname : name ∈ (fis.filter fun fi => fi.IsDir).map (fun fi => fi.Name) ↔
              (⟨name, true⟩ : FileInfo) ∈ fis := by
            simp only [List.mem_map, List.mem_filter]
            constructor
            · rintro ⟨fi, ⟨hfi, hd⟩, hn⟩
              have : fi = ⟨name, true⟩ := by
                cases fi
                simp only [FileInfo.mk.injEq]
                exact ⟨hn, hd⟩
              rw [← this]
              exact hfi
            · intro hfi
              exact ⟨⟨name, true⟩, ⟨hfi, rfl⟩, rfl⟩
          have hgate : (¬(name = "build" ∧
                (match mustParse buildpack.API with
                  | some v => decide (v.Compare ⟨0, 5⟩ ≥ 0)
                  | none => true) = true)) ↔
              (name = "build" →
                ∃ v, mustParse buildpack.API = some v ∧ v.Compare ⟨0, 5⟩ < 0) := by
            cases mustParse buildpack.API with
            | none => simp
            | some v => simp
          rw [hlayers, hl, hnew, List.mem_append, hinj, hdirs, hinj, hdirname, List.mem_filter,
            List.nil_append, List.nil_append, mem_toml_names _ fis hnames, ← hgate]
          simp only [tomlGivesLayer, Bool.and_eq_true, decide_eq_true_eq, Bool.not_eq_true',
            Bool.and_eq_false_iff, decide_eq_false_iff_not, hdirname]
          constructor
          · rintro (h' | ⟨h₁, ⟨⟨h₂, h₃⟩, h₄⟩, _⟩)
            · exact Or.inl h'
            · refine Or.inr ⟨h₁, h₂, h₃, ?_⟩
              rintro ⟨hb₁, hb₂⟩
              rcases h₄ with h₄ | h₄
              · exact h₄ hb₁
              · rw [hb₂] at h₄
                cases h₄
          · rintro (h' | ⟨h₁, h₂, h₃, h₄⟩)
            · exact Or.inl h'
            · by_cases hd : (⟨name, true⟩ : FileInfo) ∈ fis
              · exact Or.inl hd
              · refine Or.inr ⟨h₁, ⟨⟨h₂, h₃⟩, ?_⟩, hd⟩
                by_cases hb₁ : name = "build"
                · right
                  cases hm : (match mustParse buildpack.API with
                    | some v => decide (v.Compare ⟨0, 5⟩ ≥ 0)
                    | none => true) with
                  | false => rfl
                  | true => exact absurd ⟨hb₁, hm⟩ h₄
                · exact Or.inl hb₁

/-- Witness of `layers_of_layers_dir`: the layers directory of `A` with the directory `cache`
and the files `cache.toml`, `build.toml`, `launch.toml`, `store.toml` and `deps.toml`, read
for a buildpack whose API is `0.4`, and what the call gives for the API `0.4`, for `0.5`
and for a text `api.MustParse` panics on. -/
theorem layers_of_layers_dir_witness :
    (∃ bpDir, readBuildpackLayersDir "/layers" (scenarioLayersBuildpack "0.4")
      scenarioMustParse (fun _ => ReadDirResult.listed scenarioLayerFiles)
      (fun _ => .ok ⟨[]⟩) = some (.ok bpDir)) ∧
    (readBuildpackLayersDir "/layers" (scenarioLayersBuildpack "0.4") scenarioMustParse
      (fun _ => ReadDirResult.listed scenarioLayerFiles) (fun _ => .ok ⟨[]⟩)).map
        (fun r => r.toOption.map fun d => d.layers.map fun l => l.identifier) =
          some (some ["A:build", "A:cache", "A:deps"]) ∧
    (readBuildpackLayersDir "/layers" (scenarioLayersBuildpack "0.5") scenarioMustParse
      (fun _ => ReadDirResult.listed scenarioLayerFiles) (fun _ => .ok ⟨[]⟩)).map
        (fun r => r.toOption.map fun d => d.layers.map fun l => l.identifier) =
          some (some ["A:cache", "A:deps"]) ∧
    (readBuildpackLayersDir "/layers" (scenarioLayersBuildpack "") scenarioMustParse
      (fun _ => ReadDirResult.listed scenarioLayerFiles) (fun _ => .ok ⟨[]⟩)).map
        (fun r => r.toOption.map fun d => d.layers.map fun l => l.identifier) = none :=
  ⟨((layers_of_layers_dir "/layers" (scenarioLayersBuildpack "0.4") scenarioMustParse
      (fun _ => ReadDirResult.listed scenarioLayerFiles) (fun _ => .ok ⟨[]⟩) scenarioLayerFiles
      rfl (by decide) rfl).1 (fun _ => ⟨_, rfl⟩)).1 (fun _ => ⟨⟨0, 4⟩, rfl⟩),
    by decide, by decide, by decide⟩

end Lifecycle
